import Mathlib

/-!
# EM32F967 SHA-256 accelerator driver: the accumulate-and-drive engine

Shallow embedding of `crypto_em32_sha_padding_ok_1020_git.c` (Zephyr crypto driver for the
Elan EM32F967 hash accelerator) and verification of its session contract.

Conventions of the embedding.

* Machine integers are natural numbers; every C operation that can wrap carries its modulus
  explicitly (`SIZE_MOD` for `size_t` / `uint32_t` on the Cortex-M4 target, `U16_MOD` for
  `uint16_t`, `U64_MOD` for `uint64_t`).
* Driver code runs in the result type `Res`: `ok` is a normal return, `hang` means that a
  polling loop was still spinning when the iteration budget (`fuel`) ran out, `ub` means that
  the C code would access memory outside the object it addresses (or through a null pointer).
* The accelerator and the kernel heap are external: `Env` fixes what each register read returns
  and whether each `k_malloc` call succeeds. All statements quantify over `Env`.
* `Sys` is the driver instance data together with the history of register accesses and heap
  calls made so far.
-/

namespace Em32Sha

/-! ## Machine words and results -/

/-- One byte of memory, the C type `uint8_t`. -/
abbrev u8 := Fin 256

/-- Modulus of `size_t` and `uint32_t` arithmetic (32 bits on the EM32F967, a Cortex-M4). -/
def SIZE_MOD : Nat := 4294967296

/-- Modulus of `uint16_t` arithmetic. -/
def U16_MOD : Nat := 65536

/-- Modulus of `uint64_t` arithmetic. -/
def U64_MOD : Nat := 18446744073709551616

/-- Result of running a piece of driver code. -/
inductive Res (α : Type) where
  | ok (a : α)
  | hang
  | ub
deriving DecidableEq, Repr

/-- Sequencing of driver code: the first abnormal outcome ends the run. -/
def Res.bind {α β : Type} : Res α → (α → Res β) → Res β
  | .ok a, f => f a
  | .hang, _ => .hang
  | .ub, _ => .ub

instance : Monad Res where
  pure := Res.ok
  bind := Res.bind

/-! ## Constants of the source file -/

def SHA_CTR_OFFSET : Nat := 0x00
def SHA_IN_OFFSET : Nat := 0x04
def SHA_OUT_OFFSET : Nat := 0x08
def SHA_DATALEN_5832_OFFSET : Nat := 0x28
def SHA_DATALEN_OFFSET : Nat := 0x2C
def SHA_PAD_CTR_OFFSET : Nat := 0x30

def SHA_STR_BIT : Nat := 1
def SHA_INT_CLR_BIT : Nat := 2
def SHA_RST_BIT : Nat := 4
def SHA_READY_BIT : Nat := 8
def SHA_STA_BIT : Nat := 16
def SHA_INT_MASK_BIT : Nat := 32
def SHA_WR_REV_BIT : Nat := 256
def SHA_RD_REV_BIT : Nat := 512

def SHA_PAD_PACKET_MASK : Nat := 0x1F
def SHA_VALID_BYTE_SHIFT : Nat := 8

/-- Error numbers of the Zephyr C library (`errno.h`), used negated as return codes. -/
def EIO : Int := 5
def ENOMEM : Int := 12
def EBUSY : Int := 16
def EINVAL : Int := 22
def ETIMEDOUT : Int := 116
def ENOTSUP : Int := 134

/-- Hash algorithms of the Zephyr crypto API (`enum hash_algo`). -/
inductive hash_algo where
  | CRYPTO_HASH_ALGO_SHA224
  | CRYPTO_HASH_ALGO_SHA256
  | CRYPTO_HASH_ALGO_SHA384
  | CRYPTO_HASH_ALGO_SHA512
deriving DecidableEq, Repr

/-- Build-time configuration (`CONFIG_CRYPTO_EM32_SHA_*`); the Kconfig file that fixes the
values is not part of the sources, so they are parameters. -/
structure Kconfig where
  MAX_ACCUM_SIZE : Nat
  PREALLOC_SIZE : Nat
  TIMEOUT_USEC : Nat
  SHA_INTERRUPT : Bool
deriving DecidableEq, Repr

/-- The environment of the driver: the accelerator behind the register window and the kernel
heap. `rd k off` is the value returned by the `k`-th register read (counted over the whole
run) when it addresses offset `off`; `malloc_ok k size` tells whether the `k`-th `k_malloc`
call, asking for `size` bytes, returns a block; `junk k i` is the indeterminate initial value
of byte `i` of that block. -/
structure Env where
  rd : Nat → Nat → Nat
  malloc_ok : Nat → Nat → Bool
  junk : Nat → Nat → u8

/-! ## Driver state -/

inductive sha_operation_state where
  | SHA_STATE_IDLE
  | SHA_STATE_BUSY
  | SHA_STATE_ERROR
deriving DecidableEq, Repr

/-- The C structure `struct crypto_em32_data`. Pointers are options (`none` is `NULL`); the
session handle `ctx` and the callback are identified by their address. `accum_buf` holds the
whole heap block it points to. -/
structure crypto_em32_data where
  ctx : Option Nat
  state : sha_operation_state
  callback : Option Nat
  buffer : List u8
  total_len : Nat
  buffer_len : Nat
  accum_buf : Option (List u8)
  accum_len : Nat
  accum_cap : Nat
  use_accum : Bool
  session_active : Bool
deriving DecidableEq, Repr

/-- One access to a register of the accelerator: a write of `val` or a read returning `val`. -/
inductive MmioOp where
  | wr (off val : Nat)
  | rd (off val : Nat)
deriving DecidableEq, Repr

/-- The driver instance with the history of its interaction with the outside: `mmio` lists the
register accesses made so far (oldest first), `nread` counts the reads, `nmalloc` counts the
`k_malloc` calls and `released` lists the blocks given to `k_free`, each with the contents it
had at that moment. -/
structure Sys where
  data : crypto_em32_data
  mmio : List MmioOp
  nread : Nat
  nmalloc : Nat
  released : List (List u8)
deriving DecidableEq, Repr

/-- The C structure `struct hash_pkt`: input pointer and length, output pointer. The output
buffer is held as the eight 32-bit words through which the driver stores the digest. -/
structure hash_pkt where
  in_buf : Option (List u8)
  in_len : Nat
  out_buf : Option (List Nat)
deriving DecidableEq, Repr

/-- What a call of the hash handler leaves behind: return code, driver instance and the
contents of the caller's output buffer. -/
structure Ret where
  rc : Int
  sys : Sys
  out : Option (List Nat)
deriving DecidableEq, Repr

/-! ## Memory and register primitives -/

/-- C `memcpy(dst + off, src, n)` on whole objects: defined when the written range lies inside
`dst` and the read range inside `src`. -/
def memcpy (dst : List u8) (off : Nat) (src : List u8) (n : Nat) : Res (List u8) :=
  if off + n ≤ dst.length ∧ n ≤ src.length then
    .ok (dst.take off ++ src.take n ++ dst.drop (off + n))
  else .ub

/-- C `memset(dst, c, n)`. -/
def memset (dst : List u8) (c : u8) (n : Nat) : Res (List u8) :=
  if n ≤ dst.length then .ok (List.replicate n c ++ dst.drop n) else .ub

/-- Kernel heap allocation: consults the environment, counts the call. -/
def k_malloc (env : Env) (size : Nat) (s : Sys) : Option (List u8) × Sys :=
  if env.malloc_ok s.nmalloc size then
    (some ((List.range size).map (env.junk s.nmalloc)), { s with nmalloc := s.nmalloc + 1 })
  else (none, { s with nmalloc := s.nmalloc + 1 })

/-- Kernel heap release: the block leaves the driver with its current contents. -/
def k_free (blk : List u8) (s : Sys) : Sys :=
  { s with released := s.released ++ [blk] }

/-- Register write `sys_write32(val, base + off)`. -/
def sys_write32 (val off : Nat) (s : Sys) : Sys :=
  { s with mmio := s.mmio ++ [MmioOp.wr off val] }

/-- Register read `sys_read32(base + off)`. -/
def sys_read32 (env : Env) (off : Nat) (s : Sys) : Nat × Sys :=
  (env.rd s.nread off % SIZE_MOD,
   { s with mmio := s.mmio ++ [MmioOp.rd off (env.rd s.nread off % SIZE_MOD)],
            nread := s.nread + 1 })

def sha_write_reg (off val : Nat) (s : Sys) : Sys := sys_write32 val off s

def sha_read_reg (env : Env) (off : Nat) (s : Sys) : Nat × Sys := sys_read32 env off s

/-! ## Dynamic accumulation buffer -/

/-- The doubling loop of `ensure_accum_capacity`:
`while (new_cap < need) { next = new_cap * 2U; if (next > MAX) { new_cap = MAX; break; }
new_cap = next; }`. `fuel` bounds the number of iterations. -/
def grow_cap (cfg : Kconfig) (need : Nat) : Nat → Nat → Res Nat
  | 0, new_cap => if new_cap < need then .hang else .ok new_cap
  | fuel + 1, new_cap =>
    if new_cap < need then
      if (new_cap * 2) % SIZE_MOD > cfg.MAX_ACCUM_SIZE then
        .ok (cfg.MAX_ACCUM_SIZE % SIZE_MOD)
      else grow_cap cfg need fuel ((new_cap * 2) % SIZE_MOD)
    else .ok new_cap

/-- The tail of `ensure_accum_capacity` once `k_malloc` has returned `new_buf`: copy the old
contents when `accum_len` and `accum_buf` are both non-zero, release the old block, install
the new one. -/
def install_block (s : Sys) (new_buf : List u8) (new_cap : Nat) : Res (Int × Sys) :=
  if s.data.accum_len ≠ 0 then
    match s.data.accum_buf with
    | some old => do
      let nb ← memcpy new_buf 0 old s.data.accum_len
      let s1 := k_free old s
      pure (0, { s1 with data := { s1.data with accum_buf := some nb, accum_cap := new_cap } })
    | none =>
      pure (0, { s with data := { s.data with accum_buf := some new_buf, accum_cap := new_cap } })
  else
    pure (0, { s with data := { s.data with accum_buf := some new_buf, accum_cap := new_cap } })

def ensure_accum_capacity (cfg : Kconfig) (env : Env) (fuel : Nat) (s : Sys) (need : Nat) :
    Res (Int × Sys) :=
  if s.data.accum_cap ≥ need then pure (0, s)
  else if need > cfg.MAX_ACCUM_SIZE then pure (-ENOMEM, s)
  else do
    let new_cap ← grow_cap cfg need fuel (if s.data.accum_cap ≠ 0 then s.data.accum_cap else 512)
    match k_malloc env new_cap s with
    | (none, s1) => pure (-ENOMEM, s1)
    | (some new_buf, s1) => install_block s1 new_buf new_cap

def accum_append (cfg : Kconfig) (env : Env) (fuel : Nat) (s : Sys) (src : List u8) (len : Nat) :
    Res (Int × Sys) :=
  if len = 0 then pure (0, s)
  else do
    let r ← ensure_accum_capacity cfg env fuel s ((s.data.accum_len + len) % SIZE_MOD)
    if r.1 ≠ 0 then pure (r.1, r.2)
    else
      match r.2.data.accum_buf with
      | none => .ub
      | some blk => do
        let blk2 ← memcpy blk r.2.data.accum_len src len
        pure (0, { r.2 with data := { r.2.data with
                      accum_buf := some blk2,
                      accum_len := (r.2.data.accum_len + len) % SIZE_MOD } })

/-! ## Hardware reset and configuration -/

/-- The wait loop of `sha_reset`: `while (sha_read_reg(dev, SHA_CTR_OFFSET) & SHA_RST_BIT)
k_busy_wait(1);`. `fuel` bounds the number of iterations. -/
def reset_wait (env : Env) : Nat → Sys → Res Sys
  | 0, s =>
    if (sha_read_reg env SHA_CTR_OFFSET s).1 &&& SHA_RST_BIT ≠ 0 then .hang
    else .ok (sha_read_reg env SHA_CTR_OFFSET s).2
  | fuel + 1, s =>
    if (sha_read_reg env SHA_CTR_OFFSET s).1 &&& SHA_RST_BIT ≠ 0 then
      reset_wait env fuel (sha_read_reg env SHA_CTR_OFFSET s).2
    else .ok (sha_read_reg env SHA_CTR_OFFSET s).2

def sha_reset (env : Env) (fuel : Nat) (s : Sys) : Res Sys :=
  let r := sha_read_reg env SHA_CTR_OFFSET s
  let s1 := sha_write_reg SHA_CTR_OFFSET (r.1 ||| SHA_RST_BIT) r.2
  reset_wait env fuel s1

def sha_configure (cfg : Kconfig) (s : Sys) : Sys :=
  let ctrl := 0 ||| (SHA_WR_REV_BIT ||| SHA_RD_REV_BIT)
  let ctrl := if cfg.SHA_INTERRUPT then ctrl ||| SHA_INT_MASK_BIT else ctrl
  sha_write_reg SHA_CTR_OFFSET ctrl s

/-! ## The hash handler: update path -/

/-- The value of `prealloc` at lines 237 to 243: the configured preallocation size, raised to
`need_now` and then cut down to the configured maximum. -/
def prealloc_size (cfg : Kconfig) (need_now : Nat) : Nat :=
  let prealloc := cfg.PREALLOC_SIZE % SIZE_MOD
  let prealloc := if need_now > prealloc then need_now else prealloc
  if prealloc > cfg.MAX_ACCUM_SIZE then cfg.MAX_ACCUM_SIZE % SIZE_MOD else prealloc

/-- Lines 234 to 255 of the handler: the first switch to the accumulation buffer. -/
def migrate (cfg : Kconfig) (env : Env) (fuel : Nat) (s : Sys) (in_len : Nat) : Res (Int × Sys) :=
  let need_now := (s.data.buffer_len + in_len) % SIZE_MOD
  let prealloc := prealloc_size cfg need_now
  do
    let r ← ensure_accum_capacity cfg env fuel s prealloc
    if r.1 ≠ 0 then pure r
    else if r.2.data.buffer_len ≠ 0 then
      match r.2.data.accum_buf with
      | none => .ub
      | some blk => do
        let blk2 ← memcpy blk 0 r.2.data.buffer r.2.data.buffer_len
        pure (0, { r.2 with data := { r.2.data with
                      accum_buf := some blk2,
                      accum_len := r.2.data.buffer_len,
                      buffer_len := 0,
                      use_accum := true } })
    else pure (0, { r.2 with data := { r.2.data with use_accum := true } })

/-- Lines 221 to 259 of the handler: `!finish && pkt->in_len > 0`. -/
def handler_update (cfg : Kconfig) (env : Env) (fuel : Nat) (s : Sys) (pkt : hash_pkt) : Res Ret :=
  match pkt.in_buf with
  | none => pure ⟨-EINVAL, s, pkt.out_buf⟩
  | some src =>
    if s.data.use_accum = false ∧ (s.data.buffer_len + pkt.in_len) % SIZE_MOD < 256 then do
      let buf ← memcpy s.data.buffer s.data.buffer_len src pkt.in_len
      pure ⟨0, { s with data := { s.data with
                    buffer := buf,
                    buffer_len := (s.data.buffer_len + pkt.in_len) % U16_MOD,
                    total_len := (s.data.buffer_len + pkt.in_len) % U16_MOD } }, pkt.out_buf⟩
    else do
      let r ← (if s.data.use_accum = false then migrate cfg env fuel s pkt.in_len else pure (0, s))
      if r.1 ≠ 0 then pure ⟨r.1, r.2, pkt.out_buf⟩
      else do
        let a ← accum_append cfg env fuel r.2 src pkt.in_len
        pure ⟨a.1, a.2, pkt.out_buf⟩

/-! ## The hash handler: finalization -/

/-- Unsigned 32-bit subtraction `a - b` (operands below `SIZE_MOD`). -/
def u32_sub (a b : Nat) : Nat := (a + SIZE_MOD - b) % SIZE_MOD

/-- Unsigned 32-bit addition. -/
def u32_add (a b : Nat) : Nat := (a + b) % SIZE_MOD

/-- The value `(uint32_t)((total_bytes + 3U) / 4U)` of `words_lo` and `words_to_write`. -/
def words_lo (total_bytes : Nat) : Nat := ((total_bytes + 3) % SIZE_MOD) / 4

/-- The value `bmod = (uint32_t)(bits % 512ULL)` with `bits = (uint64_t)total_bytes * 8ULL`. -/
def bmod (total_bytes : Nat) : Nat := (((total_bytes * 8) % U64_MOD) % 512) % SIZE_MOD

/-- The value of `pad_packet`, in unsigned 32-bit arithmetic as the source computes it. -/
def pad_packet (total_bytes : Nat) : Nat :=
  if bmod total_bytes < 448 then u32_sub (u32_sub 512 (bmod total_bytes)) 64 / 32
  else u32_add (u32_sub 512 (bmod total_bytes)) 448 / 32

/-- The value of `valid_enc`: `rem & 0x3U` with `rem = (uint32_t)(total_bytes % 4U)`. -/
def valid_enc (total_bytes : Nat) : Nat := ((total_bytes % 4) % SIZE_MOD) &&& 0x3

/-- The value of `pad_ctrl`: `(valid_enc << 8) | (pad_packet & 0x1F)`. -/
def pad_ctrl (total_bytes : Nat) : Nat :=
  (valid_enc total_bytes <<< SHA_VALID_BYTE_SHIFT) ||| (pad_packet total_bytes &&& SHA_PAD_PACKET_MASK)

/-- One round `j` of the inner loop `for (j = 0; j < 4; j++)`: `acc` is the pair
`(w, bytes_written)`. -/
def assemble_byte (src : Option (List u8)) (total_bytes : Nat) (acc : Nat × Nat) (j : Nat) :
    Res (Nat × Nat) :=
  if acc.2 < total_bytes then
    match src with
    | none => .ub
    | some l =>
      match l[acc.2]? with
      | none => .ub
      | some b => pure (acc.1 ||| (b.val <<< (j * 8)), acc.2 + 1)
  else pure acc

/-- The inner loop for one word, starting from `w = 0`. -/
def assemble_word (src : Option (List u8)) (total_bytes : Nat) (bytes_written : Nat) :
    Res (Nat × Nat) := do
  let a ← assemble_byte src total_bytes (0, bytes_written) 0
  let a ← assemble_byte src total_bytes a 1
  let a ← assemble_byte src total_bytes a 2
  assemble_byte src total_bytes a 3

/-- The flow-control wait `while (!(sys_read32(CTR) & SHA_READY_BIT)) {}`. `fuel` bounds the
number of iterations. -/
def ready_wait (env : Env) : Nat → Sys → Res Sys
  | 0, s =>
    if (sys_read32 env SHA_CTR_OFFSET s).1 &&& SHA_READY_BIT = 0 then .hang
    else .ok (sys_read32 env SHA_CTR_OFFSET s).2
  | fuel + 1, s =>
    if (sys_read32 env SHA_CTR_OFFSET s).1 &&& SHA_READY_BIT = 0 then
      ready_wait env fuel (sys_read32 env SHA_CTR_OFFSET s).2
    else .ok (sys_read32 env SHA_CTR_OFFSET s).2

/-- The feeding loop `while (words_written < words_to_write)`. The first numeric argument is
the number of rounds still to run, `words_to_write - words_written`. -/
def feed_words (env : Env) (fuel : Nat) (src : Option (List u8)) (total_bytes : Nat) :
    Nat → Nat → Nat → Sys → Res Sys
  | 0, _, _, s => pure s
  | n + 1, words_written, bytes_written, s => do
    let a ← assemble_word src total_bytes bytes_written
    let s1 := sys_write32 a.1 SHA_IN_OFFSET s
    let s2 ← (if (words_written + 1) % 16 = 0 then ready_wait env fuel s1 else pure s1)
    feed_words env fuel src total_bytes n (words_written + 1) a.2 s2

/-- The completion wait: `while (!(sys_read32(CTR) & SHA_STA_BIT)) { if (timeout++ >
TIMEOUT_USEC) fail; k_busy_wait(1); }`. The result is `true` when the status bit was seen and
`false` on timeout. `fuel` bounds the number of iterations. -/
def done_wait (cfg : Kconfig) (env : Env) : Nat → Nat → Sys → Res (Bool × Sys)
  | 0, timeout, s =>
    if (sys_read32 env SHA_CTR_OFFSET s).1 &&& SHA_STA_BIT ≠ 0 then
      pure (true, (sys_read32 env SHA_CTR_OFFSET s).2)
    else if timeout > cfg.TIMEOUT_USEC then pure (false, (sys_read32 env SHA_CTR_OFFSET s).2)
    else .hang
  | fuel + 1, timeout, s =>
    if (sys_read32 env SHA_CTR_OFFSET s).1 &&& SHA_STA_BIT ≠ 0 then
      pure (true, (sys_read32 env SHA_CTR_OFFSET s).2)
    else if timeout > cfg.TIMEOUT_USEC then pure (false, (sys_read32 env SHA_CTR_OFFSET s).2)
    else done_wait cfg env fuel ((timeout + 1) % SIZE_MOD) (sys_read32 env SHA_CTR_OFFSET s).2

/-- The read-back loop `for (i = 0; i < 8; i++) output32[i] = sys_read32(OUT + i * 4)`; the
first argument is the number of rounds still to run. -/
def read_digest (env : Env) : Nat → Nat → List Nat → Sys → Res (List Nat × Sys)
  | 0, _, out, s => pure (out, s)
  | n + 1, i, out, s =>
    if i < out.length then
      read_digest env n (i + 1)
        (out.set i (sys_read32 env (SHA_OUT_OFFSET + i * 4) s).1)
        (sys_read32 env (SHA_OUT_OFFSET + i * 4) s).2
    else .ub

/-- The source pointer chosen at lines 266 to 274: `accum_buf` on the accumulation path, the
inline `buffer` otherwise. -/
def active_src (s : Sys) : Option (List u8) :=
  if s.data.use_accum then s.data.accum_buf else some s.data.buffer

/-- The length `total_bytes` chosen at lines 266 to 274. -/
def active_len (s : Sys) : Nat :=
  if s.data.use_accum then s.data.accum_len else s.data.buffer_len

/-- Store a new value in the `state` field. -/
def set_state (st : sha_operation_state) (s : Sys) : Sys :=
  { s with data := { s.data with state := st } }

/-- Lines 262 to 352 of the handler: `finish`. -/
def handler_finish (cfg : Kconfig) (env : Env) (fuel : Nat) (s : Sys) (pkt : hash_pkt) : Res Ret :=
  let s0 := set_state .SHA_STATE_BUSY s
  let src := active_src s0
  let total_bytes := active_len s0
  let ctrl_reg := SHA_WR_REV_BIT ||| SHA_RD_REV_BIT
  let s1 := sys_write32 ctrl_reg SHA_CTR_OFFSET s0
  let s2 := sys_write32 (words_lo total_bytes) SHA_DATALEN_OFFSET s1
  let s3 := sys_write32 0 SHA_DATALEN_5832_OFFSET s2
  let s4 := sys_write32 (pad_ctrl total_bytes) SHA_PAD_CTR_OFFSET s3
  let s5 := sys_write32 (ctrl_reg ||| SHA_STR_BIT) SHA_CTR_OFFSET s4
  do
    let s6 ← feed_words env fuel src total_bytes (words_lo total_bytes) 0 0 s5
    match pkt.out_buf with
    | none => pure ⟨-EINVAL, set_state .SHA_STATE_ERROR s6, none⟩
    | some out => do
      let d ← done_wait cfg env fuel 0 s6
      if d.1 = false then pure ⟨-ETIMEDOUT, set_state .SHA_STATE_ERROR d.2, some out⟩
      else do
        let r := sys_read32 env SHA_CTR_OFFSET d.2
        let s8 := sys_write32 (r.1 ||| SHA_INT_CLR_BIT) SHA_CTR_OFFSET r.2
        let o ← read_digest env 8 0 out s8
        pure ⟨0, set_state .SHA_STATE_IDLE o.2, some o.1⟩

def em32_sha256_handler (cfg : Kconfig) (env : Env) (fuel : Nat) (s : Sys) (ctx : Nat)
    (pkt : hash_pkt) (finish : Bool) : Res Ret :=
  if s.data.session_active = false ∨ s.data.ctx ≠ some ctx then pure ⟨-EINVAL, s, pkt.out_buf⟩
  else if s.data.state = .SHA_STATE_ERROR then pure ⟨- EIO, s, pkt.out_buf⟩
  else if finish = false ∧ pkt.in_len > 0 then handler_update cfg env fuel s pkt
  else if finish = true then handler_finish cfg env fuel s pkt
  else pure ⟨0, s, pkt.out_buf⟩

/-! ## Session begin and free -/

def crypto_em32_hash_begin_session (cfg : Kconfig) (env : Env) (fuel : Nat) (s : Sys) (ctx : Nat)
    (algo : hash_algo) : Res (Int × Sys) :=
  if s.data.session_active = true then pure (-EBUSY, s)
  else if algo ≠ .CRYPTO_HASH_ALGO_SHA256 then pure (-ENOTSUP, s)
  else do
    let s1 := { s with data := { s.data with
                  ctx := some ctx,
                  state := .SHA_STATE_IDLE,
                  total_len := 0,
                  buffer_len := 0,
                  accum_buf := none,
                  accum_len := 0,
                  accum_cap := 0,
                  use_accum := false,
                  session_active := true } }
    let s2 ← sha_reset env fuel s1
    pure (0, sha_configure cfg s2)

/-- The driver initialisation `crypto_em32_init`. `clk` is the outcome of the clock bring-up at
lines 476 to 496 (0 when the clock device is absent or was switched on, the negative error
code it returns otherwise); the clock-gating register written there lies outside the
accelerator window and is not recorded. -/
def crypto_em32_init (env : Env) (fuel : Nat) (clk : Int) (s : Sys) : Res (Int × Sys) :=
  if clk < 0 then pure (clk, s)
  else do
    let s1 := { s with data := { s.data with
                  session_active := false,
                  state := .SHA_STATE_IDLE,
                  ctx := none,
                  callback := none } }
    let s2 ← sha_reset env fuel s1
    pure (0, s2)

/-- The wipe of the dynamic buffer in `crypto_em32_hash_free_session`:
`if (accum_buf) { if (accum_len) memset(accum_buf, 0, accum_len); k_free(accum_buf);
accum_buf = NULL; }`. -/
def wipe_accum (s : Sys) : Res Sys :=
  match s.data.accum_buf with
  | none => pure s
  | some blk => do
    let blk1 ← (if s.data.accum_len ≠ 0 then memset blk 0 s.data.accum_len else pure blk)
    let s1 := k_free blk1 s
    pure { s1 with data := { s1.data with accum_buf := none } }

def crypto_em32_hash_free_session (s : Sys) (ctx : Nat) : Res (Int × Sys) :=
  if s.data.session_active = false ∨ s.data.ctx ≠ some ctx then pure (-EINVAL, s)
  else do
    let s1 ← wipe_accum s
    let buf ← memset s1.data.buffer 0 256
    pure (0, { s1 with data := { s1.data with
                  accum_len := 0,
                  accum_cap := 0,
                  use_accum := false,
                  buffer := buf,
                  session_active := false,
                  ctx := none,
                  state := .SHA_STATE_IDLE } })

/-! ## Observations used in the statements -/

/-- The message a finalize call will hash: the first `total_bytes` bytes of the active buffer. -/
def accumulated (s : Sys) : List u8 :=
  ((active_src s).getD []).take (active_len s)

/-- The values written to the register at offset `off`, in the order of the writes. -/
def writes_to (off : Nat) (l : List MmioOp) : List Nat :=
  l.filterMap (fun e => match e with
    | MmioOp.wr o v => if o = off then some v else none
    | MmioOp.rd _ _ => none)

/-- The register accesses made by a call that started in `s` and ended in `t`. -/
def new_ops (s t : Sys) : List MmioOp := t.mmio.drop s.mmio.length

/-- The packet of an update call that passes the chunk `c`; `out` is the output pointer the
caller happens to have set. -/
def update_pkt (c : List u8) (out : Option (List Nat)) : hash_pkt :=
  { in_buf := some c, in_len := c.length, out_buf := out }

/-- Successive successful update calls: `Updates cfg env h s cs t` holds when feeding the
chunks `cs` in order by update calls on handle `h`, each returning 0, leads from `s` to `t`. -/
inductive Updates (cfg : Kconfig) (env : Env) (h : Nat) : Sys → List (List u8) → Sys → Prop where
  | done (s : Sys) : Updates cfg env h s [] s
  | step (s t : Sys) (c : List u8) (cs : List (List u8)) (fuel : Nat) (out : Option (List Nat))
      (r : Ret) :
      em32_sha256_handler cfg env fuel s h (update_pkt c out) false = Res.ok r →
      r.rc = 0 → Updates cfg env h r.sys cs t → Updates cfg env h s (c :: cs) t

/-- The value of a byte of the message, 0 beyond its end. -/
def byte_at (m : List u8) (i : Nat) : Nat :=
  match m[i]? with
  | some b => b.val
  | none => 0

/-- The reference little-endian word `k` of a message: byte `4k + j` in lane `j`, absent
bytes counting as zero. -/
def spec_word (m : List u8) (k : Nat) : Nat :=
  byte_at m (4 * k) + byte_at m (4 * k + 1) * 2 ^ 8 + byte_at m (4 * k + 2) * 2 ^ 16
    + byte_at m (4 * k + 3) * 2 ^ 24

/-- The reference word stream of a message: words `0` to `ceil(n/4) - 1`. -/
def spec_words (m : List u8) : List Nat :=
  (List.range ((m.length + 3) / 4)).map (spec_word m)

/-- The accelerator answers every flow-control poll within `fuel` further reads: from any read
index on, one of the next `fuel + 1` reads of the control register shows the ready bit. -/
def ReadyWithin (env : Env) (fuel : Nat) : Prop :=
  ∀ k, ∃ j, j ≤ fuel ∧ (env.rd (k + j) SHA_CTR_OFFSET % SIZE_MOD) &&& SHA_READY_BIT ≠ 0

/-- The state `t` arises from `s` by the register accesses `evs` alone: nothing but the access
history (and the read counter) differs. -/
def HwStep (s t : Sys) (evs : List MmioOp) : Prop :=
  t.data = s.data ∧ t.nmalloc = s.nmalloc ∧ t.released = s.released ∧ t.mmio = s.mmio ++ evs

/-- The values the doubling loop can pass through when it starts from 512: zero (after a
wrap-around) and the powers of two below `SIZE_MOD`. -/
def pow2s : List Nat := 0 :: (List.range 32).map (fun k => 2 ^ k)

/-- The capacities the growth code can install: the configured maximum (when a doubling step
overshoots it) or a value of the doubling sequence; never more than `2 ^ 31`, and above the
configured maximum only for the initial capacity 512. -/
def CapOk (cfg : Kconfig) (c : Nat) : Prop :=
  (c = cfg.MAX_ACCUM_SIZE ∨ c ∈ pow2s) ∧ c ≤ 2147483648 ∧ (c ≤ cfg.MAX_ACCUM_SIZE ∨ c = 512)

/-- Invariant of an open session owned by handle `h`: the session is active and not in the
error state, the inline buffer is the 256-byte array of the structure, the inline length stays
below 256 while the inline path is in use (and the dynamic buffer is then still unused), and
the dynamic buffer holds `accum_cap` bytes of which `accum_len` are in use. -/
structure Sess (cfg : Kconfig) (s : Sys) (h : Nat) : Prop where
  active : s.data.session_active = true
  owner : s.data.ctx = some h
  state_ok : s.data.state ≠ .SHA_STATE_ERROR
  buf256 : s.data.buffer.length = 256
  inline_ok : s.data.use_accum = false → s.data.buffer_len < 256 ∧ s.data.accum_len = 0
  accum_ok : s.data.use_accum = true → s.data.buffer_len = 0
  len_le : s.data.accum_len ≤ s.data.accum_cap
  blk_len : (s.data.accum_buf.getD []).length = s.data.accum_cap
  cap_ok : CapOk cfg s.data.accum_cap

/-- The states of an open session on handle `h`: what a begin call returning 0 leaves behind
(starting from any instance whose inline buffer is the 256-byte array of the structure), and
what any returning update call, or any finalize call returning 0, makes of such a state. -/
inductive Open (cfg : Kconfig) (env : Env) (h : Nat) : Sys → Prop where
  | start (s0 s1 : Sys) (fuel : Nat) :
      s0.data.buffer.length = 256 →
      crypto_em32_hash_begin_session cfg env fuel s0 h .CRYPTO_HASH_ALGO_SHA256 = Res.ok (0, s1) →
      Open cfg env h s1
  | update (s : Sys) (fuel : Nat) (pkt : hash_pkt) (r : Ret) :
      Open cfg env h s →
      em32_sha256_handler cfg env fuel s h pkt false = Res.ok r → Open cfg env h r.sys
  | finish (s : Sys) (fuel : Nat) (pkt : hash_pkt) (r : Ret) :
      Open cfg env h s →
      em32_sha256_handler cfg env fuel s h pkt true = Res.ok r → r.rc = 0 → Open cfg env h r.sys

/-- The accelerator completes a reset within `fuel` further reads: from any read index on, one
of the next `fuel + 1` reads of the control register shows the reset bit clear. -/
def ResetWithin (env : Env) (fuel : Nat) : Prop :=
  ∀ k, ∃ j, j ≤ fuel ∧ (env.rd (k + j) SHA_CTR_OFFSET % SIZE_MOD) &&& SHA_RST_BIT = 0

/-- The payload of a returned result, `d` when the run did not return. -/
def Res.get {α : Type} (d : α) : Res α → α
  | .ok a => a
  | .hang => d
  | .ub => d

/-! ## Concrete instances for the examples -/

/-- An accelerator that always shows ready and done (and no reset in progress), over a heap
that grants every request. -/
def ex_env : Env := { rd := fun _ _ => 24, malloc_ok := fun _ _ => true, junk := fun _ _ => 0 }

/-- A heap that refuses every request, under the same accelerator. -/
def ex_env_nomem : Env :=
  { rd := fun _ _ => 24, malloc_ok := fun _ _ => false, junk := fun _ _ => 0 }

def ex_cfg : Kconfig :=
  { MAX_ACCUM_SIZE := 1024, PREALLOC_SIZE := 512, TIMEOUT_USEC := 4, SHA_INTERRUPT := false }

/-- A configuration whose maximum accumulation size lies below the inline capacity. -/
def ex_cfg_small : Kconfig :=
  { MAX_ACCUM_SIZE := 100, PREALLOC_SIZE := 64, TIMEOUT_USEC := 4, SHA_INTERRUPT := false }

/-- The zero-initialised driver instance (static storage) with no history. -/
def ex_sys : Sys :=
  { data := { ctx := none, state := .SHA_STATE_IDLE, callback := none,
              buffer := List.replicate 256 0, total_len := 0, buffer_len := 0,
              accum_buf := none, accum_len := 0, accum_cap := 0, use_accum := false,
              session_active := false },
    mmio := [], nread := 0, nmalloc := 0, released := [] }

/-- The instance after `begin` on handle 7. -/
def ex_begun (cfg : Kconfig) (env : Env) : Sys :=
  (Res.get (0, ex_sys)
    (crypto_em32_hash_begin_session cfg env 0 ex_sys 7 .CRYPTO_HASH_ALGO_SHA256)).2

/-- The result of one update call with chunk `c` on handle 7. -/
def ex_update (cfg : Kconfig) (env : Env) (s : Sys) (c : List u8) : Ret :=
  Res.get ⟨0, s, none⟩ (em32_sha256_handler cfg env 40 s 7 (update_pkt c none) false)

/-- The open session of the examples: right after `begin`. -/
def ex_s1 : Sys := ex_begun ex_cfg ex_env

/-- After the update with chunk `[1, 2, 3]`. -/
def ex_s2 : Sys := (ex_update ex_cfg ex_env ex_s1 [1, 2, 3]).sys

/-- After the further update with chunk `[4, 5]`. -/
def ex_s3 : Sys := (ex_update ex_cfg ex_env ex_s2 [4, 5]).sys

/-- Two chunks of 200 and 100 bytes: the second one crosses the inline capacity. -/
def ex_chunks : List (List u8) := [List.replicate 200 1, List.replicate 100 2]

/-- After the update with the first chunk of `ex_chunks`. -/
def ex_t2 : Sys := (ex_update ex_cfg ex_env ex_s1 (List.replicate 200 1)).sys

/-- After the update with the second chunk of `ex_chunks`. -/
def ex_t3 : Sys := (ex_update ex_cfg ex_env ex_t2 (List.replicate 100 2)).sys

/-- After a single update with the 300 bytes of `ex_chunks`. -/
def ex_u2 : Sys := (ex_update ex_cfg ex_env ex_s1 ex_chunks.flatten).sys

/-- Under `ex_cfg_small`: the session after `begin` and one update with 50 bytes. -/
def ex_w2 : Sys :=
  (ex_update ex_cfg_small ex_env (ex_begun ex_cfg_small ex_env) (List.replicate 50 1)).sys

/-- The result of a further update with 100 bytes under `ex_cfg_small`. -/
def ex_w3 : Ret := ex_update ex_cfg_small ex_env ex_w2 (List.replicate 100 2)

/-- Under `ex_cfg`: the result of an update with 900 bytes on the session holding 200 inline
bytes; it triggers the migration and exceeds the maximum of 1024. -/
def ex_over : Ret := ex_update ex_cfg ex_env ex_t2 (List.replicate 900 3)


/-! ## Further observations: register reads, the feed phase, the whole life of a session -/

/-- The values read from the register at offset `off`, in the order of the reads. -/
def reads_from (off : Nat) (l : List MmioOp) : List Nat :=
  l.filterMap (fun e => match e with
    | MmioOp.rd o v => if o = off then some v else none
    | MmioOp.wr _ _ => none)

/-- The history entries of `n` consecutive reads of the control register, the first of them
being read number `k` of the run. -/
def poll_ops (env : Env) (k n : Nat) : List MmioOp :=
  (List.range n).map (fun j => MmioOp.rd SHA_CTR_OFFSET (env.rd (k + j) SHA_CTR_OFFSET % SIZE_MOD))

/-- The value of output word `i` when the read-back loop starts at read number `k`. -/
def bank_word (env : Env) (k i : Nat) : Nat :=
  env.rd (k + i) (SHA_OUT_OFFSET + i * 4) % SIZE_MOD

/-- The history entries of the read-back loop: the eight reads of the output bank, word `i`
at offset `4 * i` of the bank, in the order `i = 0..7`. -/
def bank_ops (env : Env) (k : Nat) : List MmioOp :=
  (List.range 8).map (fun i => MmioOp.rd (SHA_OUT_OFFSET + i * 4) (bank_word env k i))

/-- Lines 263 to 322 of the handler: the state is set to busy, the length and padding
registers are programmed, the engine is started and all input words are fed. The result is
the instance at the point where the handler looks at the output pointer. -/
def feed_phase (env : Env) (fuel : Nat) (s : Sys) : Res Sys :=
  let s0 := set_state .SHA_STATE_BUSY s
  let src := active_src s0
  let total_bytes := active_len s0
  let ctrl_reg := SHA_WR_REV_BIT ||| SHA_RD_REV_BIT
  let s1 := sys_write32 ctrl_reg SHA_CTR_OFFSET s0
  let s2 := sys_write32 (words_lo total_bytes) SHA_DATALEN_OFFSET s1
  let s3 := sys_write32 0 SHA_DATALEN_5832_OFFSET s2
  let s4 := sys_write32 (pad_ctrl total_bytes) SHA_PAD_CTR_OFFSET s3
  let s5 := sys_write32 (ctrl_reg ||| SHA_STR_BIT) SHA_CTR_OFFSET s4
  feed_words env fuel src total_bytes (words_lo total_bytes) 0 0 s5

/-- Invariant of a session that has been begun by handle `h` and not freed, whatever its
state field says: `Sess` without the condition on the state. -/
structure Held (cfg : Kconfig) (s : Sys) (h : Nat) : Prop where
  active : s.data.session_active = true
  owner : s.data.ctx = some h
  buf256 : s.data.buffer.length = 256
  inline_ok : s.data.use_accum = false → s.data.buffer_len < 256 ∧ s.data.accum_len = 0
  accum_ok : s.data.use_accum = true → s.data.buffer_len = 0
  len_le : s.data.accum_len ≤ s.data.accum_cap
  blk_len : (s.data.accum_buf.getD []).length = s.data.accum_cap
  cap_ok : CapOk cfg s.data.accum_cap

/-- The states a session on handle `h` can be in between its begin and its free: what a begin
call returning 0 leaves behind, and what any returning call of the handler by the owner
(update or finalize, whatever it returns) makes of such a state. The error state is among
them. -/
inductive Live (cfg : Kconfig) (env : Env) (h : Nat) : Sys → Prop where
  | start (s0 s1 : Sys) (fuel : Nat) :
      s0.data.buffer.length = 256 →
      crypto_em32_hash_begin_session cfg env fuel s0 h .CRYPTO_HASH_ALGO_SHA256 = Res.ok (0, s1) →
      Live cfg env h s1
  | call (s : Sys) (fuel : Nat) (pkt : hash_pkt) (finish : Bool) (r : Ret) :
      Live cfg env h s →
      em32_sha256_handler cfg env fuel s h pkt finish = Res.ok r → Live cfg env h r.sys

/-- The block that free hands to `k_free`: the dynamic buffer with its first `accum_len`
bytes set to zero. -/
def wiped_block (s : Sys) : List (List u8) :=
  match s.data.accum_buf with
  | none => []
  | some blk => [List.replicate s.data.accum_len 0 ++ blk.drop s.data.accum_len]

/-- The packet of a finalize call: no input, `out` as the output pointer. -/
def finish_pkt (out : Option (List Nat)) : hash_pkt :=
  { in_buf := none, in_len := 0, out_buf := out }

/-- The five register writes with which finalize programs and starts the engine for a message
of `total_bytes` bytes (lines 277 to 300). -/
def prog_ops (total_bytes : Nat) : List MmioOp :=
  [MmioOp.wr SHA_CTR_OFFSET (SHA_WR_REV_BIT ||| SHA_RD_REV_BIT),
   MmioOp.wr SHA_DATALEN_OFFSET (words_lo total_bytes),
   MmioOp.wr SHA_DATALEN_5832_OFFSET 0,
   MmioOp.wr SHA_PAD_CTR_OFFSET (pad_ctrl total_bytes),
   MmioOp.wr SHA_CTR_OFFSET ((SHA_WR_REV_BIT ||| SHA_RD_REV_BIT) ||| SHA_STR_BIT)]

/-! ## Further concrete instances -/

/-- An accelerator that always shows ready and never shows done. -/
def ex_never : Env := { rd := fun _ _ => 8, malloc_ok := fun _ _ => true, junk := fun _ _ => 0 }

/-- An accelerator that always shows ready and done and presents eight different words in its
output bank (the word at offset `off` is `1000 + off`). -/
def ex_bank : Env :=
  { rd := fun _ off => if off = SHA_CTR_OFFSET then 24 else 1000 + off,
    malloc_ok := fun _ _ => true, junk := fun _ _ => 0 }

/-- The result of one finalize call on handle 7 with output pointer `out`. -/
def ex_finish (cfg : Kconfig) (env : Env) (s : Sys) (out : Option (List Nat)) : Ret :=
  Res.get ⟨0, s, none⟩ (em32_sha256_handler cfg env 40 s 7 (finish_pkt out) true)

/-- A zeroed output buffer of eight words. -/
def ex_out : List Nat := List.replicate 8 0

/-- The result of a finalize call without an output location on the session holding the five
bytes 1 to 5. -/
def ex_err : Ret := ex_finish ex_cfg ex_env ex_s3 none

/-- Under `ex_bank`: the session after `begin` and one update with `[1, 2, 3]`. -/
def ex_b2 : Sys := (ex_update ex_cfg ex_bank (ex_begun ex_cfg ex_bank) [1, 2, 3]).sys

/-- The result of a finalize call on `ex_b2` under `ex_bank`, into a zeroed output. -/
def ex_fin : Ret := ex_finish ex_cfg ex_bank ex_b2 (some ex_out)

/-- The result of a finalize call into a zeroed output on the session holding the bytes 1 to
5, under the accelerator that always shows done. -/
def ex_done : Ret := ex_finish ex_cfg ex_env ex_s3 (some ex_out)

/-- The instance after free by the owner on the session holding the bytes 1 to 5. -/
def ex_freed : Sys := (Res.get (0, ex_s3) (crypto_em32_hash_free_session ex_s3 7)).2

/-- The instance after free by the owner on the session holding 300 bytes in the dynamic
buffer. -/
def ex_freed_dyn : Sys := (Res.get (0, ex_t3) (crypto_em32_hash_free_session ex_t3 7)).2

/-! ## SHA-256 after FIPS 180-4

The driver contains no software hash: the digest is computed by the accelerator. The function
below is the reference against which the statement on known answers is made. Words are
natural numbers below `2 ^ 32`, bytes natural numbers below 256. -/

/-- Rotation of a 32-bit word to the right by `n` bits. -/
def rotr (n x : Nat) : Nat := ((x >>> n) ||| (x <<< (32 - n))) % 4294967296

/-- The function `Ch` of FIPS 180-4; `4294967295 - x` is the complement of a 32-bit word. -/
def sha_ch (x y z : Nat) : Nat := (x &&& y) ^^^ ((4294967295 - x) &&& z)

/-- The function `Maj` of FIPS 180-4. -/
def sha_maj (x y z : Nat) : Nat := (x &&& y) ^^^ (x &&& z) ^^^ (y &&& z)

def big_sigma0 (x : Nat) : Nat := rotr 2 x ^^^ rotr 13 x ^^^ rotr 22 x

def big_sigma1 (x : Nat) : Nat := rotr 6 x ^^^ rotr 11 x ^^^ rotr 25 x

def small_sigma0 (x : Nat) : Nat := rotr 7 x ^^^ rotr 18 x ^^^ (x >>> 3)

def small_sigma1 (x : Nat) : Nat := rotr 17 x ^^^ rotr 19 x ^^^ (x >>> 10)

/-- The largest `r` below `2 ^ bits` with `r ^ k ≤ n`, found bit by bit from the top; the
first numeric argument of the loop is the number of bits still to decide. -/
def int_root (k n : Nat) : Nat → Nat → Nat
  | 0, r => r
  | b + 1, r => int_root k n b (if (r + 2 ^ b) ^ k ≤ n then r + 2 ^ b else r)

/-- The first 32 bits of the fractional part of the `k`-th root of `p`. -/
def root_fraction (k p : Nat) : Nat := int_root k (p * 2 ^ (32 * k)) 36 0 % 4294967296

/-- The first 64 prime numbers. -/
def first_primes : List Nat :=
  [2, 3, 5, 7, 11, 13, 17, 19, 23, 29, 31, 37, 41, 43, 47, 53, 59, 61, 67, 71, 73, 79, 83, 89,
   97, 101, 103, 107, 109, 113, 127, 131, 137, 139, 149, 151, 157, 163, 167, 173, 179, 181, 191,
   193, 197, 199, 211, 223, 227, 229, 233, 239, 241, 251, 257, 263, 269, 271, 277, 281, 283, 293,
   307, 311]

/-- The round constants: the first 32 bits of the fractional parts of the cube roots of the
first 64 primes. -/
def sha_K : List Nat := first_primes.map (root_fraction 3)

/-- The initial hash value: the first 32 bits of the fractional parts of the square roots of
the first 8 primes. -/
def sha_H0 : List Nat := (first_primes.take 8).map (root_fraction 2)

/-- One step of the message schedule: `W_t` from `W_(t-2)`, `W_(t-7)`, `W_(t-15)`, `W_(t-16)`,
appended to the words `W_0 .. W_(t-1)`. -/
def schedule_step (w : List Nat) : List Nat :=
  w ++ [(small_sigma1 (w.getD (w.length - 2) 0) + w.getD (w.length - 7) 0
          + small_sigma0 (w.getD (w.length - 15) 0) + w.getD (w.length - 16) 0) % 4294967296]

/-- The 64 words of the message schedule of a block of 16 words. -/
def schedule (block : List Nat) : List Nat := schedule_step^[48] block

/-- One round of the compression function on the working variables `a .. h`. -/
def sha_round (st : List Nat) (kw : Nat × Nat) : List Nat :=
  match st with
  | [a, b, c, d, e, f, g, h] =>
    [(h + big_sigma1 e + sha_ch e f g + kw.1 + kw.2 + big_sigma0 a + sha_maj a b c) % 4294967296,
      a, b, c, (d + (h + big_sigma1 e + sha_ch e f g + kw.1 + kw.2)) % 4294967296, e, f, g]
  | _ => st

/-- The compression function: the hash value after one block. -/
def compress (hs : List Nat) (block : List Nat) : List Nat :=
  List.zipWith (fun x y => (x + y) % 4294967296) hs
    ((List.zip sha_K (schedule block)).foldl sha_round hs)

/-- The first `n` pieces of `k` elements each of a list. -/
def pieces (k : Nat) : Nat → List Nat → List (List Nat)
  | 0, _ => []
  | n + 1, l => l.take k :: pieces k n (l.drop k)

/-- The big-endian value of a list of bytes. -/
def be_value (b : List Nat) : Nat := b.foldl (fun acc x => acc * 256 + x) 0

/-- The `k` bytes of the big-endian representation of `x`. -/
def be_bytes : Nat → Nat → List Nat
  | 0, _ => []
  | k + 1, x => be_bytes k (x / 256) ++ [x % 256]

/-- The padded message: the message, the byte `0x80`, zero bytes up to 56 modulo 64, and the
bit length in 8 bytes. -/
def sha_pad (m : List Nat) : List Nat :=
  m ++ [0x80] ++ List.replicate ((119 - m.length % 64) % 64) 0 ++ be_bytes 8 (8 * m.length)

/-- SHA-256 of a byte string, as the list of its 32 digest bytes. -/
def sha256 (m : List Nat) : List Nat :=
  (((pieces 64 ((sha_pad m).length / 64) (sha_pad m)).foldl
      (fun hs blk => compress hs ((pieces 4 16 blk).map be_value)) sha_H0).map
    (be_bytes 4)).flatten


/-! ## The accelerator as the statement on known answers assumes it -/

/-- The bytes of a 32-bit word in address order on the little-endian target: byte `j` is bits
`8 j` to `8 j + 7`. -/
def word_bytes (w : Nat) : List Nat :=
  [w % 256, w / 256 % 256, w / 65536 % 256, w / 16777216 % 256]

/-- Modelled from the spec: the message that the programmed values describe to the
accelerator (sections 3 and 4.3 of the specification; the accelerator itself is hardware
and outside the sources). The word count is the last value written to the low length
register, the valid-byte code is bits 9:8 of the last value written to the padding-control
register; the message is made of the byte lanes of the streamed words in the order of the
writes, lane 0 first, and ends in the last word after as many lanes as the valid-byte code
says (all four for code 0). -/
def accel_message (ops : List MmioOp) : List Nat :=
  ((((writes_to SHA_IN_OFFSET ops).take
      ((writes_to SHA_DATALEN_OFFSET ops).getLastD 0)).map word_bytes).flatten).take
    (if ((writes_to SHA_PAD_CTR_OFFSET ops).getLastD 0 >>> SHA_VALID_BYTE_SHIFT) % 4 = 0
     then 4 * (writes_to SHA_DATALEN_OFFSET ops).getLastD 0
     else 4 * ((writes_to SHA_DATALEN_OFFSET ops).getLastD 0 - 1)
        + ((writes_to SHA_PAD_CTR_OFFSET ops).getLastD 0 >>> SHA_VALID_BYTE_SHIFT) % 4)

/-- Modelled from the spec: the programmed values are consistent. As many words were streamed
as the word count says, the high length register holds 0, and the pad-packet count (bits 4:0
of the padding-control value) makes words, pad packets and the two length words fill whole
512-bit blocks as FIPS 180-4 pads the described message. -/
def accel_consistent (ops : List MmioOp) : Prop :=
  (writes_to SHA_IN_OFFSET ops).length = (writes_to SHA_DATALEN_OFFSET ops).getLastD 0 ∧
  (writes_to SHA_DATALEN_5832_OFFSET ops).getLastD 0 = 0 ∧
  (writes_to SHA_DATALEN_OFFSET ops).getLastD 0
      + (writes_to SHA_PAD_CTR_OFFSET ops).getLastD 0 % 32 + 2
    = 16 * (((accel_message ops).length + 8) / 64 + 1)

/-- The 32 bytes that the eight words read last from the output bank make in memory, word `i`
(read at offset `4 * i` of the bank) at bytes `4 * i` to `4 * i + 3`. -/
def bank_bytes (ops : List MmioOp) : List Nat :=
  ((List.range 8).map (fun i =>
    word_bytes ((reads_from (SHA_OUT_OFFSET + i * 4) ops).getLastD 0))).flatten

/-- Modelled from the spec: the accelerator of section 6.2 on one run. When the programmed
values are consistent, the output bank presents the FIPS 180-4 digest of the message they
describe, in the byte order in which the words are stored (the reversal mode programmed in
step 1 of the feed protocol). -/
def FipsAccel (ops : List MmioOp) : Prop :=
  accel_consistent ops → bank_bytes ops = sha256 (accel_message ops)

/-- The 32 digest bytes of an output buffer, in address order: the bytes of its first eight
32-bit words. -/
def digest_bytes (o : List Nat) : List Nat :=
  ((List.range 8).map (fun i => word_bytes (o.getD i 0))).flatten

/-- The byte values of a message. -/
def byte_vals (m : List u8) : List Nat := m.map (fun b => b.val)

/-- The message "abc". -/
def msg_abc : List u8 := [0x61, 0x62, 0x63]

/-- The published SHA-256 digest of "abc". -/
def digest_abc : List Nat :=
  [0xba, 0x78, 0x16, 0xbf, 0x8f, 0x01, 0xcf, 0xea, 0x41, 0x41, 0x40, 0xde, 0x5d, 0xae, 0x22, 0x23,
   0xb0, 0x03, 0x61, 0xa3, 0x96, 0x17, 0x7a, 0x9c, 0xb4, 0x10, 0xff, 0x61, 0xf2, 0x00, 0x15, 0xad]

/-- The published SHA-256 digest of the empty message. -/
def digest_empty : List Nat :=
  [0xe3, 0xb0, 0xc4, 0x42, 0x98, 0xfc, 0x1c, 0x14, 0x9a, 0xfb, 0xf4, 0xc8, 0x99, 0x6f, 0xb9, 0x24,
   0x27, 0xae, 0x41, 0xe4, 0x64, 0x9b, 0x93, 0x4c, 0xa4, 0x95, 0x99, 0x1b, 0x78, 0x52, 0xb8, 0x55]

/-- An accelerator that always shows ready and done and presents the digest of "abc" in its
output bank. -/
def ex_abc_env : Env :=
  { rd := fun _ off =>
      if off = SHA_CTR_OFFSET then 24
      else [0xbf1678ba, 0xeacf018f, 0xde404141, 0x2322ae5d,
            0xa36103b0, 0x9c7a1796, 0x61ff10b4, 0xad1500f2].getD ((off - SHA_OUT_OFFSET) / 4) 0,
    malloc_ok := fun _ _ => true, junk := fun _ _ => 0 }

/-- Under `ex_abc_env`: the session after `begin`. -/
def ex_a1 : Sys := ex_begun ex_cfg ex_abc_env

/-- Under `ex_abc_env`: the session after `begin` and one update with "abc". -/
def ex_a2 : Sys := (ex_update ex_cfg ex_abc_env ex_a1 msg_abc).sys

/-- The result of the finalize call on `ex_a2`. -/
def ex_afin : Ret := ex_finish ex_cfg ex_abc_env ex_a2 (some ex_out)

/-! ## Further notions: stuck accelerators, the shape of the feed traffic -/

/-- An accelerator that never completes a reset: the control register always shows the reset
bit. -/
def ex_stuck : Env := { rd := fun _ _ => 4, malloc_ok := fun _ _ => true, junk := fun _ _ => 0 }

/-- An accelerator that completes every reset at once and never shows ready (nor done). -/
def ex_noready : Env :=
  { rd := fun _ _ => 0, malloc_ok := fun _ _ => true, junk := fun _ _ => 0 }

/-- Under `ex_noready`: the session after `begin` and one update with 64 bytes (16 words). -/
def ex_q2 : Sys :=
  (ex_update ex_cfg ex_noready (ex_begun ex_cfg ex_noready) (List.replicate 64 1)).sys

/-- The session after `begin` and one update with 10 bytes. -/
def ex_i10 : Sys := (ex_update ex_cfg ex_env ex_s1 (List.replicate 10 1)).sys

/-- The access history of the feeding loop as the source lays it out: `ws` are the words
still to write, `k` the number of words written so far, `nr` the number of the next register
read and `ps` the lengths of the flow-control waits still to come. Each word is one write to
the input register; the word whose 1-based position `k + 1` is a multiple of 16 is followed
by the reads of its flow-control wait, and no other word is followed by any read. -/
def feed_ops (env : Env) : Nat → Nat → List Nat → List Nat → List MmioOp
  | _, _, [], _ => []
  | k, nr, w :: ws, ps =>
    MmioOp.wr SHA_IN_OFFSET w ::
      (if (k + 1) % 16 = 0 then
        poll_ops env nr (ps.headD 0) ++ feed_ops env (k + 1) (nr + ps.headD 0) ws ps.tail
      else feed_ops env (k + 1) nr ws ps)

/-- The flow-control waits of lengths `ps`, the first starting at read number `nr`, each end
with the first read that shows the ready bit: a wait makes at least one read, all its reads
but the last show the bit clear, and its last read shows it set. -/
def waits_ok (env : Env) : Nat → List Nat → Prop
  | _, [] => True
  | nr, n :: ps =>
    1 ≤ n ∧
    (∀ j, j + 1 < n → (env.rd (nr + j) SHA_CTR_OFFSET % SIZE_MOD) &&& SHA_READY_BIT = 0) ∧
    (env.rd (nr + (n - 1)) SHA_CTR_OFFSET % SIZE_MOD) &&& SHA_READY_BIT ≠ 0 ∧
    waits_ok env (nr + n) ps

/-- An accelerator that shows ready at every third read of the control register, and done
whenever it shows ready. -/
def ex_slow : Env :=
  { rd := fun k _ => if k % 3 = 1 then 24 else 0, malloc_ok := fun _ _ => true,
    junk := fun _ _ => 0 }

/-- The session after begin and one update with 64 bytes (16 words), under `ex_slow`. -/
def ex_p2 : Sys :=
  (ex_update ex_cfg ex_slow (ex_begun ex_cfg ex_slow) (List.replicate 64 1)).sys

/-- A configuration whose preallocation size lies above its maximum accumulation size. -/
def ex_cfg_pre : Kconfig :=
  { MAX_ACCUM_SIZE := 1024, PREALLOC_SIZE := 2048, TIMEOUT_USEC := 4, SHA_INTERRUPT := false }

/-- Under `ex_cfg_pre`: the session after `begin` and one update with 200 bytes. -/
def ex_v2 : Sys :=
  (ex_update ex_cfg_pre ex_env (ex_begun ex_cfg_pre ex_env) (List.replicate 200 1)).sys

/-- The result of a further update with 100 bytes under `ex_cfg_pre`: the migration. -/
def ex_v3 : Ret := ex_update ex_cfg_pre ex_env ex_v2 (List.replicate 100 2)

/-- Under `ex_cfg`: the session after `begin` and one update with 255 bytes. -/
def ex_e255 : Sys := (ex_update ex_cfg ex_env ex_s1 (List.replicate 255 1)).sys

/-- Under `ex_cfg`: the session after `begin` and one update with 256 bytes. -/
def ex_e256 : Sys := (ex_update ex_cfg ex_env ex_s1 (List.replicate 256 1)).sys

/-- The local `sha_length_word` (lines 83 to 85): `len/4`, incremented when `len%4 != 0`, in
`uint32_t` arithmetic. -/
def sha_length_word (len : Nat) : Nat :=
  if len % 4 ≠ 0 then (len / 4 + 1) % SIZE_MOD else len / 4

/-- The local `sha_length_bit = len * 8` (line 87), in `uint32_t` arithmetic. -/
def sha_length_bit (len : Nat) : Nat := (len * 8) % SIZE_MOD

/-- The value stored in the two-bit register field `SHA_VALID_BYTE` (line 91): `len%4`. -/
def SHA_VALID_BYTE (len : Nat) : Nat := (len % 4) % 4

/-- The value stored in the five-bit register field `SHA_PAD_PACKET` (lines 93 to 96):
`(512 - (sha_length_bit % 512) - 64) / 32` when `sha_length_bit % 512 < 448`, otherwise
`(512 - (sha_length_bit % 512) + 448) / 32`, in `uint32_t` arithmetic. -/
def SHA_PAD_PACKET (len : Nat) : Nat :=
  (if sha_length_bit len % 512 < 448 then
    u32_sub (u32_sub 512 (sha_length_bit len % 512)) 64 / 32
  else u32_add (u32_sub 512 (sha_length_bit len % 512)) 448 / 32) % 32

/-- The little-endian word load `*(uint32_t*)(input + off)`; `input` gives the byte at each
offset from the pointer, within the message and beyond it. -/
def load_word (input : Nat → u8) (off : Nat) : Nat :=
  (input off).val + (input (off + 1)).val * 2 ^ 8 + (input (off + 2)).val * 2 ^ 16
    + (input (off + 3)).val * 2 ^ 24

/-- The feeding loop of `HAL_SHA_Transform` (lines 101 to 110):
`for(i=4; i<len+4; i+=4) { SHA_IN = *(uint32_t*)(input+i-4); if(i%64 == 0) { ...;
while(SHA_CTR->SHACTR.SHACTRBIT.SHA_READY == 0); } }`, with `i` and `len+4` in `uint32_t`
arithmetic. The first numeric argument bounds the number of rounds, the second is `i`. -/
def HAL_SHA_Transform_feed (env : Env) (fuel : Nat) (input : Nat → u8) (len : Nat) :
    Nat → Nat → Sys → Res Sys
  | 0, i, s => if i < (len + 4) % SIZE_MOD then .hang else pure s
  | n + 1, i, s =>
    if i < (len + 4) % SIZE_MOD then do
      let s1 := sys_write32 (load_word input (u32_sub i 4)) SHA_IN_OFFSET s
      let s2 ← (if i % 64 = 0 then ready_wait env fuel s1 else pure s1)
      HAL_SHA_Transform_feed env fuel input len n (u32_add i 4) s2
    else pure s

/-- The values `HAL_SHA_Transform` programs before it starts the engine. -/
structure legacy_setup where
  DATALEN_LOW : Nat
  DATALEN_HIGH : Nat
  VALID_BYTE : Nat
  PAD_PACKET : Nat
deriving DecidableEq, Repr

/-- The routine `HAL_SHA_Transform(input, len, output)` up to the end of its feeding loop
(lines 80 to 110): the values it stores in the length and padding registers, and the
instance after the loop. Stores to register bit fields are represented by the value of the
field; the wait for completion and the read-back of the digest (lines 112 to 116) are not
part of the comparison. -/
def HAL_SHA_Transform (env : Env) (fuel rounds : Nat) (input : Nat → u8) (len : Nat) (s : Sys) :
    Res (legacy_setup × Sys) := do
  let regs : legacy_setup :=
    { DATALEN_LOW := sha_length_word len, DATALEN_HIGH := 0,
      VALID_BYTE := SHA_VALID_BYTE len, PAD_PACKET := SHA_PAD_PACKET len }
  let t ← HAL_SHA_Transform_feed env fuel input len rounds 4 s
  pure (regs, t)

/-- A configuration whose maximum accumulation size lies above `2 ^ 31`. -/
def ex_cfg_big : Kconfig :=
  { MAX_ACCUM_SIZE := 3000000000, PREALLOC_SIZE := 512, TIMEOUT_USEC := 4,
    SHA_INTERRUPT := false }
/-! ## Basic facts about results -/

@[simp] theorem Res.pure_eq {α : Type} (a : α) : (pure a : Res α) = Res.ok a := rfl

@[simp] theorem Res.ok_bind {α β : Type} (a : α) (f : α → Res β) :
    (Res.ok a >>= f) = f a := rfl

@[simp] theorem Res.hang_bind {α β : Type} (f : α → Res β) :
    ((Res.hang : Res α) >>= f) = Res.hang := rfl

@[simp] theorem Res.ub_bind {α β : Type} (f : α → Res β) :
    ((Res.ub : Res α) >>= f) = Res.ub := rfl

theorem Res.bind_eq_ok {α β : Type} {x : Res α} {f : α → Res β} {b : β}
    (h : (x >>= f) = Res.ok b) : ∃ a, x = Res.ok a ∧ f a = Res.ok b := by
  cases x with
  | ok a => exact ⟨a, rfl, h⟩
  | hang => cases h
  | ub => cases h

/-! ## Padding arithmetic -/

theorem bmod_eq (n : Nat) : bmod n = (8 * n) % 512 := by
  unfold bmod U64_MOD SIZE_MOD
  omega

theorem pad_packet_eq (n : Nat) :
    pad_packet n = if (8 * n) % 512 < 448 then (512 - (8 * n) % 512 - 64) / 32
      else (512 - (8 * n) % 512 + 448) / 32 := by
  unfold pad_packet u32_sub u32_add
  rw [bmod_eq]
  unfold SIZE_MOD
  split <;> omega

theorem pad_packet_le (n : Nat) : pad_packet n ≤ 16 := by
  rw [pad_packet_eq]
  split <;> omega

theorem and_mask_of_le {p : Nat} (h : p ≤ 16) : p &&& SHA_PAD_PACKET_MASK = p := by
  unfold SHA_PAD_PACKET_MASK
  interval_cases p <;> rfl

/-! ## Word assembly -/

theorem or_shift_eq_add {w b s : Nat} (hw : w < 2 ^ s) : w ||| (b <<< s) = w + b * 2 ^ s := by
  rw [Nat.lor_comm, Nat.shiftLeft_eq, Nat.mul_comm, ← Nat.mul_add_lt_is_or hw, Nat.add_comm]

theorem byte_at_lt (m : List u8) (i : Nat) : byte_at m i < 256 := by
  unfold byte_at
  split
  · rename_i b _; exact b.isLt
  · omega

theorem byte_at_take {l : List u8} {n i : Nat} (h : i < n) :
    byte_at (l.take n) i = byte_at l i := by
  unfold byte_at
  rw [List.getElem?_take_of_lt h]

theorem byte_at_of_le {m : List u8} {i : Nat} (h : m.length ≤ i) : byte_at m i = 0 := by
  unfold byte_at
  rw [List.getElem?_eq_none h]

theorem assemble_byte_some {l : List u8} {total w bw j : Nat} (hlen : total ≤ l.length)
    (h : bw < total) :
    assemble_byte (some l) total (w, bw) j = Res.ok (w ||| (byte_at l bw <<< (j * 8)), bw + 1) := by
  have hb : bw < l.length := by omega
  unfold assemble_byte byte_at
  rw [if_pos h]
  simp only [List.getElem?_eq_getElem hb, Res.pure_eq]

theorem assemble_byte_skip {src : Option (List u8)} {total w bw j : Nat} (h : ¬ bw < total) :
    assemble_byte src total (w, bw) j = Res.ok (w, bw) := by
  unfold assemble_byte
  rw [if_neg h]
  rfl

theorem assemble_word_eq {l : List u8} {total k : Nat} (hlen : total ≤ l.length)
    (hk : 4 * k < total) :
    assemble_word (some l) total (4 * k)
      = Res.ok (spec_word (l.take total) k, min (4 * k + 4) total) := by
  have h0 := byte_at_lt l (4 * k)
  have h1 := byte_at_lt l (4 * k + 1)
  have h2 := byte_at_lt l (4 * k + 2)
  have h3 := byte_at_lt l (4 * k + 3)
  have e1 : 4 * k + 1 + 1 = 4 * k + 2 := by omega
  have e2 : 4 * k + 2 + 1 = 4 * k + 3 := by omega
  have p1 : (1 : Nat) * 8 = 8 := rfl
  have p2 : (2 : Nat) * 8 = 16 := rfl
  have p3 : (3 : Nat) * 8 = 24 := rfl
  unfold assemble_word spec_word
  rw [assemble_byte_some hlen hk]
  simp only [Res.ok_bind, Nat.zero_or, Nat.zero_mul, Nat.shiftLeft_zero]
  rw [byte_at_take hk]
  by_cases c1 : 4 * k + 1 < total
  · rw [assemble_byte_some hlen c1]
    simp only [Res.ok_bind]
    rw [byte_at_take c1, p1, or_shift_eq_add (by omega), e1]
    by_cases c2 : 4 * k + 2 < total
    · rw [assemble_byte_some hlen c2]
      simp only [Res.ok_bind]
      rw [byte_at_take c2, p2, or_shift_eq_add (by omega), e2]
      by_cases c3 : 4 * k + 3 < total
      · rw [assemble_byte_some hlen c3]
        rw [byte_at_take c3, p3, or_shift_eq_add (by omega)]
        have hm : min (4 * k + 4) total = 4 * k + 3 + 1 := by omega
        rw [hm]
      · rw [assemble_byte_skip c3]
        rw [byte_at_of_le (m := l.take total) (i := 4 * k + 3) (by rw [List.length_take]; omega)]
        have hm : min (4 * k + 4) total = 4 * k + 3 := by omega
        rw [hm]
        simp only [Nat.zero_mul, Nat.add_zero]
    · rw [assemble_byte_skip c2]
      simp only [Res.ok_bind]
      rw [assemble_byte_skip c2]
      rw [byte_at_of_le (m := l.take total) (i := 4 * k + 2) (by rw [List.length_take]; omega)]
      rw [byte_at_of_le (m := l.take total) (i := 4 * k + 3) (by rw [List.length_take]; omega)]
      have hm : min (4 * k + 4) total = 4 * k + 2 := by omega
      rw [hm]
      simp only [Nat.zero_mul, Nat.add_zero]
  · rw [assemble_byte_skip c1]
    simp only [Res.ok_bind]
    rw [assemble_byte_skip c1]
    simp only [Res.ok_bind]
    rw [assemble_byte_skip c1]
    rw [byte_at_of_le (m := l.take total) (i := 4 * k + 1) (by rw [List.length_take]; omega)]
    rw [byte_at_of_le (m := l.take total) (i := 4 * k + 2) (by rw [List.length_take]; omega)]
    rw [byte_at_of_le (m := l.take total) (i := 4 * k + 3) (by rw [List.length_take]; omega)]
    have hm : min (4 * k + 4) total = 4 * k + 1 := by omega
    rw [hm]
    simp only [Nat.zero_mul, Nat.add_zero]
/-! ## Register traffic -/

theorem writes_to_append (off : Nat) (a b : List MmioOp) :
    writes_to off (a ++ b) = writes_to off a ++ writes_to off b := by
  unfold writes_to
  exact List.filterMap_append _ _ _

theorem writes_to_wr (off o v : Nat) :
    writes_to off [MmioOp.wr o v] = if o = off then [v] else [] := by
  unfold writes_to
  by_cases h : o = off <;> simp [h]

theorem writes_to_rd (off o v : Nat) : writes_to off [MmioOp.rd o v] = [] := by
  unfold writes_to
  simp

theorem writes_to_nil (off : Nat) : writes_to off [] = [] := rfl

theorem HwStep.refl (s : Sys) : HwStep s s [] := by
  simp [HwStep]

theorem HwStep.trans {s t u : Sys} {e1 e2 : List MmioOp} (h1 : HwStep s t e1)
    (h2 : HwStep t u e2) : HwStep s u (e1 ++ e2) := by
  obtain ⟨a1, a2, a3, a4⟩ := h1
  obtain ⟨b1, b2, b3, b4⟩ := h2
  refine ⟨b1.trans a1, b2.trans a2, b3.trans a3, ?_⟩
  rw [b4, a4, List.append_assoc]

theorem HwStep.new_ops {s t : Sys} {evs : List MmioOp} (h : HwStep s t evs) :
    new_ops s t = evs := by
  unfold Em32Sha.new_ops
  rw [h.2.2.2, List.drop_left]

theorem hw_write (val off : Nat) (s : Sys) :
    HwStep s (sys_write32 val off s) [MmioOp.wr off val] := by
  simp [HwStep, sys_write32]

theorem hw_read (env : Env) (off : Nat) (s : Sys) :
    HwStep s (sys_read32 env off s).2 [MmioOp.rd off (sys_read32 env off s).1] := by
  simp [HwStep, sys_read32]

theorem read_nread (env : Env) (off : Nat) (s : Sys) :
    (sys_read32 env off s).2.nread = s.nread + 1 := rfl

theorem read_val (env : Env) (off : Nat) (s : Sys) :
    (sys_read32 env off s).1 = env.rd s.nread off % SIZE_MOD := rfl

theorem ready_wait_ok (env : Env) (fuel : Nat) (s t : Sys)
    (h : ready_wait env fuel s = Res.ok t) :
    ∃ evs, HwStep s t evs ∧ ∀ o, writes_to o evs = [] := by
  induction fuel generalizing s with
  | zero =>
    unfold ready_wait at h
    split at h
    · cases h
    · cases h
      exact ⟨_, hw_read env _ s, fun o => writes_to_rd _ _ _⟩
  | succ f ih =>
    unfold ready_wait at h
    split at h
    · obtain ⟨evs, h1, h2⟩ := ih _ h
      refine ⟨_, (hw_read env _ s).trans h1, fun o => ?_⟩
      rw [writes_to_append, writes_to_rd, h2 o]
      rfl
    · cases h
      exact ⟨_, hw_read env _ s, fun o => writes_to_rd _ _ _⟩

theorem ready_wait_live (env : Env) (fuel : Nat) (s : Sys)
    (h : ∃ j, j ≤ fuel ∧ (env.rd (s.nread + j) SHA_CTR_OFFSET % SIZE_MOD) &&& SHA_READY_BIT ≠ 0) :
    ∃ t, ready_wait env fuel s = Res.ok t := by
  induction fuel generalizing s with
  | zero =>
    obtain ⟨j, hj, hr⟩ := h
    have : j = 0 := by omega
    subst this
    unfold ready_wait
    rw [read_val, if_neg (by simpa using hr)]
    exact ⟨_, rfl⟩
  | succ f ih =>
    obtain ⟨j, hj, hr⟩ := h
    unfold ready_wait
    by_cases c : (sys_read32 env SHA_CTR_OFFSET s).1 &&& SHA_READY_BIT = 0
    · rw [if_pos c]
      apply ih
      rw [read_val] at c
      cases j with
      | zero => exact absurd c (by simpa using hr)
      | succ i =>
        refine ⟨i, by omega, ?_⟩
        rw [read_nread]
        rw [show s.nread + 1 + i = s.nread + (i + 1) by omega]
        exact hr
    · rw [if_neg c]
      exact ⟨_, rfl⟩

theorem feed_words_ok (env : Env) (fuel : Nat) (l : List u8) (total : Nat)
    (hlen : total ≤ l.length) (n k : Nat) (s t : Sys) (hk : 4 * (k + n) < total + 4)
    (h : feed_words env fuel (some l) total n k (min (4 * k) total) s = Res.ok t) :
    ∃ evs, HwStep s t evs ∧
      writes_to SHA_IN_OFFSET evs = (List.range n).map (fun i => spec_word (l.take total) (k + i)) ∧
      ∀ o, o ≠ SHA_IN_OFFSET → writes_to o evs = [] := by
  induction n generalizing k s with
  | zero =>
    unfold feed_words at h
    cases h
    exact ⟨[], HwStep.refl _, rfl, fun _ _ => rfl⟩
  | succ n ih =>
    have hk4 : 4 * k < total := by omega
    have hmin : min (4 * k) total = 4 * k := by omega
    unfold feed_words at h
    rw [hmin, assemble_word_eq hlen hk4] at h
    simp only [Res.ok_bind] at h
    obtain ⟨s2, hs2, hrest⟩ := Res.bind_eq_ok h
    have hmin2 : min (4 * k + 4) total = min (4 * (k + 1)) total := by
      rw [show 4 * (k + 1) = 4 * k + 4 by omega]
    rw [hmin2] at hrest
    obtain ⟨evs, h1, h2, h3⟩ := ih (k + 1) s2 (by omega) hrest
    have hw := hw_write (spec_word (l.take total) k) SHA_IN_OFFSET s
    have hmid : ∃ e2, HwStep (sys_write32 (spec_word (l.take total) k) SHA_IN_OFFSET s) s2 e2 ∧
        ∀ o, writes_to o e2 = [] := by
      split at hs2
      · exact ready_wait_ok env fuel _ _ hs2
      · cases hs2
        exact ⟨[], HwStep.refl _, fun _ => rfl⟩
    obtain ⟨e2, hm1, hm2⟩ := hmid
    refine ⟨_, (hw.trans hm1).trans h1, ?_, ?_⟩
    · rw [writes_to_append, writes_to_append, writes_to_wr, if_pos rfl, hm2, h2]
      rw [List.range_succ_eq_map]
      simp only [List.map_cons, List.map_map, List.append_nil, List.singleton_append,
        Nat.add_zero]
      congr 1
      apply List.map_congr_left
      intro i _
      simp only [Function.comp]
      rw [show k + 1 + i = k + (i + 1) by omega]
    · intro o ho
      rw [writes_to_append, writes_to_append, writes_to_wr, if_neg (Ne.symm ho), hm2, h3 o ho]
      rfl

theorem feed_words_live (env : Env) (fuel : Nat) (hr : ReadyWithin env fuel) (l : List u8)
    (total : Nat) (hlen : total ≤ l.length) (n k : Nat) (s : Sys)
    (hk : 4 * (k + n) < total + 4) :
    ∃ t, feed_words env fuel (some l) total n k (min (4 * k) total) s = Res.ok t := by
  induction n generalizing k s with
  | zero => exact ⟨s, rfl⟩
  | succ n ih =>
    have hk4 : 4 * k < total := by omega
    have hmin : min (4 * k) total = 4 * k := by omega
    unfold feed_words
    rw [hmin, assemble_word_eq hlen hk4]
    simp only [Res.ok_bind]
    have hmin2 : min (4 * k + 4) total = min (4 * (k + 1)) total := by
      rw [show 4 * (k + 1) = 4 * k + 4 by omega]
    rw [hmin2]
    split
    · obtain ⟨s2, hs2⟩ := ready_wait_live env fuel
        (sys_write32 (spec_word (l.take total) k) SHA_IN_OFFSET s) (hr _)
      rw [hs2]
      exact ih (k + 1) s2 (by omega)
    · exact ih (k + 1) _ (by omega)

theorem done_wait_ok (cfg : Kconfig) (env : Env) (fuel timeout : Nat) (s : Sys)
    (r : Bool × Sys) (h : done_wait cfg env fuel timeout s = Res.ok r) :
    ∃ evs, HwStep s r.2 evs ∧ ∀ o, writes_to o evs = [] := by
  induction fuel generalizing s timeout with
  | zero =>
    unfold done_wait at h
    split at h
    · cases h
      exact ⟨_, hw_read env _ s, fun o => writes_to_rd _ _ _⟩
    · split at h
      · cases h
        exact ⟨_, hw_read env _ s, fun o => writes_to_rd _ _ _⟩
      · cases h
  | succ f ih =>
    unfold done_wait at h
    split at h
    · cases h
      exact ⟨_, hw_read env _ s, fun o => writes_to_rd _ _ _⟩
    · split at h
      · cases h
        exact ⟨_, hw_read env _ s, fun o => writes_to_rd _ _ _⟩
      · obtain ⟨evs, h1, h2⟩ := ih _ _ h
        refine ⟨_, (hw_read env _ s).trans h1, fun o => ?_⟩
        rw [writes_to_append, writes_to_rd, h2 o]
        rfl

theorem done_wait_live (cfg : Kconfig) (env : Env) (hT : cfg.TIMEOUT_USEC + 1 < SIZE_MOD)
    (fuel timeout : Nat) (s : Sys) (hc : timeout ≤ cfg.TIMEOUT_USEC + 1)
    (hf : cfg.TIMEOUT_USEC + 1 ≤ fuel + timeout) :
    ∃ r, done_wait cfg env fuel timeout s = Res.ok r := by
  induction fuel generalizing s timeout with
  | zero =>
    unfold done_wait
    split
    · exact ⟨_, rfl⟩
    · rw [if_pos (by omega)]
      exact ⟨_, rfl⟩
  | succ f ih =>
    unfold done_wait
    split
    · exact ⟨_, rfl⟩
    · split
      · exact ⟨_, rfl⟩
      · have hlt : timeout + 1 < SIZE_MOD := by omega
        rw [Nat.mod_eq_of_lt hlt]
        exact ih _ _ (by omega) (by omega)

theorem read_digest_ok (env : Env) (n i : Nat) (out : List Nat) (s : Sys)
    (r : List Nat × Sys) (h : read_digest env n i out s = Res.ok r) :
    ∃ evs, HwStep s r.2 evs ∧ ∀ o, writes_to o evs = [] := by
  induction n generalizing i out s with
  | zero =>
    unfold read_digest at h
    cases h
    exact ⟨[], HwStep.refl _, fun _ => rfl⟩
  | succ n ih =>
    unfold read_digest at h
    split at h
    · obtain ⟨evs, h1, h2⟩ := ih _ _ _ h
      refine ⟨_, (hw_read env _ s).trans h1, fun o => ?_⟩
      rw [writes_to_append, writes_to_rd, h2 o]
      rfl
    · cases h

theorem read_digest_live (env : Env) (n i : Nat) (out : List Nat) (s : Sys)
    (h : i + n ≤ out.length) : ∃ r, read_digest env n i out s = Res.ok r := by
  induction n generalizing i out s with
  | zero => exact ⟨_, rfl⟩
  | succ n ih =>
    unfold read_digest
    rw [if_pos (by omega)]
    apply ih
    rw [List.length_set]
    omega

theorem words_lo_le (n : Nat) : 4 * words_lo n ≤ n + 3 := by
  unfold words_lo SIZE_MOD
  omega

theorem words_lo_eq {n : Nat} (h : n + 3 < SIZE_MOD) : words_lo n = (n + 3) / 4 := by
  unfold words_lo
  rw [Nat.mod_eq_of_lt h]

theorem set_state_pack {s t : Sys} {st : sha_operation_state} {evs : List MmioOp}
    (st2 : sha_operation_state) (h : HwStep (set_state st s) t evs) :
    (set_state st2 t).mmio = s.mmio ++ evs ∧ (set_state st2 t).nmalloc = s.nmalloc ∧
      (set_state st2 t).released = s.released ∧
      (set_state st2 t).data = { s.data with state := st2 } := by
  obtain ⟨h1, h2, h3, h4⟩ := h
  refine ⟨h4, h2, h3, ?_⟩
  show { t.data with state := st2 } = _
  rw [h1]
  rfl

theorem feed_words_src (env : Env) (fuel : Nat) (src : Option (List u8)) (total : Nat)
    (hlen : total ≤ (src.getD []).length) (s t : Sys)
    (h : feed_words env fuel src total (words_lo total) 0 0 s = Res.ok t) :
    ∃ evs, HwStep s t evs ∧
      writes_to SHA_IN_OFFSET evs
        = (List.range (words_lo total)).map (spec_word ((src.getD []).take total)) ∧
      ∀ o, o ≠ SHA_IN_OFFSET → writes_to o evs = [] := by
  have hw := words_lo_le total
  cases src with
  | none =>
    have h0 : total = 0 := by simpa using hlen
    subst h0
    have hz : words_lo 0 = 0 := by decide
    rw [hz] at h ⊢
    unfold feed_words at h
    cases h
    exact ⟨[], HwStep.refl _, rfl, fun _ _ => rfl⟩
  | some l =>
    have hz : min (4 * 0) total = 0 := by simp
    have h' : feed_words env fuel (some l) total (words_lo total) 0 (min (4 * 0) total) s
        = Res.ok t := by rw [hz]; exact h
    obtain ⟨evs, h1, h2, h3⟩ :=
      feed_words_ok env fuel l total (by simpa using hlen) (words_lo total) 0 s t (by omega) h'
    refine ⟨evs, h1, ?_, h3⟩
    rw [h2]
    simp

/-- Register traffic of a finalize call that returns. -/
theorem finish_ok (cfg : Kconfig) (env : Env) (fuel : Nat) (s : Sys) (pkt : hash_pkt) (r : Ret)
    (hlen : active_len s ≤ ((active_src s).getD []).length)
    (h : handler_finish cfg env fuel s pkt = Res.ok r) :
    ∃ feed tail,
      r.sys.mmio = s.mmio ++
        ([MmioOp.wr SHA_CTR_OFFSET (SHA_WR_REV_BIT ||| SHA_RD_REV_BIT),
          MmioOp.wr SHA_DATALEN_OFFSET (words_lo (active_len s)),
          MmioOp.wr SHA_DATALEN_5832_OFFSET 0,
          MmioOp.wr SHA_PAD_CTR_OFFSET (pad_ctrl (active_len s)),
          MmioOp.wr SHA_CTR_OFFSET ((SHA_WR_REV_BIT ||| SHA_RD_REV_BIT) ||| SHA_STR_BIT)]
          ++ feed ++ tail) ∧
      writes_to SHA_IN_OFFSET feed
        = (List.range (words_lo (active_len s))).map (spec_word (accumulated s)) ∧
      (∀ o, o ≠ SHA_IN_OFFSET → writes_to o feed = []) ∧
      (∀ o, o ≠ SHA_CTR_OFFSET → writes_to o tail = []) ∧
      r.sys.nmalloc = s.nmalloc ∧ r.sys.released = s.released ∧
      ∃ st, r.sys.data = { s.data with state := st } ∧
        ((r.rc = 0 ∧ st = .SHA_STATE_IDLE) ∨ (r.rc ≠ 0 ∧ st = .SHA_STATE_ERROR)) := by

  unfold handler_finish at h
  dsimp only at h
  obtain ⟨s6, hfeed, hrest⟩ := Res.bind_eq_ok h
  have hsrc : active_src (set_state .SHA_STATE_BUSY s) = active_src s := rfl
  have hal : active_len (set_state .SHA_STATE_BUSY s) = active_len s := rfl
  rw [hsrc, hal] at hfeed
  obtain ⟨feed, hf1, hf2, hf3⟩ := feed_words_src env fuel _ _ hlen _ _ hfeed
  have h5 := ((((hw_write (SHA_WR_REV_BIT ||| SHA_RD_REV_BIT) SHA_CTR_OFFSET
      (set_state .SHA_STATE_BUSY s)).trans
      (hw_write (words_lo (active_len s)) SHA_DATALEN_OFFSET _)).trans
      (hw_write 0 SHA_DATALEN_5832_OFFSET _)).trans
      (hw_write (pad_ctrl (active_len s)) SHA_PAD_CTR_OFFSET _)).trans
      (hw_write ((SHA_WR_REV_BIT ||| SHA_RD_REV_BIT) ||| SHA_STR_BIT) SHA_CTR_OFFSET _)
  have h6 := h5.trans hf1
  have hacc : (List.range (words_lo (active_len s))).map
      (spec_word (((active_src s).getD []).take (active_len s)))
      = (List.range (words_lo (active_len s))).map (spec_word (accumulated s)) := rfl
  rw [hacc] at hf2
  cases hout : pkt.out_buf with
  | none =>
    rw [hout] at hrest
    cases hrest
    obtain ⟨p1, p2, p3, p4⟩ := set_state_pack .SHA_STATE_ERROR h6
    refine ⟨feed, [], ?_, hf2, hf3, fun _ _ => rfl, p2, p3, _, p4,
      Or.inr ⟨by show (- EINVAL : Int) ≠ 0; decide, rfl⟩⟩
    rw [p1]
    simp
  | some out =>
    rw [hout] at hrest
    dsimp only at hrest
    obtain ⟨d, hd, hrest2⟩ := Res.bind_eq_ok hrest
    obtain ⟨e7, hd1, hd2⟩ := done_wait_ok cfg env fuel 0 s6 d hd
    have h7 := h6.trans hd1
    split at hrest2
    · cases hrest2
      obtain ⟨p1, p2, p3, p4⟩ := set_state_pack .SHA_STATE_ERROR h7
      refine ⟨feed, e7, ?_, hf2, hf3, fun o _ => hd2 o, p2, p3, _, p4,
        Or.inr ⟨by show (- ETIMEDOUT : Int) ≠ 0; decide, rfl⟩⟩
      rw [p1]
      simp
    · obtain ⟨o, ho, hrest3⟩ := Res.bind_eq_ok hrest2
      cases hrest3
      obtain ⟨e9, ho1, ho2⟩ := read_digest_ok env _ _ _ _ o ho
      have h9 := ((h7.trans (hw_read env SHA_CTR_OFFSET d.2)).trans
        (hw_write ((sys_read32 env SHA_CTR_OFFSET d.2).1 ||| SHA_INT_CLR_BIT) SHA_CTR_OFFSET _)).trans ho1
      obtain ⟨p1, p2, p3, p4⟩ := set_state_pack .SHA_STATE_IDLE h9
      refine ⟨feed, e7 ++ [MmioOp.rd SHA_CTR_OFFSET (sys_read32 env SHA_CTR_OFFSET d.2).1] ++
        [MmioOp.wr SHA_CTR_OFFSET ((sys_read32 env SHA_CTR_OFFSET d.2).1 ||| SHA_INT_CLR_BIT)]
        ++ e9, ?_, hf2, hf3, ?_, p2, p3, _, p4, Or.inl ⟨rfl, rfl⟩⟩
      · rw [p1]
        simp
      · intro o' ho'
        rw [writes_to_append, writes_to_append, writes_to_append, hd2, ho2, writes_to_rd,
          writes_to_wr, if_neg (Ne.symm ho')]
        rfl
theorem feed_words_src_live (env : Env) (fuel : Nat) (hr : ReadyWithin env fuel)
    (src : Option (List u8)) (total : Nat) (hlen : total ≤ (src.getD []).length) (s : Sys) :
    ∃ t, feed_words env fuel src total (words_lo total) 0 0 s = Res.ok t := by
  have hw := words_lo_le total
  cases src with
  | none =>
    have h0 : total = 0 := by simpa using hlen
    subst h0
    have hz : words_lo 0 = 0 := by decide
    rw [hz]
    exact ⟨s, rfl⟩
  | some l =>
    have hz : min (4 * 0) total = 0 := by simp
    have := feed_words_live env fuel hr l total (by simpa using hlen) (words_lo total) 0 s
      (by omega)
    rw [hz] at this
    exact this

/-- A finalize call returns when the accelerator answers the flow-control polls and the
iteration budget covers the completion timeout. -/
theorem finish_live (cfg : Kconfig) (env : Env) (fuel : Nat) (s : Sys) (pkt : hash_pkt)
    (hlen : active_len s ≤ ((active_src s).getD []).length)
    (hr : ReadyWithin env fuel) (hT : cfg.TIMEOUT_USEC + 1 < SIZE_MOD)
    (hf : cfg.TIMEOUT_USEC + 1 ≤ fuel) (hout : ∀ o, pkt.out_buf = some o → 8 ≤ o.length) :
    ∃ r, handler_finish cfg env fuel s pkt = Res.ok r := by
  unfold handler_finish
  dsimp only
  have hsrc : active_src (set_state .SHA_STATE_BUSY s) = active_src s := rfl
  have hal : active_len (set_state .SHA_STATE_BUSY s) = active_len s := rfl
  rw [hsrc, hal]
  obtain ⟨s6, hs6⟩ := feed_words_src_live env fuel hr (active_src s) (active_len s) hlen
    (sys_write32 ((SHA_WR_REV_BIT ||| SHA_RD_REV_BIT) ||| SHA_STR_BIT) SHA_CTR_OFFSET
      (sys_write32 (pad_ctrl (active_len s)) SHA_PAD_CTR_OFFSET
        (sys_write32 0 SHA_DATALEN_5832_OFFSET
          (sys_write32 (words_lo (active_len s)) SHA_DATALEN_OFFSET
            (sys_write32 (SHA_WR_REV_BIT ||| SHA_RD_REV_BIT) SHA_CTR_OFFSET
              (set_state .SHA_STATE_BUSY s))))))
  rw [hs6]
  simp only [Res.ok_bind]
  cases ho : pkt.out_buf with
  | none => exact ⟨_, rfl⟩
  | some out =>
    dsimp only
    obtain ⟨d, hd⟩ := done_wait_live cfg env hT fuel 0 s6 (by omega) (by omega)
    rw [hd]
    simp only [Res.ok_bind]
    split
    · exact ⟨_, rfl⟩
    · obtain ⟨o, ho2⟩ := read_digest_live env 8 0 out
        (sys_write32 ((sys_read32 env SHA_CTR_OFFSET d.2).1 ||| SHA_INT_CLR_BIT) SHA_CTR_OFFSET
          (sys_read32 env SHA_CTR_OFFSET d.2).2) (by have := hout out ho; omega)
      rw [ho2]
      exact ⟨_, rfl⟩

/-- Dispatch of the handler for the owner of a session that is not in the error state. -/
theorem handler_finish_eq (cfg : Kconfig) (env : Env) (fuel : Nat) (s : Sys) (h : Nat)
    (pkt : hash_pkt) (ha : s.data.session_active = true) (hc : s.data.ctx = some h)
    (hs : s.data.state ≠ .SHA_STATE_ERROR) :
    em32_sha256_handler cfg env fuel s h pkt true = handler_finish cfg env fuel s pkt := by
  unfold em32_sha256_handler
  rw [if_neg (by simp [ha, hc]), if_neg hs, if_neg (by simp), if_pos rfl]

theorem handler_update_eq (cfg : Kconfig) (env : Env) (fuel : Nat) (s : Sys) (h : Nat)
    (pkt : hash_pkt) (ha : s.data.session_active = true) (hc : s.data.ctx = some h)
    (hs : s.data.state ≠ .SHA_STATE_ERROR) (hl : 0 < pkt.in_len) :
    em32_sha256_handler cfg env fuel s h pkt false = handler_update cfg env fuel s pkt := by
  unfold em32_sha256_handler
  rw [if_neg (by simp [ha, hc]), if_neg hs, if_pos ⟨rfl, hl⟩]

theorem handler_empty_eq (cfg : Kconfig) (env : Env) (fuel : Nat) (s : Sys) (h : Nat)
    (pkt : hash_pkt) (ha : s.data.session_active = true) (hc : s.data.ctx = some h)
    (hs : s.data.state ≠ .SHA_STATE_ERROR) (hl : pkt.in_len = 0) :
    em32_sha256_handler cfg env fuel s h pkt false = Res.ok ⟨0, s, pkt.out_buf⟩ := by
  unfold em32_sha256_handler
  rw [if_neg (by simp [ha, hc]), if_neg hs, if_neg (by simp [hl]), if_neg (by simp)]
  rfl

/-! ## The dynamic buffer -/

theorem pow2s_le : ∀ c ∈ pow2s, c ≤ 2147483648 := by decide

theorem pow2s_double : ∀ c ∈ pow2s, (c * 2) % SIZE_MOD ∈ pow2s := by decide

theorem pow2s_512 : 512 ∈ pow2s := by decide

theorem memcpy_ok {dst src r : List u8} {off n : Nat} (h : memcpy dst off src n = Res.ok r) :
    off + n ≤ dst.length ∧ n ≤ src.length ∧ r = dst.take off ++ src.take n ++ dst.drop (off + n) := by
  unfold memcpy at h
  split at h
  · rename_i hc
    cases h
    exact ⟨hc.1, hc.2, rfl⟩
  · cases h

theorem memcpy_length {dst src r : List u8} {off n : Nat} (h : memcpy dst off src n = Res.ok r) :
    r.length = dst.length := by
  obtain ⟨h1, h2, rfl⟩ := memcpy_ok h
  simp only [List.length_append, List.length_take, List.length_drop]
  omega

theorem memcpy_take {dst src r : List u8} {off n : Nat} (h : memcpy dst off src n = Res.ok r) :
    r.take (off + n) = dst.take off ++ src.take n := by
  obtain ⟨h1, h2, rfl⟩ := memcpy_ok h
  rw [List.take_append_of_le_length (by simp; omega)]
  rw [List.take_of_length_le (by simp; omega)]

theorem grow_cap_ok (cfg : Kconfig) (need fuel c r : Nat) (hc : c ∈ pow2s)
    (h : grow_cap cfg need fuel c = Res.ok r) :
    (r = c ∧ need ≤ c) ∨
    (r ∈ pow2s ∧ r ≤ cfg.MAX_ACCUM_SIZE ∧ need ≤ r) ∨
    (r = cfg.MAX_ACCUM_SIZE ∧ cfg.MAX_ACCUM_SIZE < 2147483648) := by
  induction fuel generalizing c with
  | zero =>
    unfold grow_cap at h
    split at h
    · cases h
    · cases h
      left
      exact ⟨rfl, by omega⟩
  | succ f ih =>
    unfold grow_cap at h
    split at h
    · rename_i hlt
      have hd := pow2s_double c hc
      have hle := pow2s_le _ hd
      split at h
      · rename_i hgt
        cases h
        right; right
        have : cfg.MAX_ACCUM_SIZE < 2147483648 := by omega
        refine ⟨?_, this⟩
        unfold SIZE_MOD
        omega
      · rename_i hng
        rcases ih _ hd h with ⟨h1, h2⟩ | h2 | h3
        · right; left
          subst h1
          exact ⟨hd, by omega, h2⟩
        · right; left; exact h2
        · right; right; exact h3
    · cases h
      left
      exact ⟨rfl, by omega⟩

theorem install_block_ok (s : Sys) (new_buf : List u8) (new_cap : Nat) (rc : Int) (t : Sys)
    (hlen : s.data.accum_len ≤ (s.data.accum_buf.getD []).length)
    (hnb : new_buf.length = new_cap)
    (h : install_block s new_buf new_cap = Res.ok (rc, t)) :
    rc = 0 ∧ t.mmio = s.mmio ∧ t.nread = s.nread ∧ t.nmalloc = s.nmalloc ∧
    ∃ nb, t.data = { s.data with accum_buf := some nb, accum_cap := new_cap } ∧
      nb.length = new_cap ∧
      nb.take s.data.accum_len = (s.data.accum_buf.getD []).take s.data.accum_len := by
  unfold install_block at h
  split at h
  · rename_i hne
    split at h
    · rename_i old hold
      obtain ⟨nb, hm, hrest⟩ := Res.bind_eq_ok h
      cases hrest
      refine ⟨rfl, rfl, rfl, rfl, nb, rfl, ?_, ?_⟩
      · rw [memcpy_length hm, hnb]
      · have := memcpy_take hm
        rw [Nat.zero_add] at this
        rw [this, hold]
        simp
    · rename_i hnone
      rw [hnone] at hlen
      simp at hlen
      exact absurd hlen hne
  · rename_i hz
    have hz' : s.data.accum_len = 0 := by
      by_contra hc
      exact hz hc
    cases h
    refine ⟨rfl, rfl, rfl, rfl, new_buf, rfl, hnb, ?_⟩
    rw [hz']
    simp

theorem ensure_ok (cfg : Kconfig) (env : Env) (fuel : Nat) (s : Sys) (need : Nat) (rc : Int)
    (t : Sys) (hcap : CapOk cfg s.data.accum_cap)
    (hblk : (s.data.accum_buf.getD []).length = s.data.accum_cap)
    (hlen : s.data.accum_len ≤ s.data.accum_cap)
    (h : ensure_accum_capacity cfg env fuel s need = Res.ok (rc, t)) :
    t.mmio = s.mmio ∧ t.nread = s.nread ∧
    ((rc = - ENOMEM ∧ t.data = s.data ∧ s.data.accum_cap < need ∧
        (cfg.MAX_ACCUM_SIZE < need ∨ ∃ size, env.malloc_ok s.nmalloc size = false)) ∨
     (rc = 0 ∧ ∃ nb c, t.data = { s.data with accum_buf := nb, accum_cap := c } ∧
        (nb.getD []).length = c ∧ need ≤ c ∧ CapOk cfg c ∧ s.data.accum_cap ≤ c ∧
        (nb.getD []).take s.data.accum_len
          = (s.data.accum_buf.getD []).take s.data.accum_len)) := by
  unfold ensure_accum_capacity at h
  split at h
  · rename_i hge
    cases h
    refine ⟨rfl, rfl, Or.inr ⟨rfl, s.data.accum_buf, s.data.accum_cap, rfl, hblk, hge, hcap,
      Nat.le_refl _, rfl⟩⟩
  · rename_i hlt
    split at h
    · rename_i hgt
      cases h
      exact ⟨rfl, rfl, Or.inl ⟨rfl, rfl, by omega, Or.inl hgt⟩⟩
    · rename_i hmax
      obtain ⟨new_cap, hg, hrest⟩ := Res.bind_eq_ok h
      have hstart : (if s.data.accum_cap ≠ 0 then s.data.accum_cap else 512) ∈ pow2s := by
        split
        · rcases hcap.1 with h1 | h1
          · omega
          · exact h1
        · exact pow2s_512
      have hnew : need ≤ new_cap ∧ CapOk cfg new_cap := by
        rcases grow_cap_ok cfg need fuel _ new_cap hstart hg with ⟨h1, h2⟩ | ⟨h1, h2, h3⟩ | ⟨h1, h2⟩
        · have h512 : new_cap = 512 := by
            rw [h1]
            split
            · rename_i hne
              rw [if_pos hne] at h2
              omega
            · rfl
          refine ⟨by rw [h1]; exact h2, ?_⟩
          rw [h512]
          exact ⟨Or.inr pow2s_512, by omega, Or.inr rfl⟩
        · exact ⟨h3, Or.inr h1, pow2s_le _ h1, Or.inl h2⟩
        · exact ⟨by omega, Or.inl h1, by omega, Or.inl (by omega)⟩
      cases hm : env.malloc_ok s.nmalloc new_cap with
      | true =>
        have hk : k_malloc env new_cap s
            = (some ((List.range new_cap).map (env.junk s.nmalloc)),
               { s with nmalloc := s.nmalloc + 1 }) := by
          unfold k_malloc
          rw [if_pos hm]
        rw [hk] at hrest
        obtain ⟨h0, h1, h2, _, nb, h4, h5, h6⟩ := install_block_ok _ _ new_cap rc t
          (by show s.data.accum_len ≤ (s.data.accum_buf.getD []).length; omega)
          (by simp) hrest
        exact ⟨h1, h2, Or.inr ⟨h0, some nb, new_cap, h4, h5, hnew.1, hnew.2, by omega, h6⟩⟩
      | false =>
        have hk : k_malloc env new_cap s = (none, { s with nmalloc := s.nmalloc + 1 }) := by
          unfold k_malloc
          rw [if_neg (by simp [hm])]
        rw [hk] at hrest
        cases hrest
        exact ⟨rfl, rfl, Or.inl ⟨rfl, rfl, by omega, Or.inr ⟨new_cap, hm⟩⟩⟩

/-! ## Update calls keep the session invariant and extend the message -/

theorem accumulated_length {cfg : Kconfig} {s : Sys} {h : Nat} (hs : Sess cfg s h) :
    (accumulated s).length = active_len s := by
  unfold accumulated active_src active_len
  cases hu : s.data.use_accum with
  | true =>
    simp only [if_true, List.length_take]
    have := hs.len_le
    have := hs.blk_len
    omega
  | false =>
    simp only [Bool.false_eq_true, if_false, Option.getD_some, List.length_take]
    have := (hs.inline_ok hu).1
    have := hs.buf256
    omega

theorem accum_append_ok (cfg : Kconfig) (env : Env) (fuel : Nat) (s : Sys) (h : Nat)
    (src : List u8) (len : Nat) (rc : Int) (t : Sys) (hs : Sess cfg s h)
    (hu : s.data.use_accum = true) (hl : len ≠ 0)
    (hr : accum_append cfg env fuel s src len = Res.ok (rc, t)) :
    t.mmio = s.mmio ∧
    ((rc = - ENOMEM ∧ t.data = s.data ∧
        s.data.accum_cap < (s.data.accum_len + len) % SIZE_MOD ∧
        (cfg.MAX_ACCUM_SIZE < (s.data.accum_len + len) % SIZE_MOD ∨
          ∃ size, env.malloc_ok s.nmalloc size = false)) ∨
     (rc = 0 ∧ Sess cfg t h ∧ t.data.use_accum = true ∧
        accumulated t = accumulated s ++ src.take len ∧
        active_len t = active_len s + len ∧ len ≤ src.length)) := by
  unfold accum_append at hr
  rw [if_neg hl] at hr
  obtain ⟨r, he, hrest⟩ := Res.bind_eq_ok hr
  obtain ⟨rc1, s1⟩ := r
  obtain ⟨hm, _, hcase⟩ := ensure_ok cfg env fuel s _ rc1 s1 hs.cap_ok hs.blk_len hs.len_le he
  dsimp only at hrest
  rcases hcase with ⟨h1, h2, hlt, hwhy⟩ | ⟨h1, nb, c, h2, h3, h4, h5, h6, h7⟩
  · have hne : rc1 ≠ 0 := by rw [h1]; decide
    rw [if_pos hne] at hrest
    cases hrest
    exact ⟨hm, Or.inl ⟨h1, h2, hlt, hwhy⟩⟩
  · rw [if_neg (by rw [h1]; simp)] at hrest
    have hab : s1.data.accum_buf = nb := by rw [h2]
    have hal : s1.data.accum_len = s.data.accum_len := by rw [h2]
    rw [hab, hal] at hrest
    cases nb with
    | none => cases hrest
    | some blk =>
      dsimp only at hrest
      obtain ⟨blk2, hcp, hfin⟩ := Res.bind_eq_ok hrest
      cases hfin
      obtain ⟨hb1, hb2, _⟩ := memcpy_ok hcp
      have hlen2 := memcpy_length hcp
      have htk := memcpy_take hcp
      simp only [Option.getD_some] at h3 h7
      have hc31 := h5.2.1
      have hmod : (s.data.accum_len + len) % SIZE_MOD = s.data.accum_len + len := by
        apply Nat.mod_eq_of_lt
        unfold SIZE_MOD
        omega
      refine ⟨hm, Or.inr ⟨rfl, ?_, ?_, ?_, ?_, hb2⟩⟩
      · refine ⟨?_, ?_, ?_, ?_, ?_, ?_, ?_, ?_, ?_⟩
        · show s1.data.session_active = true
          rw [h2]; exact hs.active
        · show s1.data.ctx = some h
          rw [h2]; exact hs.owner
        · show s1.data.state ≠ _
          rw [h2]; exact hs.state_ok
        · show s1.data.buffer.length = 256
          rw [h2]; exact hs.buf256
        · intro hf
          have : s1.data.use_accum = false := hf
          rw [h2] at this
          rw [hu] at this
          cases this
        · intro _
          show s1.data.buffer_len = 0
          rw [h2]; exact hs.accum_ok hu
        · show (s.data.accum_len + len) % SIZE_MOD ≤ s1.data.accum_cap
          rw [hmod, h2]
          show s.data.accum_len + len ≤ c
          omega
        · show blk2.length = s1.data.accum_cap
          rw [h2, hlen2]
          exact h3
        · show CapOk cfg s1.data.accum_cap
          rw [h2]; exact h5
      · show s1.data.use_accum = true
        rw [h2]; exact hu
      · unfold accumulated active_src active_len
        have e1 : s1.data.use_accum = true := by rw [h2]; exact hu
        simp only [e1, hu, if_true, Option.getD_some]
        rw [hmod, htk, h7]
      · unfold active_len
        have e1 : s1.data.use_accum = true := by rw [h2]; exact hu
        simp only [e1, hu, if_true]
        exact hmod

theorem prealloc_size_le (cfg : Kconfig) (n : Nat) : prealloc_size cfg n ≤ cfg.MAX_ACCUM_SIZE := by
  unfold prealloc_size SIZE_MOD
  dsimp only
  split <;> split <;> omega

theorem prealloc_size_ge (cfg : Kconfig) (n : Nat) (h : n ≤ cfg.MAX_ACCUM_SIZE) :
    n ≤ prealloc_size cfg n := by
  unfold prealloc_size SIZE_MOD
  dsimp only
  split <;> split <;> omega

theorem migrate_ok (cfg : Kconfig) (env : Env) (fuel : Nat) (s : Sys) (h : Nat) (in_len : Nat)
    (rc : Int) (t : Sys) (hs : Sess cfg s h) (hu : s.data.use_accum = false)
    (hr : migrate cfg env fuel s in_len = Res.ok (rc, t)) :
    t.mmio = s.mmio ∧
    ((rc = - ENOMEM ∧ t.data = s.data ∧ ∃ size, env.malloc_ok s.nmalloc size = false) ∨
     (rc = 0 ∧ Sess cfg t h ∧ t.data.use_accum = true ∧ accumulated t = accumulated s ∧
        active_len t = active_len s ∧
        ((s.data.buffer_len + in_len) % SIZE_MOD ≤ cfg.MAX_ACCUM_SIZE →
          (s.data.buffer_len + in_len) % SIZE_MOD ≤ t.data.accum_cap))) := by
  unfold migrate at hr
  dsimp only at hr
  obtain ⟨r, he, hrest⟩ := Res.bind_eq_ok hr
  obtain ⟨rc1, s1⟩ := r
  obtain ⟨hm, _, hcase⟩ := ensure_ok cfg env fuel s _ rc1 s1 hs.cap_ok hs.blk_len hs.len_le he
  dsimp only at hrest
  obtain ⟨hbl, hal0⟩ := hs.inline_ok hu
  have hb256 := hs.buf256
  rcases hcase with ⟨h1, h2, _, hwhy⟩ | ⟨h1, nb, c, h2, h3, h4, h5, h6, h7⟩
  · have hne : rc1 ≠ 0 := by rw [h1]; decide
    rw [if_pos hne] at hrest
    cases hrest
    refine ⟨hm, Or.inl ⟨h1, h2, ?_⟩⟩
    rcases hwhy with hgt | hfail
    · have := prealloc_size_le cfg ((s.data.buffer_len + in_len) % SIZE_MOD)
      omega
    · exact hfail
  · rw [if_neg (by rw [h1]; simp)] at hrest
    have hcapge : (s.data.buffer_len + in_len) % SIZE_MOD ≤ cfg.MAX_ACCUM_SIZE →
        (s.data.buffer_len + in_len) % SIZE_MOD ≤ s1.data.accum_cap := by
      intro hle
      have hc : s1.data.accum_cap = c := by rw [h2]
      rw [hc]
      have := prealloc_size_ge cfg _ hle
      omega
    have hab : s1.data.accum_buf = nb := by rw [h2]
    have hbl1 : s1.data.buffer_len = s.data.buffer_len := by rw [h2]
    have hbf1 : s1.data.buffer = s.data.buffer := by rw [h2]
    have hacc0 : accumulated s = s.data.buffer.take s.data.buffer_len := by
      unfold accumulated active_src active_len
      simp [hu]
    have hlen0 : active_len s = s.data.buffer_len := by
      unfold active_len
      simp [hu]
    rw [hbl1] at hrest
    split at hrest
    · rename_i hne
      rw [hab, hbf1] at hrest
      cases nb with
      | none => cases hrest
      | some blk =>
        dsimp only at hrest
        obtain ⟨blk2, hcp, hfin⟩ := Res.bind_eq_ok hrest
        cases hfin
        obtain ⟨hb1, hb2, _⟩ := memcpy_ok hcp
        have hlen2 := memcpy_length hcp
        have htk := memcpy_take hcp
        simp only [Option.getD_some] at h3
        rw [Nat.zero_add] at htk hb1
        refine ⟨hm, Or.inr ⟨rfl, ?_, rfl, ?_, ?_, hcapge⟩⟩
        · refine ⟨?_, ?_, ?_, ?_, ?_, ?_, ?_, ?_, ?_⟩
          · show s1.data.session_active = true
            rw [h2]; exact hs.active
          · show s1.data.ctx = some h
            rw [h2]; exact hs.owner
          · show s1.data.state ≠ _
            rw [h2]; exact hs.state_ok
          · show s.data.buffer.length = 256
            exact hs.buf256
          · intro hf
            cases hf
          · intro _
            rfl
          · show s.data.buffer_len ≤ s1.data.accum_cap
            rw [h2]
            show s.data.buffer_len ≤ c
            omega
          · show blk2.length = s1.data.accum_cap
            rw [h2, hlen2]
            exact h3
          · show CapOk cfg s1.data.accum_cap
            rw [h2]; exact h5
        · rw [hacc0]
          unfold accumulated active_src active_len
          simp only [if_true, Option.getD_some]
          rw [htk]
          simp
        · rw [hlen0]
          rfl
    · rename_i hz
      have hz' : s.data.buffer_len = 0 := by
        by_contra hc
        exact hz hc
      cases hrest
      have hal1 : s1.data.accum_len = 0 := by rw [h2]; exact hal0
      refine ⟨hm, Or.inr ⟨rfl, ?_, rfl, ?_, ?_, hcapge⟩⟩
      · refine ⟨?_, ?_, ?_, ?_, ?_, ?_, ?_, ?_, ?_⟩
        · show s1.data.session_active = true
          rw [h2]; exact hs.active
        · show s1.data.ctx = some h
          rw [h2]; exact hs.owner
        · show s1.data.state ≠ _
          rw [h2]; exact hs.state_ok
        · show s1.data.buffer.length = 256
          rw [h2]; exact hs.buf256
        · intro hf
          cases hf
        · intro _
          show s.data.buffer_len = 0
          exact hz'
        · show s1.data.accum_len ≤ s1.data.accum_cap
          rw [hal1]
          exact Nat.zero_le _
        · show (s1.data.accum_buf.getD []).length = s1.data.accum_cap
          rw [h2]
          exact h3
        · show CapOk cfg s1.data.accum_cap
          rw [h2]; exact h5
      · rw [hacc0, hz']
        unfold accumulated active_src active_len
        simp only [if_true]
        show List.take s1.data.accum_len _ = _
        rw [hal1]
        simp
      · rw [hlen0, hz']
        unfold active_len
        simp only [if_true]
        exact hal1

theorem handler_update_ok (cfg : Kconfig) (env : Env) (fuel : Nat) (s : Sys) (h : Nat)
    (pkt : hash_pkt) (src : List u8) (r : Ret) (hs : Sess cfg s h)
    (hsrc : pkt.in_buf = some src) (hl : 0 < pkt.in_len)
    (hr : handler_update cfg env fuel s pkt = Res.ok r) :
    r.sys.mmio = s.mmio ∧ r.out = pkt.out_buf ∧ Sess cfg r.sys h ∧
    ((r.rc = - ENOMEM ∧ accumulated r.sys = accumulated s ∧ active_len r.sys = active_len s ∧
        (cfg.MAX_ACCUM_SIZE < (active_len s + pkt.in_len) % SIZE_MOD ∨
          ∃ size, env.malloc_ok s.nmalloc size = false)) ∨
     (r.rc = 0 ∧ accumulated r.sys = accumulated s ++ src.take pkt.in_len ∧
        active_len r.sys = active_len s + pkt.in_len ∧ pkt.in_len ≤ src.length)) := by
  have sess_of_data : ∀ t : Sys, t.data = s.data → Sess cfg t h := by
    intro t ht
    exact ⟨by rw [ht]; exact hs.active, by rw [ht]; exact hs.owner, by rw [ht]; exact hs.state_ok,
      by rw [ht]; exact hs.buf256, by rw [ht]; exact hs.inline_ok, by rw [ht]; exact hs.accum_ok,
      by rw [ht]; exact hs.len_le, by rw [ht]; exact hs.blk_len, by rw [ht]; exact hs.cap_ok⟩
  have acc_of_data : ∀ t : Sys, t.data = s.data →
      accumulated t = accumulated s ∧ active_len t = active_len s := by
    intro t ht
    unfold accumulated active_src active_len
    rw [ht]
    exact ⟨rfl, rfl⟩
  unfold handler_update at hr
  rw [hsrc] at hr
  dsimp only at hr
  split at hr
  · rename_i hc
    obtain ⟨hu, hlt⟩ := hc
    obtain ⟨buf, hcp, hfin⟩ := Res.bind_eq_ok hr
    cases hfin
    obtain ⟨hb1, hb2, _⟩ := memcpy_ok hcp
    have hlen2 := memcpy_length hcp
    have htk := memcpy_take hcp
    have hb256 := hs.buf256
    obtain ⟨hbl, hal0⟩ := hs.inline_ok hu
    have hsum : s.data.buffer_len + pkt.in_len < 256 := by
      unfold SIZE_MOD at hlt
      omega
    have hmod : (s.data.buffer_len + pkt.in_len) % U16_MOD = s.data.buffer_len + pkt.in_len := by
      apply Nat.mod_eq_of_lt
      unfold U16_MOD
      omega
    refine ⟨rfl, rfl, ?_, Or.inr ⟨rfl, ?_, ?_, hb2⟩⟩
    · refine ⟨hs.active, hs.owner, hs.state_ok, ?_, ?_, ?_, hs.len_le, hs.blk_len, hs.cap_ok⟩
      · show buf.length = 256
        rw [hlen2]; exact hb256
      · intro _
        refine ⟨?_, hal0⟩
        show (s.data.buffer_len + pkt.in_len) % U16_MOD < 256
        rw [hmod]; exact hsum
      · intro hf
        have : s.data.use_accum = true := hf
        rw [hu] at this
        cases this
    · unfold accumulated active_src active_len
      simp only [hu, Bool.false_eq_true, if_false, Option.getD_some]
      rw [hmod, htk]
    · unfold active_len
      simp only [hu, Bool.false_eq_true, if_false]
      exact hmod
  · obtain ⟨r1, hmig, hrest⟩ := Res.bind_eq_ok hr
    obtain ⟨rc1, s1⟩ := r1
    dsimp only at hrest
    have hmid : s1.mmio = s.mmio ∧
        ((rc1 = - ENOMEM ∧ s1.data = s.data ∧ ∃ size, env.malloc_ok s.nmalloc size = false) ∨
        (rc1 = 0 ∧ Sess cfg s1 h ∧ s1.data.use_accum = true ∧ accumulated s1 = accumulated s ∧
          active_len s1 = active_len s ∧
          (cfg.MAX_ACCUM_SIZE < (s1.data.accum_len + pkt.in_len) % SIZE_MOD ∨
              (∃ size, env.malloc_ok s1.nmalloc size = false) →
            cfg.MAX_ACCUM_SIZE < (active_len s + pkt.in_len) % SIZE_MOD ∨
              (∃ size, env.malloc_ok s.nmalloc size = false) ∨
              (s1.data.accum_len + pkt.in_len) % SIZE_MOD ≤ s1.data.accum_cap))) := by
      split at hmig
      · rename_i hu
        obtain ⟨m1, m2⟩ := migrate_ok cfg env fuel s h pkt.in_len rc1 s1 hs hu hmig
        refine ⟨m1, ?_⟩
        rcases m2 with m2 | ⟨k1, k2, k3, k4, k5, k6⟩
        · exact Or.inl m2
        · refine Or.inr ⟨k1, k2, k3, k4, k5, ?_⟩
          intro _
          have hl0 : active_len s = s.data.buffer_len := by
            unfold active_len
            simp [hu]
          have hl1 : active_len s1 = s1.data.accum_len := by
            unfold active_len
            simp [k3]
          rw [hl0]
          rw [hl1, hl0] at k5
          rw [k5]
          by_cases hle : (s.data.buffer_len + pkt.in_len) % SIZE_MOD ≤ cfg.MAX_ACCUM_SIZE
          · exact Or.inr (Or.inr (k6 hle))
          · exact Or.inl (by omega)
      · rename_i hu
        cases hmig
        have hu' : s.data.use_accum = true := by
          cases hb : s.data.use_accum with
          | true => rfl
          | false => exact absurd hb hu
        refine ⟨rfl, Or.inr ⟨rfl, hs, hu', rfl, rfl, ?_⟩⟩
        intro hwhy
        have hl0 : active_len s = s.data.accum_len := by
          unfold active_len
          simp [hu']
        rw [hl0]
        rcases hwhy with hw | hw
        · exact Or.inl hw
        · exact Or.inr (Or.inl hw)
    obtain ⟨hm1, hcase⟩ := hmid
    rcases hcase with ⟨h1, h2, hfail⟩ | ⟨h1, hs1, hu1, hacc1, hlen1, hcause⟩
    · have hne : rc1 ≠ 0 := by rw [h1]; decide
      rw [if_pos hne] at hrest
      cases hrest
      obtain ⟨a1, a2⟩ := acc_of_data s1 h2
      exact ⟨hm1, rfl, sess_of_data s1 h2, Or.inl ⟨h1, a1, a2, Or.inr hfail⟩⟩
    · rw [if_neg (by rw [h1]; simp)] at hrest
      obtain ⟨a, happ, hfin⟩ := Res.bind_eq_ok hrest
      obtain ⟨rc2, s2⟩ := a
      cases hfin
      obtain ⟨hm2, hcase2⟩ := accum_append_ok cfg env fuel s1 h src pkt.in_len rc2 s2 hs1 hu1
        (by omega) happ
      rcases hcase2 with ⟨g1, g2, glt, gwhy⟩ | ⟨g1, g2, _, g4, g5, g6⟩
      · have hs2 : Sess cfg s2 h :=
          ⟨by rw [g2]; exact hs1.active, by rw [g2]; exact hs1.owner,
            by rw [g2]; exact hs1.state_ok, by rw [g2]; exact hs1.buf256,
            by rw [g2]; exact hs1.inline_ok, by rw [g2]; exact hs1.accum_ok,
            by rw [g2]; exact hs1.len_le, by rw [g2]; exact hs1.blk_len,
            by rw [g2]; exact hs1.cap_ok⟩
        have hacc2 : accumulated s2 = accumulated s1 ∧ active_len s2 = active_len s1 := by
          unfold accumulated active_src active_len
          rw [g2]
          exact ⟨rfl, rfl⟩
        refine ⟨hm2.trans hm1, rfl, hs2,
          Or.inl ⟨g1, hacc2.1.trans hacc1, hacc2.2.trans hlen1, ?_⟩⟩
        rcases hcause gwhy with c1 | c1 | c1
        · exact Or.inl c1
        · exact Or.inr c1
        · exact absurd c1 (by omega)
      · refine ⟨hm2.trans hm1, rfl, g2, Or.inr ⟨g1, ?_, ?_, g6⟩⟩
        · rw [g4, hacc1]
        · rw [g5, hlen1]

/-! ## Begin, and runs of update calls -/

theorem reset_wait_ok (env : Env) (fuel : Nat) (s t : Sys)
    (h : reset_wait env fuel s = Res.ok t) : ∃ evs, HwStep s t evs := by
  induction fuel generalizing s with
  | zero =>
    unfold reset_wait at h
    split at h
    · cases h
    · cases h
      exact ⟨_, hw_read env _ s⟩
  | succ f ih =>
    unfold reset_wait at h
    split at h
    · obtain ⟨evs, h1⟩ := ih _ h
      exact ⟨_, (hw_read env _ s).trans h1⟩
    · cases h
      exact ⟨_, hw_read env _ s⟩

theorem sha_reset_ok (env : Env) (fuel : Nat) (s t : Sys)
    (h : sha_reset env fuel s = Res.ok t) : ∃ evs, HwStep s t evs := by
  unfold sha_reset at h
  dsimp only at h
  obtain ⟨evs, h1⟩ := reset_wait_ok env fuel _ t h
  exact ⟨_, ((hw_read env SHA_CTR_OFFSET s).trans (hw_write _ _ _)).trans h1⟩

theorem sha_configure_ok (cfg : Kconfig) (s : Sys) : ∃ evs, HwStep s (sha_configure cfg s) evs := by
  unfold sha_configure
  exact ⟨_, hw_write _ _ _⟩

theorem capOk_zero (cfg : Kconfig) : CapOk cfg 0 :=
  ⟨Or.inr (by decide), by omega, Or.inl (Nat.zero_le _)⟩

/-- A begin call that returns 0 opens a session with an empty message. -/
theorem begin_ok (cfg : Kconfig) (env : Env) (fuel : Nat) (s0 s1 : Sys) (h : Nat)
    (algo : hash_algo) (hbuf : s0.data.buffer.length = 256)
    (hb : crypto_em32_hash_begin_session cfg env fuel s0 h algo = Res.ok (0, s1)) :
    Sess cfg s1 h ∧ accumulated s1 = [] ∧ active_len s1 = 0 ∧
      s1.data.state = .SHA_STATE_IDLE ∧ s1.data.use_accum = false := by
  unfold crypto_em32_hash_begin_session at hb
  split at hb
  · cases hb
  · split at hb
    · cases hb
    · obtain ⟨s2, hr, hfin⟩ := Res.bind_eq_ok hb
      cases hfin
      obtain ⟨e1, h1⟩ := sha_reset_ok env fuel _ s2 hr
      obtain ⟨e2, h2⟩ := sha_configure_ok cfg s2
      have hd : (sha_configure cfg s2).data = _ := (h1.trans h2).1
      refine ⟨⟨?_, ?_, ?_, ?_, ?_, ?_, ?_, ?_, ?_⟩, ?_, ?_, ?_, ?_⟩
      · rw [hd]
      · rw [hd]
      · rw [hd]; simp
      · rw [hd]; exact hbuf
      · intro _
        rw [hd]
        exact ⟨by show 0 < 256; omega, rfl⟩
      · intro _
        rw [hd]
      · rw [hd]
      · rw [hd]; rfl
      · rw [hd]; exact capOk_zero cfg
      · unfold accumulated active_src active_len
        rw [hd]
        simp
      · unfold active_len
        rw [hd]
        simp
      · rw [hd]
      · rw [hd]

/-- A run of successful update calls appends the chunks, in call order, to the message. -/
theorem updates_ok (cfg : Kconfig) (env : Env) (h : Nat) (s t : Sys) (cs : List (List u8))
    (hs : Sess cfg s h) (hu : Updates cfg env h s cs t) :
    Sess cfg t h ∧ accumulated t = accumulated s ++ cs.flatten ∧ t.mmio = s.mmio := by
  induction hu with
  | done s => exact ⟨hs, by simp, rfl⟩
  | step s t c cs fuel out r hcall hrc _ ih =>
    have hstep : Sess cfg r.sys h ∧ accumulated r.sys = accumulated s ++ c ∧
        r.sys.mmio = s.mmio := by
      by_cases hl : c.length = 0
      · rw [handler_empty_eq cfg env fuel s h _ hs.active hs.owner hs.state_ok hl] at hcall
        cases hcall
        have : c = [] := List.length_eq_zero.mp hl
        subst this
        exact ⟨hs, by simp, rfl⟩
      · have hpos : 0 < (update_pkt c out).in_len := Nat.pos_of_ne_zero hl
        rw [handler_update_eq cfg env fuel s h _ hs.active hs.owner hs.state_ok hpos] at hcall
        obtain ⟨g1, _, g3, g4⟩ := handler_update_ok cfg env fuel s h _ c r hs rfl hpos hcall
        rcases g4 with ⟨k1, _, _⟩ | ⟨_, k2, _, _⟩
        · rw [hrc] at k1
          cases k1
        · refine ⟨g3, ?_, g1⟩
          rw [k2]
          show _ ++ c.take c.length = _
          rw [List.take_length]
    obtain ⟨i1, i2, i3⟩ := ih hstep.1
    refine ⟨i1, ?_, i3.trans hstep.2.2⟩
    rw [i2, hstep.2.1]
    simp


/-- In an open session the active length stays clear of the 32-bit wrap of `total_bytes + 3`
and below the larger of the configured maximum and 512. -/
theorem sess_len_bound {cfg : Kconfig} {s : Sys} {h : Nat} (hs : Sess cfg s h) :
    active_len s + 3 < SIZE_MOD ∧ active_len s ≤ max cfg.MAX_ACCUM_SIZE 512 ∧
      active_len s ≤ ((active_src s).getD []).length := by
  have hc := hs.cap_ok
  have h31 := hc.2.1
  have hl := hs.len_le
  have hb := hs.blk_len
  have h256 := hs.buf256
  unfold active_len active_src SIZE_MOD
  cases hu : s.data.use_accum with
  | true =>
    simp only [if_true]
    rcases hc.2.2 with h1 | h1 <;> omega
  | false =>
    simp only [Bool.false_eq_true, if_false, Option.getD_some]
    have := (hs.inline_ok hu).1
    omega

theorem pad_ctrl_eq (n : Nat) : pad_ctrl n = (n % 4) * 256 + pad_packet n := by
  have hp := pad_packet_le n
  have hv : valid_enc n = n % 4 := by
    unfold valid_enc SIZE_MOD
    have h4 : n % 4 < 4 := Nat.mod_lt _ (by omega)
    rw [Nat.mod_eq_of_lt (by omega)]
    generalize n % 4 = v at h4
    interval_cases v <;> rfl
  unfold pad_ctrl
  rw [hv, and_mask_of_le hp]
  have h4 : n % 4 < 4 := Nat.mod_lt _ (by omega)
  generalize n % 4 = v at h4
  generalize pad_packet n = p at hp
  unfold SHA_VALID_BYTE_SHIFT
  interval_cases v <;> interval_cases p <;> rfl

theorem sess_of_data {cfg : Kconfig} {s t : Sys} {h : Nat} (hs : Sess cfg s h)
    (ht : t.data = s.data) : Sess cfg t h :=
  ⟨by rw [ht]; exact hs.active, by rw [ht]; exact hs.owner, by rw [ht]; exact hs.state_ok,
    by rw [ht]; exact hs.buf256, by rw [ht]; exact hs.inline_ok, by rw [ht]; exact hs.accum_ok,
    by rw [ht]; exact hs.len_le, by rw [ht]; exact hs.blk_len, by rw [ht]; exact hs.cap_ok⟩

/-- Every returning update call keeps the session invariant. -/
theorem handler_sess (cfg : Kconfig) (env : Env) (fuel : Nat) (s : Sys) (h : Nat)
    (pkt : hash_pkt) (r : Ret) (hs : Sess cfg s h)
    (hr : em32_sha256_handler cfg env fuel s h pkt false = Res.ok r) : Sess cfg r.sys h := by
  by_cases hl : pkt.in_len = 0
  · rw [handler_empty_eq cfg env fuel s h _ hs.active hs.owner hs.state_ok hl] at hr
    cases hr
    exact hs
  · have hpos : 0 < pkt.in_len := Nat.pos_of_ne_zero hl
    rw [handler_update_eq cfg env fuel s h _ hs.active hs.owner hs.state_ok hpos] at hr
    cases hb : pkt.in_buf with
    | none =>
      unfold handler_update at hr
      rw [hb] at hr
      cases hr
      exact hs
    | some src => exact (handler_update_ok cfg env fuel s h pkt src r hs hb hpos hr).2.2.1

/-- A finalize call that returns 0 keeps the session invariant. -/
theorem finish_sess (cfg : Kconfig) (env : Env) (fuel : Nat) (s : Sys) (h : Nat)
    (pkt : hash_pkt) (r : Ret) (hs : Sess cfg s h)
    (hr : em32_sha256_handler cfg env fuel s h pkt true = Res.ok r) (hrc : r.rc = 0) :
    Sess cfg r.sys h := by
  rw [handler_finish_eq cfg env fuel s h pkt hs.active hs.owner hs.state_ok] at hr
  obtain ⟨_, _, _, _, _, _, _, _, st, hd, hst⟩ :=
    finish_ok cfg env fuel s pkt r (sess_len_bound hs).2.2 hr
  have hidle : st = .SHA_STATE_IDLE := by
    rcases hst with ⟨_, h2⟩ | ⟨h1, _⟩
    · exact h2
    · exact absurd hrc h1
  exact ⟨by rw [hd]; exact hs.active, by rw [hd]; exact hs.owner,
    by rw [hd, hidle]; simp, by rw [hd]; exact hs.buf256, by rw [hd]; exact hs.inline_ok,
    by rw [hd]; exact hs.accum_ok, by rw [hd]; exact hs.len_le, by rw [hd]; exact hs.blk_len,
    by rw [hd]; exact hs.cap_ok⟩

/-- Every state of an open session satisfies the session invariant. -/
theorem open_sess {cfg : Kconfig} {env : Env} {h : Nat} {s : Sys} (ho : Open cfg env h s) :
    Sess cfg s h := by
  induction ho with
  | start s0 s1 fuel hbuf hb => exact (begin_ok cfg env fuel s0 s1 h _ hbuf hb).1
  | update s fuel pkt r _ hr ih => exact handler_sess cfg env fuel s h pkt r ih hr
  | finish s fuel pkt r _ hr hrc ih => exact finish_sess cfg env fuel s h pkt r ih hr hrc

/-- A run of successful update calls stays inside the open session. -/
theorem updates_open {cfg : Kconfig} {env : Env} {h : Nat} {s t : Sys} {cs : List (List u8)}
    (ho : Open cfg env h s) (hu : Updates cfg env h s cs t) : Open cfg env h t := by
  induction hu with
  | done s => exact ho
  | step s t c cs fuel out r hcall _ _ ih => exact ih (Open.update s fuel _ r ho hcall)

/-- Values programmed by a finalize call on an open session, in terms of the active length
and the accumulated message. -/
theorem finish_programs (cfg : Kconfig) (env : Env) (fuel : Nat) (s : Sys) (h : Nat)
    (pkt : hash_pkt) (r : Ret) (hs : Sess cfg s h)
    (hr : em32_sha256_handler cfg env fuel s h pkt true = Res.ok r) :
    writes_to SHA_DATALEN_OFFSET (new_ops s r.sys) = [(active_len s + 3) / 4] ∧
    writes_to SHA_DATALEN_5832_OFFSET (new_ops s r.sys) = [0] ∧
    writes_to SHA_PAD_CTR_OFFSET (new_ops s r.sys)
      = [(active_len s % 4) * 256 + pad_packet (active_len s)] ∧
    writes_to SHA_IN_OFFSET (new_ops s r.sys) = spec_words (accumulated s) := by
  rw [handler_finish_eq cfg env fuel s h pkt hs.active hs.owner hs.state_ok] at hr
  obtain ⟨hb1, _, hb3⟩ := sess_len_bound hs
  obtain ⟨feed, tail, hm, hf1, hf2, ht, _⟩ := finish_ok cfg env fuel s pkt r hb3 hr
  unfold new_ops
  rw [hm, List.drop_left]
  refine ⟨?_, ?_, ?_, ?_⟩
  · rw [writes_to_append, writes_to_append, hf2 _ (by decide), ht _ (by decide),
      ← words_lo_eq hb1]
    rfl
  · rw [writes_to_append, writes_to_append, hf2 _ (by decide), ht _ (by decide)]
    rfl
  · rw [writes_to_append, writes_to_append, hf2 _ (by decide), ht _ (by decide),
      ← pad_ctrl_eq]
    rfl
  · rw [writes_to_append, writes_to_append, hf1, ht _ (by decide)]
    unfold spec_words
    rw [accumulated_length hs, words_lo_eq hb1]
    simp [writes_to, SHA_CTR_OFFSET, SHA_IN_OFFSET, SHA_DATALEN_OFFSET,
      SHA_DATALEN_5832_OFFSET, SHA_PAD_CTR_OFFSET]

/-- A finalize call on an open session returns when the accelerator answers the flow-control
polls, the iteration budget covers the completion timeout and the output buffer, when given,
has room for the eight digest words. -/
theorem finish_returns (cfg : Kconfig) (env : Env) (fuel : Nat) (s : Sys) (h : Nat)
    (pkt : hash_pkt) (hs : Sess cfg s h) (hrdy : ReadyWithin env fuel)
    (hT : cfg.TIMEOUT_USEC + 1 < SIZE_MOD) (hf : cfg.TIMEOUT_USEC + 1 ≤ fuel)
    (hout : ∀ o, pkt.out_buf = some o → 8 ≤ o.length) :
    ∃ r, em32_sha256_handler cfg env fuel s h pkt true = Res.ok r := by
  rw [handler_finish_eq cfg env fuel s h pkt hs.active hs.owner hs.state_ok]
  exact finish_live cfg env fuel s pkt (sess_len_bound hs).2.2 hrdy hT hf hout

theorem spec_words_getElem? (m : List u8) (k : Nat) (hk : k < (m.length + 3) / 4) :
    (spec_words m)[k]? = some (spec_word m k) := by
  unfold spec_words
  rw [List.getElem?_map, List.getElem?_range hk]
  rfl

theorem lane_guard (m : List u8) (i e : Nat) :
    (if i < m.length then byte_at m i * e else 0) = byte_at m i * e := by
  split
  · rfl
  · rw [byte_at_of_le (by omega), Nat.zero_mul]

theorem spec_word_eq_sum (m : List u8) (k : Nat) :
    spec_word m k = ∑ j in Finset.range 4,
      if 4 * k + j < m.length then byte_at m (4 * k + j) * 2 ^ (8 * j) else 0 := by
  unfold spec_word
  simp only [Finset.sum_range_succ, Finset.sum_range_zero, lane_guard]
  simp

/-! ## Calls that are sure to return -/

theorem memcpy_live (dst src : List u8) (off n : Nat) (h1 : off + n ≤ dst.length)
    (h2 : n ≤ src.length) : ∃ r, memcpy dst off src n = Res.ok r := by
  unfold memcpy
  rw [if_pos ⟨h1, h2⟩]
  exact ⟨_, rfl⟩

theorem grow_cap_live (cfg : Kconfig) (need : Nat) (hn : need ≤ 2147483648) (fuel c : Nat)
    (hc : c ∈ pow2s) (h0 : c ≠ 0) (hf : 2147483648 ≤ c * 2 ^ fuel) :
    ∃ r, grow_cap cfg need fuel c = Res.ok r := by
  induction fuel generalizing c with
  | zero =>
    unfold grow_cap
    rw [if_neg (by omega)]
    exact ⟨_, rfl⟩
  | succ f ih =>
    unfold grow_cap
    split
    · rename_i hlt
      split
      · exact ⟨_, rfl⟩
      · have hd := pow2s_double c hc
        have hmod : (c * 2) % SIZE_MOD = c * 2 := by
          apply Nat.mod_eq_of_lt
          unfold SIZE_MOD
          omega
        rw [hmod] at hd ⊢
        apply ih _ hd (by omega)
        rw [Nat.pow_succ] at hf
        rw [Nat.mul_assoc, Nat.mul_comm 2 (2 ^ f)]
        exact hf
    · exact ⟨_, rfl⟩

theorem install_block_live (s : Sys) (new_buf : List u8) (new_cap : Nat)
    (h1 : s.data.accum_len ≤ (s.data.accum_buf.getD []).length)
    (h2 : s.data.accum_len ≤ new_buf.length) :
    ∃ r, install_block s new_buf new_cap = Res.ok r := by
  unfold install_block
  split
  · split
    · rename_i old hold
      rw [hold] at h1
      obtain ⟨nb, hnb⟩ := memcpy_live new_buf old 0 s.data.accum_len (by omega) (by simpa using h1)
      rw [hnb]
      exact ⟨_, rfl⟩
    · exact ⟨_, rfl⟩
  · exact ⟨_, rfl⟩

/-- The capacity check returns when the configured maximum is at most `2 ^ 31` and the
iteration budget is at least 31. -/
theorem ensure_live (cfg : Kconfig) (env : Env) (fuel : Nat) (s : Sys) (need : Nat)
    (hcap : CapOk cfg s.data.accum_cap)
    (hblk : (s.data.accum_buf.getD []).length = s.data.accum_cap)
    (hlen : s.data.accum_len ≤ s.data.accum_cap)
    (hmax : cfg.MAX_ACCUM_SIZE ≤ 2147483648) (hf : 31 ≤ fuel) :
    ∃ r, ensure_accum_capacity cfg env fuel s need = Res.ok r := by
  unfold ensure_accum_capacity
  split
  · exact ⟨_, rfl⟩
  · rename_i hlt
    split
    · exact ⟨_, rfl⟩
    · rename_i hle
      have hstart : (if s.data.accum_cap ≠ 0 then s.data.accum_cap else 512) ∈ pow2s := by
        split
        · rcases hcap.1 with h1 | h1
          · omega
          · exact h1
        · exact pow2s_512
      have hne : (if s.data.accum_cap ≠ 0 then s.data.accum_cap else 512) ≠ 0 := by
        split
        · assumption
        · omega
      have hpow : 2147483648 ≤ 2 ^ fuel := by
        calc 2147483648 = 2 ^ 31 := by norm_num
          _ ≤ 2 ^ fuel := Nat.pow_le_pow_right (by omega) hf
      have hbig : 2147483648 ≤ (if s.data.accum_cap ≠ 0 then s.data.accum_cap else 512)
          * 2 ^ fuel := by
        have h1 : 1 ≤ (if s.data.accum_cap ≠ 0 then s.data.accum_cap else 512) := by omega
        calc 2147483648 ≤ 2 ^ fuel := hpow
          _ = 1 * 2 ^ fuel := by rw [Nat.one_mul]
          _ ≤ _ := Nat.mul_le_mul_right _ h1
      obtain ⟨new_cap, hg⟩ := grow_cap_live cfg need (by omega) fuel _ hstart hne hbig
      rw [hg]
      simp only [Res.ok_bind]
      have hnew : need ≤ new_cap := by
        rcases grow_cap_ok cfg need fuel _ new_cap hstart hg with ⟨h1, h2⟩ | ⟨_, _, h3⟩ | ⟨h1, _⟩
        · rw [h1]; exact h2
        · exact h3
        · omega
      cases hm : env.malloc_ok s.nmalloc new_cap with
      | true =>
        have hk : k_malloc env new_cap s
            = (some ((List.range new_cap).map (env.junk s.nmalloc)),
               { s with nmalloc := s.nmalloc + 1 }) := by
          unfold k_malloc
          rw [if_pos hm]
        rw [hk]
        exact install_block_live _ _ new_cap
          (by show s.data.accum_len ≤ (s.data.accum_buf.getD []).length; omega)
          (by show s.data.accum_len ≤ _; simp; omega)
      | false =>
        have hk : k_malloc env new_cap s = (none, { s with nmalloc := s.nmalloc + 1 }) := by
          unfold k_malloc
          rw [if_neg (by simp [hm])]
        rw [hk]
        exact ⟨_, rfl⟩

theorem accum_append_live (cfg : Kconfig) (env : Env) (fuel : Nat) (s : Sys) (h : Nat)
    (src : List u8) (len : Nat) (hs : Sess cfg s h) (hl : len ≠ 0) (hsrc : len ≤ src.length)
    (hw : s.data.accum_len + len < SIZE_MOD)
    (hmax : cfg.MAX_ACCUM_SIZE ≤ 2147483648) (hf : 31 ≤ fuel) :
    ∃ r, accum_append cfg env fuel s src len = Res.ok r := by
  obtain ⟨⟨rc1, s1⟩, he⟩ := ensure_live cfg env fuel s ((s.data.accum_len + len) % SIZE_MOD)
    hs.cap_ok hs.blk_len hs.len_le hmax hf
  obtain ⟨_, _, hcase⟩ := ensure_ok cfg env fuel s _ rc1 s1 hs.cap_ok hs.blk_len hs.len_le he
  unfold accum_append
  rw [if_neg hl, he]
  simp only [Res.ok_bind]
  rcases hcase with ⟨h1, _⟩ | ⟨h1, nb, c, h2, h3, h4, _⟩
  · rw [if_pos (by rw [h1]; decide)]
    exact ⟨_, rfl⟩
  · rw [if_neg (by rw [h1]; simp)]
    have hab : s1.data.accum_buf = nb := by rw [h2]
    have hal : s1.data.accum_len = s.data.accum_len := by rw [h2]
    rw [hab, hal]
    rw [Nat.mod_eq_of_lt hw] at h4
    cases nb with
    | none =>
      simp at h3
      omega
    | some blk =>
      simp only [Option.getD_some] at h3
      obtain ⟨b2, hb2⟩ := memcpy_live blk src s.data.accum_len len (by omega) hsrc
      dsimp only
      rw [hb2]
      exact ⟨_, rfl⟩

theorem prealloc_size_min (cfg : Kconfig) (n : Nat) (hmax : cfg.MAX_ACCUM_SIZE ≤ 2147483648) :
    min n cfg.MAX_ACCUM_SIZE ≤ prealloc_size cfg n := by
  unfold prealloc_size SIZE_MOD
  dsimp only
  split <;> split <;> omega

theorem migrate_live (cfg : Kconfig) (env : Env) (fuel : Nat) (s : Sys) (h : Nat) (in_len : Nat)
    (hs : Sess cfg s h) (hu : s.data.use_accum = false)
    (hw : s.data.buffer_len + in_len < SIZE_MOD)
    (hmin : 512 ≤ cfg.MAX_ACCUM_SIZE) (hmax : cfg.MAX_ACCUM_SIZE ≤ 2147483648)
    (hf : 31 ≤ fuel) :
    ∃ r, migrate cfg env fuel s in_len = Res.ok r := by
  obtain ⟨⟨rc1, s1⟩, he⟩ := ensure_live cfg env fuel s
    (prealloc_size cfg ((s.data.buffer_len + in_len) % SIZE_MOD))
    hs.cap_ok hs.blk_len hs.len_le hmax hf
  obtain ⟨_, _, hcase⟩ := ensure_ok cfg env fuel s _ rc1 s1 hs.cap_ok hs.blk_len hs.len_le he
  have hpre := prealloc_size_min cfg ((s.data.buffer_len + in_len) % SIZE_MOD) hmax
  rw [Nat.mod_eq_of_lt hw] at hpre
  have hbl := (hs.inline_ok hu).1
  have hb256 := hs.buf256
  unfold migrate
  dsimp only
  rw [he]
  simp only [Res.ok_bind]
  rcases hcase with ⟨h1, _⟩ | ⟨h1, nb, c, h2, h3, h4, _⟩
  · rw [if_pos (by rw [h1]; decide)]
    exact ⟨_, rfl⟩
  · rw [if_neg (by rw [h1]; simp)]
    have hab : s1.data.accum_buf = nb := by rw [h2]
    have hbl1 : s1.data.buffer_len = s.data.buffer_len := by rw [h2]
    have hbf1 : s1.data.buffer = s.data.buffer := by rw [h2]
    rw [hbl1]
    split
    · rw [hab, hbf1]
      rw [Nat.mod_eq_of_lt hw] at h4
      cases nb with
      | none =>
        simp at h3
        omega
      | some blk =>
        simp only [Option.getD_some] at h3
        obtain ⟨b2, hb2⟩ := memcpy_live blk s.data.buffer 0 s.data.buffer_len (by omega) (by omega)
        dsimp only
        rw [hb2]
        exact ⟨_, rfl⟩
    · exact ⟨_, rfl⟩

/-- An update call with a well-formed packet returns when the lengths do not wrap, the
configured maximum lies between 512 and `2 ^ 31` and the iteration budget is at least 31. -/
theorem handler_update_live (cfg : Kconfig) (env : Env) (fuel : Nat) (s : Sys) (h : Nat)
    (pkt : hash_pkt) (c : List u8) (hs : Sess cfg s h) (hsrc : pkt.in_buf = some c)
    (hlen : pkt.in_len = c.length) (hc : c ≠ [])
    (hw : active_len s + c.length < SIZE_MOD)
    (hmin : 512 ≤ cfg.MAX_ACCUM_SIZE) (hmax : cfg.MAX_ACCUM_SIZE ≤ 2147483648)
    (hf : 31 ≤ fuel) :
    ∃ r, handler_update cfg env fuel s pkt = Res.ok r := by
  have hl : c.length ≠ 0 := by
    intro h0
    exact hc (List.length_eq_zero.mp h0)
  unfold handler_update
  rw [hsrc]
  dsimp only
  rw [hlen]
  cases hu : s.data.use_accum with
  | false =>
    have hal : active_len s = s.data.buffer_len := by
      unfold active_len
      simp [hu]
    rw [hal] at hw
    have hb256 := hs.buf256
    by_cases hin : (s.data.buffer_len + c.length) % SIZE_MOD < 256
    · rw [if_pos ⟨rfl, hin⟩]
      rw [Nat.mod_eq_of_lt hw] at hin
      obtain ⟨b, hb⟩ := memcpy_live s.data.buffer c s.data.buffer_len c.length (by omega) (Nat.le_refl _)
      rw [hb]
      exact ⟨_, rfl⟩
    · rw [if_neg (by simp [hin])]
      obtain ⟨⟨rc1, s1⟩, hm⟩ := migrate_live cfg env fuel s h c.length hs hu hw hmin hmax hf
      obtain ⟨_, hcase⟩ := migrate_ok cfg env fuel s h c.length rc1 s1 hs hu hm
      rw [if_pos rfl, hm]
      simp only [Res.ok_bind]
      rcases hcase with ⟨h1, _⟩ | ⟨h1, hs1, hu1, _, hlen1, _⟩
      · rw [if_pos (by rw [h1]; decide)]
        exact ⟨_, rfl⟩
      · rw [if_neg (by rw [h1]; simp)]
        have hl1 : active_len s1 = s1.data.accum_len := by
          unfold active_len
          simp [hu1]
        rw [hl1, hal] at hlen1
        obtain ⟨a, ha⟩ := accum_append_live cfg env fuel s1 h c c.length hs1 hl (Nat.le_refl _)
          (by rw [hlen1]; exact hw) hmax hf
        rw [ha]
        exact ⟨_, rfl⟩
  | true =>
    have hal : active_len s = s.data.accum_len := by
      unfold active_len
      simp [hu]
    rw [hal] at hw
    obtain ⟨a, ha⟩ := accum_append_live cfg env fuel s h c c.length hs hl (Nat.le_refl _)
      hw hmax hf
    rw [if_neg (by simp), if_neg (by simp)]
    simp only [Res.pure_eq, Res.ok_bind]
    rw [if_neg (by simp), ha]
    exact ⟨_, rfl⟩

/-! ## Free, and begin on an idle instance -/

theorem memset_live {dst : List u8} {c : u8} {n : Nat} (h : n ≤ dst.length) :
    memset dst c n = Res.ok (List.replicate n c ++ dst.drop n) := by
  unfold memset
  rw [if_pos h]

/-- Free by the owner of an open session returns 0 and leaves no session active. -/
theorem free_live (cfg : Kconfig) (s : Sys) (h : Nat) (hs : Sess cfg s h) :
    ∃ t, crypto_em32_hash_free_session s h = Res.ok (0, t) ∧
      t.data.session_active = false ∧ t.data.ctx = none ∧
      t.data.state = .SHA_STATE_IDLE ∧ t.mmio = s.mmio := by
  have hl := hs.len_le
  have hb := hs.blk_len
  have h256 := hs.buf256
  unfold crypto_em32_hash_free_session
  rw [if_neg (by simp [hs.active, hs.owner])]
  unfold wipe_accum
  cases hab : s.data.accum_buf with
  | none =>
    dsimp only
    simp only [Res.pure_eq, Res.ok_bind]
    rw [memset_live (by omega)]
    exact ⟨_, rfl, rfl, rfl, rfl, rfl⟩
  | some blk =>
    rw [hab] at hb
    simp only [Option.getD_some] at hb
    dsimp only
    by_cases hz : s.data.accum_len ≠ 0
    · rw [if_pos hz, memset_live (by omega)]
      simp only [Res.pure_eq, Res.ok_bind]
      rw [memset_live (by show 256 ≤ s.data.buffer.length; omega)]
      exact ⟨_, rfl, rfl, rfl, rfl, rfl⟩
    · rw [if_neg hz]
      simp only [Res.pure_eq, Res.ok_bind]
      rw [memset_live (by show 256 ≤ s.data.buffer.length; omega)]
      exact ⟨_, rfl, rfl, rfl, rfl, rfl⟩

theorem reset_wait_live (env : Env) (fuel : Nat) (s : Sys)
    (h : ∃ j, j ≤ fuel ∧ (env.rd (s.nread + j) SHA_CTR_OFFSET % SIZE_MOD) &&& SHA_RST_BIT = 0) :
    ∃ t, reset_wait env fuel s = Res.ok t := by
  induction fuel generalizing s with
  | zero =>
    obtain ⟨j, hj, hr⟩ := h
    have : j = 0 := by omega
    subst this
    unfold reset_wait sha_read_reg
    rw [read_val, if_neg (by simpa using hr)]
    exact ⟨_, rfl⟩
  | succ f ih =>
    obtain ⟨j, hj, hr⟩ := h
    unfold reset_wait sha_read_reg
    by_cases c : (sys_read32 env SHA_CTR_OFFSET s).1 &&& SHA_RST_BIT ≠ 0
    · rw [if_pos c]
      apply ih
      rw [read_val] at c
      cases j with
      | zero => exact absurd (by simpa using hr) c
      | succ i =>
        refine ⟨i, by omega, ?_⟩
        rw [read_nread]
        rw [show s.nread + 1 + i = s.nread + (i + 1) by omega]
        exact hr
    · rw [if_neg c]
      exact ⟨_, rfl⟩

theorem sha_reset_live (env : Env) (fuel : Nat) (s : Sys) (h : ResetWithin env fuel) :
    ∃ t, sha_reset env fuel s = Res.ok t := by
  unfold sha_reset
  dsimp only
  exact reset_wait_live env fuel _ (h _)

/-- Begin for SHA-256 on an instance without an active session never returns a failure code,
and returns 0 once the accelerator completes the reset. -/
theorem begin_idle (cfg : Kconfig) (env : Env) (fuel : Nat) (s : Sys) (h : Nat)
    (hi : s.data.session_active = false) :
    (∀ rc u, crypto_em32_hash_begin_session cfg env fuel s h .CRYPTO_HASH_ALGO_SHA256
      = Res.ok (rc, u) → rc = 0) ∧
    (ResetWithin env fuel → ∃ u,
      crypto_em32_hash_begin_session cfg env fuel s h .CRYPTO_HASH_ALGO_SHA256 = Res.ok (0, u)) := by
  unfold crypto_em32_hash_begin_session
  rw [if_neg (by simp [hi]), if_neg (by simp)]
  refine ⟨?_, ?_⟩
  · intro rc u hr
    obtain ⟨s2, _, hfin⟩ := Res.bind_eq_ok hr
    cases hfin
    rfl
  · intro hrst
    obtain ⟨t, ht⟩ := sha_reset_live env fuel
      { s with data := { s.data with
                  ctx := some h,
                  state := .SHA_STATE_IDLE,
                  total_len := 0,
                  buffer_len := 0,
                  accum_buf := none,
                  accum_len := 0,
                  accum_cap := 0,
                  use_accum := false,
                  session_active := true } } hrst
    dsimp only
    dsimp only at ht
    rw [ht]
    exact ⟨_, rfl⟩

/-- A returning update call that does not return 0 leaves the accumulated message alone. -/
theorem handler_keep (cfg : Kconfig) (env : Env) (fuel : Nat) (s : Sys) (h : Nat)
    (pkt : hash_pkt) (r : Ret) (hs : Sess cfg s h)
    (hr : em32_sha256_handler cfg env fuel s h pkt false = Res.ok r) (hrc : r.rc ≠ 0) :
    accumulated r.sys = accumulated s ∧ active_len r.sys = active_len s ∧
      r.sys.mmio = s.mmio := by
  by_cases hl : pkt.in_len = 0
  · rw [handler_empty_eq cfg env fuel s h _ hs.active hs.owner hs.state_ok hl] at hr
    cases hr
    exact ⟨rfl, rfl, rfl⟩
  · have hpos : 0 < pkt.in_len := Nat.pos_of_ne_zero hl
    rw [handler_update_eq cfg env fuel s h _ hs.active hs.owner hs.state_ok hpos] at hr
    cases hb : pkt.in_buf with
    | none =>
      unfold handler_update at hr
      rw [hb] at hr
      cases hr
      exact ⟨rfl, rfl, rfl⟩
    | some src =>
      obtain ⟨g1, _, _, g4⟩ := handler_update_ok cfg env fuel s h pkt src r hs hb hpos hr
      rcases g4 with ⟨_, k2, k3, _⟩ | ⟨k1, _⟩
      · exact ⟨k2, k3, g1⟩
      · exact absurd k1 hrc


/-! ## Register reads of a finalize call -/

theorem reads_from_append (off : Nat) (a b : List MmioOp) :
    reads_from off (a ++ b) = reads_from off a ++ reads_from off b := by
  unfold reads_from
  rw [List.filterMap_append]

theorem reads_from_wr (off o v : Nat) : reads_from off [MmioOp.wr o v] = [] := by
  simp [reads_from]

theorem reads_from_rd (off o v : Nat) :
    reads_from off [MmioOp.rd o v] = if o = off then [v] else [] := by
  unfold reads_from
  by_cases h : o = off <;> simp [h]

theorem HwStep.unique {s t : Sys} {e1 e2 : List MmioOp} (h1 : HwStep s t e1)
    (h2 : HwStep s t e2) : e1 = e2 := by
  have := h1.2.2.2.symm.trans h2.2.2.2
  exact List.append_cancel_left this

theorem ready_wait_reads (env : Env) (fuel : Nat) (s t : Sys)
    (h : ready_wait env fuel s = Res.ok t) :
    ∃ evs, HwStep s t evs ∧ ∀ o, o ≠ SHA_CTR_OFFSET → reads_from o evs = [] := by
  induction fuel generalizing s with
  | zero =>
    unfold ready_wait at h
    split at h
    · cases h
    · cases h
      refine ⟨_, hw_read env _ s, fun o ho => ?_⟩
      rw [reads_from_rd, if_neg (Ne.symm ho)]
  | succ f ih =>
    unfold ready_wait at h
    split at h
    · obtain ⟨evs, h1, h2⟩ := ih _ h
      refine ⟨_, (hw_read env _ s).trans h1, fun o ho => ?_⟩
      rw [reads_from_append, reads_from_rd, if_neg (Ne.symm ho), h2 o ho]
      rfl
    · cases h
      refine ⟨_, hw_read env _ s, fun o ho => ?_⟩
      rw [reads_from_rd, if_neg (Ne.symm ho)]

theorem feed_words_reads (env : Env) (fuel : Nat) (src : Option (List u8)) (total : Nat)
    (n k b : Nat) (s t : Sys) (h : feed_words env fuel src total n k b s = Res.ok t) :
    ∃ evs, HwStep s t evs ∧ ∀ o, o ≠ SHA_CTR_OFFSET → reads_from o evs = [] := by
  induction n generalizing k b s with
  | zero =>
    unfold feed_words at h
    cases h
    exact ⟨[], HwStep.refl _, fun _ _ => rfl⟩
  | succ n ih =>
    unfold feed_words at h
    obtain ⟨a, _, h1⟩ := Res.bind_eq_ok h
    obtain ⟨s2, hs2, hrest⟩ := Res.bind_eq_ok h1
    obtain ⟨evs, g1, g2⟩ := ih _ _ s2 hrest
    have hmid : ∃ e2, HwStep (sys_write32 a.1 SHA_IN_OFFSET s) s2 e2 ∧
        ∀ o, o ≠ SHA_CTR_OFFSET → reads_from o e2 = [] := by
      split at hs2
      · exact ready_wait_reads env fuel _ _ hs2
      · cases hs2
        exact ⟨[], HwStep.refl _, fun _ _ => rfl⟩
    obtain ⟨e2, hm1, hm2⟩ := hmid
    refine ⟨_, ((hw_write a.1 SHA_IN_OFFSET s).trans hm1).trans g1, fun o ho => ?_⟩
    rw [reads_from_append, reads_from_append, reads_from_wr, hm2 o ho, g2 o ho]
    rfl

/-- The finalize path is the feed phase followed by the look at the output pointer. -/
theorem handler_finish_split (cfg : Kconfig) (env : Env) (fuel : Nat) (s : Sys) (pkt : hash_pkt) :
    handler_finish cfg env fuel s pkt = (feed_phase env fuel s >>= fun s6 =>
      match pkt.out_buf with
      | none => pure ⟨-EINVAL, set_state .SHA_STATE_ERROR s6, none⟩
      | some out => (done_wait cfg env fuel 0 s6 >>= fun d =>
          if d.1 = false then pure ⟨-ETIMEDOUT, set_state .SHA_STATE_ERROR d.2, some out⟩
          else (read_digest env 8 0 out
              (sys_write32 ((sys_read32 env SHA_CTR_OFFSET d.2).1 ||| SHA_INT_CLR_BIT)
                SHA_CTR_OFFSET (sys_read32 env SHA_CTR_OFFSET d.2).2) >>= fun o =>
            pure ⟨0, set_state .SHA_STATE_IDLE o.2, some o.1⟩))) := by
  unfold handler_finish feed_phase
  cases pkt.out_buf <;> rfl

theorem poll_ops_one (env : Env) (k : Nat) :
    poll_ops env k 1 = [MmioOp.rd SHA_CTR_OFFSET (env.rd k SHA_CTR_OFFSET % SIZE_MOD)] := rfl

theorem poll_ops_succ (env : Env) (k n : Nat) :
    poll_ops env k (n + 1)
      = MmioOp.rd SHA_CTR_OFFSET (env.rd k SHA_CTR_OFFSET % SIZE_MOD) :: poll_ops env (k + 1) n := by
  unfold poll_ops
  rw [List.range_succ_eq_map]
  simp only [List.map_cons, List.map_map, Nat.add_zero]
  congr 1
  apply List.map_congr_left
  intro i _
  simp only [Function.comp]
  rw [show k + 1 + i = k + (i + 1) by omega]

/-- The feed phase of a finalize call that gets through it: the five programming writes and
then the input words, with reads of the control register only. -/
theorem feed_phase_ok (env : Env) (fuel : Nat) (s s6 : Sys)
    (hlen : active_len s ≤ ((active_src s).getD []).length)
    (h : feed_phase env fuel s = Res.ok s6) :
    ∃ feed, HwStep (set_state .SHA_STATE_BUSY s) s6 (prog_ops (active_len s) ++ feed) ∧
      writes_to SHA_IN_OFFSET feed
        = (List.range (words_lo (active_len s))).map (spec_word (accumulated s)) ∧
      (∀ o, o ≠ SHA_IN_OFFSET → writes_to o feed = []) ∧
      (∀ o, o ≠ SHA_CTR_OFFSET → reads_from o feed = []) := by
  unfold feed_phase at h
  dsimp only at h
  have hsrc : active_src (set_state .SHA_STATE_BUSY s) = active_src s := rfl
  have hal : active_len (set_state .SHA_STATE_BUSY s) = active_len s := rfl
  rw [hsrc, hal] at h
  obtain ⟨feed, hf1, hf2, hf3⟩ := feed_words_src env fuel _ _ hlen _ _ h
  obtain ⟨feed2, hg1, hg2⟩ := feed_words_reads env fuel _ _ _ _ _ _ _ h
  have heq : feed2 = feed := hg1.unique hf1
  rw [heq] at hg2
  have h5 := ((((hw_write (SHA_WR_REV_BIT ||| SHA_RD_REV_BIT) SHA_CTR_OFFSET
      (set_state .SHA_STATE_BUSY s)).trans
      (hw_write (words_lo (active_len s)) SHA_DATALEN_OFFSET _)).trans
      (hw_write 0 SHA_DATALEN_5832_OFFSET _)).trans
      (hw_write (pad_ctrl (active_len s)) SHA_PAD_CTR_OFFSET _)).trans
      (hw_write ((SHA_WR_REV_BIT ||| SHA_RD_REV_BIT) ||| SHA_STR_BIT) SHA_CTR_OFFSET _)
  exact ⟨feed, h5.trans hf1, hf2, hf3, hg2⟩

theorem feed_phase_live (env : Env) (fuel : Nat) (s : Sys)
    (hlen : active_len s ≤ ((active_src s).getD []).length) (hr : ReadyWithin env fuel) :
    ∃ s6, feed_phase env fuel s = Res.ok s6 := by
  unfold feed_phase
  dsimp only
  exact feed_words_src_live env fuel hr _ _ hlen _

/-- The completion wait, when it returns: it made `n` reads of the control register, at
least one; all but the last showed the done bit clear; it reports success exactly when the
last one showed it set. When the configured timeout is below `2 ^ 32 - 1` the number of reads
is at most `TIMEOUT_USEC + 2`, and a failure is reported only after the full count. -/
theorem done_wait_spec (cfg : Kconfig) (env : Env)
    (fuel timeout : Nat) (s : Sys) (r : Bool × Sys)
    (h : done_wait cfg env fuel timeout s = Res.ok r) :
    ∃ n, 1 ≤ n ∧
      HwStep s r.2 (poll_ops env s.nread n) ∧ r.2.nread = s.nread + n ∧
      (∀ j, j + 1 < n → (env.rd (s.nread + j) SHA_CTR_OFFSET % SIZE_MOD) &&& SHA_STA_BIT = 0) ∧
      (r.1 = true → (env.rd (s.nread + (n - 1)) SHA_CTR_OFFSET % SIZE_MOD) &&& SHA_STA_BIT ≠ 0) ∧
      (r.1 = false → (env.rd (s.nread + (n - 1)) SHA_CTR_OFFSET % SIZE_MOD) &&& SHA_STA_BIT = 0) ∧
      (cfg.TIMEOUT_USEC + 1 < SIZE_MOD → timeout ≤ cfg.TIMEOUT_USEC + 1 →
        n + timeout ≤ cfg.TIMEOUT_USEC + 2 ∧
        (r.1 = false → n + timeout = cfg.TIMEOUT_USEC + 2)) := by
  have one : ∀ (s : Sys), HwStep s (sys_read32 env SHA_CTR_OFFSET s).2 (poll_ops env s.nread 1) := by
    intro s
    rw [poll_ops_one]
    exact hw_read env _ s
  induction fuel generalizing s timeout with
  | zero =>
    unfold done_wait at h
    split at h
    · rename_i hd
      cases h
      exact ⟨1, by omega, one s, rfl, fun j hj => by omega,
        fun _ => hd, (fun hf => by cases hf), fun _ _ => ⟨by omega, fun hf => by cases hf⟩⟩
    · rename_i hd
      split at h
      · cases h
        exact ⟨1, by omega, one s, rfl, fun j hj => by omega,
          (fun hf => by cases hf), (fun _ => by simpa using hd),
          fun _ _ => ⟨by omega, fun _ => by omega⟩⟩
      · cases h
  | succ f ih =>
    unfold done_wait at h
    split at h
    · rename_i hd
      cases h
      exact ⟨1, by omega, one s, rfl, fun j hj => by omega,
        fun _ => hd, (fun hf => by cases hf), fun _ _ => ⟨by omega, fun hf => by cases hf⟩⟩
    · rename_i hd
      split at h
      · cases h
        exact ⟨1, by omega, one s, rfl, fun j hj => by omega,
          (fun hf => by cases hf), (fun _ => by simpa using hd),
          fun _ _ => ⟨by omega, fun _ => by omega⟩⟩
      · rename_i hto
        obtain ⟨n, n1, n3, n4, n5, n6, n7, n8⟩ := ih ((timeout + 1) % SIZE_MOD) _ h
        rw [read_nread] at n3 n4 n5 n6 n7
        refine ⟨n + 1, by omega, ?_, by omega, ?_, ?_, ?_, ?_⟩
        · rw [poll_ops_succ]
          have := (hw_read env SHA_CTR_OFFSET s).trans n3
          rw [read_val] at this
          exact this
        · intro j hj
          cases j with
          | zero =>
            have := hd
            rw [read_val] at this
            simpa using this
          | succ i =>
            have := n5 i (by omega)
            rw [show s.nread + (i + 1) = s.nread + 1 + i by omega]
            exact this
        · intro hb
          have := n6 hb
          rw [show s.nread + (n + 1 - 1) = s.nread + 1 + (n - 1) by omega]
          exact this
        · intro hb
          have := n7 hb
          rw [show s.nread + (n + 1 - 1) = s.nread + 1 + (n - 1) by omega]
          exact this
        · intro hT hc
          have hlt : timeout + 1 < SIZE_MOD := by omega
          rw [Nat.mod_eq_of_lt hlt] at n8
          obtain ⟨q1, q2⟩ := n8 hT (by omega)
          exact ⟨by omega, fun hb => by have := q2 hb; omega⟩

/-- The read-back loop, when it returns, from round `i` on: it read the bank words `i` to
`i + n - 1` in this order, stored each at its index of the output and left the other words of
the output alone. -/
theorem read_digest_spec (env : Env) (n i : Nat) (out : List Nat) (s : Sys)
    (r : List Nat × Sys) (h : read_digest env n i out s = Res.ok r) :
    HwStep s r.2 ((List.range n).map (fun k =>
        MmioOp.rd (SHA_OUT_OFFSET + (i + k) * 4)
          (env.rd (s.nread + k) (SHA_OUT_OFFSET + (i + k) * 4) % SIZE_MOD))) ∧
      r.2.nread = s.nread + n ∧ r.1.length = out.length ∧ (0 < n → i + n ≤ out.length) ∧
      (∀ k, k < n →
        r.1[i + k]? = some (env.rd (s.nread + k) (SHA_OUT_OFFSET + (i + k) * 4) % SIZE_MOD)) ∧
      (∀ j, j < i ∨ i + n ≤ j → r.1[j]? = out[j]?) := by
  induction n generalizing i out s with
  | zero =>
    unfold read_digest at h
    cases h
    exact ⟨HwStep.refl _, rfl, rfl, fun h0 => by omega, fun k hk => by omega, fun _ _ => rfl⟩
  | succ n ih =>
    unfold read_digest at h
    split at h
    · rename_i hi
      obtain ⟨g1, g2, g3, g4, g5, g6⟩ := ih _ _ _ h
      rw [read_nread] at g1 g2 g5
      rw [List.length_set] at g3 g4
      refine ⟨?_, by omega, g3, fun _ => ?_, ?_, ?_⟩
      · have := (hw_read env (SHA_OUT_OFFSET + i * 4) s).trans g1
        rw [read_val] at this
        rw [List.range_succ_eq_map]
        simp only [List.map_cons, List.map_map, Nat.add_zero]
        have hm : List.map ((fun k => MmioOp.rd (SHA_OUT_OFFSET + (i + k) * 4)
            (env.rd (s.nread + k) (SHA_OUT_OFFSET + (i + k) * 4) % SIZE_MOD)) ∘ Nat.succ)
            (List.range n)
          = List.map (fun k => MmioOp.rd (SHA_OUT_OFFSET + (i + 1 + k) * 4)
            (env.rd (s.nread + 1 + k) (SHA_OUT_OFFSET + (i + 1 + k) * 4) % SIZE_MOD))
            (List.range n) := by
          apply List.map_congr_left
          intro k _
          simp only [Function.comp]
          rw [show i + k.succ = i + 1 + k by omega, show s.nread + k.succ = s.nread + 1 + k by omega]
        rw [hm]
        exact this
      · cases n with
        | zero => omega
        | succ m => have := g4 (by omega); omega
      · intro k hk
        cases k with
        | zero =>
          have := g6 i (Or.inl (by omega))
          rw [Nat.add_zero, this, List.getElem?_set_self hi, read_val, Nat.add_zero]
        | succ m =>
          have := g5 m (by omega)
          rw [show i + (m + 1) = i + 1 + m by omega, show s.nread + (m + 1) = s.nread + 1 + m by omega]
          exact this
      · intro j hj
        have := g6 j (by omega)
        rw [this, List.getElem?_set_ne (by omega)]
    · cases h

theorem bank_ops_eq (env : Env) (k : Nat) :
    (List.range 8).map (fun i =>
        MmioOp.rd (SHA_OUT_OFFSET + (0 + i) * 4)
          (env.rd (k + i) (SHA_OUT_OFFSET + (0 + i) * 4) % SIZE_MOD)) = bank_ops env k := by
  unfold bank_ops bank_word
  simp only [Nat.zero_add]

theorem reads_from_poll (env : Env) (k n o : Nat) (ho : o ≠ SHA_CTR_OFFSET) :
    reads_from o (poll_ops env k n) = [] := by
  induction n generalizing k with
  | zero => rfl
  | succ n ih =>
    rw [poll_ops_succ]
    show reads_from o ([_] ++ _) = []
    rw [reads_from_append, reads_from_rd, if_neg (Ne.symm ho)]
    exact ih (k + 1)

theorem writes_to_poll (env : Env) (k n o : Nat) : writes_to o (poll_ops env k n) = [] := by
  induction n generalizing k with
  | zero => rfl
  | succ n ih =>
    rw [poll_ops_succ]
    show writes_to o ([_] ++ _) = []
    rw [writes_to_append, writes_to_rd]
    exact ih (k + 1)

/-- A returning finalize call without an output location: it stops after the feed phase. -/
theorem finish_none (cfg : Kconfig) (env : Env) (fuel : Nat) (s : Sys) (pkt : hash_pkt) (r : Ret)
    (hlen : active_len s ≤ ((active_src s).getD []).length) (ho : pkt.out_buf = none)
    (h : handler_finish cfg env fuel s pkt = Res.ok r) :
    ∃ s6 feed, feed_phase env fuel s = Res.ok s6 ∧
      r.rc = - EINVAL ∧ r.out = none ∧
      r.sys.data = { s.data with state := .SHA_STATE_ERROR } ∧
      r.sys.mmio = s6.mmio ∧ s6.mmio = s.mmio ++ (prog_ops (active_len s) ++ feed) ∧
      r.sys.nmalloc = s.nmalloc ∧ r.sys.released = s.released ∧
      (∀ o, o ≠ SHA_IN_OFFSET → writes_to o feed = []) ∧
      (∀ o, o ≠ SHA_CTR_OFFSET → reads_from o feed = []) := by
  rw [handler_finish_split, ho] at h
  obtain ⟨s6, hfeed, hrest⟩ := Res.bind_eq_ok h
  cases hrest
  obtain ⟨feed, hf1, _, hf3, hf4⟩ := feed_phase_ok env fuel s s6 hlen hfeed
  obtain ⟨p1, p2, p3, p4⟩ := set_state_pack .SHA_STATE_ERROR hf1
  exact ⟨s6, feed, hfeed, rfl, rfl, p4, rfl, hf1.2.2.2, p2, p3, hf3, hf4⟩

/-- A returning finalize call with an output location: after the feed phase the completion
wait makes `n` reads; either none of them shows the done bit and the call fails with
`-ETIMEDOUT` leaving the output alone, or the last one shows it and the call clears the
interrupt, reads the eight bank words in order into the output and returns 0. When the
configured timeout is below `2 ^ 32 - 1`, `n` is at most `TIMEOUT_USEC + 2`, and equal to it
on failure. -/
theorem finish_out (cfg : Kconfig) (env : Env) (fuel : Nat) (s : Sys) (pkt : hash_pkt) (r : Ret)
    (out : List Nat)
    (hlen : active_len s ≤ ((active_src s).getD []).length) (ho : pkt.out_buf = some out)
    (h : handler_finish cfg env fuel s pkt = Res.ok r) :
    ∃ s6 feed n, feed_phase env fuel s = Res.ok s6 ∧
      s6.mmio = s.mmio ++ (prog_ops (active_len s) ++ feed) ∧
      (∀ o, o ≠ SHA_IN_OFFSET → writes_to o feed = []) ∧
      (∀ o, o ≠ SHA_CTR_OFFSET → reads_from o feed = []) ∧
      r.sys.nmalloc = s.nmalloc ∧ r.sys.released = s.released ∧
      1 ≤ n ∧ (cfg.TIMEOUT_USEC + 1 < SIZE_MOD → n ≤ cfg.TIMEOUT_USEC + 2) ∧
      (∀ j, j + 1 < n → (env.rd (s6.nread + j) SHA_CTR_OFFSET % SIZE_MOD) &&& SHA_STA_BIT = 0) ∧
      (((env.rd (s6.nread + (n - 1)) SHA_CTR_OFFSET % SIZE_MOD) &&& SHA_STA_BIT = 0 ∧
          (cfg.TIMEOUT_USEC + 1 < SIZE_MOD → n = cfg.TIMEOUT_USEC + 2) ∧
          r.rc = - ETIMEDOUT ∧ r.out = some out ∧
          r.sys.data = { s.data with state := .SHA_STATE_ERROR } ∧
          r.sys.mmio = s6.mmio ++ poll_ops env s6.nread n) ∨
       ((env.rd (s6.nread + (n - 1)) SHA_CTR_OFFSET % SIZE_MOD) &&& SHA_STA_BIT ≠ 0 ∧
          8 ≤ out.length ∧ r.rc = 0 ∧
          r.sys.data = { s.data with state := .SHA_STATE_IDLE } ∧
          r.sys.mmio = s6.mmio ++ (poll_ops env s6.nread n ++
            ([MmioOp.rd SHA_CTR_OFFSET (env.rd (s6.nread + n) SHA_CTR_OFFSET % SIZE_MOD),
              MmioOp.wr SHA_CTR_OFFSET
                ((env.rd (s6.nread + n) SHA_CTR_OFFSET % SIZE_MOD) ||| SHA_INT_CLR_BIT)] ++
             bank_ops env (s6.nread + n + 1))) ∧
          ∃ o, r.out = some o ∧ o.length = out.length ∧
            (∀ i, i < 8 → o[i]? = some (bank_word env (s6.nread + n + 1) i)) ∧
            (∀ j, 8 ≤ j → o[j]? = out[j]?))) := by
  rw [handler_finish_split, ho] at h
  obtain ⟨s6, hfeed, hrest⟩ := Res.bind_eq_ok h
  dsimp only at hrest
  obtain ⟨d, hd, hrest2⟩ := Res.bind_eq_ok hrest
  obtain ⟨feed, hf1, _, hf3, hf4⟩ := feed_phase_ok env fuel s s6 hlen hfeed
  obtain ⟨n, n1, n3, n4, n5, n6, n7, n8⟩ := done_wait_spec cfg env fuel 0 s6 d hd
  have h7 := hf1.trans n3
  refine ⟨s6, feed, n, hfeed, hf1.2.2.2, hf3, hf4, ?_, ?_, n1,
    fun hT => by have := (n8 hT (by omega)).1; omega, n5, ?_⟩
  · split at hrest2
    · cases hrest2
      exact (set_state_pack .SHA_STATE_ERROR h7).2.1
    · obtain ⟨o, ho2, hfin⟩ := Res.bind_eq_ok hrest2
      cases hfin
      obtain ⟨g1, _⟩ := read_digest_spec env _ _ _ _ o ho2
      exact (set_state_pack .SHA_STATE_IDLE (((h7.trans (hw_read env SHA_CTR_OFFSET d.2)).trans
        (hw_write _ SHA_CTR_OFFSET _)).trans g1)).2.1
  · split at hrest2
    · cases hrest2
      exact (set_state_pack .SHA_STATE_ERROR h7).2.2.1
    · obtain ⟨o, ho2, hfin⟩ := Res.bind_eq_ok hrest2
      cases hfin
      obtain ⟨g1, _⟩ := read_digest_spec env _ _ _ _ o ho2
      exact (set_state_pack .SHA_STATE_IDLE (((h7.trans (hw_read env SHA_CTR_OFFSET d.2)).trans
        (hw_write _ SHA_CTR_OFFSET _)).trans g1)).2.2.1
  · split at hrest2
    · rename_i hfalse
      cases hrest2
      left
      refine ⟨n7 hfalse, fun hT => by have := (n8 hT (by omega)).2 hfalse; omega, rfl, rfl,
        (set_state_pack .SHA_STATE_ERROR h7).2.2.2, ?_⟩
      exact n3.2.2.2
    · rename_i htrue
      have htrue2 : d.1 = true := by simpa using htrue
      obtain ⟨o, ho2, hfin⟩ := Res.bind_eq_ok hrest2
      cases hfin
      obtain ⟨g1, g2, g3, g4, g5, g6⟩ := read_digest_spec env _ _ _ _ o ho2
      have hnr : (sys_write32 ((sys_read32 env SHA_CTR_OFFSET d.2).1 ||| SHA_INT_CLR_BIT)
          SHA_CTR_OFFSET (sys_read32 env SHA_CTR_OFFSET d.2).2).nread = s6.nread + n + 1 := by
        show d.2.nread + 1 = _
        rw [n4]
      rw [hnr] at g1 g5
      rw [bank_ops_eq] at g1
      have hchain := ((n3.trans (hw_read env SHA_CTR_OFFSET d.2)).trans
        (hw_write ((sys_read32 env SHA_CTR_OFFSET d.2).1 ||| SHA_INT_CLR_BIT) SHA_CTR_OFFSET _)).trans g1
      rw [read_val, n4] at hchain
      right
      refine ⟨n6 htrue2, by have := g4 (by omega); omega, rfl,
        (set_state_pack .SHA_STATE_IDLE (hf1.trans hchain)).2.2.2, ?_, o.1, rfl, g3, ?_, ?_⟩
      · have := hchain.2.2.2
        show o.2.mmio = _
        rw [this]
        simp only [List.append_assoc, List.singleton_append, List.cons_append, List.nil_append]
      · intro i hi
        have := g5 i hi
        rw [Nat.zero_add] at this
        rw [this]
        rfl
      · intro j hj
        exact g6 j (Or.inr (by omega))

/-! ## The whole life of a session -/

theorem Sess.held {cfg : Kconfig} {s : Sys} {h : Nat} (hs : Sess cfg s h) : Held cfg s h :=
  ⟨hs.active, hs.owner, hs.buf256, hs.inline_ok, hs.accum_ok, hs.len_le, hs.blk_len, hs.cap_ok⟩

theorem Held.sess {cfg : Kconfig} {s : Sys} {h : Nat} (hh : Held cfg s h)
    (hst : s.data.state ≠ .SHA_STATE_ERROR) : Sess cfg s h :=
  ⟨hh.active, hh.owner, hst, hh.buf256, hh.inline_ok, hh.accum_ok, hh.len_le, hh.blk_len,
    hh.cap_ok⟩

theorem held_of_state {cfg : Kconfig} {s t : Sys} {h : Nat} {st : sha_operation_state}
    (hh : Held cfg s h) (ht : t.data = { s.data with state := st }) : Held cfg t h :=
  ⟨by rw [ht]; exact hh.active, by rw [ht]; exact hh.owner, by rw [ht]; exact hh.buf256,
    by rw [ht]; exact hh.inline_ok, by rw [ht]; exact hh.accum_ok, by rw [ht]; exact hh.len_le,
    by rw [ht]; exact hh.blk_len, by rw [ht]; exact hh.cap_ok⟩

/-- In the error state every call of the handler by the owner returns `-EIO` and hands back
the instance and the output as they were. -/
theorem handler_err (cfg : Kconfig) (env : Env) (fuel : Nat) (s : Sys) (h : Nat) (pkt : hash_pkt)
    (finish : Bool) (ha : s.data.session_active = true) (hc : s.data.ctx = some h)
    (he : s.data.state = .SHA_STATE_ERROR) :
    em32_sha256_handler cfg env fuel s h pkt finish = Res.ok ⟨- EIO, s, pkt.out_buf⟩ := by
  unfold em32_sha256_handler
  rw [if_neg (by simp [ha, hc]), if_pos he]
  rfl

/-- Every returning call of the handler by the owner keeps the invariant of a held session. -/
theorem handler_held (cfg : Kconfig) (env : Env) (fuel : Nat) (s : Sys) (h : Nat)
    (pkt : hash_pkt) (finish : Bool) (r : Ret) (hh : Held cfg s h)
    (hr : em32_sha256_handler cfg env fuel s h pkt finish = Res.ok r) : Held cfg r.sys h := by
  by_cases he : s.data.state = .SHA_STATE_ERROR
  · rw [handler_err cfg env fuel s h pkt finish hh.active hh.owner he] at hr
    cases hr
    exact hh
  · have hs := hh.sess he
    cases finish with
    | false => exact (handler_sess cfg env fuel s h pkt r hs hr).held
    | true =>
      rw [handler_finish_eq cfg env fuel s h pkt hs.active hs.owner hs.state_ok] at hr
      obtain ⟨_, _, _, _, _, _, _, _, st, hd, _⟩ :=
        finish_ok cfg env fuel s pkt r (sess_len_bound hs).2.2 hr
      exact held_of_state hh hd

theorem live_held {cfg : Kconfig} {env : Env} {h : Nat} {s : Sys} (hl : Live cfg env h s) :
    Held cfg s h := by
  induction hl with
  | start s0 s1 fuel hbuf hb => exact (begin_ok cfg env fuel s0 s1 h _ hbuf hb).1.held
  | call s fuel pkt finish r _ hr ih => exact handler_held cfg env fuel s h pkt finish r ih hr

theorem open_live {cfg : Kconfig} {env : Env} {h : Nat} {s : Sys} (ho : Open cfg env h s) :
    Live cfg env h s := by
  induction ho with
  | start s0 s1 fuel hbuf hb => exact Live.start s0 s1 fuel hbuf hb
  | update s fuel pkt r _ hr ih => exact Live.call s fuel pkt false r ih hr
  | finish s fuel pkt r _ hr _ ih => exact Live.call s fuel pkt true r ih hr

/-- Free by the owner of a held session: the exact instance it leaves. -/
theorem free_spec (cfg : Kconfig) (s : Sys) (h : Nat) (hh : Held cfg s h) :
    ∃ t, crypto_em32_hash_free_session s h = Res.ok (0, t) ∧
      t.data = { s.data with accum_buf := none, accum_len := 0, accum_cap := 0,
                             use_accum := false, buffer := List.replicate 256 0,
                             session_active := false, ctx := none,
                             state := .SHA_STATE_IDLE } ∧
      t.mmio = s.mmio ∧ t.nread = s.nread ∧ t.nmalloc = s.nmalloc ∧
      t.released = s.released ++ wiped_block s := by
  obtain ⟨⟨ctx, state, cb, buffer, tl, bl, ab, al, ac, ua, sa⟩, mmio, nread, nmalloc, released⟩ := s
  have hl : al ≤ ac := hh.len_le
  have hb : (ab.getD []).length = ac := hh.blk_len
  have h256 : buffer.length = 256 := hh.buf256
  have hsa : sa = true := hh.active
  have hctx : ctx = some h := hh.owner
  have hdrop : List.replicate 256 (0 : u8) ++ buffer.drop 256 = List.replicate 256 0 := by
    rw [List.drop_of_length_le (by omega), List.append_nil]
  unfold crypto_em32_hash_free_session
  rw [if_neg (by simp [hsa, hctx])]
  unfold wipe_accum wiped_block
  cases ab with
  | none =>
    dsimp only
    simp only [Res.pure_eq, Res.ok_bind]
    rw [memset_live (by omega), hdrop]
    refine ⟨_, rfl, rfl, rfl, rfl, rfl, ?_⟩
    simp
  | some blk =>
    simp only [Option.getD_some] at hb
    dsimp only
    by_cases hz : al ≠ 0
    · rw [if_pos hz, memset_live (by omega)]
      simp only [Res.pure_eq, Res.ok_bind]
      dsimp only [k_free]
      rw [memset_live (by omega), hdrop]
      exact ⟨_, rfl, rfl, rfl, rfl, rfl, rfl⟩
    · rw [if_neg hz]
      simp only [Res.pure_eq, Res.ok_bind]
      dsimp only [k_free]
      rw [memset_live (by omega), hdrop]
      have hz0 : al = 0 := by simpa using hz
      subst hz0
      exact ⟨_, rfl, rfl, rfl, rfl, rfl, rfl⟩

theorem poll_ops_snoc (env : Env) (k n : Nat) :
    poll_ops env k (n + 1)
      = poll_ops env k n ++ [MmioOp.rd SHA_CTR_OFFSET (env.rd (k + n) SHA_CTR_OFFSET % SIZE_MOD)] := by
  unfold poll_ops
  rw [List.range_succ, List.map_append]
  rfl

theorem reads_from_bank (env : Env) (k i : Nat) (hi : i < 8) :
    reads_from (SHA_OUT_OFFSET + i * 4) (bank_ops env k) = [bank_word env k i] := by
  interval_cases i <;> rfl

theorem reads_from_bank_ctr (env : Env) (k : Nat) :
    reads_from SHA_CTR_OFFSET (bank_ops env k) = [] := rfl

theorem bank_offset_ne (i : Nat) : SHA_OUT_OFFSET + i * 4 ≠ SHA_CTR_OFFSET := by
  unfold SHA_OUT_OFFSET SHA_CTR_OFFSET
  omega

/-- The accumulated message depends on the buffers, lengths and path only. -/
theorem accumulated_of_state {s t : Sys} {st : sha_operation_state}
    (h : t.data = { s.data with state := st }) :
    accumulated t = accumulated s ∧ active_len t = active_len s ∧
      t.data.use_accum = s.data.use_accum ∧ t.data.buffer = s.data.buffer ∧
      t.data.accum_buf = s.data.accum_buf ∧ t.data.buffer_len = s.data.buffer_len ∧
      t.data.accum_len = s.data.accum_len ∧ t.data.accum_cap = s.data.accum_cap := by
  unfold accumulated active_src active_len
  rw [h]
  exact ⟨rfl, rfl, rfl, rfl, rfl, rfl, rfl, rfl⟩

theorem byte_at_cons4 (a b c d : u8) (rest : List u8) (i : Nat) :
    byte_at (a :: b :: c :: d :: rest) (i + 4) = byte_at rest i := by
  unfold byte_at
  simp

theorem spec_word_cons4 (a b c d : u8) (rest : List u8) (k : Nat) :
    spec_word (a :: b :: c :: d :: rest) (k + 1) = spec_word rest k := by
  unfold spec_word
  rw [show 4 * (k + 1) = 4 * k + 4 by omega, show 4 * k + 4 + 1 = (4 * k + 1) + 4 by omega,
    show 4 * k + 4 + 2 = (4 * k + 2) + 4 by omega, show 4 * k + 4 + 3 = (4 * k + 3) + 4 by omega,
    byte_at_cons4, byte_at_cons4, byte_at_cons4, byte_at_cons4]

theorem spec_words_cons4 (a b c d : u8) (rest : List u8) :
    spec_words (a :: b :: c :: d :: rest)
      = (a.val + b.val * 2 ^ 8 + c.val * 2 ^ 16 + d.val * 2 ^ 24) :: spec_words rest := by
  unfold spec_words
  have hl : ((a :: b :: c :: d :: rest).length + 3) / 4 = (rest.length + 3) / 4 + 1 := by
    simp only [List.length_cons]
    omega
  have h0 : spec_word (a :: b :: c :: d :: rest) 0
      = a.val + b.val * 2 ^ 8 + c.val * 2 ^ 16 + d.val * 2 ^ 24 := by
    simp [spec_word, byte_at]
  rw [hl, List.range_succ_eq_map, List.map_cons, List.map_map]
  refine congrArg₂ List.cons h0 (List.map_congr_left ?_)
  intro k _
  exact spec_word_cons4 a b c d rest k

theorem word_bytes_pack (a b c d : Nat) (ha : a < 256) (hb : b < 256) (hc : c < 256)
    (hd : d < 256) :
    word_bytes (a + b * 2 ^ 8 + c * 2 ^ 16 + d * 2 ^ 24) = [a, b, c, d] := by
  unfold word_bytes
  norm_num
  refine ⟨?_, ?_, ?_, ?_⟩ <;> omega

/-- The byte lanes of the streamed words, cut at the message length, are the message. -/
theorem decode_spec_words : ∀ (m : List u8),
    (((spec_words m).map word_bytes).flatten).take m.length = byte_vals m
  | [] => by rfl
  | [a] => by
    have e : spec_words [a] = [a.val] := by
      simp [spec_words, spec_word, byte_at, List.range_succ]
    have w := word_bytes_pack a.val 0 0 0 a.isLt (by omega) (by omega) (by omega)
    simp only [Nat.zero_mul, Nat.add_zero] at w
    rw [e, List.map_cons, List.flatten_cons, w]
    rfl
  | [a, b] => by
    have e : spec_words [a, b] = [a.val + b.val * 2 ^ 8] := by
      simp [spec_words, spec_word, byte_at, List.range_succ]
    have w := word_bytes_pack a.val b.val 0 0 a.isLt b.isLt (by omega) (by omega)
    simp only [Nat.zero_mul, Nat.add_zero] at w
    rw [e, List.map_cons, List.flatten_cons, w]
    rfl
  | [a, b, c] => by
    have e : spec_words [a, b, c] = [a.val + b.val * 2 ^ 8 + c.val * 2 ^ 16] := by
      simp [spec_words, spec_word, byte_at, List.range_succ]
    have w := word_bytes_pack a.val b.val c.val 0 a.isLt b.isLt c.isLt (by omega)
    simp only [Nat.zero_mul, Nat.add_zero] at w
    rw [e, List.map_cons, List.flatten_cons, w]
    rfl
  | a :: b :: c :: d :: rest => by
    have ih := decode_spec_words rest
    rw [spec_words_cons4, List.map_cons, List.flatten_cons,
      word_bytes_pack a.val b.val c.val d.val a.isLt b.isLt c.isLt d.isLt]
    simp only [List.length_cons, List.cons_append, List.nil_append, List.take_succ_cons]
    unfold byte_vals at ih ⊢
    rw [ih]
    rfl

/-- A finalize call on an open session that returns 0 hands back an output whose word `i`,
for each `i` below 8, is the one value read at offset `4 * i` of the output bank. -/
theorem finish_bank (cfg : Kconfig) (env : Env) (fuel : Nat) (s : Sys) (h : Nat) (pkt : hash_pkt)
    (r : Ret) (hs : Sess cfg s h)
    (hr : em32_sha256_handler cfg env fuel s h pkt true = Res.ok r) (hrc : r.rc = 0) :
    ∃ o, r.out = some o ∧ ∀ i, i < 8 → ∃ b,
      reads_from (SHA_OUT_OFFSET + i * 4) (new_ops s r.sys) = [b] ∧ o[i]? = some b := by
  rw [handler_finish_eq cfg env fuel s h pkt hs.active hs.owner hs.state_ok] at hr
  cases hp : pkt.out_buf with
  | none =>
    obtain ⟨_, _, _, q1, _⟩ := finish_none cfg env fuel s pkt r (sess_len_bound hs).2.2 hp hr
    rw [hrc] at q1
    exact absurd q1 (by decide)
  | some out =>
    obtain ⟨s6, feed, n, _, q2, _, q4, _, _, _, _, _, q⟩ :=
      finish_out cfg env fuel s pkt r out (sess_len_bound hs).2.2 hp hr
    rcases q with ⟨_, _, k3, _⟩ | ⟨_, _, _, _, k5, o, k6, _, k8, _⟩
    · rw [hrc] at k3
      exact absurd k3 (by decide)
    · refine ⟨o, k6, fun i hi => ⟨bank_word env (s6.nread + n + 1) i, ?_, k8 i hi⟩⟩
      have hne := bank_offset_ne i
      unfold new_ops
      rw [k5, q2, List.append_assoc, List.drop_left, reads_from_append, reads_from_append,
        reads_from_append, reads_from_append, q4 _ hne, reads_from_poll env _ _ _ hne,
        reads_from_bank env _ i hi]
      simp [reads_from, prog_ops, hne, Ne.symm hne]

/-- The message described by the values a finalize call programs is the accumulated message,
and the programmed values are consistent. -/
theorem finish_describes (cfg : Kconfig) (env : Env) (fuel : Nat) (s : Sys) (h : Nat)
    (pkt : hash_pkt) (r : Ret) (hs : Sess cfg s h)
    (hr : em32_sha256_handler cfg env fuel s h pkt true = Res.ok r) :
    accel_message (new_ops s r.sys) = byte_vals (accumulated s) ∧
      accel_consistent (new_ops s r.sys) := by
  obtain ⟨p1, p2, p3, p4⟩ := finish_programs cfg env fuel s h pkt r hs hr
  have hn := accumulated_length hs
  have hp := pad_packet_le (active_len s)
  have hw : (spec_words (accumulated s)).length = (active_len s + 3) / 4 := by
    unfold spec_words
    rw [List.length_map, List.length_range, hn]
  have hv : ((active_len s % 4) * 256 + pad_packet (active_len s)) >>> SHA_VALID_BYTE_SHIFT % 4
      = active_len s % 4 := by
    unfold SHA_VALID_BYTE_SHIFT
    rw [Nat.shiftRight_eq_div_pow]
    omega
  have hcut : (if active_len s % 4 = 0 then 4 * ((active_len s + 3) / 4)
      else 4 * ((active_len s + 3) / 4 - 1) + active_len s % 4) = active_len s := by
    split <;> omega
  have hin : (spec_words (accumulated s)).take ((active_len s + 3) / 4)
      = spec_words (accumulated s) := List.take_of_length_le (by omega)
  have hmsg : accel_message (new_ops s r.sys) = byte_vals (accumulated s) := by
    unfold accel_message
    rw [p1, p3, p4]
    simp only [List.getLastD_cons, List.getLastD_nil]
    rw [hv, hcut, hin, ← hn]
    exact decode_spec_words (accumulated s)
  have hpc : ((active_len s % 4) * 256 + pad_packet (active_len s)) % 32
      = pad_packet (active_len s) := by omega
  have key : (active_len s + 3) / 4 + pad_packet (active_len s) + 2
      = 16 * ((active_len s + 8) / 64 + 1) := by
    rw [pad_packet_eq]
    split <;> omega
  refine ⟨hmsg, ?_, ?_, ?_⟩
  · rw [p4, p1, hw]
    rfl
  · rw [p2]
    rfl
  · rw [hmsg, p1, p3]
    simp only [List.getLastD_cons, List.getLastD_nil]
    unfold byte_vals
    rw [List.length_map, hn, hpc, key]

set_option maxRecDepth 1000000

/-! ## Polls that are never answered -/

theorem reset_wait_stuck (env : Env)
    (hst : ∀ k, (env.rd k SHA_CTR_OFFSET % SIZE_MOD) &&& SHA_RST_BIT ≠ 0) (fuel : Nat) (s : Sys) :
    reset_wait env fuel s = Res.hang := by
  induction fuel generalizing s with
  | zero =>
    unfold reset_wait sha_read_reg
    rw [if_pos (by rw [read_val]; exact hst _)]
  | succ f ih =>
    unfold reset_wait sha_read_reg
    rw [if_pos (by rw [read_val]; exact hst _)]
    exact ih _

/-- Begin for SHA-256 on an instance without an active session does not return while the
accelerator keeps the reset bit set. -/
theorem begin_stuck (cfg : Kconfig) (env : Env)
    (hst : ∀ k, (env.rd k SHA_CTR_OFFSET % SIZE_MOD) &&& SHA_RST_BIT ≠ 0) (fuel : Nat) (s : Sys)
    (h : Nat) (hi : s.data.session_active = false) :
    crypto_em32_hash_begin_session cfg env fuel s h .CRYPTO_HASH_ALGO_SHA256 = Res.hang := by
  unfold crypto_em32_hash_begin_session
  rw [if_neg (by simp [hi]), if_neg (by simp)]
  unfold sha_reset
  dsimp only
  rw [reset_wait_stuck env hst]
  rfl

theorem ready_wait_stuck (env : Env)
    (hnr : ∀ k, (env.rd k SHA_CTR_OFFSET % SIZE_MOD) &&& SHA_READY_BIT = 0) (fuel : Nat)
    (s : Sys) : ready_wait env fuel s = Res.hang := by
  induction fuel generalizing s with
  | zero =>
    unfold ready_wait
    rw [if_pos (by rw [read_val]; exact hnr _)]
  | succ f ih =>
    unfold ready_wait
    rw [if_pos (by rw [read_val]; exact hnr _)]
    exact ih _

/-- While the accelerator never shows ready, the feeding loop returns only if it does not
reach a word whose position is a multiple of 16. -/
theorem feed_words_stuck (env : Env)
    (hnr : ∀ k, (env.rd k SHA_CTR_OFFSET % SIZE_MOD) &&& SHA_READY_BIT = 0) (fuel : Nat)
    (src : Option (List u8)) (total n k b : Nat) (s t : Sys)
    (h : feed_words env fuel src total n k b s = Res.ok t) : k % 16 + n < 16 := by
  induction n generalizing k b s with
  | zero =>
    have := Nat.mod_lt k (show 0 < 16 by omega)
    omega
  | succ n ih =>
    unfold feed_words at h
    obtain ⟨a, _, h1⟩ := Res.bind_eq_ok h
    obtain ⟨s2, hs2, hrest⟩ := Res.bind_eq_ok h1
    split at hs2
    · rw [ready_wait_stuck env hnr] at hs2
      cases hs2
    · have := ih _ _ _ hrest
      omega

/-- A finalize call on an open session holding at least 16 words does not return while the
accelerator never shows ready. -/
theorem finish_stuck (cfg : Kconfig) (env : Env)
    (hnr : ∀ k, (env.rd k SHA_CTR_OFFSET % SIZE_MOD) &&& SHA_READY_BIT = 0) (fuel : Nat)
    (s : Sys) (h : Nat) (pkt : hash_pkt) (r : Ret) (hs : Sess cfg s h)
    (hw : 16 ≤ (active_len s + 3) / 4) :
    em32_sha256_handler cfg env fuel s h pkt true ≠ Res.ok r := by
  intro hr
  rw [handler_finish_eq cfg env fuel s h pkt hs.active hs.owner hs.state_ok,
    handler_finish_split] at hr
  obtain ⟨s6, h6, _⟩ := Res.bind_eq_ok hr
  unfold feed_phase at h6
  dsimp only at h6
  have hal : active_len (set_state .SHA_STATE_BUSY s) = active_len s := rfl
  rw [hal] at h6
  have := feed_words_stuck env hnr fuel _ _ _ _ _ _ _ h6
  rw [words_lo_eq (sess_len_bound hs).1] at this
  omega

/-- The inline branch with a wrapped length test: the copy runs past the inline buffer. -/
theorem inline_overrun (cfg : Kconfig) (env : Env) (fuel : Nat) (s : Sys) (h : Nat)
    (pkt : hash_pkt) (src : List u8) (hs : Sess cfg s h) (hu : s.data.use_accum = false)
    (hsrc : pkt.in_buf = some src)
    (hwrap : (s.data.buffer_len + pkt.in_len) % SIZE_MOD < 256)
    (hbig : 256 < s.data.buffer_len + pkt.in_len) :
    em32_sha256_handler cfg env fuel s h pkt false = Res.ub := by
  have hpos : 0 < pkt.in_len := by
    have := (hs.inline_ok hu).1
    omega
  rw [handler_update_eq cfg env fuel s h pkt hs.active hs.owner hs.state_ok hpos]
  unfold handler_update
  rw [hsrc]
  dsimp only
  rw [if_pos ⟨hu, hwrap⟩]
  unfold memcpy
  rw [if_neg (by have := hs.buf256; omega)]
  rfl

theorem write_nread (val off : Nat) (s : Sys) : (sys_write32 val off s).nread = s.nread := rfl

/-- The flow-control wait, when it returns: it made `n` reads of the control register and
nothing else, at least one; all but the last showed the ready bit clear and the last showed
it set. -/
theorem ready_wait_spec (env : Env) (fuel : Nat) (s t : Sys)
    (h : ready_wait env fuel s = Res.ok t) :
    ∃ n, 1 ≤ n ∧ t.mmio = s.mmio ++ poll_ops env s.nread n ∧ t.nread = s.nread + n ∧
      (∀ j, j + 1 < n → (env.rd (s.nread + j) SHA_CTR_OFFSET % SIZE_MOD) &&& SHA_READY_BIT = 0) ∧
      (env.rd (s.nread + (n - 1)) SHA_CTR_OFFSET % SIZE_MOD) &&& SHA_READY_BIT ≠ 0 := by
  have last : ∀ (s : Sys), ¬ ((sys_read32 env SHA_CTR_OFFSET s).1 &&& SHA_READY_BIT = 0) →
      ∃ n, 1 ≤ n ∧ (sys_read32 env SHA_CTR_OFFSET s).2.mmio = s.mmio ++ poll_ops env s.nread n ∧
        (sys_read32 env SHA_CTR_OFFSET s).2.nread = s.nread + n ∧
        (∀ j, j + 1 < n →
          (env.rd (s.nread + j) SHA_CTR_OFFSET % SIZE_MOD) &&& SHA_READY_BIT = 0) ∧
        (env.rd (s.nread + (n - 1)) SHA_CTR_OFFSET % SIZE_MOD) &&& SHA_READY_BIT ≠ 0 := by
    intro s c
    rw [read_val] at c
    refine ⟨1, le_refl _, ?_, rfl, fun j hj => by omega, c⟩
    rw [poll_ops_one]
    exact (hw_read env _ s).2.2.2
  induction fuel generalizing s with
  | zero =>
    unfold ready_wait at h
    split at h
    · cases h
    · rename_i c
      cases h
      exact last s c
  | succ f ih =>
    unfold ready_wait at h
    split at h
    · rename_i c
      obtain ⟨n, n1, n2, n3, n4, n5⟩ := ih _ h
      rw [read_val] at c
      rw [read_nread] at n2 n3 n4 n5
      refine ⟨n + 1, by omega, ?_, by omega, ?_, ?_⟩
      · rw [n2, (hw_read env _ s).2.2.2, poll_ops_succ, List.append_assoc]
        rfl
      · intro j hj
        cases j with
        | zero => exact c
        | succ i =>
          have := n4 i (by omega)
          rwa [show s.nread + 1 + i = s.nread + (i + 1) by omega] at this
      · have e : s.nread + 1 + (n - 1) = s.nread + (n + 1 - 1) := by omega
        rwa [e] at n5
    · rename_i c
      cases h
      exact last s c

/-- The access history of the feeding loop: one write per word, and a flow-control wait after
exactly the words whose 1-based position is a multiple of 16. -/
theorem feed_words_shape (env : Env) (fuel : Nat) (l : List u8) (total : Nat)
    (hlen : total ≤ l.length) (n k : Nat) (s t : Sys) (hk : 4 * (k + n) < total + 4)
    (h : feed_words env fuel (some l) total n k (min (4 * k) total) s = Res.ok t) :
    ∃ ps, t.mmio = s.mmio ++ feed_ops env k s.nread
        ((List.range n).map (fun i => spec_word (l.take total) (k + i))) ps ∧
      ps.length + k / 16 = (k + n) / 16 ∧ waits_ok env s.nread ps ∧
      t.nread = s.nread + ps.sum := by
  induction n generalizing k s with
  | zero =>
    unfold feed_words at h
    cases h
    exact ⟨[], by simp [feed_ops], by simp, trivial, by simp⟩
  | succ n ih =>
    have hk4 : 4 * k < total := by omega
    have hmin : min (4 * k) total = 4 * k := by omega
    unfold feed_words at h
    rw [hmin, assemble_word_eq hlen hk4] at h
    simp only [Res.ok_bind] at h
    obtain ⟨s2, hs2, hrest⟩ := Res.bind_eq_ok h
    have hmin2 : min (4 * k + 4) total = min (4 * (k + 1)) total := by
      rw [show 4 * (k + 1) = 4 * k + 4 by omega]
    rw [hmin2] at hrest
    obtain ⟨ps, h1, h2, h3, h4⟩ := ih (k + 1) s2 (by omega) hrest
    have hw := (hw_write (spec_word (l.take total) k) SHA_IN_OFFSET s).2.2.2
    have hlist : (List.range (n + 1)).map (fun i => spec_word (l.take total) (k + i))
        = spec_word (l.take total) k ::
          (List.range n).map (fun i => spec_word (l.take total) (k + 1 + i)) := by
      rw [List.range_succ_eq_map]
      simp only [List.map_cons, List.map_map, Nat.add_zero]
      congr 1
      apply List.map_congr_left
      intro i _
      simp only [Function.comp]
      rw [show k + 1 + i = k + (i + 1) by omega]
    rw [hlist]
    by_cases c : (k + 1) % 16 = 0
    · rw [if_pos c] at hs2
      obtain ⟨m, m1, m2, m3, m4, m5⟩ := ready_wait_spec env fuel _ _ hs2
      rw [write_nread] at m2 m3 m4 m5
      refine ⟨m :: ps, ?_, ?_, ⟨m1, m4, m5, ?_⟩, ?_⟩
      · unfold feed_ops
        rw [if_pos c, h1, m2, hw, m3]
        simp
      · simp only [List.length_cons]
        omega
      · rw [← m3]
        exact h3
      · rw [h4, m3]
        simp only [List.sum_cons]
        omega
    · rw [if_neg c] at hs2
      cases hs2
      rw [write_nread] at h1 h3 h4
      refine ⟨ps, ?_, by omega, h3, h4⟩
      unfold feed_ops
      rw [if_neg c, h1, hw]
      simp

theorem feed_words_shape0 (env : Env) (fuel : Nat) (l : List u8) (total : Nat)
    (hlen : total ≤ l.length) (n : Nat) (s t : Sys) (hk : 4 * n < total + 4)
    (h : feed_words env fuel (some l) total n 0 0 s = Res.ok t) :
    ∃ ps, t.mmio = s.mmio ++ feed_ops env 0 s.nread
        ((List.range n).map (spec_word (l.take total))) ps ∧
      ps.length = n / 16 ∧ waits_ok env s.nread ps ∧ t.nread = s.nread + ps.sum := by
  have hz : min (4 * 0) total = 0 := by simp
  have h2 : feed_words env fuel (some l) total n 0 (min (4 * 0) total) s = Res.ok t := by
    rw [hz]
    exact h
  obtain ⟨ps, p1, p2, p3, p4⟩ := feed_words_shape env fuel l total hlen n 0 s t (by omega) h2
  refine ⟨ps, ?_, by simpa using p2, p3, p4⟩
  rw [p1]
  simp

/-- The feed phase of a finalize call that gets through it, access by access. -/
theorem feed_phase_shape (env : Env) (fuel : Nat) (s s6 : Sys)
    (hlen : active_len s ≤ ((active_src s).getD []).length)
    (hb : active_len s + 3 < SIZE_MOD)
    (h : feed_phase env fuel s = Res.ok s6) :
    ∃ ps, s6.mmio = s.mmio ++ (prog_ops (active_len s)
        ++ feed_ops env 0 s.nread (spec_words (accumulated s)) ps) ∧
      ps.length = ((active_len s + 3) / 4) / 16 ∧ waits_ok env s.nread ps ∧
      s6.nread = s.nread + ps.sum := by
  unfold feed_phase at h
  dsimp only at h
  have hsrc : active_src (set_state .SHA_STATE_BUSY s) = active_src s := rfl
  have hal : active_len (set_state .SHA_STATE_BUSY s) = active_len s := rfl
  rw [hsrc, hal] at h
  have h5 := ((((hw_write (SHA_WR_REV_BIT ||| SHA_RD_REV_BIT) SHA_CTR_OFFSET
      (set_state .SHA_STATE_BUSY s)).trans
      (hw_write (words_lo (active_len s)) SHA_DATALEN_OFFSET _)).trans
      (hw_write 0 SHA_DATALEN_5832_OFFSET _)).trans
      (hw_write (pad_ctrl (active_len s)) SHA_PAD_CTR_OFFSET _)).trans
      (hw_write ((SHA_WR_REV_BIT ||| SHA_RD_REV_BIT) ||| SHA_STR_BIT) SHA_CTR_OFFSET _)
  have hm5 := h5.2.2.2
  have hwl := words_lo_eq hb
  have hacl : (accumulated s).length = active_len s := by
    unfold accumulated
    rw [List.length_take]
    omega
  have hsw : spec_words (accumulated s)
      = (List.range (words_lo (active_len s))).map (spec_word (accumulated s)) := by
    unfold spec_words
    rw [hacl, hwl]
  cases hsrc2 : active_src s with
  | none =>
    rw [hsrc2] at hlen h
    have h0 : active_len s = 0 := by simpa using hlen
    rw [h0] at h hm5 hsw ⊢
    have hz : words_lo 0 = 0 := by decide
    rw [hz] at h hsw
    unfold feed_words at h
    cases h
    refine ⟨[], ?_, by simp, trivial, by simp [write_nread, set_state]⟩
    rw [hsw]
    simpa [feed_ops, prog_ops] using hm5
  | some l =>
    rw [hsrc2] at hlen h
    have hlen2 : active_len s ≤ l.length := by simpa using hlen
    have hw := words_lo_le (active_len s)
    obtain ⟨ps, p1, p2, p3, p4⟩ :=
      feed_words_shape0 env fuel l (active_len s) hlen2 _ _ s6 (by omega) h
    have hacc : accumulated s = l.take (active_len s) := by
      unfold accumulated
      rw [hsrc2]
      rfl
    refine ⟨ps, ?_, ?_, p3, p4⟩
    · rw [p1, hm5, hsw, hacc, List.append_assoc]
      simp only [prog_ops, List.cons_append, List.nil_append]
      rfl
    · rw [← hwl]
      exact p2

theorem writes_to_feed_ops (env : Env) (ws : List Nat) :
    ∀ (k nr : Nat) (ps : List Nat), writes_to SHA_IN_OFFSET (feed_ops env k nr ws ps) = ws := by
  induction ws with
  | nil => intro k nr ps; rfl
  | cons w ws ih =>
    intro k nr ps
    rw [feed_ops, ← List.singleton_append, writes_to_append, writes_to_wr, if_pos rfl]
    by_cases c : (k + 1) % 16 = 0
    · rw [if_pos c, writes_to_append, writes_to_poll, ih]
      rfl
    · rw [if_neg c, ih]
      rfl

/-- A returning finalize call got through the feed phase, and what it did afterwards only
added to the access history. -/
theorem finish_after_feed (cfg : Kconfig) (env : Env) (fuel : Nat) (s : Sys) (pkt : hash_pkt)
    (r : Ret) (hlen : active_len s ≤ ((active_src s).getD []).length)
    (h : handler_finish cfg env fuel s pkt = Res.ok r) :
    ∃ s6 rest, feed_phase env fuel s = Res.ok s6 ∧ r.sys.mmio = s6.mmio ++ rest := by
  cases ho : pkt.out_buf with
  | none =>
    obtain ⟨s6, _, h1, _, _, _, h5, _⟩ := finish_none cfg env fuel s pkt r hlen ho h
    exact ⟨s6, [], h1, by simpa using h5⟩
  | some out =>
    obtain ⟨s6, _, n, h1, _, _, _, _, _, _, _, _, h10⟩ :=
      finish_out cfg env fuel s pkt r out hlen ho h
    rcases h10 with ⟨_, _, _, _, _, hm⟩ | ⟨_, _, _, _, hm, _⟩
    · exact ⟨s6, _, h1, hm⟩
    · exact ⟨s6, _, h1, hm⟩

/-! ### What the growth code leaves alone -/

theorem install_block_frame (s : Sys) (new_buf : List u8) (new_cap : Nat) (r : Int × Sys)
    (h : install_block s new_buf new_cap = Res.ok r) :
    r.2.data.total_len = s.data.total_len ∧ r.2.data.buffer_len = s.data.buffer_len ∧
    r.2.data.use_accum = s.data.use_accum ∧ r.2.data.buffer = s.data.buffer ∧
    r.2.data.accum_len = s.data.accum_len := by
  unfold install_block at h
  split at h
  · split at h
    · obtain ⟨nb, _, hp⟩ := Res.bind_eq_ok h
      cases hp
      exact ⟨rfl, rfl, rfl, rfl, rfl⟩
    · cases h
      exact ⟨rfl, rfl, rfl, rfl, rfl⟩
  · cases h
    exact ⟨rfl, rfl, rfl, rfl, rfl⟩

theorem ensure_frame (cfg : Kconfig) (env : Env) (fuel : Nat) (s : Sys) (need : Nat)
    (r : Int × Sys) (h : ensure_accum_capacity cfg env fuel s need = Res.ok r) :
    r.2.data.total_len = s.data.total_len ∧ r.2.data.buffer_len = s.data.buffer_len ∧
    r.2.data.use_accum = s.data.use_accum ∧ r.2.data.buffer = s.data.buffer ∧
    r.2.data.accum_len = s.data.accum_len := by
  unfold ensure_accum_capacity at h
  split at h
  · cases h
    exact ⟨rfl, rfl, rfl, rfl, rfl⟩
  · split at h
    · cases h
      exact ⟨rfl, rfl, rfl, rfl, rfl⟩
    · obtain ⟨new_cap, _, hrest⟩ := Res.bind_eq_ok h
      cases hm : env.malloc_ok s.nmalloc new_cap with
      | true =>
        have hk : k_malloc env new_cap s
            = (some ((List.range new_cap).map (env.junk s.nmalloc)),
               { s with nmalloc := s.nmalloc + 1 }) := by
          unfold k_malloc
          rw [if_pos hm]
        rw [hk] at hrest
        exact install_block_frame { s with nmalloc := s.nmalloc + 1 } _ new_cap r hrest
      | false =>
        have hk : k_malloc env new_cap s = (none, { s with nmalloc := s.nmalloc + 1 }) := by
          unfold k_malloc
          rw [if_neg (by simp [hm])]
        rw [hk] at hrest
        cases hrest
        exact ⟨rfl, rfl, rfl, rfl, rfl⟩

theorem append_frame (cfg : Kconfig) (env : Env) (fuel : Nat) (s : Sys) (src : List u8)
    (len : Nat) (r : Int × Sys) (h : accum_append cfg env fuel s src len = Res.ok r) :
    r.2.data.total_len = s.data.total_len ∧ r.2.data.buffer_len = s.data.buffer_len ∧
    r.2.data.use_accum = s.data.use_accum ∧ r.2.data.buffer = s.data.buffer := by
  unfold accum_append at h
  split at h
  · cases h
    exact ⟨rfl, rfl, rfl, rfl⟩
  · obtain ⟨e, he, hrest⟩ := Res.bind_eq_ok h
    obtain ⟨f1, f2, f3, f4, _⟩ := ensure_frame cfg env fuel s _ e he
    dsimp only at hrest
    split at hrest
    · cases hrest
      exact ⟨f1, f2, f3, f4⟩
    · split at hrest
      · cases hrest
      · obtain ⟨blk2, _, hp⟩ := Res.bind_eq_ok hrest
        cases hp
        exact ⟨f1, f2, f3, f4⟩

theorem migrate_frame (cfg : Kconfig) (env : Env) (fuel : Nat) (s : Sys) (in_len : Nat)
    (r : Int × Sys) (h : migrate cfg env fuel s in_len = Res.ok r) :
    r.2.data.total_len = s.data.total_len ∧ r.2.data.buffer = s.data.buffer ∧
    (r.1 ≠ 0 → r.2.data.use_accum = s.data.use_accum ∧
      r.2.data.buffer_len = s.data.buffer_len) ∧
    (r.1 = 0 → r.2.data.use_accum = true ∧ r.2.data.buffer_len = 0) := by
  unfold migrate at h
  dsimp only at h
  obtain ⟨e, he, hrest⟩ := Res.bind_eq_ok h
  obtain ⟨f1, f2, f3, f4, _⟩ := ensure_frame cfg env fuel s _ e he
  split at hrest
  · rename_i hne
    cases hrest
    exact ⟨f1, f4, fun _ => ⟨f3, f2⟩, fun h0 => absurd h0 hne⟩
  · rename_i hz
    have hz0 : e.1 = 0 := by simpa using hz
    split at hrest
    · split at hrest
      · cases hrest
      · obtain ⟨blk2, _, hp⟩ := Res.bind_eq_ok hrest
        cases hp
        exact ⟨f1, f4, fun hne => absurd rfl hne, fun _ => ⟨rfl, rfl⟩⟩
    · rename_i hb
      cases hrest
      exact ⟨f1, f4, fun hne => absurd rfl hne, fun _ => ⟨rfl, by simpa using hb⟩⟩

/-- No update call writes `total_len` except on the inline branch, where it is set to the new
inline length; and an update call never clears `use_accum`. -/
theorem update_frame (cfg : Kconfig) (env : Env) (fuel : Nat) (s : Sys) (pkt : hash_pkt)
    (r : Ret) (h : handler_update cfg env fuel s pkt = Res.ok r) :
    (s.data.use_accum = true → r.sys.data.use_accum = true ∧
      r.sys.data.total_len = s.data.total_len) ∧
    (r.sys.data.use_accum = true → r.sys.data.total_len = s.data.total_len) ∧
    (r.sys.data.use_accum = false → s.data.use_accum = false ∧
      (r.sys = s ∨
        (r.sys.data.total_len = r.sys.data.buffer_len ∧ r.sys.nmalloc = s.nmalloc)) ∨
      r.rc ≠ 0) := by
  unfold handler_update at h
  split at h
  · cases h
    exact ⟨fun hu => ⟨hu, rfl⟩, fun _ => rfl, fun hu => Or.inl ⟨hu, Or.inl rfl⟩⟩
  · split at h
    · rename_i hc
      obtain ⟨buf, _, hp⟩ := Res.bind_eq_ok h
      cases hp
      refine ⟨fun hu => ?_, fun hu => ?_, fun _ => Or.inl ⟨hc.1, Or.inr ⟨rfl, rfl⟩⟩⟩
      · rw [hc.1] at hu
        cases hu
      · have : s.data.use_accum = true := hu
        rw [hc.1] at this
        cases this
    · obtain ⟨m, hm, hrest⟩ := Res.bind_eq_ok h
      have hmf : m.2.data.total_len = s.data.total_len ∧
          (s.data.use_accum = true → m.2.data.use_accum = true) ∧
          (m.1 = 0 → m.2.data.use_accum = true) := by
        split at hm
        · rename_i hu
          obtain ⟨g1, _, _, g4⟩ := migrate_frame cfg env fuel s _ m hm
          refine ⟨g1, fun hu2 => ?_, fun h0 => (g4 h0).1⟩
          rw [hu] at hu2
          cases hu2
        · rename_i hu
          cases hm
          exact ⟨rfl, fun hu2 => hu2, fun _ => by simpa using hu⟩
      obtain ⟨m1, m2, m3⟩ := hmf
      split at hrest
      · rename_i hne
        cases hrest
        exact ⟨fun hu => ⟨m2 hu, m1⟩, fun _ => m1, fun _ => Or.inr hne⟩
      · rename_i hz
        have hz0 : m.1 = 0 := by simpa using hz
        obtain ⟨a, ha, hp⟩ := Res.bind_eq_ok hrest
        cases hp
        obtain ⟨a1, _, a3, _⟩ := append_frame cfg env fuel m.2 _ _ a ha
        have hua : a.2.data.use_accum = true := by rw [a3]; exact m3 hz0
        refine ⟨fun _ => ⟨hua, by rw [a1, m1]⟩, fun _ => by rw [a1, m1], fun hu => ?_⟩
        have : a.2.data.use_accum = false := hu
        rw [hua] at this
        cases this

theorem handler_frame (cfg : Kconfig) (env : Env) (fuel : Nat) (s : Sys) (h : Nat)
    (pkt : hash_pkt) (r : Ret)
    (hr : em32_sha256_handler cfg env fuel s h pkt false = Res.ok r) :
    (s.data.use_accum = true → r.sys.data.use_accum = true ∧
      r.sys.data.total_len = s.data.total_len) ∧
    (r.sys.data.use_accum = true → r.sys.data.total_len = s.data.total_len) ∧
    (r.sys.data.use_accum = false → s.data.use_accum = false ∧
      (r.sys = s ∨
        (r.sys.data.total_len = r.sys.data.buffer_len ∧ r.sys.nmalloc = s.nmalloc)) ∨
      r.rc ≠ 0) := by
  have same : ∀ rc : Int, r = ⟨rc, s, pkt.out_buf⟩ →
      (s.data.use_accum = true → r.sys.data.use_accum = true ∧
        r.sys.data.total_len = s.data.total_len) ∧
      (r.sys.data.use_accum = true → r.sys.data.total_len = s.data.total_len) ∧
      (r.sys.data.use_accum = false → s.data.use_accum = false ∧
        (r.sys = s ∨
          (r.sys.data.total_len = r.sys.data.buffer_len ∧ r.sys.nmalloc = s.nmalloc)) ∨
        r.rc ≠ 0) := by
    intro rc e
    subst e
    exact ⟨fun hu => ⟨hu, rfl⟩, fun _ => rfl, fun hu => Or.inl ⟨hu, Or.inl rfl⟩⟩
  unfold em32_sha256_handler at hr
  split at hr
  · cases hr
    exact same _ rfl
  · split at hr
    · cases hr
      exact same _ rfl
    · split at hr
      · exact update_frame cfg env fuel s pkt r hr
      · rw [if_neg (by simp)] at hr
        cases hr
        exact same _ rfl

theorem ensure_cap (cfg : Kconfig) (env : Env) (fuel : Nat) (s : Sys) (need : Nat)
    (r : Int × Sys) (hcap : CapOk cfg s.data.accum_cap)
    (hblk : (s.data.accum_buf.getD []).length = s.data.accum_cap)
    (hlen : s.data.accum_len ≤ s.data.accum_cap)
    (h : ensure_accum_capacity cfg env fuel s need = Res.ok r) :
    s.data.accum_cap ≤ r.2.data.accum_cap ∧ (r.1 = 0 → need ≤ r.2.data.accum_cap) ∧
    (r.1 ≠ 0 → r.2.data = s.data) ∧
    (r.2.data.accum_buf.getD []).length = r.2.data.accum_cap ∧ CapOk cfg r.2.data.accum_cap := by
  obtain ⟨rc, t⟩ := r
  obtain ⟨_, _, hcase⟩ := ensure_ok cfg env fuel s need rc t hcap hblk hlen h
  rcases hcase with ⟨h1, h2, _⟩ | ⟨h1, nb, c, h2, h3, h4, h5, h6, _⟩
  · refine ⟨by rw [h2], fun h0 => ?_, fun _ => h2, by rw [h2]; exact hblk, by rw [h2]; exact hcap⟩
    have h0' : rc = 0 := h0
    rw [h1] at h0'
    exact absurd h0' (by decide)
  · refine ⟨by rw [h2]; exact h6, fun _ => by rw [h2]; exact h4,
      fun hne => absurd h1 hne, by rw [h2]; exact h3, by rw [h2]; exact h5⟩

theorem migrate_cap (cfg : Kconfig) (env : Env) (fuel : Nat) (s : Sys) (h : Nat) (in_len : Nat)
    (r : Int × Sys) (hs : Sess cfg s h)
    (hr : migrate cfg env fuel s in_len = Res.ok r) (h0 : r.1 = 0) :
    prealloc_size cfg ((s.data.buffer_len + in_len) % SIZE_MOD) ≤ r.2.data.accum_cap := by
  unfold migrate at hr
  dsimp only at hr
  obtain ⟨e, he, hrest⟩ := Res.bind_eq_ok hr
  obtain ⟨_, c2, _⟩ := ensure_cap cfg env fuel s _ e hs.cap_ok hs.blk_len hs.len_le he
  split at hrest
  · rename_i hne
    cases hrest
    exact absurd h0 hne
  · rename_i hz
    have hz0 : e.1 = 0 := by simpa using hz
    split at hrest
    · split at hrest
      · cases hrest
      · obtain ⟨blk2, _, hp⟩ := Res.bind_eq_ok hrest
        cases hp
        exact c2 hz0
    · cases hrest
      exact c2 hz0

theorem append_cap (cfg : Kconfig) (env : Env) (fuel : Nat) (s : Sys) (src : List u8)
    (len : Nat) (r : Int × Sys) (hcap : CapOk cfg s.data.accum_cap)
    (hblk : (s.data.accum_buf.getD []).length = s.data.accum_cap)
    (hlen : s.data.accum_len ≤ s.data.accum_cap)
    (h : accum_append cfg env fuel s src len = Res.ok r) :
    s.data.accum_cap ≤ r.2.data.accum_cap := by
  unfold accum_append at h
  split at h
  · cases h
    exact Nat.le_refl _
  · obtain ⟨e, he, hrest⟩ := Res.bind_eq_ok h
    obtain ⟨c1, _, _⟩ := ensure_cap cfg env fuel s _ e hcap hblk hlen he
    dsimp only at hrest
    split at hrest
    · cases hrest
      exact c1
    · split at hrest
      · cases hrest
      · obtain ⟨blk2, _, hp⟩ := Res.bind_eq_ok hrest
        cases hp
        exact c1

/-- An update call that finds room in the inline buffer stays on the inline path. -/
theorem update_inline (cfg : Kconfig) (env : Env) (fuel : Nat) (s : Sys) (pkt : hash_pkt)
    (r : Ret) (hu : s.data.use_accum = false)
    (hfit : (s.data.buffer_len + pkt.in_len) % SIZE_MOD < 256)
    (h : handler_update cfg env fuel s pkt = Res.ok r) :
    r.sys.data.use_accum = false ∧ r.sys.nmalloc = s.nmalloc ∧
    r.sys.data.accum_cap = s.data.accum_cap ∧ r.sys.data.accum_buf = s.data.accum_buf := by
  unfold handler_update at h
  split at h
  · cases h
    exact ⟨hu, rfl, rfl, rfl⟩
  · rw [if_pos ⟨hu, hfit⟩] at h
    obtain ⟨buf, _, hp⟩ := Res.bind_eq_ok h
    cases hp
    exact ⟨hu, rfl, rfl, rfl⟩

/-- An update call that does not find room in the inline buffer and returns 0 has moved the
session to the dynamic buffer, whose capacity is at least the preallocation size the source
computes. -/
theorem update_migrates (cfg : Kconfig) (env : Env) (fuel : Nat) (s : Sys) (h : Nat)
    (pkt : hash_pkt) (r : Ret) (hs : Sess cfg s h) (hu : s.data.use_accum = false)
    (hfit : ¬ (s.data.buffer_len + pkt.in_len) % SIZE_MOD < 256)
    (hr : handler_update cfg env fuel s pkt = Res.ok r) (hrc : r.rc = 0) :
    r.sys.data.use_accum = true ∧ r.sys.data.buffer_len = 0 ∧
    r.sys.data.total_len = s.data.total_len ∧
    prealloc_size cfg ((s.data.buffer_len + pkt.in_len) % SIZE_MOD) ≤ r.sys.data.accum_cap := by
  unfold handler_update at hr
  split at hr
  · cases hr
    exact absurd hrc (show (-EINVAL : Int) ≠ 0 by decide)
  · rw [if_neg (fun hc => hfit hc.2), if_pos hu] at hr
    obtain ⟨m, hm, hrest⟩ := Res.bind_eq_ok hr
    split at hrest
    · rename_i hne
      cases hrest
      exact absurd hrc hne
    · rename_i hz
      have hz0 : m.1 = 0 := by simpa using hz
      obtain ⟨a, ha, hp⟩ := Res.bind_eq_ok hrest
      cases hp
      obtain ⟨g1, _, _, g4⟩ := migrate_frame cfg env fuel s _ m hm
      have hcapm := migrate_cap cfg env fuel s h _ m hs hm hz0
      obtain ⟨rcm, sm⟩ := m
      have hz1 : rcm = 0 := hz0
      subst hz1
      obtain ⟨_, hcase⟩ := migrate_ok cfg env fuel s h _ 0 sm hs hu hm
      have hsm : Sess cfg sm h := by
        rcases hcase with ⟨hbad, _⟩ | ⟨_, hsm, _⟩
        · exact absurd hbad (by decide)
        · exact hsm
      obtain ⟨a1, a2, a3, _⟩ := append_frame cfg env fuel sm _ _ a ha
      have hcapa := append_cap cfg env fuel sm _ _ a hsm.cap_ok hsm.blk_len hsm.len_le ha
      refine ⟨by rw [a3]; exact (g4 rfl).1, by rw [a2]; exact (g4 rfl).2, by rw [a1]; exact g1, ?_⟩
      exact Nat.le_trans hcapm hcapa

/-- One update call with chunk `c` that returns 0: the message and its length grow by `c`. -/
theorem update_len (cfg : Kconfig) (env : Env) (fuel : Nat) (s : Sys) (h : Nat) (c : List u8)
    (out : Option (List Nat)) (r : Ret) (hs : Sess cfg s h)
    (hr : em32_sha256_handler cfg env fuel s h (update_pkt c out) false = Res.ok r)
    (hrc : r.rc = 0) :
    Sess cfg r.sys h ∧ accumulated r.sys = accumulated s ++ c ∧
    active_len r.sys = active_len s + c.length := by
  have hu : Updates cfg env h s [c] r.sys :=
    Updates.step s r.sys c [] fuel out r hr hrc (Updates.done r.sys)
  obtain ⟨hs1, hacc, _⟩ := updates_ok cfg env h s r.sys [c] hs hu
  have hacc2 : accumulated r.sys = accumulated s ++ c := by
    rw [hacc]
    simp
  refine ⟨hs1, hacc2, ?_⟩
  rw [← accumulated_length hs1, hacc2, List.length_append, accumulated_length hs]

/-- One update call with chunk `c` that returns 0, path by path. -/
theorem update_step (cfg : Kconfig) (env : Env) (fuel : Nat) (s : Sys) (h : Nat) (c : List u8)
    (out : Option (List Nat)) (r : Ret) (hs : Sess cfg s h)
    (hr : em32_sha256_handler cfg env fuel s h (update_pkt c out) false = Res.ok r)
    (hrc : r.rc = 0) :
    (s.data.use_accum = true → r.sys.data.use_accum = true ∧
      r.sys.data.total_len = s.data.total_len) ∧
    (s.data.use_accum = false → s.data.buffer_len + c.length < 256 →
      r.sys.data.use_accum = false ∧ r.sys.nmalloc = s.nmalloc ∧
      r.sys.data.accum_cap = s.data.accum_cap ∧ r.sys.data.accum_buf = s.data.accum_buf ∧
      (s.data.total_len = s.data.buffer_len ∨ c ≠ [] →
        r.sys.data.total_len = r.sys.data.buffer_len)) ∧
    (s.data.use_accum = false → 256 ≤ s.data.buffer_len + c.length →
      r.sys.data.use_accum = true ∧ r.sys.data.buffer_len = 0 ∧
      r.sys.data.total_len = s.data.total_len ∧
      s.data.buffer_len + c.length < SIZE_MOD ∧
      prealloc_size cfg (s.data.buffer_len + c.length) ≤ r.sys.data.accum_cap) := by
  obtain ⟨f1, f2, f3⟩ := handler_frame cfg env fuel s h _ r hr
  obtain ⟨hs1, _, hlen⟩ := update_len cfg env fuel s h c out r hs hr hrc
  refine ⟨f1, ?_, ?_⟩
  · intro hu hfit
    have hfit2 : (s.data.buffer_len + (update_pkt c out).in_len) % SIZE_MOD < 256 :=
      Nat.lt_of_le_of_lt (Nat.mod_le _ _) hfit
    by_cases hl : c.length = 0
    · rw [handler_empty_eq cfg env fuel s h _ hs.active hs.owner hs.state_ok hl] at hr
      cases hr
      refine ⟨hu, rfl, rfl, rfl, fun hor => ?_⟩
      rcases hor with h1 | h1
      · exact h1
      · exact absurd (List.length_eq_zero.mp hl) h1
    · have hpos : 0 < (update_pkt c out).in_len := Nat.pos_of_ne_zero hl
      rw [handler_update_eq cfg env fuel s h _ hs.active hs.owner hs.state_ok hpos] at hr
      obtain ⟨u1, u2, u3, u4⟩ := update_inline cfg env fuel s _ r hu hfit2 hr
      refine ⟨u1, u2, u3, u4, fun _ => ?_⟩
      rcases f3 u1 with ⟨_, hsame | ⟨ht, _⟩⟩ | hne
      · exfalso
        rw [hsame] at hlen
        exact hl (by omega)
      · exact ht
      · exact absurd hrc hne
  · intro hu hbig
    have hl : c.length ≠ 0 := by
      intro h0
      have := (hs.inline_ok hu).1
      omega
    have hpos : 0 < (update_pkt c out).in_len := Nat.pos_of_ne_zero hl
    rw [handler_update_eq cfg env fuel s h _ hs.active hs.owner hs.state_ok hpos] at hr
    have hal : active_len s = s.data.buffer_len := by
      unfold active_len
      simp [hu]
    have hnw : s.data.buffer_len + c.length < SIZE_MOD := by
      have := (sess_len_bound hs1).1
      rw [hlen, hal] at this
      omega
    have hmod : (s.data.buffer_len + (update_pkt c out).in_len) % SIZE_MOD
        = s.data.buffer_len + c.length := Nat.mod_eq_of_lt hnw
    have hnfit : ¬ (s.data.buffer_len + (update_pkt c out).in_len) % SIZE_MOD < 256 := by
      rw [hmod]
      omega
    obtain ⟨m1, m2, m3, m4⟩ := update_migrates cfg env fuel s h _ r hs hu hnfit hr hrc
    rw [hmod] at m4
    exact ⟨m1, m2, m3, hnw, m4⟩

/-- Along successful update calls: `total_len` follows the inline length and stops at the
migration; the dynamic path holds at least 256 bytes and is never left; no allocation happens
while the session stays inline. -/
theorem updates_track (cfg : Kconfig) (env : Env) (h : Nat) (s t : Sys) (cs : List (List u8))
    (hs : Sess cfg s h) (hu : Updates cfg env h s cs t)
    (hi : s.data.use_accum = false → s.data.total_len = s.data.buffer_len)
    (ht : s.data.total_len < 256)
    (hd : s.data.use_accum = true → 256 ≤ s.data.accum_len) :
    (t.data.use_accum = false → t.data.total_len = t.data.buffer_len) ∧
    t.data.total_len < 256 ∧
    (t.data.use_accum = true → 256 ≤ t.data.accum_len) ∧
    (t.data.use_accum = false → s.data.use_accum = false ∧ t.nmalloc = s.nmalloc ∧
      t.data.accum_cap = s.data.accum_cap ∧ t.data.accum_buf = s.data.accum_buf) ∧
    (s.data.use_accum = true → t.data.use_accum = true ∧
      t.data.total_len = s.data.total_len) := by
  induction hu with
  | done s => exact ⟨hi, ht, hd, fun hu => ⟨hu, rfl, rfl, rfl⟩, fun hu => ⟨hu, rfl⟩⟩
  | step s t c cs fuel out r hcall hrc _ ih =>
    obtain ⟨p1, p2, p3⟩ := update_step cfg env fuel s h c out r hs hcall hrc
    obtain ⟨hs1, _, hlen⟩ := update_len cfg env fuel s h c out r hs hcall hrc
    have step : (r.sys.data.use_accum = false → r.sys.data.total_len = r.sys.data.buffer_len) ∧
        r.sys.data.total_len < 256 ∧
        (r.sys.data.use_accum = true → 256 ≤ r.sys.data.accum_len) ∧
        (r.sys.data.use_accum = false → s.data.use_accum = false ∧ r.sys.nmalloc = s.nmalloc ∧
          r.sys.data.accum_cap = s.data.accum_cap ∧
          r.sys.data.accum_buf = s.data.accum_buf) := by
      cases hus : s.data.use_accum with
      | true =>
        obtain ⟨q1, q2⟩ := p1 hus
        have hal : active_len s = s.data.accum_len := by
          unfold active_len
          simp [hus]
        have hal1 : active_len r.sys = r.sys.data.accum_len := by
          unfold active_len
          simp [q1]
        refine ⟨fun hf => ?_, by rw [q2]; exact ht, fun _ => ?_, fun hf => ?_⟩
        · rw [q1] at hf
          cases hf
        · have := hd hus
          rw [hal, hal1] at hlen
          omega
        · rw [q1] at hf
          cases hf
      | false =>
        have hal : active_len s = s.data.buffer_len := by
          unfold active_len
          simp [hus]
        by_cases hfit : s.data.buffer_len + c.length < 256
        · obtain ⟨q1, q2, q3, q4, q5⟩ := p2 hus hfit
          have hq := q5 (Or.inl (hi hus))
          have hb := (hs1.inline_ok q1).1
          refine ⟨fun _ => hq, by rw [hq]; exact hb, fun hf => ?_, fun _ => ⟨rfl, q2, q3, q4⟩⟩
          rw [q1] at hf
          cases hf
        · obtain ⟨q1, q2, q3, _, _⟩ := p3 hus (by omega)
          have hal1 : active_len r.sys = r.sys.data.accum_len := by
            unfold active_len
            simp [q1]
          refine ⟨fun hf => ?_, by rw [q3]; exact ht, fun _ => ?_, fun hf => ?_⟩
          · rw [q1] at hf
            cases hf
          · rw [hal, hal1] at hlen
            omega
          · rw [q1] at hf
            cases hf
    obtain ⟨s1, s2, s3, s4⟩ := step
    obtain ⟨i1, i2, i3, i4, i5⟩ := ih hs1 s1 s2 s3
    refine ⟨i1, i2, i3, fun hf => ?_, fun hus => ?_⟩
    · obtain ⟨j1, j2, j3, j4⟩ := i4 hf
      obtain ⟨k1, k2, k3, k4⟩ := s4 j1
      exact ⟨k1, by rw [j2, k2], by rw [j3, k3], by rw [j4, k4]⟩
    · obtain ⟨q1, q2⟩ := p1 hus
      obtain ⟨j1, j2⟩ := i5 q1
      exact ⟨j1, by rw [j2, q2]⟩

/-- Every returning begin call: a refusal changes nothing; an acceptance happens only on an
instance without an active session and resets all five counters. -/
theorem begin_cases (cfg : Kconfig) (env : Env) (fuel : Nat) (s : Sys) (h : Nat)
    (algo : hash_algo) (r : Int × Sys)
    (hb : crypto_em32_hash_begin_session cfg env fuel s h algo = Res.ok r) :
    (r.1 ≠ 0 ∧ r.2 = s) ∨
    (r.1 = 0 ∧ s.data.session_active = false ∧ algo = .CRYPTO_HASH_ALGO_SHA256 ∧
      r.2.nmalloc = s.nmalloc ∧
      r.2.data = { s.data with ctx := some h, state := .SHA_STATE_IDLE, total_len := 0,
                               buffer_len := 0, accum_buf := none, accum_len := 0,
                               accum_cap := 0, use_accum := false, session_active := true }) := by
  unfold crypto_em32_hash_begin_session at hb
  split at hb
  · cases hb
    exact Or.inl ⟨(show (-EBUSY : Int) ≠ 0 by decide), rfl⟩
  · rename_i hact
    split at hb
    · cases hb
      exact Or.inl ⟨(show (-ENOTSUP : Int) ≠ 0 by decide), rfl⟩
    · rename_i halgo
      obtain ⟨s2, hr, hfin⟩ := Res.bind_eq_ok hb
      cases hfin
      obtain ⟨e1, h1⟩ := sha_reset_ok env fuel _ s2 hr
      obtain ⟨e2, h2⟩ := sha_configure_ok cfg s2
      have hd := h1.trans h2
      refine Or.inr ⟨rfl, by simpa using hact, by simpa using halgo, hd.2.1, hd.1⟩

theorem prealloc_size_floor (cfg : Kconfig) (n : Nat) (hn : n < SIZE_MOD) :
    min (cfg.PREALLOC_SIZE % SIZE_MOD) cfg.MAX_ACCUM_SIZE ≤ prealloc_size cfg n := by
  have hp : cfg.PREALLOC_SIZE % SIZE_MOD < SIZE_MOD := Nat.mod_lt _ (by decide)
  unfold prealloc_size
  dsimp only
  by_cases hm : cfg.MAX_ACCUM_SIZE < SIZE_MOD
  · rw [Nat.mod_eq_of_lt hm]
    split <;> split <;> omega
  · split <;> split <;> omega

/-! ### The growth law -/

theorem grow_cap_zero (cfg : Kconfig) (need : Nat) (hn : 0 < need) (fuel : Nat) :
    grow_cap cfg need fuel 0 = Res.hang := by
  induction fuel with
  | zero =>
    unfold grow_cap
    rw [if_pos hn]
  | succ f ih =>
    unfold grow_cap
    rw [if_pos hn, if_neg (by simp)]
    exact ih

theorem pow2s_step : ∀ c ∈ pow2s, 0 < c →
    (c * 2) % SIZE_MOD = 0 ∨ ((c * 2) % SIZE_MOD = c * 2 ∧ c * 2 < SIZE_MOD) := by decide

/-- The doubling loop, when it returns from a positive power of two `c`: with `k` the least
number of doublings that reaches `need`, the result is `c * 2 ^ k`, unless one of the `k`
doubling steps exceeds the configured maximum, in which case it is that maximum. -/
theorem grow_cap_law (cfg : Kconfig) (need fuel c r : Nat) (hc : c ∈ pow2s) (hpos : 0 < c)
    (h : grow_cap cfg need fuel c = Res.ok r) :
    ∃ k, (∀ j, j < k → c * 2 ^ j < need) ∧ need ≤ c * 2 ^ k ∧
      r = (if k = 0 ∨ c * 2 ^ k ≤ cfg.MAX_ACCUM_SIZE then c * 2 ^ k
           else cfg.MAX_ACCUM_SIZE) := by
  have done : ¬ c < need → ∃ k, (∀ j, j < k → c * 2 ^ j < need) ∧ need ≤ c * 2 ^ k ∧
      c = (if k = 0 ∨ c * 2 ^ k ≤ cfg.MAX_ACCUM_SIZE then c * 2 ^ k
           else cfg.MAX_ACCUM_SIZE) := by
    intro hge
    refine ⟨0, fun j hj => by omega, by simpa using hge, ?_⟩
    simp
  induction fuel generalizing c with
  | zero =>
    unfold grow_cap at h
    split at h
    · cases h
    · rename_i hge
      cases h
      exact done hge
  | succ f ih =>
    unfold grow_cap at h
    split at h
    · rename_i hlt
      have hn : 0 < need := by omega
      rcases pow2s_step c hc hpos with hz | ⟨hd, hlt32⟩
      · rw [hz] at h
        rw [if_neg (by simp)] at h
        rw [grow_cap_zero cfg need hn f] at h
        cases h
      · rw [hd] at h
        have hex : ∃ k, need ≤ c * 2 ^ k := by
          refine ⟨need, ?_⟩
          have h1 : need < 2 ^ need := Nat.lt_two_pow need
          have h2 : 1 * 2 ^ need ≤ c * 2 ^ need := Nat.mul_le_mul_right _ hpos
          omega
        split at h
        · rename_i hgt
          cases h
          have hm : cfg.MAX_ACCUM_SIZE % SIZE_MOD = cfg.MAX_ACCUM_SIZE :=
            Nat.mod_eq_of_lt (by omega)
          rw [hm]
          refine ⟨Nat.find hex, fun j hj => ?_, Nat.find_spec hex, ?_⟩
          · have := Nat.find_min hex hj
            omega
          · have hk : Nat.find hex ≠ 0 := by
              intro h0
              have := Nat.find_spec hex
              rw [h0] at this
              simp at this
              omega
            obtain ⟨k1, hk1⟩ := Nat.exists_eq_succ_of_ne_zero hk
            have hbig : cfg.MAX_ACCUM_SIZE < c * 2 ^ Nat.find hex := by
              rw [hk1, Nat.pow_succ]
              have h1 : 1 ≤ 2 ^ k1 := Nat.one_le_two_pow
              have h2 : c * 2 * 1 ≤ c * 2 * 2 ^ k1 := Nat.mul_le_mul_left _ h1
              have h3 : c * (2 ^ k1 * 2) = c * 2 * 2 ^ k1 := by ring
              omega
            rw [if_neg (by
              intro hor
              rcases hor with h0 | hle
              · exact hk h0
              · omega)]
        · rename_i hle
          have hc2 : c * 2 ∈ pow2s := by
            have := pow2s_double c hc
            rwa [hd] at this
          obtain ⟨k, k1, k2, k3⟩ := ih (c * 2) hc2 (by omega) h (fun hge => by
            refine ⟨0, fun j hj => by omega, by simpa using hge, ?_⟩
            simp)
          have hpow : ∀ j, c * 2 ^ (j + 1) = c * 2 * 2 ^ j := by
            intro j
            rw [Nat.pow_succ]
            ring
          refine ⟨k + 1, fun j hj => ?_, by rw [hpow]; exact k2, ?_⟩
          · cases j with
            | zero => simpa using hlt
            | succ i =>
              rw [hpow]
              exact k1 i (by omega)
          · rw [k3, hpow]
            by_cases hk0 : k = 0
            · subst hk0
              have hle2 : c * 2 ≤ cfg.MAX_ACCUM_SIZE := by omega
              simp [hle2]
            · simp [hk0]
    · rename_i hge
      cases h
      exact done hge

/-- The capacity installed by a growing call of `ensure_accum_capacity` that returns 0. -/
theorem ensure_law (cfg : Kconfig) (env : Env) (fuel : Nat) (s : Sys) (need : Nat)
    (r : Int × Sys) (hcap : CapOk cfg s.data.accum_cap)
    (hblk : (s.data.accum_buf.getD []).length = s.data.accum_cap)
    (hlen : s.data.accum_len ≤ s.data.accum_cap)
    (hlt : s.data.accum_cap < need) (hmax : need ≤ cfg.MAX_ACCUM_SIZE)
    (h : ensure_accum_capacity cfg env fuel s need = Res.ok r) (h0 : r.1 = 0) :
    ∃ k, (∀ j, j < k → (if s.data.accum_cap ≠ 0 then s.data.accum_cap else 512) * 2 ^ j < need) ∧
      need ≤ (if s.data.accum_cap ≠ 0 then s.data.accum_cap else 512) * 2 ^ k ∧
      r.2.data.accum_cap
        = (if k = 0 ∨ (if s.data.accum_cap ≠ 0 then s.data.accum_cap else 512) * 2 ^ k
              ≤ cfg.MAX_ACCUM_SIZE
           then (if s.data.accum_cap ≠ 0 then s.data.accum_cap else 512) * 2 ^ k
           else cfg.MAX_ACCUM_SIZE) := by
  unfold ensure_accum_capacity at h
  rw [if_neg (by omega), if_neg (by omega)] at h
  obtain ⟨new_cap, hg, hrest⟩ := Res.bind_eq_ok h
  have hstart : (if s.data.accum_cap ≠ 0 then s.data.accum_cap else 512) ∈ pow2s := by
    split
    · rcases hcap.1 with h1 | h1
      · omega
      · exact h1
    · exact pow2s_512
  have hpos : 0 < (if s.data.accum_cap ≠ 0 then s.data.accum_cap else 512) := by
    split
    · omega
    · decide
  obtain ⟨k, k1, k2, k3⟩ := grow_cap_law cfg need fuel _ new_cap hstart hpos hg
  refine ⟨k, k1, k2, ?_⟩
  rw [← k3]
  obtain ⟨rc, t⟩ := r
  cases hm : env.malloc_ok s.nmalloc new_cap with
  | true =>
    have hk : k_malloc env new_cap s
        = (some ((List.range new_cap).map (env.junk s.nmalloc)),
           { s with nmalloc := s.nmalloc + 1 }) := by
      unfold k_malloc
      rw [if_pos hm]
    rw [hk] at hrest
    obtain ⟨_, _, _, _, nb, h4, _⟩ := install_block_ok _ _ new_cap rc t
      (by show s.data.accum_len ≤ (s.data.accum_buf.getD []).length; omega)
      (by simp) hrest
    show t.data.accum_cap = new_cap
    rw [h4]
  | false =>
    have hk : k_malloc env new_cap s = (none, { s with nmalloc := s.nmalloc + 1 }) := by
      unfold k_malloc
      rw [if_neg (by simp [hm])]
    rw [hk] at hrest
    cases hrest
    exact absurd h0 (show (-ENOMEM : Int) ≠ 0 by decide)

/-! ### Every reachable state -/

theorem sha_length_word_eq (len : Nat) (h : len + 3 < SIZE_MOD) :
    sha_length_word len = words_lo len := by
  unfold sha_length_word words_lo SIZE_MOD at *
  split <;> omega

theorem SHA_VALID_BYTE_eq (len : Nat) : SHA_VALID_BYTE len = valid_enc len := by
  unfold SHA_VALID_BYTE valid_enc SIZE_MOD
  have h4 : len % 4 < 4 := Nat.mod_lt _ (by omega)
  generalize len % 4 = v at h4
  interval_cases v <;> rfl

theorem range_map_shift (g : Nat → Nat) (k n : Nat) :
    (List.range (n + 1)).map (fun j => g (k + j))
      = g k :: (List.range n).map (fun j => g (k + 1 + j)) := by
  rw [List.range_succ_eq_map]
  simp only [List.map_cons, List.map_map, Nat.add_zero]
  refine congrArg₂ List.cons rfl (List.map_congr_left ?_)
  intro i _
  simp only [Function.comp]
  rw [show k + 1 + i = k + (i + 1) by omega]

theorem SHA_PAD_PACKET_eq (len : Nat) : SHA_PAD_PACKET len = pad_packet len := by
  have hp := pad_packet_le len
  rw [pad_packet_eq] at hp ⊢
  unfold SHA_PAD_PACKET sha_length_bit u32_sub u32_add SIZE_MOD
  split <;> split <;> omega

theorem waits_unique (env : Env) : ∀ (ps qs : List Nat) (nr : Nat),
    waits_ok env nr ps → waits_ok env nr qs → ps.length = qs.length → ps = qs := by
  intro ps
  induction ps with
  | nil =>
    intro qs nr _ _ hl
    cases qs with
    | nil => rfl
    | cons q qs => simp at hl
  | cons p ps ih =>
    intro qs nr hp hq hl
    cases qs with
    | nil => simp at hl
    | cons q qs =>
      obtain ⟨p1, p2, p3, p4⟩ := hp
      obtain ⟨q1, q2, q3, q4⟩ := hq
      have hpq : p = q := by
        by_contra hne
        rcases Nat.lt_or_gt_of_ne hne with hlt | hgt
        · exact p3 (q2 (p - 1) (by omega))
        · exact q3 (p2 (q - 1) (by omega))
      subst hpq
      rw [ih qs (nr + p) p4 q4 (by simpa using hl)]

/-- The feeding loop of the legacy routine, for lengths up to `2 ^ 32 - 8`: one write per
word, `ceil(len/4)` words, and a flow-control wait after exactly the words whose 1-based
position is a multiple of 16. -/
theorem legacy_feed_shape (env : Env) (fuel : Nat) (input : Nat → u8) (len : Nat)
    (hlen : len + 8 ≤ SIZE_MOD) (n : Nat) :
    ∀ (k rounds : Nat) (s t : Sys), k + n = (len + 3) / 4 →
    HAL_SHA_Transform_feed env fuel input len rounds (4 * (k + 1)) s = Res.ok t →
    ∃ ps, t.mmio = s.mmio ++ feed_ops env k s.nread
        ((List.range n).map (fun j => load_word input (4 * (k + j)))) ps ∧
      ps.length + k / 16 = (k + n) / 16 ∧ waits_ok env s.nread ps ∧
      t.nread = s.nread + ps.sum := by
  have hmod : (len + 4) % SIZE_MOD = len + 4 := Nat.mod_eq_of_lt (by omega)
  induction n with
  | zero =>
    intro k rounds s t hk h
    have hstop : ¬ 4 * (k + 1) < len + 4 := by omega
    cases rounds with
    | zero =>
      unfold HAL_SHA_Transform_feed at h
      rw [hmod, if_neg hstop] at h
      cases h
      exact ⟨[], by simp [feed_ops], by simp, trivial, by simp⟩
    | succ r =>
      unfold HAL_SHA_Transform_feed at h
      rw [hmod, if_neg hstop] at h
      cases h
      exact ⟨[], by simp [feed_ops], by simp, trivial, by simp⟩
  | succ n ih =>
    intro k rounds s t hk h
    have hgo : 4 * (k + 1) < len + 4 := by omega
    cases rounds with
    | zero =>
      unfold HAL_SHA_Transform_feed at h
      rw [hmod, if_pos hgo] at h
      cases h
    | succ r =>
      unfold HAL_SHA_Transform_feed at h
      rw [hmod, if_pos hgo] at h
      have hsub : u32_sub (4 * (k + 1)) 4 = 4 * k := by
        unfold u32_sub
        unfold SIZE_MOD at hlen ⊢
        omega
      have hadd : u32_add (4 * (k + 1)) 4 = 4 * (k + 1 + 1) := by
        unfold u32_add
        unfold SIZE_MOD at hlen ⊢
        omega
      rw [hsub, hadd] at h
      obtain ⟨s2, hs2, hrest⟩ := Res.bind_eq_ok h
      obtain ⟨ps, h1, h2, h3, h4⟩ := ih (k + 1) r s2 t (by omega) hrest
      have hw := (hw_write (load_word input (4 * k)) SHA_IN_OFFSET s).2.2.2
      have hlist : (List.range (n + 1)).map (fun j => load_word input (4 * (k + j)))
          = load_word input (4 * k) ::
            (List.range n).map (fun j => load_word input (4 * (k + 1 + j))) :=
        range_map_shift (fun m => load_word input (4 * m)) k n
      rw [hlist]
      by_cases c : (k + 1) % 16 = 0
      · rw [if_pos (by omega)] at hs2
        obtain ⟨m, m1, m2, m3, m4, m5⟩ := ready_wait_spec env fuel _ _ hs2
        rw [write_nread] at m2 m3 m4 m5
        refine ⟨m :: ps, ?_, ?_, ⟨m1, m4, m5, ?_⟩, ?_⟩
        · unfold feed_ops
          rw [if_pos c, h1, m2, hw, m3]
          simp
        · simp only [List.length_cons]
          omega
        · rw [← m3]
          exact h3
        · rw [h4, m3]
          simp only [List.sum_cons]
          omega
      · rw [if_neg (by omega)] at hs2
        cases hs2
        rw [write_nread] at h1 h3 h4
        refine ⟨ps, ?_, by omega, h3, h4⟩
        unfold feed_ops
        rw [if_neg c, h1, hw]
        simp

theorem legacy_feed_live (env : Env) (fuel : Nat) (hr : ReadyWithin env fuel)
    (input : Nat → u8) (len : Nat) (hlen : len + 8 ≤ SIZE_MOD) (n : Nat) :
    ∀ (k rounds : Nat) (s : Sys), k + n = (len + 3) / 4 → n ≤ rounds →
    ∃ t, HAL_SHA_Transform_feed env fuel input len rounds (4 * (k + 1)) s = Res.ok t := by
  have hmod : (len + 4) % SIZE_MOD = len + 4 := Nat.mod_eq_of_lt (by omega)
  induction n with
  | zero =>
    intro k rounds s hk _
    have hstop : ¬ 4 * (k + 1) < len + 4 := by omega
    cases rounds with
    | zero =>
      unfold HAL_SHA_Transform_feed
      rw [hmod, if_neg hstop]
      exact ⟨_, rfl⟩
    | succ r =>
      unfold HAL_SHA_Transform_feed
      rw [hmod, if_neg hstop]
      exact ⟨_, rfl⟩
  | succ n ih =>
    intro k rounds s hk hrd
    have hgo : 4 * (k + 1) < len + 4 := by omega
    cases rounds with
    | zero => omega
    | succ r =>
      unfold HAL_SHA_Transform_feed
      rw [hmod, if_pos hgo]
      have hadd : u32_add (4 * (k + 1)) 4 = 4 * (k + 1 + 1) := by
        unfold u32_add
        unfold SIZE_MOD at hlen ⊢
        omega
      rw [hadd]
      dsimp only
      split
      · obtain ⟨s2, hs2⟩ := ready_wait_live env fuel
          (sys_write32 (load_word input (u32_sub (4 * (k + 1)) 4)) SHA_IN_OFFSET s) (hr _)
        rw [hs2]
        exact ih (k + 1) r s2 (by omega) (by omega)
      · exact ih (k + 1) r _ (by omega) (by omega)

/-- For the lengths `2 ^ 32 - 7` to `2 ^ 32 - 5` the loop counter of the legacy routine wraps
to 0 before it reaches `len + 4`: the loop never ends. -/
theorem legacy_feed_wraps (env : Env) (fuel : Nat) (input : Nat → u8) (len : Nat)
    (h1 : SIZE_MOD ≤ len + 7) (h2 : len + 5 ≤ SIZE_MOD) (rounds : Nat) :
    ∀ (i : Nat) (s t : Sys), i % 4 = 0 → i < SIZE_MOD →
    HAL_SHA_Transform_feed env fuel input len rounds i s ≠ Res.ok t := by
  have hmod : (len + 4) % SIZE_MOD = len + 4 := Nat.mod_eq_of_lt (by omega)
  induction rounds with
  | zero =>
    intro i s t hi4 hi h
    unfold HAL_SHA_Transform_feed at h
    rw [hmod, if_pos (by unfold SIZE_MOD at *; omega)] at h
    cases h
  | succ r ih =>
    intro i s t hi4 hi h
    unfold HAL_SHA_Transform_feed at h
    rw [hmod, if_pos (by unfold SIZE_MOD at *; omega)] at h
    obtain ⟨s2, _, hrest⟩ := Res.bind_eq_ok h
    refine ih (u32_add i 4) s2 t ?_ ?_ hrest
    · unfold u32_add SIZE_MOD
      omega
    · unfold u32_add
      exact Nat.mod_lt _ (by decide)

/-! ### Doubling beyond `2 ^ 31` -/

/-- When more than `2 ^ 31` bytes are needed and the configured maximum allows them, the
doubling loop never ends: from a value of the doubling sequence it reaches `2 ^ 31`, the next
doubling wraps to 0, and 0 stays 0. -/
theorem grow_cap_wraps (cfg : Kconfig) (need : Nat) (hn : 2147483648 < need)
    (hm : need ≤ cfg.MAX_ACCUM_SIZE) (fuel : Nat) :
    ∀ c, c ∈ pow2s → grow_cap cfg need fuel c = Res.hang := by
  induction fuel with
  | zero =>
    intro c hc
    have := pow2s_le c hc
    unfold grow_cap
    rw [if_pos (by omega)]
  | succ f ih =>
    intro c hc
    have hle := pow2s_le c hc
    have hd := pow2s_double c hc
    have hle2 := pow2s_le _ hd
    unfold grow_cap
    rw [if_pos (by omega), if_neg (by omega)]
    exact ih _ hd

/-- The capacity check does not return when it has to grow to more than `2 ^ 31` bytes. -/
theorem ensure_wraps (cfg : Kconfig) (env : Env) (fuel : Nat) (s : Sys) (need : Nat)
    (hcap : CapOk cfg s.data.accum_cap) (hlt : s.data.accum_cap < need)
    (hm : need ≤ cfg.MAX_ACCUM_SIZE) (hn : 2147483648 < need) :
    ensure_accum_capacity cfg env fuel s need = Res.hang := by
  unfold ensure_accum_capacity
  rw [if_neg (by omega), if_neg (by omega)]
  have hstart : (if s.data.accum_cap ≠ 0 then s.data.accum_cap else 512) ∈ pow2s := by
    split
    · rcases hcap.1 with h1 | h1
      · omega
      · exact h1
    · exact pow2s_512
  rw [grow_cap_wraps cfg need hn hm fuel _ hstart]
  rfl

/-- The capacity check returns when at most `2 ^ 31` bytes are needed and the iteration
budget is at least 31. -/
theorem ensure_live_need (cfg : Kconfig) (env : Env) (fuel : Nat) (s : Sys) (need : Nat)
    (hcap : CapOk cfg s.data.accum_cap)
    (hblk : (s.data.accum_buf.getD []).length = s.data.accum_cap)
    (hlen : s.data.accum_len ≤ s.data.accum_cap)
    (hn : need ≤ 2147483648) (hf : 31 ≤ fuel) :
    ∃ r, ensure_accum_capacity cfg env fuel s need = Res.ok r := by
  unfold ensure_accum_capacity
  split
  · exact ⟨_, rfl⟩
  · rename_i hlt
    split
    · exact ⟨_, rfl⟩
    · rename_i hle
      have hstart : (if s.data.accum_cap ≠ 0 then s.data.accum_cap else 512) ∈ pow2s := by
        split
        · rcases hcap.1 with h1 | h1
          · omega
          · exact h1
        · exact pow2s_512
      have hne : (if s.data.accum_cap ≠ 0 then s.data.accum_cap else 512) ≠ 0 := by
        split
        · assumption
        · omega
      have hpow : 2147483648 ≤ 2 ^ fuel := by
        calc 2147483648 = 2 ^ 31 := by norm_num
          _ ≤ 2 ^ fuel := Nat.pow_le_pow_right (by omega) hf
      have hbig : 2147483648 ≤ (if s.data.accum_cap ≠ 0 then s.data.accum_cap else 512)
          * 2 ^ fuel := by
        have h1 : 1 ≤ (if s.data.accum_cap ≠ 0 then s.data.accum_cap else 512) := by omega
        calc 2147483648 ≤ 2 ^ fuel := hpow
          _ = 1 * 2 ^ fuel := by rw [Nat.one_mul]
          _ ≤ _ := Nat.mul_le_mul_right _ h1
      obtain ⟨new_cap, hg⟩ := grow_cap_live cfg need hn fuel _ hstart hne hbig
      rw [hg]
      simp only [Res.ok_bind]
      have hnew : need ≤ new_cap := by
        rcases grow_cap_ok cfg need fuel _ new_cap hstart hg with ⟨h1, h2⟩ | ⟨_, _, h3⟩ | ⟨h1, _⟩
        · rw [h1]; exact h2
        · exact h3
        · omega
      cases hm : env.malloc_ok s.nmalloc new_cap with
      | true =>
        have hk : k_malloc env new_cap s
            = (some ((List.range new_cap).map (env.junk s.nmalloc)),
               { s with nmalloc := s.nmalloc + 1 }) := by
          unfold k_malloc
          rw [if_pos hm]
        rw [hk]
        exact install_block_live _ _ new_cap
          (by show s.data.accum_len ≤ (s.data.accum_buf.getD []).length; omega)
          (by show s.data.accum_len ≤ _; simp; omega)
      | false =>
        have hk : k_malloc env new_cap s = (none, { s with nmalloc := s.nmalloc + 1 }) := by
          unfold k_malloc
          rw [if_neg (by simp [hm])]
        rw [hk]
        exact ⟨_, rfl⟩

/-- An update call that has to move the session to a dynamic buffer of more than `2 ^ 31`
bytes does not return. -/
theorem update_wraps (cfg : Kconfig) (env : Env) (fuel : Nat) (s : Sys) (h : Nat)
    (pkt : hash_pkt) (src : List u8) (hs : Sess cfg s h) (hu : s.data.use_accum = false)
    (hsrc : pkt.in_buf = some src)
    (hn : 2147483648 < (s.data.buffer_len + pkt.in_len) % SIZE_MOD)
    (hm : (s.data.buffer_len + pkt.in_len) % SIZE_MOD ≤ cfg.MAX_ACCUM_SIZE)
    (hp : cfg.PREALLOC_SIZE % SIZE_MOD ≤ (s.data.buffer_len + pkt.in_len) % SIZE_MOD) :
    em32_sha256_handler cfg env fuel s h pkt false = Res.hang := by
  have hpos : 0 < pkt.in_len := by
    by_contra h0
    have h00 : pkt.in_len = 0 := by omega
    have := (hs.inline_ok hu).1
    rw [h00, Nat.add_zero, Nat.mod_eq_of_lt (by unfold SIZE_MOD; omega)] at hn
    omega
  rw [handler_update_eq cfg env fuel s h pkt hs.active hs.owner hs.state_ok hpos]
  unfold handler_update
  rw [hsrc]
  dsimp only
  rw [if_neg (fun hc => by have := hc.2; omega), if_pos hu]
  unfold migrate
  dsimp only
  have hpre : prealloc_size cfg ((s.data.buffer_len + pkt.in_len) % SIZE_MOD)
      = (s.data.buffer_len + pkt.in_len) % SIZE_MOD := by
    unfold prealloc_size
    dsimp only
    split <;> split <;> omega
  rw [hpre, ensure_wraps cfg env fuel s _ hs.cap_ok
    (by have := (hs.inline_ok hu).2; have := hs.cap_ok.2.1; omega) hm hn]
  rfl

/-! ## The claims -/

/-- C2: the padding parameters reproduce FIPS 180-4 padding. For every total byte length
`n`, with `ceil(n/4)` written `(n + 3) / 4` (the least `w` with `n <= 4 w`) and `pad_packet n`
the pad-packet count as finalize computes it: `32 * (words + pad) + 64` is a multiple of 512,
it is at least `8 n + 65`, no smaller multiple of 512 is, and
`words + pad + 2 = 16 * (floor((n + 8) / 64) + 1)`. -/
theorem padding_matches_fips (n : Nat) :
    (n ≤ 4 * ((n + 3) / 4) ∧ 4 * ((n + 3) / 4) < n + 4) ∧
    (32 * ((n + 3) / 4 + pad_packet n) + 64) % 512 = 0 ∧
    8 * n + 65 ≤ 32 * ((n + 3) / 4 + pad_packet n) + 64 ∧
    (∀ m, m % 512 = 0 → 8 * n + 65 ≤ m → 32 * ((n + 3) / 4 + pad_packet n) + 64 ≤ m) ∧
    (n + 3) / 4 + pad_packet n + 2 = 16 * ((n + 8) / 64 + 1) := by
  have key : (n + 3) / 4 + pad_packet n + 2 = 16 * ((n + 8) / 64 + 1) := by
    rw [pad_packet_eq]
    split <;> omega
  refine ⟨by omega, by omega, by omega, ?_, key⟩
  intro m hm hle
  omega

/-- C4: for every total byte length `n` the pad-packet computation does not wrap: each
unsigned 32-bit subtraction and addition finalize performs yields the value of the same
expression over the integers, which is not negative, so `pad_packet n` is the integer
quotient of the reference formula; it is below 32 (at most 16), and masking it with `0x1F`
leaves it unchanged. At the branch edges `n = 55` has `bmod = 440` and 0 pad packets,
`n = 56` has `bmod = 448` and 16. -/
theorem pad_packet_fits_field (n : Nat) :
    ((u32_sub 512 (bmod n) : Int) = 512 - (bmod n : Int)) ∧
    (bmod n < 448 →
      (u32_sub (u32_sub 512 (bmod n)) 64 : Int) = 512 - (bmod n : Int) - 64 ∧
      0 ≤ 512 - (bmod n : Int) - 64) ∧
    (¬ bmod n < 448 →
      (u32_add (u32_sub 512 (bmod n)) 448 : Int) = 512 - (bmod n : Int) + 448 ∧
      0 ≤ 512 - (bmod n : Int)) ∧
    ((pad_packet n : Int) =
      if bmod n < 448 then (512 - (bmod n : Int) - 64) / 32
      else (512 - (bmod n : Int) + 448) / 32) ∧
    pad_packet n < 32 ∧
    pad_packet n &&& SHA_PAD_PACKET_MASK = pad_packet n ∧
    (bmod 55 = 440 ∧ pad_packet 55 = 0) ∧ (bmod 56 = 448 ∧ pad_packet 56 = 16) := by
  have hb : bmod n < 512 := by rw [bmod_eq]; omega
  have hle := pad_packet_le n
  refine ⟨?_, ?_, ?_, ?_, by omega, and_mask_of_le hle, ⟨by decide, by decide⟩, ⟨by decide, by decide⟩⟩
  · unfold u32_sub SIZE_MOD; omega
  · intro h; unfold u32_sub SIZE_MOD; omega
  · intro h; unfold u32_sub u32_add SIZE_MOD; omega
  · unfold pad_packet u32_sub u32_add SIZE_MOD
    split <;> omega
/-- C1: one-shot/chunked equivalence. Take any two sessions of the same build, opened by a
begin call that returned 0 (from any earlier instance state, on any handle, under any
accelerator and heap behaviour). In the first the chunks `cs` are fed by successive update
calls that return 0, in the second their concatenation is fed by a single update call that
returns 0. Then every finalize call that returns on the first session and every finalize call
that returns on the second one write the same values to the word-count register, the high
length register, the padding-control register and the input port (the whole word sequence,
in order). The chunk sizes are arbitrary, so the statement covers the 255/256/257 and
4095/4096/4097 boundaries. Finalize does return on either session once the accelerator answers
its flow-control polls and the iteration budget covers the completion timeout. -/
theorem chunked_eq_oneshot (cfg : Kconfig) (envA envB : Env) (a0 a1 a2 b0 b1 b2 : Sys)
    (hA hB fuelA fuelB : Nat) (cs : List (List u8))
    (hbufA : a0.data.buffer.length = 256)
    (hbA : crypto_em32_hash_begin_session cfg envA fuelA a0 hA .CRYPTO_HASH_ALGO_SHA256
      = Res.ok (0, a1))
    (huA : Updates cfg envA hA a1 cs a2)
    (hbufB : b0.data.buffer.length = 256)
    (hbB : crypto_em32_hash_begin_session cfg envB fuelB b0 hB .CRYPTO_HASH_ALGO_SHA256
      = Res.ok (0, b1))
    (huB : Updates cfg envB hB b1 [cs.flatten] b2) :
    (∀ (fA fB : Nat) (pktA pktB : hash_pkt) (rA rB : Ret),
      em32_sha256_handler cfg envA fA a2 hA pktA true = Res.ok rA →
      em32_sha256_handler cfg envB fB b2 hB pktB true = Res.ok rB →
      writes_to SHA_DATALEN_OFFSET (new_ops a2 rA.sys)
        = writes_to SHA_DATALEN_OFFSET (new_ops b2 rB.sys) ∧
      writes_to SHA_DATALEN_5832_OFFSET (new_ops a2 rA.sys)
        = writes_to SHA_DATALEN_5832_OFFSET (new_ops b2 rB.sys) ∧
      writes_to SHA_PAD_CTR_OFFSET (new_ops a2 rA.sys)
        = writes_to SHA_PAD_CTR_OFFSET (new_ops b2 rB.sys) ∧
      writes_to SHA_IN_OFFSET (new_ops a2 rA.sys)
        = writes_to SHA_IN_OFFSET (new_ops b2 rB.sys)) ∧
    (∀ (f : Nat) (pkt : hash_pkt), cfg.TIMEOUT_USEC + 1 < SIZE_MOD → cfg.TIMEOUT_USEC + 1 ≤ f →
      (∀ o, pkt.out_buf = some o → 8 ≤ o.length) →
      (ReadyWithin envA f → ∃ r, em32_sha256_handler cfg envA f a2 hA pkt true = Res.ok r) ∧
      (ReadyWithin envB f → ∃ r, em32_sha256_handler cfg envB f b2 hB pkt true = Res.ok r)) := by
  obtain ⟨sA1, accA1, _⟩ := begin_ok cfg envA fuelA a0 a1 hA _ hbufA hbA
  obtain ⟨sB1, accB1, _⟩ := begin_ok cfg envB fuelB b0 b1 hB _ hbufB hbB
  obtain ⟨sA2, accA2, _⟩ := updates_ok cfg envA hA a1 a2 cs sA1 huA
  obtain ⟨sB2, accB2, _⟩ := updates_ok cfg envB hB b1 b2 [cs.flatten] sB1 huB
  have hacc : accumulated a2 = accumulated b2 := by
    rw [accA2, accB2, accA1, accB1]
    simp
  have hlen : active_len a2 = active_len b2 := by
    rw [← accumulated_length sA2, ← accumulated_length sB2, hacc]
  refine ⟨?_, ?_⟩
  · intro fA fB pktA pktB rA rB hrA hrB
    obtain ⟨p1, p2, p3, p4⟩ := finish_programs cfg envA fA a2 hA pktA rA sA2 hrA
    obtain ⟨q1, q2, q3, q4⟩ := finish_programs cfg envB fB b2 hB pktB rB sB2 hrB
    rw [p1, p2, p3, p4, q1, q2, q3, q4, hacc, hlen]
    exact ⟨rfl, rfl, rfl, rfl⟩
  · intro f pkt hT hf hout
    exact ⟨fun hr => finish_returns cfg envA f a2 hA pkt sA2 hr hT hf hout,
      fun hr => finish_returns cfg envB f b2 hB pkt sB2 hr hT hf hout⟩

set_option maxRecDepth 1000000

/-! ### Concrete runs -/

theorem ex_begin_eq :
    crypto_em32_hash_begin_session ex_cfg ex_env 0 ex_sys 7 .CRYPTO_HASH_ALGO_SHA256
      = Res.ok (0, ex_s1) := by rfl

theorem ex_run_small : Updates ex_cfg ex_env 7 ex_s1 [[1, 2, 3], [4, 5]] ex_s3 :=
  Updates.step ex_s1 ex_s3 [1, 2, 3] [[4, 5]] 40 none (ex_update ex_cfg ex_env ex_s1 [1, 2, 3])
    (by rfl) (by rfl)
    (Updates.step ex_s2 ex_s3 [4, 5] [] 40 none (ex_update ex_cfg ex_env ex_s2 [4, 5])
      (by rfl) (by rfl) (Updates.done ex_s3))

theorem ex_run_chunks : Updates ex_cfg ex_env 7 ex_s1 ex_chunks ex_t3 :=
  Updates.step ex_s1 ex_t3 (List.replicate 200 1) [List.replicate 100 2] 40 none
    (ex_update ex_cfg ex_env ex_s1 (List.replicate 200 1)) (by rfl) (by rfl)
    (Updates.step ex_t2 ex_t3 (List.replicate 100 2) [] 40 none
      (ex_update ex_cfg ex_env ex_t2 (List.replicate 100 2)) (by rfl) (by rfl)
      (Updates.done ex_t3))

theorem ex_run_oneshot : Updates ex_cfg ex_env 7 ex_s1 [ex_chunks.flatten] ex_u2 :=
  Updates.step ex_s1 ex_u2 ex_chunks.flatten [] 40 none
    (ex_update ex_cfg ex_env ex_s1 ex_chunks.flatten) (by rfl) (by rfl) (Updates.done ex_u2)

theorem ex_open_s3 : Open ex_cfg ex_env 7 ex_s3 :=
  updates_open (Open.start ex_sys ex_s1 0 (by rfl) ex_begin_eq) ex_run_small

theorem ex_open_t3 : Open ex_cfg ex_env 7 ex_t3 :=
  updates_open (Open.start ex_sys ex_s1 0 (by rfl) ex_begin_eq) ex_run_chunks

/-- Witness of C1: a 300-byte message fed as 200 + 100 bytes (the second update crosses the
inline capacity) and in one piece. -/
theorem chunked_eq_oneshot_witness :
    ex_sys.data.buffer.length = 256 ∧
    crypto_em32_hash_begin_session ex_cfg ex_env 0 ex_sys 7 .CRYPTO_HASH_ALGO_SHA256
      = Res.ok (0, ex_s1) ∧
    Updates ex_cfg ex_env 7 ex_s1 ex_chunks ex_t3 ∧
    Updates ex_cfg ex_env 7 ex_s1 [ex_chunks.flatten] ex_u2 ∧
    ex_t3.data.use_accum = true ∧
    ((∀ (fA fB : Nat) (pktA pktB : hash_pkt) (rA rB : Ret),
      em32_sha256_handler ex_cfg ex_env fA ex_t3 7 pktA true = Res.ok rA →
      em32_sha256_handler ex_cfg ex_env fB ex_u2 7 pktB true = Res.ok rB →
      writes_to SHA_DATALEN_OFFSET (new_ops ex_t3 rA.sys)
        = writes_to SHA_DATALEN_OFFSET (new_ops ex_u2 rB.sys) ∧
      writes_to SHA_DATALEN_5832_OFFSET (new_ops ex_t3 rA.sys)
        = writes_to SHA_DATALEN_5832_OFFSET (new_ops ex_u2 rB.sys) ∧
      writes_to SHA_PAD_CTR_OFFSET (new_ops ex_t3 rA.sys)
        = writes_to SHA_PAD_CTR_OFFSET (new_ops ex_u2 rB.sys) ∧
      writes_to SHA_IN_OFFSET (new_ops ex_t3 rA.sys)
        = writes_to SHA_IN_OFFSET (new_ops ex_u2 rB.sys)) ∧
    (∀ (f : Nat) (pkt : hash_pkt), ex_cfg.TIMEOUT_USEC + 1 < SIZE_MOD →
      ex_cfg.TIMEOUT_USEC + 1 ≤ f →
      (∀ o, pkt.out_buf = some o → 8 ≤ o.length) →
      (ReadyWithin ex_env f → ∃ r, em32_sha256_handler ex_cfg ex_env f ex_t3 7 pkt true = Res.ok r) ∧
      (ReadyWithin ex_env f → ∃ r, em32_sha256_handler ex_cfg ex_env f ex_u2 7 pkt true = Res.ok r))) :=
  ⟨by rfl, ex_begin_eq, ex_run_chunks, ex_run_oneshot, by rfl,
    chunked_eq_oneshot ex_cfg ex_env ex_env ex_sys ex_s1 ex_t3 ex_sys ex_s1 ex_u2 7 7 0 0
      ex_chunks (by rfl) ex_begin_eq ex_run_chunks (by rfl) ex_begin_eq ex_run_oneshot⟩

/-- C3: in every state of an open session, with accumulated length `n` (the `total_bytes`
finalize picks), every finalize call that returns has written exactly `ceil(n/4)`, written
`(n + 3) / 4`, to the low length register, exactly 0 to the high length register and exactly
`(n mod 4) * 256 + p` to the padding-control register, where `p = (512 - bmod - 64) / 32` if
`bmod < 448` and `p = (512 - bmod + 448) / 32` otherwise, `bmod = (8 n) mod 512`. Finalize
does return once the accelerator answers its flow-control polls and the iteration budget
covers the completion timeout. For `n = 409601` the values are 102401 words, valid-byte code 1
and 13 pad packets. -/
theorem finalize_programs_padding (cfg : Kconfig) (env : Env) (s : Sys) (h : Nat)
    (ho : Open cfg env h s) :
    (∀ (fuel : Nat) (pkt : hash_pkt) (r : Ret),
      em32_sha256_handler cfg env fuel s h pkt true = Res.ok r →
      writes_to SHA_DATALEN_OFFSET (new_ops s r.sys) = [(active_len s + 3) / 4] ∧
      writes_to SHA_DATALEN_5832_OFFSET (new_ops s r.sys) = [0] ∧
      writes_to SHA_PAD_CTR_OFFSET (new_ops s r.sys)
        = [(active_len s % 4) * 256 +
            (if (8 * active_len s) % 512 < 448 then (512 - (8 * active_len s) % 512 - 64) / 32
             else (512 - (8 * active_len s) % 512 + 448) / 32)]) ∧
    (∀ (fuel : Nat) (pkt : hash_pkt), ReadyWithin env fuel → cfg.TIMEOUT_USEC + 1 < SIZE_MOD →
      cfg.TIMEOUT_USEC + 1 ≤ fuel → (∀ o, pkt.out_buf = some o → 8 ≤ o.length) →
      ∃ r, em32_sha256_handler cfg env fuel s h pkt true = Res.ok r) ∧
    ((409601 + 3) / 4 = 102401 ∧ words_lo 409601 = 102401 ∧ valid_enc 409601 = 1 ∧
      pad_packet 409601 = 13 ∧ pad_ctrl 409601 = 1 * 256 + 13) := by
  have hs := open_sess ho
  refine ⟨?_, ?_, ⟨by decide, by decide, by decide, by decide, by decide⟩⟩
  · intro fuel pkt r hr
    obtain ⟨p1, p2, p3, _⟩ := finish_programs cfg env fuel s h pkt r hs hr
    refine ⟨p1, p2, ?_⟩
    rw [p3, pad_packet_eq]
  · intro fuel pkt hrdy hT hf hout
    exact finish_returns cfg env fuel s h pkt hs hrdy hT hf hout

/-- Witness of C3: the session of the examples after 300 bytes in two chunks. -/
theorem finalize_programs_padding_witness :
    Open ex_cfg ex_env 7 ex_t3 ∧ active_len ex_t3 = 300 ∧
    ((∀ (fuel : Nat) (pkt : hash_pkt) (r : Ret),
      em32_sha256_handler ex_cfg ex_env fuel ex_t3 7 pkt true = Res.ok r →
      writes_to SHA_DATALEN_OFFSET (new_ops ex_t3 r.sys) = [(active_len ex_t3 + 3) / 4] ∧
      writes_to SHA_DATALEN_5832_OFFSET (new_ops ex_t3 r.sys) = [0] ∧
      writes_to SHA_PAD_CTR_OFFSET (new_ops ex_t3 r.sys)
        = [(active_len ex_t3 % 4) * 256 +
            (if (8 * active_len ex_t3) % 512 < 448
             then (512 - (8 * active_len ex_t3) % 512 - 64) / 32
             else (512 - (8 * active_len ex_t3) % 512 + 448) / 32)]) ∧
    (∀ (fuel : Nat) (pkt : hash_pkt), ReadyWithin ex_env fuel →
      ex_cfg.TIMEOUT_USEC + 1 < SIZE_MOD →
      ex_cfg.TIMEOUT_USEC + 1 ≤ fuel → (∀ o, pkt.out_buf = some o → 8 ≤ o.length) →
      ∃ r, em32_sha256_handler ex_cfg ex_env fuel ex_t3 7 pkt true = Res.ok r) ∧
    ((409601 + 3) / 4 = 102401 ∧ words_lo 409601 = 102401 ∧ valid_enc 409601 = 1 ∧
      pad_packet 409601 = 13 ∧ pad_ctrl 409601 = 1 * 256 + 13)) :=
  ⟨ex_open_t3, by rfl, finalize_programs_padding ex_cfg ex_env ex_t3 7 ex_open_t3⟩

/-- C5: in every state of an open session, with accumulated message `b` of `n` bytes, every
finalize call that returns has written exactly `ceil(n/4)` words to the input port; the
`k`-th of them (0-based, in the order of the writes) is the sum over the lanes `j = 0..3`
with `4k + j < n` of `b[4k + j] * 2^(8j)`, so the lanes of the last word that hold no
message byte are zero; for `n = 0` no word is written. Finalize does return once the
accelerator answers its flow-control polls and the iteration budget covers the completion
timeout. -/
theorem finalize_streams_words (cfg : Kconfig) (env : Env) (s : Sys) (h : Nat)
    (ho : Open cfg env h s) :
    (accumulated s).length = active_len s ∧
    (∀ (fuel : Nat) (pkt : hash_pkt) (r : Ret),
      em32_sha256_handler cfg env fuel s h pkt true = Res.ok r →
      (writes_to SHA_IN_OFFSET (new_ops s r.sys)).length = ((accumulated s).length + 3) / 4 ∧
      (∀ k, k < ((accumulated s).length + 3) / 4 →
        (writes_to SHA_IN_OFFSET (new_ops s r.sys))[k]? =
          some (∑ j in Finset.range 4,
            if 4 * k + j < (accumulated s).length
            then byte_at (accumulated s) (4 * k + j) * 2 ^ (8 * j) else 0)) ∧
      ((accumulated s).length = 0 → writes_to SHA_IN_OFFSET (new_ops s r.sys) = [])) ∧
    (∀ (fuel : Nat) (pkt : hash_pkt), ReadyWithin env fuel → cfg.TIMEOUT_USEC + 1 < SIZE_MOD →
      cfg.TIMEOUT_USEC + 1 ≤ fuel → (∀ o, pkt.out_buf = some o → 8 ≤ o.length) →
      ∃ r, em32_sha256_handler cfg env fuel s h pkt true = Res.ok r) := by
  have hs := open_sess ho
  refine ⟨accumulated_length hs, ?_, ?_⟩
  · intro fuel pkt r hr
    obtain ⟨_, _, _, p4⟩ := finish_programs cfg env fuel s h pkt r hs hr
    rw [p4]
    refine ⟨?_, ?_, ?_⟩
    · unfold spec_words
      simp
    · intro k hk
      rw [spec_words_getElem? _ _ hk, spec_word_eq_sum]
    · intro h0
      unfold spec_words
      rw [h0]
      rfl
  · intro fuel pkt hrdy hT hf hout
    exact finish_returns cfg env fuel s h pkt hs hrdy hT hf hout

/-- Witness of C5: the session of the examples after the chunks `[1, 2, 3]` and `[4, 5]`. -/
theorem finalize_streams_words_witness :
    Open ex_cfg ex_env 7 ex_s3 ∧ accumulated ex_s3 = [1, 2, 3, 4, 5] ∧
    ((accumulated ex_s3).length = active_len ex_s3 ∧
    (∀ (fuel : Nat) (pkt : hash_pkt) (r : Ret),
      em32_sha256_handler ex_cfg ex_env fuel ex_s3 7 pkt true = Res.ok r →
      (writes_to SHA_IN_OFFSET (new_ops ex_s3 r.sys)).length
        = ((accumulated ex_s3).length + 3) / 4 ∧
      (∀ k, k < ((accumulated ex_s3).length + 3) / 4 →
        (writes_to SHA_IN_OFFSET (new_ops ex_s3 r.sys))[k]? =
          some (∑ j in Finset.range 4,
            if 4 * k + j < (accumulated ex_s3).length
            then byte_at (accumulated ex_s3) (4 * k + j) * 2 ^ (8 * j) else 0)) ∧
      ((accumulated ex_s3).length = 0 → writes_to SHA_IN_OFFSET (new_ops ex_s3 r.sys) = [])) ∧
    (∀ (fuel : Nat) (pkt : hash_pkt), ReadyWithin ex_env fuel →
      ex_cfg.TIMEOUT_USEC + 1 < SIZE_MOD →
      ex_cfg.TIMEOUT_USEC + 1 ≤ fuel → (∀ o, pkt.out_buf = some o → 8 ≤ o.length) →
      ∃ r, em32_sha256_handler ex_cfg ex_env fuel ex_s3 7 pkt true = Res.ok r)) :=
  ⟨ex_open_s3, by rfl, finalize_streams_words ex_cfg ex_env ex_s3 7 ex_open_s3⟩

/-- C6, as amended: for every instance state before it (its inline buffer being the 256-byte
array of the structure) and every run of update calls that return 0 with chunks `c1..ck`
after a begin call that returned 0, the message finalize will hash (the first `total_bytes`
bytes of the active buffer) is the concatenation `c1 ++ ... ++ ck` in call order and its
length is the sum of the chunk lengths; the length does not exceed the configured maximum
whenever that maximum is at least 512. -/
theorem accumulated_is_concat (cfg : Kconfig) (env : Env) (s0 s1 s2 : Sys) (h fuel : Nat)
    (cs : List (List u8)) (hbuf : s0.data.buffer.length = 256)
    (hb : crypto_em32_hash_begin_session cfg env fuel s0 h .CRYPTO_HASH_ALGO_SHA256
      = Res.ok (0, s1))
    (hu : Updates cfg env h s1 cs s2) :
    accumulated s2 = ((active_src s2).getD []).take (active_len s2) ∧
    accumulated s2 = cs.flatten ∧
    active_len s2 = (cs.map List.length).sum ∧
    (512 ≤ cfg.MAX_ACCUM_SIZE → active_len s2 ≤ cfg.MAX_ACCUM_SIZE) := by
  obtain ⟨hs1, acc1, _⟩ := begin_ok cfg env fuel s0 s1 h _ hbuf hb
  obtain ⟨hs2, acc2, _⟩ := updates_ok cfg env h s1 s2 cs hs1 hu
  have hacc : accumulated s2 = cs.flatten := by
    rw [acc2, acc1]
    rfl
  refine ⟨rfl, hacc, ?_, ?_⟩
  · rw [← accumulated_length hs2, hacc, List.length_flatten]
  · intro h512
    have := (sess_len_bound hs2).2.1
    omega

/-- Witness of C6 as amended: 300 bytes in two chunks under a maximum of 1024. -/
theorem accumulated_is_concat_witness :
    ex_sys.data.buffer.length = 256 ∧
    crypto_em32_hash_begin_session ex_cfg ex_env 0 ex_sys 7 .CRYPTO_HASH_ALGO_SHA256
      = Res.ok (0, ex_s1) ∧
    Updates ex_cfg ex_env 7 ex_s1 ex_chunks ex_t3 ∧
    (accumulated ex_t3 = ((active_src ex_t3).getD []).take (active_len ex_t3) ∧
    accumulated ex_t3 = ex_chunks.flatten ∧
    active_len ex_t3 = (ex_chunks.map List.length).sum ∧
    (512 ≤ ex_cfg.MAX_ACCUM_SIZE → active_len ex_t3 ≤ ex_cfg.MAX_ACCUM_SIZE)) :=
  ⟨by rfl, ex_begin_eq, ex_run_chunks,
    accumulated_is_concat ex_cfg ex_env ex_sys ex_s1 ex_t3 7 0 ex_chunks (by rfl) ex_begin_eq
      ex_run_chunks⟩

/-- Counterexample to C6 as stated: with a configured maximum of 100 bytes, a begin call and
one update call with a 200-byte chunk both return 0 and leave 200 accumulated bytes, more
than the configured maximum. -/
theorem accumulated_exceeds_small_max :
    ex_sys.data.buffer.length = 256 ∧
    crypto_em32_hash_begin_session ex_cfg_small ex_env 0 ex_sys 7 .CRYPTO_HASH_ALGO_SHA256
      = Res.ok (0, ex_begun ex_cfg_small ex_env) ∧
    Updates ex_cfg_small ex_env 7 (ex_begun ex_cfg_small ex_env) [List.replicate 200 1]
      (ex_update ex_cfg_small ex_env (ex_begun ex_cfg_small ex_env) (List.replicate 200 1)).sys ∧
    active_len
      (ex_update ex_cfg_small ex_env (ex_begun ex_cfg_small ex_env) (List.replicate 200 1)).sys
      = 200 ∧
    ex_cfg_small.MAX_ACCUM_SIZE = 100 ∧
    ¬ active_len
      (ex_update ex_cfg_small ex_env (ex_begun ex_cfg_small ex_env) (List.replicate 200 1)).sys
      ≤ ex_cfg_small.MAX_ACCUM_SIZE :=
  ⟨by rfl, by rfl,
    Updates.step _ _ (List.replicate 200 1) [] 40 none
      (ex_update ex_cfg_small ex_env (ex_begun ex_cfg_small ex_env) (List.replicate 200 1))
      (by rfl) (by rfl) (Updates.done _),
    by rfl, by rfl, by decide⟩

theorem ex_open_t2 : Open ex_cfg ex_env 7 ex_t2 :=
  Open.update ex_s1 40 (update_pkt (List.replicate 200 1) none)
    (ex_update ex_cfg ex_env ex_s1 (List.replicate 200 1))
    (Open.start ex_sys ex_s1 0 (by rfl) ex_begin_eq) (by rfl)

/-- C7, as amended: take any state of an open session, holding `T` accumulated bytes, and an
update with a chunk of `L > 0` bytes, under a configured maximum accumulation size of at
least 512. Whenever the update returns, it returns `-ENOMEM` if `T + L` exceeds the
configured maximum, and it returns 0 if `T + L` does not exceed it and the allocation made
by this call succeeds. The update does return when `T + L` is below `2 ^ 32` and the
configured maximum is at most `2 ^ 31` (the capacity-doubling loop then ends within 31
rounds). -/
theorem update_capacity_boundary (cfg : Kconfig) (env : Env) (s : Sys) (h fuel : Nat)
    (c : List u8) (out : Option (List Nat)) (ho : Open cfg env h s) (hc : c ≠ [])
    (hmin : 512 ≤ cfg.MAX_ACCUM_SIZE) :
    (∀ r, em32_sha256_handler cfg env fuel s h (update_pkt c out) false = Res.ok r →
      (cfg.MAX_ACCUM_SIZE < active_len s + c.length → r.rc = - ENOMEM) ∧
      (active_len s + c.length ≤ cfg.MAX_ACCUM_SIZE →
        (∀ size, env.malloc_ok s.nmalloc size = true) → r.rc = 0)) ∧
    (active_len s + c.length < SIZE_MOD → cfg.MAX_ACCUM_SIZE ≤ 2147483648 → 31 ≤ fuel →
      ∃ r, em32_sha256_handler cfg env fuel s h (update_pkt c out) false = Res.ok r) := by
  have hs := open_sess ho
  have hpos : 0 < (update_pkt c out).in_len := by
    show 0 < c.length
    cases c with
    | nil => exact absurd rfl hc
    | cons a l => simp
  rw [handler_update_eq cfg env fuel s h _ hs.active hs.owner hs.state_ok hpos]
  refine ⟨?_, ?_⟩
  · intro r hr
    obtain ⟨_, _, hs2, hcase⟩ := handler_update_ok cfg env fuel s h _ c r hs rfl hpos hr
    have hlen : (update_pkt c out).in_len = c.length := rfl
    rw [hlen] at hcase
    have hmod : (active_len s + c.length) % SIZE_MOD ≤ active_len s + c.length :=
      Nat.mod_le _ _
    refine ⟨?_, ?_⟩
    · intro hgt
      rcases hcase with ⟨k1, _⟩ | ⟨_, _, k3, _⟩
      · exact k1
      · have := (sess_len_bound hs2).2.1
        omega
    · intro hle hok
      rcases hcase with ⟨_, _, _, hwhy⟩ | ⟨k1, _⟩
      · rcases hwhy with hgt | ⟨size, hfail⟩
        · omega
        · rw [hok size] at hfail
          cases hfail
      · exact k1
  · intro hw hmax hf
    exact handler_update_live cfg env fuel s h (update_pkt c out) c hs rfl rfl hc hw hmin hmax hf

/-- Witness of C7 as amended: the session of the examples holding 200 inline bytes receives
900 more under a maximum of 1024. -/
theorem update_capacity_boundary_witness :
    Open ex_cfg ex_env 7 ex_t2 ∧ List.replicate 900 (3 : u8) ≠ [] ∧
    512 ≤ ex_cfg.MAX_ACCUM_SIZE ∧
    em32_sha256_handler ex_cfg ex_env 40 ex_t2 7 (update_pkt (List.replicate 900 3) none) false
      = Res.ok ex_over ∧
    ex_cfg.MAX_ACCUM_SIZE < active_len ex_t2 + (List.replicate 900 (3 : u8)).length ∧
    ex_over.rc = - ENOMEM ∧
    ((∀ r, em32_sha256_handler ex_cfg ex_env 40 ex_t2 7 (update_pkt (List.replicate 900 3) none)
        false = Res.ok r →
      (ex_cfg.MAX_ACCUM_SIZE < active_len ex_t2 + (List.replicate 900 (3 : u8)).length →
        r.rc = - ENOMEM) ∧
      (active_len ex_t2 + (List.replicate 900 (3 : u8)).length ≤ ex_cfg.MAX_ACCUM_SIZE →
        (∀ size, ex_env.malloc_ok ex_t2.nmalloc size = true) → r.rc = 0)) ∧
    (active_len ex_t2 + (List.replicate 900 (3 : u8)).length < SIZE_MOD →
      ex_cfg.MAX_ACCUM_SIZE ≤ 2147483648 → 31 ≤ 40 →
      ∃ r, em32_sha256_handler ex_cfg ex_env 40 ex_t2 7 (update_pkt (List.replicate 900 3) none)
        false = Res.ok r)) :=
  ⟨ex_open_t2, by decide, by decide, by rfl, by decide, by rfl,
    update_capacity_boundary ex_cfg ex_env ex_t2 7 40 (List.replicate 900 3) none ex_open_t2
      (by decide) (by decide)⟩

/-- Counterexample to C7 as stated: with a configured maximum of 100 bytes, an open session
that holds 50 accumulated bytes accepts 100 more: the update returns 0, not `-ENOMEM`,
although 150 exceeds the configured maximum (the bytes go to the inline buffer, which is
never checked against the maximum). -/
theorem update_beyond_small_max :
    Open ex_cfg_small ex_env 7 ex_w2 ∧ active_len ex_w2 = 50 ∧
    ex_cfg_small.MAX_ACCUM_SIZE = 100 ∧
    em32_sha256_handler ex_cfg_small ex_env 40 ex_w2 7 (update_pkt (List.replicate 100 2) none)
      false = Res.ok ex_w3 ∧
    ex_w3.rc = 0 ∧ active_len ex_w3.sys = 150 ∧
    ¬ (ex_cfg_small.MAX_ACCUM_SIZE < active_len ex_w2 + (List.replicate 100 (2 : u8)).length →
        ex_w3.rc = - ENOMEM) :=
  ⟨Open.update (ex_begun ex_cfg_small ex_env) 40 (update_pkt (List.replicate 50 1) none)
      (ex_update ex_cfg_small ex_env (ex_begun ex_cfg_small ex_env) (List.replicate 50 1))
      (Open.start ex_sys (ex_begun ex_cfg_small ex_env) 0 (by rfl) (by rfl)) (by rfl),
    by rfl, by rfl, by rfl, by rfl, by rfl, by decide⟩

/-- C8: in every state of an open session, an update call that returns `-ENOMEM` leaves the
accumulated message (the bytes and the length finalize would hash) exactly as it was, also
when it is the call that moves the session from the inline to the dynamic buffer, and it
touches no register; the session stays active, owned by the same handle and out of the error
state; free by the owner then returns 0 and closes the session, and a begin after that never
returns a failure code and returns 0 once the accelerator completes the reset. -/
theorem enomem_update_keeps_message (cfg : Kconfig) (env : Env) (s : Sys) (h fuel : Nat)
    (pkt : hash_pkt) (r : Ret) (ho : Open cfg env h s)
    (hr : em32_sha256_handler cfg env fuel s h pkt false = Res.ok r)
    (hrc : r.rc = - ENOMEM) :
    accumulated r.sys = accumulated s ∧ active_len r.sys = active_len s ∧
    r.sys.mmio = s.mmio ∧
    r.sys.data.session_active = true ∧ r.sys.data.ctx = some h ∧
    r.sys.data.state ≠ .SHA_STATE_ERROR ∧
    ∃ t, crypto_em32_hash_free_session r.sys h = Res.ok (0, t) ∧
      t.data.session_active = false ∧
      (∀ (env2 : Env) (fuel2 h2 : Nat) (rc : Int) (u : Sys),
        crypto_em32_hash_begin_session cfg env2 fuel2 t h2 .CRYPTO_HASH_ALGO_SHA256
          = Res.ok (rc, u) → rc = 0) ∧
      (∀ (env2 : Env) (fuel2 h2 : Nat), ResetWithin env2 fuel2 → ∃ u,
        crypto_em32_hash_begin_session cfg env2 fuel2 t h2 .CRYPTO_HASH_ALGO_SHA256
          = Res.ok (0, u)) := by
  have hs := open_sess ho
  have hs2 := handler_sess cfg env fuel s h pkt r hs hr
  obtain ⟨k1, k2, k3⟩ := handler_keep cfg env fuel s h pkt r hs hr (by rw [hrc]; decide)
  obtain ⟨t, ht, hti, _⟩ := free_live cfg r.sys h hs2
  refine ⟨k1, k2, k3, hs2.active, hs2.owner, hs2.state_ok, t, ht, hti, ?_, ?_⟩
  · intro env2 fuel2 h2 rc u hb
    exact (begin_idle cfg env2 fuel2 t h2 hti).1 rc u hb
  · intro env2 fuel2 h2 hrst
    exact (begin_idle cfg env2 fuel2 t h2 hti).2 hrst

/-- Witness of C8: the failing update of the examples is the one that triggers the migration
(200 inline bytes, 900 more under a maximum of 1024). -/
theorem enomem_update_keeps_message_witness :
    Open ex_cfg ex_env 7 ex_t2 ∧
    em32_sha256_handler ex_cfg ex_env 40 ex_t2 7 (update_pkt (List.replicate 900 3) none) false
      = Res.ok ex_over ∧
    ex_over.rc = - ENOMEM ∧
    ex_t2.data.use_accum = false ∧ ex_over.sys.data.use_accum = true ∧
    (accumulated ex_over.sys = accumulated ex_t2 ∧ active_len ex_over.sys = active_len ex_t2 ∧
    ex_over.sys.mmio = ex_t2.mmio ∧
    ex_over.sys.data.session_active = true ∧ ex_over.sys.data.ctx = some 7 ∧
    ex_over.sys.data.state ≠ .SHA_STATE_ERROR ∧
    ∃ t, crypto_em32_hash_free_session ex_over.sys 7 = Res.ok (0, t) ∧
      t.data.session_active = false ∧
      (∀ (env2 : Env) (fuel2 h2 : Nat) (rc : Int) (u : Sys),
        crypto_em32_hash_begin_session ex_cfg env2 fuel2 t h2 .CRYPTO_HASH_ALGO_SHA256
          = Res.ok (rc, u) → rc = 0) ∧
      (∀ (env2 : Env) (fuel2 h2 : Nat), ResetWithin env2 fuel2 → ∃ u,
        crypto_em32_hash_begin_session ex_cfg env2 fuel2 t h2 .CRYPTO_HASH_ALGO_SHA256
          = Res.ok (0, u))) :=
  ⟨ex_open_t2, by rfl, by rfl, by rfl, by rfl,
    enomem_update_keeps_message ex_cfg ex_env ex_t2 7 40 (update_pkt (List.replicate 900 3) none)
      ex_over ex_open_t2 (by rfl) (by rfl)⟩

/-- C9: begin returns `-EBUSY` when a session is already active and, when none is active,
`-ENOTSUP` for every algorithm other than SHA-256; in both cases the instance it returns is
the one it was given: no field of the driver data has changed (the active session keeps its
handle and its buffers) and the register history is the same, so no register was read or
written. -/
theorem begin_rejects (cfg : Kconfig) (env : Env) (fuel : Nat) (s : Sys) (ctx : Nat)
    (algo : hash_algo) :
    (s.data.session_active = true →
      crypto_em32_hash_begin_session cfg env fuel s ctx algo = Res.ok (- EBUSY, s)) ∧
    (s.data.session_active = false → algo ≠ .CRYPTO_HASH_ALGO_SHA256 →
      crypto_em32_hash_begin_session cfg env fuel s ctx algo = Res.ok (- ENOTSUP, s)) ∧
    (∀ rc t, crypto_em32_hash_begin_session cfg env fuel s ctx algo = Res.ok (rc, t) →
      rc ≠ 0 → t = s ∧ t.data = s.data ∧ t.mmio = s.mmio ∧ t.nread = s.nread) := by
  refine ⟨?_, ?_, ?_⟩
  · intro ha
    unfold crypto_em32_hash_begin_session
    rw [if_pos ha]
    rfl
  · intro hi hal
    unfold crypto_em32_hash_begin_session
    rw [if_neg (by simp [hi]), if_pos hal]
    rfl
  · intro rc t hr hrc
    unfold crypto_em32_hash_begin_session at hr
    split at hr
    · cases hr
      exact ⟨rfl, rfl, rfl, rfl⟩
    · split at hr
      · cases hr
        exact ⟨rfl, rfl, rfl, rfl⟩
      · obtain ⟨s2, _, hfin⟩ := Res.bind_eq_ok hr
        cases hfin
        exact absurd rfl hrc

/-- Witness of C9: a second begin on the open session of the examples, and a begin for
SHA-512 on the idle instance. -/
theorem begin_rejects_witness :
    ex_s3.data.session_active = true ∧
    crypto_em32_hash_begin_session ex_cfg ex_env 0 ex_s3 8 .CRYPTO_HASH_ALGO_SHA256
      = Res.ok (- EBUSY, ex_s3) ∧
    ex_sys.data.session_active = false ∧
    crypto_em32_hash_begin_session ex_cfg ex_env 0 ex_sys 8 .CRYPTO_HASH_ALGO_SHA512
      = Res.ok (- ENOTSUP, ex_sys) :=
  ⟨by rfl, (begin_rejects ex_cfg ex_env 0 ex_s3 8 .CRYPTO_HASH_ALGO_SHA256).1 (by rfl), by rfl,
    (begin_rejects ex_cfg ex_env 0 ex_sys 8 .CRYPTO_HASH_ALGO_SHA512).2.1 (by rfl) (by decide)⟩

/-- C10: update and finalize (the handler with either value of `finish`, any packet) return
`-EINVAL` and hand back the instance unchanged (driver data, register history, output buffer)
whenever no session is active or the handle presented is not the one stored by begin. This
covers the instance as initialisation leaves it (before any begin), the instance after a
free that returned 0, and every state of an open session when a handle other than the
owner's is presented. -/
theorem handler_rejects_foreign_handle (cfg : Kconfig) (env : Env) (fuel : Nat) (pkt : hash_pkt)
    (finish : Bool) :
    (∀ (s : Sys) (ctx : Nat), s.data.session_active = false ∨ s.data.ctx ≠ some ctx →
      em32_sha256_handler cfg env fuel s ctx pkt finish = Res.ok ⟨- EINVAL, s, pkt.out_buf⟩) ∧
    (∀ (s t : Sys) (f : Nat) (clk : Int) (ctx : Nat),
      crypto_em32_init env f clk s = Res.ok (0, t) →
      em32_sha256_handler cfg env fuel t ctx pkt finish = Res.ok ⟨- EINVAL, t, pkt.out_buf⟩) ∧
    (∀ (s t : Sys) (h ctx : Nat), crypto_em32_hash_free_session s h = Res.ok (0, t) →
      em32_sha256_handler cfg env fuel t ctx pkt finish = Res.ok ⟨- EINVAL, t, pkt.out_buf⟩) ∧
    (∀ (s : Sys) (h ctx : Nat), Open cfg env h s → ctx ≠ h →
      em32_sha256_handler cfg env fuel s ctx pkt finish = Res.ok ⟨- EINVAL, s, pkt.out_buf⟩) := by
  have key : ∀ (s : Sys) (ctx : Nat), s.data.session_active = false ∨ s.data.ctx ≠ some ctx →
      em32_sha256_handler cfg env fuel s ctx pkt finish
        = Res.ok ⟨- EINVAL, s, pkt.out_buf⟩ := by
    intro s ctx hc
    unfold em32_sha256_handler
    rw [if_pos hc]
    rfl
  refine ⟨key, ?_, ?_, ?_⟩
  · intro s t f clk ctx hi
    apply key
    left
    unfold crypto_em32_init at hi
    split at hi
    · rename_i hneg
      cases hi
      omega
    · obtain ⟨s2, hrs, hfin⟩ := Res.bind_eq_ok hi
      cases hfin
      obtain ⟨_, hd, _⟩ := sha_reset_ok env f _ _ hrs
      rw [hd]
  · intro s t h ctx hf
    apply key
    left
    unfold crypto_em32_hash_free_session at hf
    split at hf
    · cases hf
    · obtain ⟨s1, _, hrest⟩ := Res.bind_eq_ok hf
      obtain ⟨buf, _, hfin⟩ := Res.bind_eq_ok hrest
      cases hfin
      rfl
  · intro s h ctx ho hne
    apply key
    right
    rw [(open_sess ho).owner]
    intro heq
    cases heq
    exact hne rfl

/-- Witness of C10: a finalize on the idle instance, and an update on the open session of the
examples through handle 8 instead of 7. -/
theorem handler_rejects_foreign_handle_witness :
    ex_sys.data.session_active = false ∧
    em32_sha256_handler ex_cfg ex_env 40 ex_sys 7 (update_pkt [1] none) true
      = Res.ok ⟨- EINVAL, ex_sys, none⟩ ∧
    Open ex_cfg ex_env 7 ex_s3 ∧ (8 : Nat) ≠ 7 ∧
    em32_sha256_handler ex_cfg ex_env 40 ex_s3 8 (update_pkt [1] none) false
      = Res.ok ⟨- EINVAL, ex_s3, none⟩ :=
  ⟨by rfl,
    (handler_rejects_foreign_handle ex_cfg ex_env 40 (update_pkt [1] none) true).1 ex_sys 7
      (Or.inl (by rfl)), ex_open_s3, by decide,
    (handler_rejects_foreign_handle ex_cfg ex_env 40 (update_pkt [1] none) false).2.2.2 ex_s3 7 8
      ex_open_s3 (by decide)⟩


/-! ### Further concrete runs -/

/-- C11: in a session that is active, owned by the calling handle and not in the error state,
an update call with a non-zero length and a null input pointer returns `-EINVAL` and hands
back the instance and the output exactly as they were; an update call of length zero returns
0 and hands back the instance and the output exactly as they were, whatever the input pointer
is. No register is read or written in either case. -/
theorem update_null_or_empty (cfg : Kconfig) (env : Env) (fuel : Nat) (s : Sys) (h : Nat)
    (ha : s.data.session_active = true) (hc : s.data.ctx = some h)
    (hs : s.data.state ≠ .SHA_STATE_ERROR) :
    (∀ (n : Nat) (out : Option (List Nat)), 0 < n →
      em32_sha256_handler cfg env fuel s h { in_buf := none, in_len := n, out_buf := out } false
        = Res.ok ⟨- EINVAL, s, out⟩) ∧
    (∀ (p : Option (List u8)) (out : Option (List Nat)),
      em32_sha256_handler cfg env fuel s h { in_buf := p, in_len := 0, out_buf := out } false
        = Res.ok ⟨0, s, out⟩) := by
  refine ⟨?_, ?_⟩
  · intro n out hn
    rw [handler_update_eq cfg env fuel s h _ ha hc hs hn]
    rfl
  · intro p out
    rw [handler_empty_eq cfg env fuel s h _ ha hc hs rfl]

/-- Witness of C11: the open session of the examples, holding the bytes 1 to 5. -/
theorem update_null_or_empty_witness :
    ex_s3.data.session_active = true ∧ ex_s3.data.ctx = some 7 ∧
    ex_s3.data.state ≠ .SHA_STATE_ERROR ∧
    em32_sha256_handler ex_cfg ex_env 40 ex_s3 7 { in_buf := none, in_len := 3, out_buf := none }
      false = Res.ok ⟨- EINVAL, ex_s3, none⟩ ∧
    em32_sha256_handler ex_cfg ex_env 40 ex_s3 7 { in_buf := none, in_len := 0, out_buf := none }
      false = Res.ok ⟨0, ex_s3, none⟩ ∧
    em32_sha256_handler ex_cfg ex_env 40 ex_s3 7
      { in_buf := some [9], in_len := 0, out_buf := none } false = Res.ok ⟨0, ex_s3, none⟩ :=
  ⟨by rfl, by rfl, by decide,
    (update_null_or_empty ex_cfg ex_env 40 ex_s3 7 (by rfl) (by rfl) (by decide)).1 3 none
      (by decide),
    (update_null_or_empty ex_cfg ex_env 40 ex_s3 7 (by rfl) (by rfl) (by decide)).2 none none,
    (update_null_or_empty ex_cfg ex_env 40 ex_s3 7 (by rfl) (by rfl) (by decide)).2 (some [9])
      none⟩

/-- C12: in every state of an open session, every finalize call without an output location
that returns has returned `-EINVAL`, has left the state field at error and every other field
of the driver data as it was, has no output to hand back and has read no register other than
the control register (no word of the output bank). Such a call does return once the
accelerator answers its flow-control polls. -/
theorem finalize_without_output (cfg : Kconfig) (env : Env) (s : Sys) (h : Nat) (pkt : hash_pkt)
    (ho : Open cfg env h s) (hp : pkt.out_buf = none) :
    (∀ (fuel : Nat) (r : Ret), em32_sha256_handler cfg env fuel s h pkt true = Res.ok r →
      r.rc = - EINVAL ∧ r.out = none ∧ r.sys.data.state = .SHA_STATE_ERROR ∧
      r.sys.data = { s.data with state := .SHA_STATE_ERROR } ∧
      (∀ o, o ≠ SHA_CTR_OFFSET → reads_from o (new_ops s r.sys) = [])) ∧
    (∀ (fuel : Nat), ReadyWithin env fuel →
      ∃ r, em32_sha256_handler cfg env fuel s h pkt true = Res.ok r) := by
  have hs := open_sess ho
  refine ⟨?_, ?_⟩
  · intro fuel r hr
    rw [handler_finish_eq cfg env fuel s h pkt hs.active hs.owner hs.state_ok] at hr
    obtain ⟨s6, feed, _, q1, q2, q3, q4, q5, _, _, _, q9⟩ :=
      finish_none cfg env fuel s pkt r (sess_len_bound hs).2.2 hp hr
    refine ⟨q1, q2, by rw [q3], q3, fun o hne => ?_⟩
    unfold new_ops
    rw [q4, q5, List.drop_left, reads_from_append, q9 o hne]
    rfl
  · intro fuel hrdy
    rw [handler_finish_eq cfg env fuel s h pkt hs.active hs.owner hs.state_ok,
      handler_finish_split, hp]
    obtain ⟨s6, h6⟩ := feed_phase_live env fuel s (sess_len_bound hs).2.2 hrdy
    rw [h6]
    exact ⟨_, rfl⟩

/-- Witness of C12: finalize without an output location on the session holding the bytes 1
to 5. -/
theorem finalize_without_output_witness :
    Open ex_cfg ex_env 7 ex_s3 ∧ (finish_pkt none).out_buf = none ∧
    em32_sha256_handler ex_cfg ex_env 40 ex_s3 7 (finish_pkt none) true = Res.ok ex_err ∧
    ex_err.rc = - EINVAL ∧ ex_err.sys.data.state = .SHA_STATE_ERROR ∧
    ((∀ (fuel : Nat) (r : Ret),
      em32_sha256_handler ex_cfg ex_env fuel ex_s3 7 (finish_pkt none) true = Res.ok r →
      r.rc = - EINVAL ∧ r.out = none ∧ r.sys.data.state = .SHA_STATE_ERROR ∧
      r.sys.data = { ex_s3.data with state := .SHA_STATE_ERROR } ∧
      (∀ o, o ≠ SHA_CTR_OFFSET → reads_from o (new_ops ex_s3 r.sys) = [])) ∧
    (∀ (fuel : Nat), ReadyWithin ex_env fuel →
      ∃ r, em32_sha256_handler ex_cfg ex_env fuel ex_s3 7 (finish_pkt none) true = Res.ok r)) :=
  ⟨ex_open_s3, by rfl, by rfl, by rfl, by rfl,
    finalize_without_output ex_cfg ex_env ex_s3 7 (finish_pkt none) ex_open_s3 (by rfl)⟩

theorem ex_live_err : Live ex_cfg ex_env 7 ex_err.sys :=
  Live.call ex_s3 40 (finish_pkt none) true ex_err (open_live ex_open_s3) (by rfl)

/-- C14: the error state is terminal. Take any state a session can be in between its begin
and its free, with the state field at error. Every call of the handler by the owner, update
(empty or not) or finalize, with any packet, returns `-EIO` and hands back the instance
(state field, buffers, lengths, register history) and the output exactly as they were; every
begin call, for any handle and algorithm, returns `-EBUSY` and changes nothing. Free by the
owner returns 0, and on the instance it leaves a begin for SHA-256 never returns a failure
code and, once the accelerator completes the reset, returns 0 and opens a session. -/
theorem error_is_terminal (cfg : Kconfig) (env : Env) (s : Sys) (h : Nat)
    (hl : Live cfg env h s) (he : s.data.state = .SHA_STATE_ERROR) :
    (∀ (fuel : Nat) (pkt : hash_pkt) (finish : Bool),
      em32_sha256_handler cfg env fuel s h pkt finish = Res.ok ⟨- EIO, s, pkt.out_buf⟩) ∧
    (∀ (env2 : Env) (fuel h2 : Nat) (algo : hash_algo),
      crypto_em32_hash_begin_session cfg env2 fuel s h2 algo = Res.ok (- EBUSY, s)) ∧
    ∃ t, crypto_em32_hash_free_session s h = Res.ok (0, t) ∧
      (∀ (env2 : Env) (fuel2 h2 : Nat) (rc : Int) (u : Sys),
        crypto_em32_hash_begin_session cfg env2 fuel2 t h2 .CRYPTO_HASH_ALGO_SHA256
          = Res.ok (rc, u) → rc = 0 ∧ Open cfg env2 h2 u) ∧
      (∀ (env2 : Env) (fuel2 h2 : Nat), ResetWithin env2 fuel2 → ∃ u,
        crypto_em32_hash_begin_session cfg env2 fuel2 t h2 .CRYPTO_HASH_ALGO_SHA256
          = Res.ok (0, u)) := by
  have hh := live_held hl
  refine ⟨?_, ?_, ?_⟩
  · intro fuel pkt finish
    exact handler_err cfg env fuel s h pkt finish hh.active hh.owner he
  · intro env2 fuel h2 algo
    unfold crypto_em32_hash_begin_session
    rw [if_pos hh.active]
    rfl
  · obtain ⟨t, ht, hd, _⟩ := free_spec cfg s h hh
    have hti : t.data.session_active = false := by rw [hd]
    have hbuf : t.data.buffer.length = 256 := by
      rw [hd]
      exact List.length_replicate _ _
    refine ⟨t, ht, ?_, ?_⟩
    · intro env2 fuel2 h2 rc u hb
      have hrc := (begin_idle cfg env2 fuel2 t h2 hti).1 rc u hb
      subst hrc
      exact ⟨rfl, Open.start t u fuel2 hbuf hb⟩
    · intro env2 fuel2 h2 hrst
      exact (begin_idle cfg env2 fuel2 t h2 hti).2 hrst

/-- Witness of C14: the error state left by the finalize call without an output location. -/
theorem error_is_terminal_witness :
    Live ex_cfg ex_env 7 ex_err.sys ∧ ex_err.sys.data.state = .SHA_STATE_ERROR ∧
    em32_sha256_handler ex_cfg ex_env 40 ex_err.sys 7 (update_pkt [9] none) false
      = Res.ok ⟨- EIO, ex_err.sys, none⟩ ∧
    em32_sha256_handler ex_cfg ex_env 40 ex_err.sys 7 (finish_pkt (some ex_out)) true
      = Res.ok ⟨- EIO, ex_err.sys, some ex_out⟩ ∧
    ((∀ (fuel : Nat) (pkt : hash_pkt) (finish : Bool),
      em32_sha256_handler ex_cfg ex_env fuel ex_err.sys 7 pkt finish
        = Res.ok ⟨- EIO, ex_err.sys, pkt.out_buf⟩) ∧
    (∀ (env2 : Env) (fuel h2 : Nat) (algo : hash_algo),
      crypto_em32_hash_begin_session ex_cfg env2 fuel ex_err.sys h2 algo
        = Res.ok (- EBUSY, ex_err.sys)) ∧
    ∃ t, crypto_em32_hash_free_session ex_err.sys 7 = Res.ok (0, t) ∧
      (∀ (env2 : Env) (fuel2 h2 : Nat) (rc : Int) (u : Sys),
        crypto_em32_hash_begin_session ex_cfg env2 fuel2 t h2 .CRYPTO_HASH_ALGO_SHA256
          = Res.ok (rc, u) → rc = 0 ∧ Open ex_cfg env2 h2 u) ∧
      (∀ (env2 : Env) (fuel2 h2 : Nat), ResetWithin env2 fuel2 → ∃ u,
        crypto_em32_hash_begin_session ex_cfg env2 fuel2 t h2 .CRYPTO_HASH_ALGO_SHA256
          = Res.ok (0, u))) :=
  ⟨ex_live_err, by rfl, by rfl, by rfl,
    error_is_terminal ex_cfg ex_env ex_err.sys 7 ex_live_err (by rfl)⟩

theorem ex_open_b2 : Open ex_cfg ex_bank 7 ex_b2 :=
  Open.update (ex_begun ex_cfg ex_bank) 40 (update_pkt [1, 2, 3] none)
    (ex_update ex_cfg ex_bank (ex_begun ex_cfg ex_bank) [1, 2, 3])
    (Open.start ex_sys (ex_begun ex_cfg ex_bank) 0 (by rfl) (by rfl)) (by rfl)

/-- C15: take any state of an open session and a finalize call on it that returns 0. The
call had an output location of at least eight 32-bit words (32 bytes). Its register traffic
ends with: a read of the control register that shows the done bit, one more read of the
control register, a write of that value with the interrupt-clear bit set to the control
register, and then the eight reads of the output bank, word `i` from offset `4 * i` of the
bank, in the order `i = 0..7`; before these no register other than the control register was
read. Output word `i` (bytes `4 * i` to `4 * i + 3` of the buffer, as `output32[i]` addresses
them) holds exactly the value of the read from bank offset `4 * i`, for each `i` below 8, and
the rest of the output buffer is as it was. The state field is idle and every other field of
the driver data is as it was: the accumulated message, its length, the buffer path and both
buffers are unchanged (nothing is wiped). -/
theorem finalize_stores_digest (cfg : Kconfig) (env : Env) (s : Sys) (h fuel : Nat)
    (pkt : hash_pkt) (r : Ret) (ho : Open cfg env h s)
    (hr : em32_sha256_handler cfg env fuel s h pkt true = Res.ok r) (hrc : r.rc = 0) :
    (∃ out o pre d v k,
      pkt.out_buf = some out ∧ 8 ≤ out.length ∧ r.out = some o ∧ o.length = out.length ∧
      new_ops s r.sys = pre ++ ([MmioOp.rd SHA_CTR_OFFSET d, MmioOp.rd SHA_CTR_OFFSET v,
        MmioOp.wr SHA_CTR_OFFSET (v ||| SHA_INT_CLR_BIT)] ++ bank_ops env k) ∧
      d &&& SHA_STA_BIT ≠ 0 ∧
      (∀ off, off ≠ SHA_CTR_OFFSET → reads_from off pre = []) ∧
      (∀ i, i < 8 → reads_from (SHA_OUT_OFFSET + i * 4) (new_ops s r.sys) = [bank_word env k i]
        ∧ o[i]? = some (bank_word env k i)) ∧
      (∀ j, 8 ≤ j → o[j]? = out[j]?)) ∧
    r.sys.data.state = .SHA_STATE_IDLE ∧
    r.sys.data = { s.data with state := .SHA_STATE_IDLE } ∧
    accumulated r.sys = accumulated s ∧ active_len r.sys = active_len s ∧
    r.sys.data.use_accum = s.data.use_accum ∧ r.sys.data.buffer = s.data.buffer ∧
    r.sys.data.accum_buf = s.data.accum_buf := by
  have hs := open_sess ho
  rw [handler_finish_eq cfg env fuel s h pkt hs.active hs.owner hs.state_ok] at hr
  cases hp : pkt.out_buf with
  | none =>
    obtain ⟨_, _, _, q1, _⟩ := finish_none cfg env fuel s pkt r (sess_len_bound hs).2.2 hp hr
    rw [hrc] at q1
    exact absurd q1 (by decide)
  | some out =>
    obtain ⟨s6, feed, n, _, q2, _, q4, _, _, q7, _, _, q⟩ :=
      finish_out cfg env fuel s pkt r out (sess_len_bound hs).2.2 hp hr
    rcases q with ⟨_, _, k3, _⟩ | ⟨k1, k2, _, k4, k5, o, k6, k7, k8, k9⟩
    · rw [hrc] at k3
      exact absurd k3 (by decide)
    · obtain ⟨a1, a2, a3, a4, a5, _⟩ := accumulated_of_state k4
      refine ⟨⟨out, o, prog_ops (active_len s) ++ feed ++ poll_ops env s6.nread (n - 1),
        env.rd (s6.nread + (n - 1)) SHA_CTR_OFFSET % SIZE_MOD,
        env.rd (s6.nread + n) SHA_CTR_OFFSET % SIZE_MOD,
        s6.nread + n + 1, rfl, k2, k6, k7, ?_, k1, ?_, ?_, k9⟩, by rw [k4], k4, a1, a2, a3, a4, a5⟩
      · unfold new_ops
        rw [k5, q2, List.append_assoc, List.drop_left]
        obtain ⟨m, rfl⟩ : ∃ m, n = m + 1 := ⟨n - 1, by omega⟩
        rw [poll_ops_snoc]
        simp only [List.append_assoc, List.singleton_append, List.cons_append, List.nil_append,
          Nat.add_sub_cancel]
      · intro off hoff
        rw [reads_from_append, reads_from_append, q4 off hoff, reads_from_poll env _ _ off hoff]
        rfl
      · intro i hi
        refine ⟨?_, k8 i hi⟩
        have hne := bank_offset_ne i
        unfold new_ops
        rw [k5, q2, List.append_assoc, List.drop_left, reads_from_append, reads_from_append,
          reads_from_append, reads_from_append, q4 _ hne, reads_from_poll env _ _ _ hne,
          reads_from_bank env _ i hi]
        simp [reads_from, prog_ops, hne, Ne.symm hne]

/-- Witness of C15: an accelerator whose bank word at offset `off` reads `1000 + off`; the
finalize call stores the eight words in bank order. -/
theorem finalize_stores_digest_witness :
    Open ex_cfg ex_bank 7 ex_b2 ∧
    em32_sha256_handler ex_cfg ex_bank 40 ex_b2 7 (finish_pkt (some ex_out)) true
      = Res.ok ex_fin ∧
    ex_fin.rc = 0 ∧
    ex_fin.out = some [1008, 1012, 1016, 1020, 1024, 1028, 1032, 1036] ∧
    ((∃ out o pre d v k,
      (finish_pkt (some ex_out)).out_buf = some out ∧ 8 ≤ out.length ∧ ex_fin.out = some o ∧
      o.length = out.length ∧
      new_ops ex_b2 ex_fin.sys = pre ++ ([MmioOp.rd SHA_CTR_OFFSET d, MmioOp.rd SHA_CTR_OFFSET v,
        MmioOp.wr SHA_CTR_OFFSET (v ||| SHA_INT_CLR_BIT)] ++ bank_ops ex_bank k) ∧
      d &&& SHA_STA_BIT ≠ 0 ∧
      (∀ off, off ≠ SHA_CTR_OFFSET → reads_from off pre = []) ∧
      (∀ i, i < 8 →
        reads_from (SHA_OUT_OFFSET + i * 4) (new_ops ex_b2 ex_fin.sys) = [bank_word ex_bank k i]
        ∧ o[i]? = some (bank_word ex_bank k i)) ∧
      (∀ j, 8 ≤ j → o[j]? = out[j]?)) ∧
    ex_fin.sys.data.state = .SHA_STATE_IDLE ∧
    ex_fin.sys.data = { ex_b2.data with state := .SHA_STATE_IDLE } ∧
    accumulated ex_fin.sys = accumulated ex_b2 ∧ active_len ex_fin.sys = active_len ex_b2 ∧
    ex_fin.sys.data.use_accum = ex_b2.data.use_accum ∧
    ex_fin.sys.data.buffer = ex_b2.data.buffer ∧
    ex_fin.sys.data.accum_buf = ex_b2.data.accum_buf) :=
  ⟨ex_open_b2, by rfl, by rfl, by rfl,
    finalize_stores_digest ex_cfg ex_bank ex_b2 7 40 (finish_pkt (some ex_out)) ex_fin ex_open_b2
      (by rfl) (by rfl)⟩

theorem ex_open_done : Open ex_cfg ex_env 7 ex_done.sys :=
  Open.finish ex_s3 40 (finish_pkt (some ex_out)) ex_done ex_open_s3 (by rfl) (by rfl)

/-- C17: free wipes the buffered plaintext. Take any state a session can be in between its
begin and its free (open, after a finalize that returned 0, or in the error state). Free by
the owner returns 0. Afterwards the inline buffer is 256 zero bytes, whatever it held
before (also the copy a migration left there), and the dynamic buffer pointer is null. If
there was a dynamic buffer, exactly one block was handed to `k_free`, and at that moment it
was the dynamic buffer with its first `accum_len` bytes set to zero (the bytes beyond them,
which never held message data, as they were); on the dynamic path these first `accum_len`
bytes are the whole accumulated message. If there was no dynamic buffer, nothing was
released. -/
theorem free_wipes_plaintext (cfg : Kconfig) (env : Env) (s : Sys) (h : Nat)
    (hl : Live cfg env h s) :
    ∃ t, crypto_em32_hash_free_session s h = Res.ok (0, t) ∧
      t.data.buffer = List.replicate 256 0 ∧
      (∀ i, i < 256 → t.data.buffer[i]? = some 0) ∧
      t.data.accum_buf = none ∧
      (s.data.accum_buf = none → t.released = s.released) ∧
      (∀ blk, s.data.accum_buf = some blk → ∃ z, t.released = s.released ++ [z] ∧
        z.length = blk.length ∧ (∀ i, i < s.data.accum_len → z[i]? = some 0) ∧
        (∀ i, s.data.accum_len ≤ i → z[i]? = blk[i]?)) ∧
      (s.data.use_accum = true → (accumulated s).length = s.data.accum_len ∧
        accumulated s = (s.data.accum_buf.getD []).take s.data.accum_len) := by
  have hh := live_held hl
  obtain ⟨t, ht, hd, _, _, _, hrel⟩ := free_spec cfg s h hh
  refine ⟨t, ht, by rw [hd], ?_, by rw [hd], ?_, ?_, ?_⟩
  · intro i hi
    rw [hd]
    exact List.getElem?_replicate_of_lt hi
  · intro hnone
    rw [hrel]
    unfold wiped_block
    rw [hnone]
    simp
  · intro blk hblk
    have hlen := hh.len_le
    have hb := hh.blk_len
    rw [hblk] at hb
    simp only [Option.getD_some] at hb
    refine ⟨List.replicate s.data.accum_len 0 ++ blk.drop s.data.accum_len, ?_, ?_, ?_, ?_⟩
    · rw [hrel]
      unfold wiped_block
      rw [hblk]
    · rw [List.length_append, List.length_replicate, List.length_drop]
      omega
    · intro i hi
      rw [List.getElem?_append_left (by rw [List.length_replicate]; exact hi)]
      exact List.getElem?_replicate_of_lt hi
    · intro i hi
      rw [List.getElem?_append_right (by rw [List.length_replicate]; exact hi),
        List.length_replicate, List.getElem?_drop]
      congr 1
      omega
  · intro hu
    unfold accumulated active_src active_len
    rw [hu]
    have h1 := hh.len_le
    have h2 := hh.blk_len
    refine ⟨?_, by simp⟩
    simp only [if_true]
    rw [List.length_take]
    omega

theorem ex_live_t3 : Live ex_cfg ex_env 7 ex_t3 := open_live ex_open_t3

/-- Witness of C17: the session holding 300 bytes in a dynamic block of 512 bytes; the inline
buffer still holds the first 200 bytes, left there by the migration. -/
theorem free_wipes_plaintext_witness :
    Live ex_cfg ex_env 7 ex_t3 ∧ ex_t3.data.use_accum = true ∧ ex_t3.data.accum_len = 300 ∧
    ex_t3.data.buffer.take 200 = List.replicate 200 1 ∧
    accumulated ex_t3 = List.replicate 200 1 ++ List.replicate 100 2 ∧
    crypto_em32_hash_free_session ex_t3 7 = Res.ok (0, ex_freed_dyn) ∧
    ex_freed_dyn.released = [List.replicate 512 0] ∧
    (∃ t, crypto_em32_hash_free_session ex_t3 7 = Res.ok (0, t) ∧
      t.data.buffer = List.replicate 256 0 ∧
      (∀ i, i < 256 → t.data.buffer[i]? = some 0) ∧
      t.data.accum_buf = none ∧
      (ex_t3.data.accum_buf = none → t.released = ex_t3.released) ∧
      (∀ blk, ex_t3.data.accum_buf = some blk → ∃ z, t.released = ex_t3.released ++ [z] ∧
        z.length = blk.length ∧ (∀ i, i < ex_t3.data.accum_len → z[i]? = some 0) ∧
        (∀ i, ex_t3.data.accum_len ≤ i → z[i]? = blk[i]?)) ∧
      (ex_t3.data.use_accum = true → (accumulated ex_t3).length = ex_t3.data.accum_len ∧
        accumulated ex_t3 = (ex_t3.data.accum_buf.getD []).take ex_t3.data.accum_len)) :=
  ⟨ex_live_t3, by rfl, by rfl, by rfl, by rfl, by rfl, by rfl,
    free_wipes_plaintext ex_cfg ex_env ex_t3 7 ex_live_t3⟩

/-- C18, the code at the failing input: after begin, two updates with five bytes in all and
free by the owner, free has returned 0 and the dynamic length, the dynamic capacity and the
buffer path are reset, no session is active and the state is idle, but the inline length
`buffer_len` and the total length `total_len` still hold 5: free does not reset them. -/
theorem free_keeps_inline_lengths :
    Open ex_cfg ex_env 7 ex_s3 ∧ ex_s3.data.buffer_len = 5 ∧ ex_s3.data.total_len = 5 ∧
    crypto_em32_hash_free_session ex_s3 7 = Res.ok (0, ex_freed) ∧
    ex_freed.data.buffer_len = 5 ∧ ex_freed.data.total_len = 5 ∧
    ex_freed.data.accum_len = 0 ∧ ex_freed.data.accum_cap = 0 ∧
    ex_freed.data.use_accum = false ∧ ex_freed.data.session_active = false ∧
    ex_freed.data.state = .SHA_STATE_IDLE ∧
    ¬ (ex_freed.data.total_len = 0 ∧ ex_freed.data.buffer_len = 0) :=
  ⟨ex_open_s3, by rfl, by rfl, by rfl, by rfl, by rfl, by rfl, by rfl, by rfl, by rfl, by rfl,
    by decide⟩

/-- C19, as amended: free by the owner of a session, in any state the session can be in
between its begin and its free, does not fault and returns 0; it leaves the state idle, no
session active, no owner, the inline buffer zeroed, no dynamic buffer, the dynamic length and
capacity at zero and the buffer path inline, and it touches no register. A free call for a
handle that does not own an active session (a second free in a row, a handle that never began
a session, on an idle instance or beside the session of another handle) does not fault,
returns `-EINVAL` and changes nothing. -/
theorem free_by_owner_or_rejected (cfg : Kconfig) (env : Env) (s : Sys) (h : Nat)
    (hl : Live cfg env h s) :
    (∃ t, crypto_em32_hash_free_session s h = Res.ok (0, t) ∧
      t.data.state = .SHA_STATE_IDLE ∧ t.data.session_active = false ∧ t.data.ctx = none ∧
      t.data.buffer = List.replicate 256 0 ∧ t.data.accum_buf = none ∧
      t.data.accum_len = 0 ∧ t.data.accum_cap = 0 ∧ t.data.use_accum = false ∧
      t.mmio = s.mmio ∧
      (∀ h2, crypto_em32_hash_free_session t h2 = Res.ok (- EINVAL, t))) ∧
    (∀ h2, h2 ≠ h → crypto_em32_hash_free_session s h2 = Res.ok (- EINVAL, s)) ∧
    (∀ (u : Sys) (h2 : Nat), u.data.session_active = false ∨ u.data.ctx ≠ some h2 →
      crypto_em32_hash_free_session u h2 = Res.ok (- EINVAL, u)) := by
  have hh := live_held hl
  have key : ∀ (u : Sys) (h2 : Nat), u.data.session_active = false ∨ u.data.ctx ≠ some h2 →
      crypto_em32_hash_free_session u h2 = Res.ok (- EINVAL, u) := by
    intro u h2 hc
    unfold crypto_em32_hash_free_session
    rw [if_pos hc]
    rfl
  obtain ⟨t, ht, hd, hm, _⟩ := free_spec cfg s h hh
  refine ⟨⟨t, ht, by rw [hd], by rw [hd], by rw [hd], by rw [hd], by rw [hd], by rw [hd],
    by rw [hd], by rw [hd], hm, fun h2 => key t h2 (Or.inl (by rw [hd]))⟩, ?_, key⟩
  intro h2 hne
  apply key
  right
  rw [hh.owner]
  intro heq
  cases heq
  exact hne rfl

/-- Witness of C19 as amended: free on the session left in the error state. -/
theorem free_by_owner_or_rejected_witness :
    Live ex_cfg ex_env 7 ex_err.sys ∧ ex_err.sys.data.state = .SHA_STATE_ERROR ∧
    ((∃ t, crypto_em32_hash_free_session ex_err.sys 7 = Res.ok (0, t) ∧
      t.data.state = .SHA_STATE_IDLE ∧ t.data.session_active = false ∧ t.data.ctx = none ∧
      t.data.buffer = List.replicate 256 0 ∧ t.data.accum_buf = none ∧
      t.data.accum_len = 0 ∧ t.data.accum_cap = 0 ∧ t.data.use_accum = false ∧
      t.mmio = ex_err.sys.mmio ∧
      (∀ h2, crypto_em32_hash_free_session t h2 = Res.ok (- EINVAL, t))) ∧
    (∀ h2, h2 ≠ 7 →
      crypto_em32_hash_free_session ex_err.sys h2 = Res.ok (- EINVAL, ex_err.sys)) ∧
    (∀ (u : Sys) (h2 : Nat), u.data.session_active = false ∨ u.data.ctx ≠ some h2 →
      crypto_em32_hash_free_session u h2 = Res.ok (- EINVAL, u))) :=
  ⟨ex_live_err, by rfl, free_by_owner_or_rejected ex_cfg ex_env ex_err.sys 7 ex_live_err⟩

/-- Counterexample to C19 as stated: after begin, two updates and a free that returned 0, a
second free by the same handle returns `-EINVAL`; a free for handle 7 on the instance on
which no session was ever begun returns `-EINVAL`; and a free for handle 8, which never began
a session, beside the open session of handle 7 returns `-EINVAL` and leaves that session
active. In all three cases a failure is reported. -/
theorem repeated_free_reports_failure :
    crypto_em32_hash_free_session ex_s3 7 = Res.ok (0, ex_freed) ∧
    crypto_em32_hash_free_session ex_freed 7 = Res.ok (- EINVAL, ex_freed) ∧
    crypto_em32_hash_free_session ex_sys 7 = Res.ok (- EINVAL, ex_sys) ∧
    crypto_em32_hash_free_session ex_s3 8 = Res.ok (- EINVAL, ex_s3) ∧
    ex_s3.data.session_active = true ∧ (- EINVAL : Int) ≠ 0 :=
  ⟨by rfl, by rfl, by rfl, by rfl, by rfl, by decide⟩

/-! ### Known answers -/

/-- The computed constants begin and end with the values printed in FIPS 180-4. -/
theorem sha_constants_check :
    sha_K.length = 64 ∧ sha_K.head? = some 0x428a2f98 ∧ sha_K.getLast? = some 0xc67178f2 ∧
    sha_H0 = [0x6a09e667, 0xbb67ae85, 0x3c6ef372, 0xa54ff53a,
              0x510e527f, 0x9b05688c, 0x1f83d9ab, 0x5be0cd19] := by
  decide

theorem sha256_abc : sha256 (byte_vals msg_abc) = digest_abc := by decide

theorem sha256_empty : sha256 (byte_vals []) = digest_empty := by decide

/-- C20: known answers. Take a begin call that returns 0, update calls that return 0 and feed
the message `M` (in one chunk, or in several, or none at all for the empty message), and a
finalize call that returns 0, on an accelerator that behaves on this run as FIPS 180-4
demands: for consistent programmed values its output bank presents the SHA-256 digest of the
message that the word count, the valid-byte code and the streamed words describe. Then the
32 bytes of the output buffer are the SHA-256 digest of `M`. For `M = "abc"` they are
`ba7816bf 8f01cfea 414140de 5dae2223 b00361a3 96177a9c b410ff61 f20015ad`, for the empty
message `e3b0c442 98fc1c14 9afbf4c8 996fb924 27ae41e4 649b934c a495991b 7852b855`; both values
are computed from the reference definition of SHA-256. -/
theorem known_answer_digest (cfg : Kconfig) (env : Env) (s0 s1 s2 : Sys) (h f0 fuel : Nat)
    (cs : List (List u8)) (pkt : hash_pkt) (r : Ret)
    (hbuf : s0.data.buffer.length = 256)
    (hb : crypto_em32_hash_begin_session cfg env f0 s0 h .CRYPTO_HASH_ALGO_SHA256
      = Res.ok (0, s1))
    (hu : Updates cfg env h s1 cs s2)
    (hr : em32_sha256_handler cfg env fuel s2 h pkt true = Res.ok r) (hrc : r.rc = 0)
    (hacc : FipsAccel (new_ops s2 r.sys)) :
    (∃ o, r.out = some o ∧ digest_bytes o = sha256 (byte_vals cs.flatten)) ∧
    (cs.flatten = msg_abc → ∃ o, r.out = some o ∧ digest_bytes o = digest_abc) ∧
    (cs.flatten = [] → ∃ o, r.out = some o ∧ digest_bytes o = digest_empty) ∧
    sha256 (byte_vals msg_abc) = digest_abc ∧ sha256 (byte_vals []) = digest_empty := by
  obtain ⟨hs1, hacc1, _⟩ := begin_ok cfg env f0 s0 s1 h _ hbuf hb
  obtain ⟨hs2, hacc2, _⟩ := updates_ok cfg env h s1 s2 cs hs1 hu
  rw [hacc1, List.nil_append] at hacc2
  obtain ⟨hmsg, hcons⟩ := finish_describes cfg env fuel s2 h pkt r hs2 hr
  obtain ⟨o, ho, hbank⟩ := finish_bank cfg env fuel s2 h pkt r hs2 hr hrc
  have hd : digest_bytes o = bank_bytes (new_ops s2 r.sys) := by
    unfold digest_bytes bank_bytes
    congr 1
    apply List.map_congr_left
    intro i hi
    obtain ⟨b, hb1, hb2⟩ := hbank i (List.mem_range.mp hi)
    rw [hb1, List.getD_eq_getElem?_getD, hb2]
    rfl
  have main : digest_bytes o = sha256 (byte_vals cs.flatten) := by
    rw [hd, hacc hcons, hmsg, hacc2]
  refine ⟨⟨o, ho, main⟩, ?_, ?_, sha256_abc, sha256_empty⟩
  · intro he
    rw [he] at main
    exact ⟨o, ho, main.trans sha256_abc⟩
  · intro he
    rw [he] at main
    exact ⟨o, ho, main.trans sha256_empty⟩

/-- Witness of C20: the message "abc" on an accelerator that presents the digest of "abc". -/
theorem known_answer_digest_witness :
    ex_sys.data.buffer.length = 256 ∧
    crypto_em32_hash_begin_session ex_cfg ex_abc_env 0 ex_sys 7 .CRYPTO_HASH_ALGO_SHA256
      = Res.ok (0, ex_a1) ∧
    Updates ex_cfg ex_abc_env 7 ex_a1 [msg_abc] ex_a2 ∧
    em32_sha256_handler ex_cfg ex_abc_env 40 ex_a2 7 (finish_pkt (some ex_out)) true
      = Res.ok ex_afin ∧
    ex_afin.rc = 0 ∧ FipsAccel (new_ops ex_a2 ex_afin.sys) ∧
    accel_message (new_ops ex_a2 ex_afin.sys) = [0x61, 0x62, 0x63] ∧
    ex_afin.out = some [0xbf1678ba, 0xeacf018f, 0xde404141, 0x2322ae5d,
                        0xa36103b0, 0x9c7a1796, 0x61ff10b4, 0xad1500f2] ∧
    ((∃ o, ex_afin.out = some o ∧ digest_bytes o = sha256 (byte_vals [msg_abc].flatten)) ∧
    ([msg_abc].flatten = msg_abc → ∃ o, ex_afin.out = some o ∧ digest_bytes o = digest_abc) ∧
    ([msg_abc].flatten = [] → ∃ o, ex_afin.out = some o ∧ digest_bytes o = digest_empty) ∧
    sha256 (byte_vals msg_abc) = digest_abc ∧ sha256 (byte_vals []) = digest_empty) :=
  ⟨by rfl, by rfl,
    Updates.step ex_a1 ex_a2 msg_abc [] 40 none (ex_update ex_cfg ex_abc_env ex_a1 msg_abc)
      (by rfl) (by rfl) (Updates.done ex_a2),
    by rfl, by rfl, fun _ => by decide, by rfl, by rfl,
    known_answer_digest ex_cfg ex_abc_env ex_sys ex_a1 ex_a2 7 0 40 [msg_abc]
      (finish_pkt (some ex_out)) ex_afin (by rfl) (by rfl)
      (Updates.step ex_a1 ex_a2 msg_abc [] 40 none (ex_update ex_cfg ex_abc_env ex_a1 msg_abc)
        (by rfl) (by rfl) (Updates.done ex_a2))
      (by rfl) (by rfl) (fun _ => by decide)⟩

/-! ### Waits, flow control, growth -/

theorem ex_open_q2 : Open ex_cfg ex_noready 7 ex_q2 :=
  Open.update (ex_begun ex_cfg ex_noready) 40 (update_pkt (List.replicate 64 1) none)
    (ex_update ex_cfg ex_noready (ex_begun ex_cfg ex_noready) (List.replicate 64 1))
    (Open.start ex_sys (ex_begun ex_cfg ex_noready) 0 (by rfl) (by rfl)) (by rfl)

theorem ex_open_i10 : Open ex_cfg ex_env 7 ex_i10 :=
  Open.update ex_s1 40 (update_pkt (List.replicate 10 1) none)
    (ex_update ex_cfg ex_env ex_s1 (List.replicate 10 1))
    (Open.start ex_sys ex_s1 0 (by rfl) ex_begin_eq) (by rfl)

/-- C21, as amended: of the three waits only the completion wait is bounded by the driver.
For every configuration and every accelerator: with a configured timeout below `2 ^ 32 - 1`,
the completion wait returns from every starting point after at most `TIMEOUT_USEC + 2` reads
of the control register. The reset wait of begin and the flow-control wait of finalize poll
until the accelerator answers: begin (for SHA-256, on any instance without an active session)
returns 0 once the reset bit is seen clear, and under an accelerator that keeps the reset bit
set it does not return, whatever the iteration budget; finalize on an open session returns
once every flow-control poll is answered, and under an accelerator that never shows ready,
finalize of a message of at least 16 words does not return. -/
theorem waits_follow_accelerator (cfg : Kconfig) (env : Env) :
    (cfg.TIMEOUT_USEC + 1 < SIZE_MOD → ∀ (fuel : Nat) (s6 : Sys), cfg.TIMEOUT_USEC + 1 ≤ fuel →
      ∃ d n, done_wait cfg env fuel 0 s6 = Res.ok d ∧ 1 ≤ n ∧ n ≤ cfg.TIMEOUT_USEC + 2 ∧
        d.2.mmio = s6.mmio ++ poll_ops env s6.nread n) ∧
    (∀ (fuel h2 : Nat) (s0 : Sys), s0.data.session_active = false → ResetWithin env fuel →
      ∃ u, crypto_em32_hash_begin_session cfg env fuel s0 h2 .CRYPTO_HASH_ALGO_SHA256
        = Res.ok (0, u)) ∧
    ((∀ k, (env.rd k SHA_CTR_OFFSET % SIZE_MOD) &&& SHA_RST_BIT ≠ 0) →
      ∀ (fuel h2 : Nat) (s0 : Sys), s0.data.session_active = false →
        crypto_em32_hash_begin_session cfg env fuel s0 h2 .CRYPTO_HASH_ALGO_SHA256
          = Res.hang) ∧
    (∀ (s : Sys) (h : Nat), Open cfg env h s →
      ∀ (fuel : Nat) (pkt : hash_pkt), ReadyWithin env fuel →
        cfg.TIMEOUT_USEC + 1 < SIZE_MOD → cfg.TIMEOUT_USEC + 1 ≤ fuel →
        (∀ o, pkt.out_buf = some o → 8 ≤ o.length) →
        ∃ r, em32_sha256_handler cfg env fuel s h pkt true = Res.ok r) ∧
    ((∀ k, (env.rd k SHA_CTR_OFFSET % SIZE_MOD) &&& SHA_READY_BIT = 0) →
      ∀ (s : Sys) (h : Nat), Open cfg env h s → 16 ≤ (active_len s + 3) / 4 →
        ∀ (fuel : Nat) (pkt : hash_pkt) (r : Ret),
          em32_sha256_handler cfg env fuel s h pkt true ≠ Res.ok r) := by
  refine ⟨?_, ?_, ?_, ?_, ?_⟩
  · intro hT fuel s6 hf
    obtain ⟨d, hd⟩ := done_wait_live cfg env hT fuel 0 s6 (by omega) (by omega)
    obtain ⟨n, n1, n3, _, _, _, _, n8⟩ := done_wait_spec cfg env fuel 0 s6 d hd
    exact ⟨d, n, hd, n1, by have := (n8 hT (by omega)).1; omega, n3.2.2.2⟩
  · intro fuel h2 s0 hi hrst
    exact (begin_idle cfg env fuel s0 h2 hi).2 hrst
  · intro hst fuel h2 s0 hi
    exact begin_stuck cfg env hst fuel s0 h2 hi
  · intro s h ho fuel pkt hrdy hT hf hout
    exact finish_returns cfg env fuel s h pkt (open_sess ho) hrdy hT hf hout
  · intro hnr s h ho hw fuel pkt r
    exact finish_stuck cfg env hnr fuel s h pkt r (open_sess ho) hw

/-- Witness of C21 as amended, one instance of each part: under the accelerator that keeps
the reset bit set, begin on the idle instance does not return; under the accelerator that
never shows ready, finalize on the open session holding 64 bytes does not return; under the
accelerator that always shows ready and done, begin returns 0 and finalize on the open
session of the examples returns; under the accelerator that never shows done, the completion
wait returns after at most `TIMEOUT_USEC + 2 = 6` reads. -/
theorem waits_follow_accelerator_witness :
    (∀ fuel : Nat, crypto_em32_hash_begin_session ex_cfg ex_stuck fuel ex_sys 7
      .CRYPTO_HASH_ALGO_SHA256 = Res.hang) ∧
    (Open ex_cfg ex_noready 7 ex_q2 ∧ ∀ (fuel : Nat) (pkt : hash_pkt) (r : Ret),
      em32_sha256_handler ex_cfg ex_noready fuel ex_q2 7 pkt true ≠ Res.ok r) ∧
    (∃ u, crypto_em32_hash_begin_session ex_cfg ex_env 0 ex_sys 7 .CRYPTO_HASH_ALGO_SHA256
      = Res.ok (0, u)) ∧
    (Open ex_cfg ex_env 7 ex_s3 ∧
      ∃ r, em32_sha256_handler ex_cfg ex_env 40 ex_s3 7 (finish_pkt (some ex_out)) true
        = Res.ok r) ∧
    (∃ d n, done_wait ex_cfg ex_never 40 0 ex_sys = Res.ok d ∧ 1 ≤ n ∧ n ≤ 6 ∧
      d.2.mmio = ex_sys.mmio ++ poll_ops ex_never ex_sys.nread n) :=
  ⟨fun fuel => (waits_follow_accelerator ex_cfg ex_stuck).2.2.1
      (fun _ => (by decide : (4 % SIZE_MOD) &&& SHA_RST_BIT ≠ 0)) fuel 7 ex_sys (by rfl),
    ⟨ex_open_q2, (waits_follow_accelerator ex_cfg ex_noready).2.2.2.2
      (fun _ => (by decide : (0 % SIZE_MOD) &&& SHA_READY_BIT = 0)) ex_q2 7 ex_open_q2
      (by decide)⟩,
    (waits_follow_accelerator ex_cfg ex_env).2.1 0 7 ex_sys (by rfl)
      (fun _ => ⟨0, Nat.le_refl 0, (by decide : (24 % SIZE_MOD) &&& SHA_RST_BIT = 0)⟩),
    ⟨ex_open_s3, (waits_follow_accelerator ex_cfg ex_env).2.2.2.1 ex_s3 7 ex_open_s3 40
      (finish_pkt (some ex_out))
      (fun _ => ⟨0, Nat.zero_le 40, (by decide : (24 % SIZE_MOD) &&& SHA_READY_BIT ≠ 0)⟩)
      (by decide) (by decide)
      (fun o ho => by
        have h2 : ex_out = o := Option.some.inj ho
        rw [← h2]
        decide)⟩,
    (waits_follow_accelerator ex_cfg ex_never).1 (by decide) 40 ex_sys (by decide)⟩

/-- Counterexample to C21 as stated: under an accelerator that keeps the reset bit set, begin
on the idle instance returns for no iteration budget; under an accelerator that never shows
ready, the flow-control wait returns for no budget from no state, and finalize on the session
holding 64 bytes (16 words) returns for no budget. -/
theorem unanswered_polls_never_return :
    (¬ ∃ fuel r, crypto_em32_hash_begin_session ex_cfg ex_stuck fuel ex_sys 7
        .CRYPTO_HASH_ALGO_SHA256 = Res.ok r) ∧
    (¬ ∃ fuel s t, ready_wait ex_noready fuel s = Res.ok t) ∧
    Open ex_cfg ex_noready 7 ex_q2 ∧ active_len ex_q2 = 64 ∧
    (¬ ∃ fuel r, em32_sha256_handler ex_cfg ex_noready fuel ex_q2 7 (finish_pkt (some ex_out))
        true = Res.ok r) := by
  refine ⟨?_, ?_, ex_open_q2, by rfl, ?_⟩
  · rintro ⟨fuel, r, hr⟩
    rw [begin_stuck ex_cfg ex_stuck
      (fun _ => (by decide : (4 % SIZE_MOD) &&& SHA_RST_BIT ≠ 0)) fuel ex_sys 7 (by rfl)] at hr
    cases hr
  · rintro ⟨fuel, s, t, hr⟩
    rw [ready_wait_stuck ex_noready
      (fun _ => (by decide : (0 % SIZE_MOD) &&& SHA_READY_BIT = 0)) fuel s] at hr
    cases hr
  · rintro ⟨fuel, r, hr⟩
    exact finish_stuck ex_cfg ex_noready
      (fun _ => (by decide : (0 % SIZE_MOD) &&& SHA_READY_BIT = 0)) fuel ex_q2 7
      (finish_pkt (some ex_out)) r (open_sess ex_open_q2) (by decide) hr

/-- C28: a finalize call does not look at the input of its packet. In every state of an open
session, for every packet, every finalize call that returns has programmed the word count of
the accumulated message and streamed exactly its words, and it leaves the accumulated message
and its length as they were. In particular, after an update call with a chunk `c` that
returned 0, every returning finalize call with the same packet has streamed the words of the
earlier message followed by `c` once, and the message the programmed values describe is the
earlier message followed by `c`. -/
theorem finalize_ignores_input (cfg : Kconfig) (env : Env) (s : Sys) (h : Nat)
    (ho : Open cfg env h s) :
    (∀ (fuel : Nat) (pkt : hash_pkt) (r : Ret),
      em32_sha256_handler cfg env fuel s h pkt true = Res.ok r →
      writes_to SHA_DATALEN_OFFSET (new_ops s r.sys) = [(active_len s + 3) / 4] ∧
      writes_to SHA_IN_OFFSET (new_ops s r.sys) = spec_words (accumulated s) ∧
      accel_message (new_ops s r.sys) = byte_vals (accumulated s) ∧
      accumulated r.sys = accumulated s ∧ active_len r.sys = active_len s) ∧
    (∀ (f1 f2 : Nat) (c : List u8) (out : Option (List Nat)) (r1 r2 : Ret),
      em32_sha256_handler cfg env f1 s h (update_pkt c out) false = Res.ok r1 → r1.rc = 0 →
      em32_sha256_handler cfg env f2 r1.sys h (update_pkt c out) true = Res.ok r2 →
      writes_to SHA_DATALEN_OFFSET (new_ops r1.sys r2.sys)
        = [(active_len s + c.length + 3) / 4] ∧
      writes_to SHA_IN_OFFSET (new_ops r1.sys r2.sys) = spec_words (accumulated s ++ c) ∧
      accel_message (new_ops r1.sys r2.sys) = byte_vals (accumulated s ++ c) ∧
      accumulated r2.sys = accumulated s ++ c) := by
  have key : ∀ (s : Sys), Sess cfg s h → ∀ (fuel : Nat) (pkt : hash_pkt) (r : Ret),
      em32_sha256_handler cfg env fuel s h pkt true = Res.ok r →
      writes_to SHA_DATALEN_OFFSET (new_ops s r.sys) = [(active_len s + 3) / 4] ∧
      writes_to SHA_IN_OFFSET (new_ops s r.sys) = spec_words (accumulated s) ∧
      accel_message (new_ops s r.sys) = byte_vals (accumulated s) ∧
      accumulated r.sys = accumulated s ∧ active_len r.sys = active_len s := by
    intro s hs fuel pkt r hr
    obtain ⟨p1, _, _, p4⟩ := finish_programs cfg env fuel s h pkt r hs hr
    obtain ⟨hmsg, _⟩ := finish_describes cfg env fuel s h pkt r hs hr
    have hr' := hr
    rw [handler_finish_eq cfg env fuel s h pkt hs.active hs.owner hs.state_ok] at hr'
    obtain ⟨_, _, _, _, _, _, _, _, st, hd, _⟩ :=
      finish_ok cfg env fuel s pkt r (sess_len_bound hs).2.2 hr'
    obtain ⟨a1, a2, _⟩ := accumulated_of_state hd
    exact ⟨p1, p4, hmsg, a1, a2⟩
  have hs := open_sess ho
  refine ⟨key s hs, ?_⟩
  intro f1 f2 c out r1 r2 h1 hrc h2
  have hu : Updates cfg env h s [c] r1.sys :=
    Updates.step s r1.sys c [] f1 out r1 h1 hrc (Updates.done r1.sys)
  obtain ⟨hs1, hacc, _⟩ := updates_ok cfg env h s r1.sys [c] hs hu
  have hacc' : accumulated r1.sys = accumulated s ++ c := by
    rw [hacc]
    simp
  obtain ⟨q1, q2, q3, q4, _⟩ := key r1.sys hs1 f2 (update_pkt c out) r2 h2
  have hlen : active_len r1.sys = active_len s + c.length := by
    rw [← accumulated_length hs1, hacc', List.length_append, accumulated_length hs]
  rw [hlen] at q1
  rw [hacc'] at q2 q3 q4
  exact ⟨q1, q2, q3, q4⟩

/-- Witness of C28: on the session after begin, an update with "abc" and a finalize with the
same packet; the accelerator is told the three bytes once. -/
theorem finalize_ignores_input_witness :
    Open ex_cfg ex_abc_env 7 ex_a1 ∧
    em32_sha256_handler ex_cfg ex_abc_env 40 ex_a1 7 (update_pkt msg_abc (some ex_out)) false
      = Res.ok ⟨0, ex_a2, some ex_out⟩ ∧
    em32_sha256_handler ex_cfg ex_abc_env 40 ex_a2 7 (update_pkt msg_abc (some ex_out)) true
      = Res.ok ex_afin ∧
    accel_message (new_ops ex_a2 ex_afin.sys) = [0x61, 0x62, 0x63] ∧
    ((∀ (fuel : Nat) (pkt : hash_pkt) (r : Ret),
      em32_sha256_handler ex_cfg ex_abc_env fuel ex_a1 7 pkt true = Res.ok r →
      writes_to SHA_DATALEN_OFFSET (new_ops ex_a1 r.sys) = [(active_len ex_a1 + 3) / 4] ∧
      writes_to SHA_IN_OFFSET (new_ops ex_a1 r.sys) = spec_words (accumulated ex_a1) ∧
      accel_message (new_ops ex_a1 r.sys) = byte_vals (accumulated ex_a1) ∧
      accumulated r.sys = accumulated ex_a1 ∧ active_len r.sys = active_len ex_a1) ∧
    (∀ (f1 f2 : Nat) (c : List u8) (out : Option (List Nat)) (r1 r2 : Ret),
      em32_sha256_handler ex_cfg ex_abc_env f1 ex_a1 7 (update_pkt c out) false = Res.ok r1 →
      r1.rc = 0 →
      em32_sha256_handler ex_cfg ex_abc_env f2 r1.sys 7 (update_pkt c out) true = Res.ok r2 →
      writes_to SHA_DATALEN_OFFSET (new_ops r1.sys r2.sys)
        = [(active_len ex_a1 + c.length + 3) / 4] ∧
      writes_to SHA_IN_OFFSET (new_ops r1.sys r2.sys) = spec_words (accumulated ex_a1 ++ c) ∧
      accel_message (new_ops r1.sys r2.sys) = byte_vals (accumulated ex_a1 ++ c) ∧
      accumulated r2.sys = accumulated ex_a1 ++ c)) :=
  ⟨Open.start ex_sys ex_a1 0 (by rfl) (by rfl), by rfl, by rfl, by rfl,
    finalize_ignores_input ex_cfg ex_abc_env ex_a1 7 (Open.start ex_sys ex_a1 0 (by rfl) (by rfl))⟩

/-- C30, the code at the failing input: the session holds 10 inline bytes and an update call
passes the length `2 ^ 32 - 5`. The 32-bit sum `buffer_len + in_len` is 5, below 256, so the
call takes the inline branch, although the length is far above `255 - buffer_len = 245`; the
copy of `in_len` bytes to `buffer + 10` runs past the end of the 256-byte inline buffer,
whatever the input pointer addresses. -/
theorem inline_copy_overruns :
    Open ex_cfg ex_env 7 ex_i10 ∧ ex_i10.data.use_accum = false ∧
    ex_i10.data.buffer_len = 10 ∧ ex_i10.data.buffer.length = 256 ∧
    (ex_i10.data.buffer_len + 4294967291) % SIZE_MOD = 5 ∧
    ¬ (4294967291 ≤ 255 - ex_i10.data.buffer_len) ∧
    256 < ex_i10.data.buffer_len + 4294967291 ∧
    (∀ (fuel : Nat) (src : List u8) (out : Option (List Nat)),
      em32_sha256_handler ex_cfg ex_env fuel ex_i10 7
        { in_buf := some src, in_len := 4294967291, out_buf := out } false = Res.ub) :=
  ⟨ex_open_i10, by rfl, by rfl, by rfl, by decide, by decide, by decide,
    fun fuel src out => inline_overrun ex_cfg ex_env fuel ex_i10 7 _ src (open_sess ex_open_i10)
      (by rfl) rfl (show (10 + 4294967291) % SIZE_MOD < 256 by decide)
      (show 256 < 10 + 4294967291 by decide)⟩

theorem ex_open_p2 : Open ex_cfg ex_slow 7 ex_p2 :=
  Open.update (ex_begun ex_cfg ex_slow) 40 (update_pkt (List.replicate 64 1) none)
    (ex_update ex_cfg ex_slow (ex_begun ex_cfg ex_slow) (List.replicate 64 1))
    (Open.start ex_sys (ex_begun ex_cfg ex_slow) 0 (by rfl) (by rfl)) (by rfl)

/-- C25: flow control between blocks. Every finalize call on an open session that returns
has made, after the five programming writes, exactly the accesses `feed_ops` lays out: the
`ceil(n/4)` input words in order, each one write, with a flow-control wait after each word
whose 1-based position is a multiple of 16 and no register read after any other word. There
are `floor(word_count / 16)` such waits; each makes at least one read of the control register
and ends with the first read that shows the ready bit, so the next word is written only after
the bit has been seen set. Whatever the call does after the feed writes no input word. -/
theorem ready_polls_between_blocks (cfg : Kconfig) (env : Env) (s : Sys) (h : Nat)
    (ho : Open cfg env h s) (fuel : Nat) (pkt : hash_pkt) (r : Ret)
    (hr : em32_sha256_handler cfg env fuel s h pkt true = Res.ok r) :
    ∃ ps rest,
      new_ops s r.sys = prog_ops (active_len s)
        ++ feed_ops env 0 s.nread (spec_words (accumulated s)) ps ++ rest ∧
      (spec_words (accumulated s)).length = (active_len s + 3) / 4 ∧
      ps.length = ((active_len s + 3) / 4) / 16 ∧
      waits_ok env s.nread ps ∧
      writes_to SHA_IN_OFFSET rest = [] := by
  have hs := open_sess ho
  obtain ⟨_, _, _, p4⟩ := finish_programs cfg env fuel s h pkt r hs hr
  rw [handler_finish_eq cfg env fuel s h pkt hs.active hs.owner hs.state_ok] at hr
  obtain ⟨hb1, _, hb3⟩ := sess_len_bound hs
  obtain ⟨s6, rest, hfeed, hm⟩ := finish_after_feed cfg env fuel s pkt r hb3 hr
  obtain ⟨ps, q1, q2, q3, _⟩ := feed_phase_shape env fuel s s6 hb3 hb1 hfeed
  have hnew : new_ops s r.sys = prog_ops (active_len s)
      ++ feed_ops env 0 s.nread (spec_words (accumulated s)) ps ++ rest := by
    unfold new_ops
    rw [hm, q1, List.append_assoc, List.drop_left, List.append_assoc]
  refine ⟨ps, rest, hnew, ?_, q2, q3, ?_⟩
  · unfold spec_words
    rw [List.length_map, List.length_range, accumulated_length hs]
  · rw [hnew, writes_to_append, writes_to_append, writes_to_feed_ops] at p4
    have hp : writes_to SHA_IN_OFFSET (prog_ops (active_len s)) = [] := by
      simp [prog_ops, writes_to, SHA_IN_OFFSET, SHA_CTR_OFFSET, SHA_DATALEN_OFFSET,
        SHA_DATALEN_5832_OFFSET, SHA_PAD_CTR_OFFSET]
    rw [hp, List.nil_append] at p4
    exact List.append_right_eq_self.mp p4

/-- Witness of C25: a 64-byte message (16 words) under an accelerator that shows ready at
every third read. The feed is the 16 words followed by one wait of three reads, after the
last word; the completion wait and the read-back follow. -/
theorem ready_polls_between_blocks_witness :
    Open ex_cfg ex_slow 7 ex_p2 ∧
    em32_sha256_handler ex_cfg ex_slow 40 ex_p2 7 (finish_pkt (some ex_out)) true
      = Res.ok (ex_finish ex_cfg ex_slow ex_p2 (some ex_out)) ∧
    (new_ops ex_p2 (ex_finish ex_cfg ex_slow ex_p2 (some ex_out)).sys).take 24
      = prog_ops 64 ++ (List.replicate 16 (MmioOp.wr SHA_IN_OFFSET 16843009)
        ++ [MmioOp.rd SHA_CTR_OFFSET 0, MmioOp.rd SHA_CTR_OFFSET 0, MmioOp.rd SHA_CTR_OFFSET 24]) ∧
    (∃ ps rest,
      new_ops ex_p2 (ex_finish ex_cfg ex_slow ex_p2 (some ex_out)).sys = prog_ops (active_len ex_p2)
        ++ feed_ops ex_slow 0 ex_p2.nread (spec_words (accumulated ex_p2)) ps ++ rest ∧
      (spec_words (accumulated ex_p2)).length = (active_len ex_p2 + 3) / 4 ∧
      ps.length = ((active_len ex_p2 + 3) / 4) / 16 ∧
      waits_ok ex_slow ex_p2.nread ps ∧
      writes_to SHA_IN_OFFSET rest = []) :=
  ⟨ex_open_p2, by rfl, by decide,
    ready_polls_between_blocks ex_cfg ex_slow ex_p2 7 ex_open_p2 40 (finish_pkt (some ex_out))
      (ex_finish ex_cfg ex_slow ex_p2 (some ex_out)) (by rfl)⟩

/-- C22, as amended: the `total_len` field follows the inline length only. In every state
reached after a successful begin by update calls that returned 0 with chunks `cs`: while the
session is on the inline path `total_len` equals `buffer_len`, which is the sum of the chunk
lengths, and an update call that returns 0 and moves the session to the dynamic path leaves
`total_len` at the inline length reached before it; once the session is on the dynamic path
the logical length `accum_len` is the sum of the chunk lengths and at least 256, while
`total_len` is at most 255 and no longer changes: every further returning update call leaves
it as it is. -/
theorem total_len_tracks_inline_length (cfg : Kconfig) (env : Env) (h fuel : Nat)
    (s0 s1 t : Sys) (cs : List (List u8)) (hbuf : s0.data.buffer.length = 256)
    (hb : crypto_em32_hash_begin_session cfg env fuel s0 h .CRYPTO_HASH_ALGO_SHA256
      = Res.ok (0, s1))
    (hu : Updates cfg env h s1 cs t) :
    (t.data.use_accum = false →
      t.data.total_len = t.data.buffer_len ∧ t.data.buffer_len = cs.flatten.length ∧
      ∀ (f2 : Nat) (c : List u8) (out : Option (List Nat)) (r : Ret),
        em32_sha256_handler cfg env f2 t h (update_pkt c out) false = Res.ok r →
        r.rc = 0 → r.sys.data.use_accum = true →
        r.sys.data.total_len = t.data.buffer_len ∧
        r.sys.data.accum_len = t.data.buffer_len + c.length) ∧
    (t.data.use_accum = true →
      t.data.accum_len = cs.flatten.length ∧ 256 ≤ t.data.accum_len ∧
      t.data.total_len ≤ 255 ∧ t.data.total_len ≠ t.data.accum_len ∧
      ∀ (f2 : Nat) (pkt : hash_pkt) (r : Ret),
        em32_sha256_handler cfg env f2 t h pkt false = Res.ok r →
        r.sys.data.use_accum = true ∧ r.sys.data.total_len = t.data.total_len) := by
  obtain ⟨hs1, hacc1, hlen1, _, hu1⟩ := begin_ok cfg env fuel s0 s1 h _ hbuf hb
  have hd1 : s1.data.total_len = 0 := by
    rcases begin_cases cfg env fuel s0 h _ _ hb with ⟨hne, _⟩ | ⟨_, _, _, _, hd⟩
    · exact absurd rfl hne
    · have hd2 : s1.data = _ := hd
      rw [hd2]
  have hbl1 : s1.data.buffer_len = 0 := by
    unfold active_len at hlen1
    simpa [hu1] using hlen1
  obtain ⟨hst, hacc, _⟩ := updates_ok cfg env h s1 t cs hs1 hu
  obtain ⟨i1, i2, i3, _, _⟩ := updates_track cfg env h s1 t cs hs1 hu
    (fun _ => by rw [hd1, hbl1]) (by rw [hd1]; decide) (fun hf => by rw [hu1] at hf; cases hf)
  have hlen : active_len t = cs.flatten.length := by
    rw [← accumulated_length hst, hacc, hacc1, List.nil_append]
  refine ⟨fun hf => ⟨i1 hf, ?_, ?_⟩, fun ht => ⟨?_, i3 ht, by omega, ?_, ?_⟩⟩
  · unfold active_len at hlen
    simpa [hf] using hlen
  · intro f2 c out r hr hrc hm
    obtain ⟨_, p2, p3⟩ := update_step cfg env f2 t h c out r hst hr hrc
    obtain ⟨_, _, hl2⟩ := update_len cfg env f2 t h c out r hst hr hrc
    have hbig : 256 ≤ t.data.buffer_len + c.length := by
      by_contra hlt
      have := (p2 hf (by omega)).1
      rw [hm] at this
      cases this
    obtain ⟨_, _, q3, _, _⟩ := p3 hf hbig
    refine ⟨by rw [q3]; exact i1 hf, ?_⟩
    unfold active_len at hl2
    simpa [hm, hf] using hl2
  · unfold active_len at hlen
    simpa [ht] using hlen
  · have := i3 ht
    omega
  · intro f2 pkt r hr
    exact (handler_frame cfg env f2 t h pkt r hr).1 ht

/-- Witness of C22 as amended: the chunks of 200 and 100 bytes; the session ends on the
dynamic path. -/
theorem total_len_tracks_inline_length_witness :
    ex_sys.data.buffer.length = 256 ∧
    crypto_em32_hash_begin_session ex_cfg ex_env 0 ex_sys 7 .CRYPTO_HASH_ALGO_SHA256
      = Res.ok (0, ex_s1) ∧
    Updates ex_cfg ex_env 7 ex_s1 ex_chunks ex_t3 ∧
    ((ex_t3.data.use_accum = false →
      ex_t3.data.total_len = ex_t3.data.buffer_len ∧
      ex_t3.data.buffer_len = ex_chunks.flatten.length ∧
      ∀ (f2 : Nat) (c : List u8) (out : Option (List Nat)) (r : Ret),
        em32_sha256_handler ex_cfg ex_env f2 ex_t3 7 (update_pkt c out) false = Res.ok r →
        r.rc = 0 → r.sys.data.use_accum = true →
        r.sys.data.total_len = ex_t3.data.buffer_len ∧
        r.sys.data.accum_len = ex_t3.data.buffer_len + c.length) ∧
    (ex_t3.data.use_accum = true →
      ex_t3.data.accum_len = ex_chunks.flatten.length ∧ 256 ≤ ex_t3.data.accum_len ∧
      ex_t3.data.total_len ≤ 255 ∧ ex_t3.data.total_len ≠ ex_t3.data.accum_len ∧
      ∀ (f2 : Nat) (pkt : hash_pkt) (r : Ret),
        em32_sha256_handler ex_cfg ex_env f2 ex_t3 7 pkt false = Res.ok r →
        r.sys.data.use_accum = true ∧ r.sys.data.total_len = ex_t3.data.total_len)) :=
  ⟨by rfl, ex_begin_eq, ex_run_chunks,
    total_len_tracks_inline_length ex_cfg ex_env 7 0 ex_sys ex_s1 ex_t3 ex_chunks (by rfl)
      ex_begin_eq ex_run_chunks⟩

/-- Counterexample to C22 as stated: after begin and two updates of 200 and 100 bytes that
returned 0 the session is on the dynamic path with `accum_len = 300`, while `total_len` still
holds 200, the inline length before the migration. -/
theorem total_len_stale_after_migration :
    crypto_em32_hash_begin_session ex_cfg ex_env 0 ex_sys 7 .CRYPTO_HASH_ALGO_SHA256
      = Res.ok (0, ex_s1) ∧
    Updates ex_cfg ex_env 7 ex_s1 ex_chunks ex_t3 ∧
    ex_t3.data.use_accum = true ∧ ex_t3.data.accum_len = 300 ∧ ex_t3.data.total_len = 200 ∧
    ex_t3.data.total_len ≠ active_len ex_t3 :=
  ⟨ex_begin_eq, ex_run_chunks, by rfl, by rfl, by rfl, by decide⟩

theorem ex_run_e256 : Updates ex_cfg ex_env 7 ex_s1 [List.replicate 256 1] ex_e256 :=
  Updates.step ex_s1 ex_e256 (List.replicate 256 1) [] 40 none
    (ex_update ex_cfg ex_env ex_s1 (List.replicate 256 1)) (by rfl) (by rfl)
    (Updates.done ex_e256)

theorem ex_run_e255 : Updates ex_cfg ex_env 7 ex_s1 [List.replicate 255 1] ex_e255 :=
  Updates.step ex_s1 ex_e255 (List.replicate 255 1) [] 40 none
    (ex_update ex_cfg ex_env ex_s1 (List.replicate 255 1)) (by rfl) (by rfl)
    (Updates.done ex_e255)

/-- C26: buffer path selection. In every state reached after a successful begin by update
calls that returned 0 with chunks `cs`, the session is on the inline path exactly when the
cumulative length is at most 255; while it is, the update calls have made no allocation and
there is no dynamic buffer. Once the session is on the dynamic path, every later returning
update call, whatever its packet and its return code, leaves it there. -/
theorem path_follows_length (cfg : Kconfig) (env : Env) (h fuel : Nat)
    (s0 s1 t : Sys) (cs : List (List u8)) (hbuf : s0.data.buffer.length = 256)
    (hb : crypto_em32_hash_begin_session cfg env fuel s0 h .CRYPTO_HASH_ALGO_SHA256
      = Res.ok (0, s1))
    (hu : Updates cfg env h s1 cs t) :
    (t.data.use_accum = false ↔ cs.flatten.length ≤ 255) ∧
    (cs.flatten.length ≤ 255 →
      t.nmalloc = s1.nmalloc ∧ t.data.accum_buf = none ∧ t.data.accum_cap = 0 ∧
      t.data.buffer_len = cs.flatten.length) ∧
    (t.data.use_accum = true →
      t.data.accum_len = cs.flatten.length ∧
      ∀ (f2 : Nat) (pkt : hash_pkt) (r : Ret),
        em32_sha256_handler cfg env f2 t h pkt false = Res.ok r →
        r.sys.data.use_accum = true) := by
  obtain ⟨hs1, hacc1, hlen1, _, hu1⟩ := begin_ok cfg env fuel s0 s1 h _ hbuf hb
  have hd1 : s1.data.total_len = 0 ∧ s1.data.buffer_len = 0 ∧ s1.data.accum_buf = none ∧
      s1.data.accum_cap = 0 := by
    rcases begin_cases cfg env fuel s0 h _ _ hb with ⟨hne, _⟩ | ⟨_, _, _, _, hd⟩
    · exact absurd rfl hne
    · have hd2 : s1.data = _ := hd
      rw [hd2]
      exact ⟨rfl, rfl, rfl, rfl⟩
  obtain ⟨d1, d2, d3, d4⟩ := hd1
  obtain ⟨hst, hacc, _⟩ := updates_ok cfg env h s1 t cs hs1 hu
  obtain ⟨_, _, i3, i4, _⟩ := updates_track cfg env h s1 t cs hs1 hu
    (fun _ => by rw [d1, d2]) (by rw [d1]; decide) (fun hf => by rw [hu1] at hf; cases hf)
  have hlen : active_len t = cs.flatten.length := by
    rw [← accumulated_length hst, hacc, hacc1, List.nil_append]
  have hiff : t.data.use_accum = false ↔ cs.flatten.length ≤ 255 := by
    constructor
    · intro hf
      have := (hst.inline_ok hf).1
      unfold active_len at hlen
      simp only [hf, Bool.false_eq_true, if_false] at hlen
      omega
    · intro hle
      cases ht : t.data.use_accum with
      | false => rfl
      | true =>
        have := i3 ht
        unfold active_len at hlen
        simp only [ht, if_true] at hlen
        omega
  refine ⟨hiff, fun hle => ?_, fun ht => ⟨?_, fun f2 pkt r hr => ?_⟩⟩
  · have hf := hiff.mpr hle
    obtain ⟨_, j2, j3, j4⟩ := i4 hf
    refine ⟨j2, by rw [j4, d3], by rw [j3, d4], ?_⟩
    unfold active_len at hlen
    simpa [hf] using hlen
  · unfold active_len at hlen
    simpa [ht] using hlen
  · exact ((handler_frame cfg env f2 t h pkt r hr).1 ht).1

/-- Witness of C26: one update with 256 bytes; the cumulative length of exactly 256 is on the
dynamic path, while 255 bytes stay inline. -/
theorem path_follows_length_witness :
    ex_sys.data.buffer.length = 256 ∧
    crypto_em32_hash_begin_session ex_cfg ex_env 0 ex_sys 7 .CRYPTO_HASH_ALGO_SHA256
      = Res.ok (0, ex_s1) ∧
    Updates ex_cfg ex_env 7 ex_s1 [List.replicate 256 1] ex_e256 ∧
    ex_e256.data.use_accum = true ∧
    Updates ex_cfg ex_env 7 ex_s1 [List.replicate 255 1] ex_e255 ∧
    ex_e255.data.use_accum = false ∧ ex_e255.nmalloc = ex_s1.nmalloc ∧
    ((ex_e256.data.use_accum = false ↔ [List.replicate 256 (1 : u8)].flatten.length ≤ 255) ∧
    ([List.replicate 256 (1 : u8)].flatten.length ≤ 255 →
      ex_e256.nmalloc = ex_s1.nmalloc ∧ ex_e256.data.accum_buf = none ∧
      ex_e256.data.accum_cap = 0 ∧
      ex_e256.data.buffer_len = [List.replicate 256 (1 : u8)].flatten.length) ∧
    (ex_e256.data.use_accum = true →
      ex_e256.data.accum_len = [List.replicate 256 (1 : u8)].flatten.length ∧
      ∀ (f2 : Nat) (pkt : hash_pkt) (r : Ret),
        em32_sha256_handler ex_cfg ex_env f2 ex_e256 7 pkt false = Res.ok r →
        r.sys.data.use_accum = true)) :=
  ⟨by rfl, ex_begin_eq, ex_run_e256, by rfl, ex_run_e255, by rfl, by rfl,
    path_follows_length ex_cfg ex_env 7 0 ex_sys ex_s1 ex_e256 [List.replicate 256 1] (by rfl)
      ex_begin_eq ex_run_e256⟩

theorem ex_open_v2 : Open ex_cfg_pre ex_env 7 ex_v2 :=
  Open.update (ex_begun ex_cfg_pre ex_env) 40 (update_pkt (List.replicate 200 1) none)
    (ex_update ex_cfg_pre ex_env (ex_begun ex_cfg_pre ex_env) (List.replicate 200 1))
    (Open.start ex_sys (ex_begun ex_cfg_pre ex_env) 0 (by rfl) (by rfl)) (by rfl)

/-- C24, as amended: the preallocation size is cut down to the configured maximum. After an
update call that returned 0 and moved an open session from the inline buffer (holding `b`
bytes) to the dynamic buffer with a chunk of `L` bytes: `b + L` is at least 256; the dynamic
capacity is at least `max (min (preallocation size) (maximum)) (b + L)`, the preallocation
size being taken as the 32-bit value the source assigns, and so at least
`max (preallocation size) (b + L)` when the preallocation size does not exceed the maximum;
the dynamic buffer holds the `b` inline bytes followed by the `L` chunk bytes,
`accum_len = b + L`, and the inline length is reset to 0. -/
theorem migration_allocates (cfg : Kconfig) (env : Env) (s : Sys) (h : Nat)
    (ho : Open cfg env h s) (hu : s.data.use_accum = false) (fuel : Nat) (c : List u8)
    (out : Option (List Nat)) (r : Ret)
    (hr : em32_sha256_handler cfg env fuel s h (update_pkt c out) false = Res.ok r)
    (hrc : r.rc = 0) (hm : r.sys.data.use_accum = true) :
    256 ≤ s.data.buffer_len + c.length ∧
    max (min (cfg.PREALLOC_SIZE % SIZE_MOD) cfg.MAX_ACCUM_SIZE) (s.data.buffer_len + c.length)
      ≤ r.sys.data.accum_cap ∧
    (cfg.PREALLOC_SIZE ≤ cfg.MAX_ACCUM_SIZE → cfg.PREALLOC_SIZE < SIZE_MOD →
      max cfg.PREALLOC_SIZE (s.data.buffer_len + c.length) ≤ r.sys.data.accum_cap) ∧
    r.sys.data.accum_len = s.data.buffer_len + c.length ∧
    r.sys.data.buffer_len = 0 ∧
    (∃ blk, r.sys.data.accum_buf = some blk ∧ blk.length = r.sys.data.accum_cap ∧
      blk.take (s.data.buffer_len + c.length) = s.data.buffer.take s.data.buffer_len ++ c) := by
  have hs := open_sess ho
  obtain ⟨_, p2, p3⟩ := update_step cfg env fuel s h c out r hs hr hrc
  obtain ⟨hs1, hacc, hlen⟩ := update_len cfg env fuel s h c out r hs hr hrc
  have hbig : 256 ≤ s.data.buffer_len + c.length := by
    by_contra hlt
    have := (p2 hu (by omega)).1
    rw [hm] at this
    cases this
  obtain ⟨_, q2, _, q4, q5⟩ := p3 hu hbig
  have hal : active_len s = s.data.buffer_len := by
    unfold active_len
    simp [hu]
  have hal1 : active_len r.sys = r.sys.data.accum_len := by
    unfold active_len
    simp [hm]
  have hlen2 : r.sys.data.accum_len = s.data.buffer_len + c.length := by
    rw [← hal1, hlen, hal]
  have hle := hs1.len_le
  have hfl := prealloc_size_floor cfg (s.data.buffer_len + c.length) q4
  have hcap : max (min (cfg.PREALLOC_SIZE % SIZE_MOD) cfg.MAX_ACCUM_SIZE)
      (s.data.buffer_len + c.length) ≤ r.sys.data.accum_cap := by
    rw [Nat.max_le]
    exact ⟨Nat.le_trans hfl q5, by omega⟩
  refine ⟨hbig, hcap, ?_, hlen2, q2, ?_⟩
  · intro h1 h2
    rw [Nat.mod_eq_of_lt h2, Nat.min_eq_left h1] at hcap
    exact hcap
  · have hacc0 : accumulated s = s.data.buffer.take s.data.buffer_len := by
      unfold accumulated active_src active_len
      simp [hu]
    have hacc1 : accumulated r.sys
        = (r.sys.data.accum_buf.getD []).take r.sys.data.accum_len := by
      unfold accumulated active_src active_len
      simp [hm]
    have hb := hs1.blk_len
    cases hab : r.sys.data.accum_buf with
    | none =>
      rw [hab] at hb
      simp only [Option.getD_none, List.length_nil] at hb
      omega
    | some blk =>
      rw [hab] at hb hacc1
      simp only [Option.getD_some] at hb hacc1
      refine ⟨blk, rfl, hb, ?_⟩
      rw [← hlen2, ← hacc1, hacc, hacc0]

/-- Witness of C24 as amended: 200 inline bytes and a chunk of 100 bytes under a
preallocation size of 512 and a maximum of 1024. -/
theorem migration_allocates_witness :
    Open ex_cfg ex_env 7 ex_t2 ∧ ex_t2.data.use_accum = false ∧
    em32_sha256_handler ex_cfg ex_env 40 ex_t2 7 (update_pkt (List.replicate 100 2) none) false
      = Res.ok (ex_update ex_cfg ex_env ex_t2 (List.replicate 100 2)) ∧
    (256 ≤ ex_t2.data.buffer_len + (List.replicate 100 (2 : u8)).length ∧
    max (min (ex_cfg.PREALLOC_SIZE % SIZE_MOD) ex_cfg.MAX_ACCUM_SIZE)
        (ex_t2.data.buffer_len + (List.replicate 100 (2 : u8)).length)
      ≤ (ex_update ex_cfg ex_env ex_t2 (List.replicate 100 2)).sys.data.accum_cap ∧
    (ex_cfg.PREALLOC_SIZE ≤ ex_cfg.MAX_ACCUM_SIZE → ex_cfg.PREALLOC_SIZE < SIZE_MOD →
      max ex_cfg.PREALLOC_SIZE (ex_t2.data.buffer_len + (List.replicate 100 (2 : u8)).length)
        ≤ (ex_update ex_cfg ex_env ex_t2 (List.replicate 100 2)).sys.data.accum_cap) ∧
    (ex_update ex_cfg ex_env ex_t2 (List.replicate 100 2)).sys.data.accum_len
      = ex_t2.data.buffer_len + (List.replicate 100 (2 : u8)).length ∧
    (ex_update ex_cfg ex_env ex_t2 (List.replicate 100 2)).sys.data.buffer_len = 0 ∧
    (∃ blk, (ex_update ex_cfg ex_env ex_t2 (List.replicate 100 2)).sys.data.accum_buf = some blk ∧
      blk.length = (ex_update ex_cfg ex_env ex_t2 (List.replicate 100 2)).sys.data.accum_cap ∧
      blk.take (ex_t2.data.buffer_len + (List.replicate 100 (2 : u8)).length)
        = ex_t2.data.buffer.take ex_t2.data.buffer_len ++ List.replicate 100 2)) :=
  ⟨ex_open_t2, by rfl, by rfl,
    migration_allocates ex_cfg ex_env ex_t2 7 ex_open_t2 (by rfl) 40 (List.replicate 100 2) none
      (ex_update ex_cfg ex_env ex_t2 (List.replicate 100 2)) (by rfl) (by rfl) (by rfl)⟩

/-- Counterexample to C24 as stated: with a preallocation size of 2048 and a maximum of 1024,
the update that moves 200 inline bytes and a chunk of 100 bytes to the dynamic buffer returns
0 and leaves a capacity of 1024, below `max 2048 300`. -/
theorem prealloc_clamped_to_maximum :
    Open ex_cfg_pre ex_env 7 ex_v2 ∧ ex_v2.data.use_accum = false ∧
    ex_v2.data.buffer_len = 200 ∧
    em32_sha256_handler ex_cfg_pre ex_env 40 ex_v2 7 (update_pkt (List.replicate 100 2) none)
      false = Res.ok ex_v3 ∧
    ex_v3.rc = 0 ∧ ex_v3.sys.data.use_accum = true ∧ ex_v3.sys.data.accum_len = 300 ∧
    ex_v3.sys.data.accum_cap = 1024 ∧
    ¬ (max ex_cfg_pre.PREALLOC_SIZE (200 + 100) ≤ ex_v3.sys.data.accum_cap) :=
  ⟨ex_open_v2, by rfl, by rfl, by rfl, by rfl, by rfl, by rfl, by rfl, by decide⟩

/-- C27, as amended: the growth law of `ensure_accum_capacity(need)` holds for `need` up to
`2 ^ 31`, hence for every `need` when the configured maximum is at most `2 ^ 31`. On every
instance whose dynamic buffer is well formed (the block has `accum_cap` bytes, `accum_len` of
them in use, and `accum_cap` is a capacity the driver installs), which is the case at every
call: the call returns whenever `need` is at most `2 ^ 31` and 31 loop iterations are
allowed; when `accum_cap < need <= maximum` and `need` exceeds `2 ^ 31` the 32-bit doubling
wraps to 0 and the call does not return, so no capacity is installed. Every returning call:
if `accum_cap >= need` nothing changes and it returns 0; otherwise, if `need` is at most the
configured maximum and the allocation succeeds (the call returns 0), the new capacity is
`c0 * 2 ^ k` for the least `k >= 0` with `c0 * 2 ^ k >= need`, where `c0` is the old capacity
or 512 when it was zero, except that it is the configured maximum when one of the `k`
doubling steps exceeds that maximum; in every case with return value 0 the new capacity is at
least `need`, the block has that many bytes, `accum_len` is unchanged and the first
`accum_len` bytes of the new block equal those of the old one. -/
theorem capacity_growth_law (cfg : Kconfig) (env : Env) (fuel : Nat) (s : Sys) (need : Nat)
    (hcap : CapOk cfg s.data.accum_cap)
    (hblk : (s.data.accum_buf.getD []).length = s.data.accum_cap)
    (hlen : s.data.accum_len ≤ s.data.accum_cap) :
    (need ≤ 2147483648 → 31 ≤ fuel →
      ∃ r, ensure_accum_capacity cfg env fuel s need = Res.ok r) ∧
    (cfg.MAX_ACCUM_SIZE ≤ 2147483648 → 31 ≤ fuel →
      ∃ r, ensure_accum_capacity cfg env fuel s need = Res.ok r) ∧
    (s.data.accum_cap < need → need ≤ cfg.MAX_ACCUM_SIZE → 2147483648 < need →
      ensure_accum_capacity cfg env fuel s need = Res.hang) ∧
    (∀ r, ensure_accum_capacity cfg env fuel s need = Res.ok r →
      (need ≤ s.data.accum_cap → r = (0, s)) ∧
      (s.data.accum_cap < need → need ≤ cfg.MAX_ACCUM_SIZE → r.1 = 0 →
        ∃ k, (∀ j, j < k →
            (if s.data.accum_cap ≠ 0 then s.data.accum_cap else 512) * 2 ^ j < need) ∧
          need ≤ (if s.data.accum_cap ≠ 0 then s.data.accum_cap else 512) * 2 ^ k ∧
          r.2.data.accum_cap
            = (if k = 0 ∨ (if s.data.accum_cap ≠ 0 then s.data.accum_cap else 512) * 2 ^ k
                  ≤ cfg.MAX_ACCUM_SIZE
               then (if s.data.accum_cap ≠ 0 then s.data.accum_cap else 512) * 2 ^ k
               else cfg.MAX_ACCUM_SIZE)) ∧
      (r.1 = 0 → need ≤ r.2.data.accum_cap ∧
        (r.2.data.accum_buf.getD []).length = r.2.data.accum_cap ∧
        r.2.data.accum_len = s.data.accum_len ∧
        (r.2.data.accum_buf.getD []).take s.data.accum_len
          = (s.data.accum_buf.getD []).take s.data.accum_len)) := by
  refine ⟨fun hn hf => ensure_live_need cfg env fuel s need hcap hblk hlen hn hf,
    fun hmax hf => ensure_live cfg env fuel s need hcap hblk hlen hmax hf,
    fun hlt hm hn => ensure_wraps cfg env fuel s need hcap hlt hm hn, ?_⟩
  intro r hr
  refine ⟨fun hge => ?_, fun hlt hmax h0 => ?_, fun h0 => ?_⟩
  · unfold ensure_accum_capacity at hr
    rw [if_pos hge] at hr
    cases hr
    rfl
  · exact ensure_law cfg env fuel s need r hcap hblk hlen hlt hmax hr h0
  · obtain ⟨rc, t⟩ := r
    obtain ⟨_, _, _, _, f5⟩ := ensure_frame cfg env fuel s need (rc, t) hr
    obtain ⟨_, _, hcase⟩ := ensure_ok cfg env fuel s need rc t hcap hblk hlen hr
    rcases hcase with ⟨h1, _⟩ | ⟨_, nb, c, h2, h3, h4, _, _, h7⟩
    · have h0' : rc = 0 := h0
      rw [h1] at h0'
      exact absurd h0' (by decide)
    · have hd : t.data = _ := h2
      refine ⟨?_, ?_, f5, ?_⟩
      · show need ≤ t.data.accum_cap
        rw [hd]
        exact h4
      · show (t.data.accum_buf.getD []).length = t.data.accum_cap
        rw [hd]
        exact h3
      · show (t.data.accum_buf.getD []).take _ = _
        rw [hd]
        exact h7

/-- Witness of C27 as amended: the dynamic buffer of the examples (capacity 512, 300 bytes in
use) asked for 600 bytes under a maximum of 1024; one doubling gives 1024. -/
theorem capacity_growth_law_witness :
    CapOk ex_cfg ex_t3.data.accum_cap ∧
    (ex_t3.data.accum_buf.getD []).length = ex_t3.data.accum_cap ∧
    ex_t3.data.accum_len ≤ ex_t3.data.accum_cap ∧
    ex_t3.data.accum_cap = 512 ∧
    (Res.get (0, ex_t3) (ensure_accum_capacity ex_cfg ex_env 40 ex_t3 600)).2.data.accum_cap
      = 1024 ∧
    ((600 ≤ 2147483648 → 31 ≤ 40 →
      ∃ r, ensure_accum_capacity ex_cfg ex_env 40 ex_t3 600 = Res.ok r) ∧
    (ex_cfg.MAX_ACCUM_SIZE ≤ 2147483648 → 31 ≤ 40 →
      ∃ r, ensure_accum_capacity ex_cfg ex_env 40 ex_t3 600 = Res.ok r) ∧
    (ex_t3.data.accum_cap < 600 → 600 ≤ ex_cfg.MAX_ACCUM_SIZE → 2147483648 < 600 →
      ensure_accum_capacity ex_cfg ex_env 40 ex_t3 600 = Res.hang) ∧
    (∀ r, ensure_accum_capacity ex_cfg ex_env 40 ex_t3 600 = Res.ok r →
      (600 ≤ ex_t3.data.accum_cap → r = (0, ex_t3)) ∧
      (ex_t3.data.accum_cap < 600 → 600 ≤ ex_cfg.MAX_ACCUM_SIZE → r.1 = 0 →
        ∃ k, (∀ j, j < k →
            (if ex_t3.data.accum_cap ≠ 0 then ex_t3.data.accum_cap else 512) * 2 ^ j < 600) ∧
          600 ≤ (if ex_t3.data.accum_cap ≠ 0 then ex_t3.data.accum_cap else 512) * 2 ^ k ∧
          r.2.data.accum_cap
            = (if k = 0 ∨ (if ex_t3.data.accum_cap ≠ 0 then ex_t3.data.accum_cap else 512) * 2 ^ k
                  ≤ ex_cfg.MAX_ACCUM_SIZE
               then (if ex_t3.data.accum_cap ≠ 0 then ex_t3.data.accum_cap else 512) * 2 ^ k
               else ex_cfg.MAX_ACCUM_SIZE)) ∧
      (r.1 = 0 → 600 ≤ r.2.data.accum_cap ∧
        (r.2.data.accum_buf.getD []).length = r.2.data.accum_cap ∧
        r.2.data.accum_len = ex_t3.data.accum_len ∧
        (r.2.data.accum_buf.getD []).take ex_t3.data.accum_len
          = (ex_t3.data.accum_buf.getD []).take ex_t3.data.accum_len))) :=
  ⟨(open_sess ex_open_t3).cap_ok, by rfl, by decide, by rfl, by rfl,
    capacity_growth_law ex_cfg ex_env 40 ex_t3 600 (open_sess ex_open_t3).cap_ok (by rfl)
      (by decide)⟩

theorem ex_open_big : Open ex_cfg_big ex_env 7 (ex_begun ex_cfg_big ex_env) :=
  Open.start ex_sys (ex_begun ex_cfg_big ex_env) 0 (by rfl) (by rfl)

/-- Counterexample to C27 as stated: under a configured maximum of 3000000000 and a heap that
grants every request, the session right after begin (no dynamic buffer, `c0 = 512`) is asked
for 2200000000 bytes, which is at most the maximum. The claim gives the new capacity as the
maximum, since the doubling that reaches `need` exceeds it; the code doubles 512 up to
`2 ^ 31`, the next doubling wraps to 0, and the call returns for no iteration budget. The
update call passing that length to this session does not return either. -/
theorem doubling_wraps_to_zero :
    Open ex_cfg_big ex_env 7 (ex_begun ex_cfg_big ex_env) ∧
    (ex_begun ex_cfg_big ex_env).data.accum_cap = 0 ∧
    (ex_begun ex_cfg_big ex_env).data.accum_cap < 2200000000 ∧
    2200000000 ≤ ex_cfg_big.MAX_ACCUM_SIZE ∧
    (∀ k size, ex_env.malloc_ok k size = true) ∧
    (¬ ∃ fuel r, ensure_accum_capacity ex_cfg_big ex_env fuel (ex_begun ex_cfg_big ex_env)
        2200000000 = Res.ok r) ∧
    (¬ ∃ fuel src out r, em32_sha256_handler ex_cfg_big ex_env fuel
        (ex_begun ex_cfg_big ex_env) 7
        { in_buf := some src, in_len := 2200000000, out_buf := out } false = Res.ok r) := by
  have hs := open_sess ex_open_big
  refine ⟨ex_open_big, by rfl, by decide, by decide, fun _ _ => rfl, ?_, ?_⟩
  · rintro ⟨fuel, r, hr⟩
    rw [ensure_wraps ex_cfg_big ex_env fuel _ 2200000000 hs.cap_ok (by decide) (by decide)
      (by decide)] at hr
    cases hr
  · rintro ⟨fuel, src, out, r, hr⟩
    rw [update_wraps ex_cfg_big ex_env fuel (ex_begun ex_cfg_big ex_env) 7
      { in_buf := some src, in_len := 2200000000, out_buf := out } src hs (by rfl) rfl
      (show 2147483648 < (0 + 2200000000) % SIZE_MOD by decide)
      (show (0 + 2200000000) % SIZE_MOD ≤ 3000000000 by decide)
      (show 512 % SIZE_MOD ≤ (0 + 2200000000) % SIZE_MOD by decide)] at hr
    cases hr

/-- C29, as amended: the legacy routine `HAL_SHA_Transform` and the driver's finalize compared
for a 32-bit message length `len`. The legacy word count is `ceil(len/4)`; the driver's is
the same exactly when `len <= 2 ^ 32 - 4` (above that the driver's `len + 3` wraps and its
count is smaller). For every `len` they program the same valid-byte code and the same
pad-packet count, the legacy 32-bit bit length and the driver's 64-bit bit length being equal
modulo 512. For every `len <= 2 ^ 32 - 8`, started on the same instance under the same
accelerator: the legacy routine returns when every flow-control poll is answered and enough
rounds are allowed, and when both feeding loops return they have written the same number of
input words, `ceil(len/4)`, with a flow-control wait after the same words, those whose
1-based position is a multiple of 16, each wait taking the same number of reads. -/
theorem legacy_agrees_with_driver (len : Nat) (hlen : len < SIZE_MOD) :
    sha_length_word len = (len + 3) / 4 ∧
    (len + 3 < SIZE_MOD → words_lo len = sha_length_word len) ∧
    (SIZE_MOD ≤ len + 3 → words_lo len < sha_length_word len) ∧
    SHA_VALID_BYTE len = valid_enc len ∧
    SHA_PAD_PACKET len = pad_packet len ∧
    sha_length_bit len % 512 = bmod len ∧
    (len + 8 ≤ SIZE_MOD →
      ∀ (env : Env) (fuel : Nat) (input : Nat → u8) (l : List u8) (s : Sys), len ≤ l.length →
        (ReadyWithin env fuel → ∀ rounds, (len + 3) / 4 ≤ rounds →
          ∃ r, HAL_SHA_Transform env fuel rounds input len s = Res.ok r) ∧
        (∀ (rounds : Nat) (r : legacy_setup × Sys) (u : Sys),
          HAL_SHA_Transform env fuel rounds input len s = Res.ok r →
          feed_words env fuel (some l) len (words_lo len) 0 0 s = Res.ok u →
          r.1.DATALEN_LOW = words_lo len ∧ r.1.DATALEN_HIGH = 0 ∧
          r.1.PAD_PACKET + r.1.VALID_BYTE * 256 = pad_ctrl len ∧
          ∃ ws ps, ws.length = (len + 3) / 4 ∧
            (spec_words (l.take len)).length = (len + 3) / 4 ∧
            r.2.mmio = s.mmio ++ feed_ops env 0 s.nread ws ps ∧
            u.mmio = s.mmio ++ feed_ops env 0 s.nread (spec_words (l.take len)) ps ∧
            ps.length = ((len + 3) / 4) / 16 ∧ waits_ok env s.nread ps)) := by
  have hw : sha_length_word len = (len + 3) / 4 := by
    unfold sha_length_word
    unfold SIZE_MOD at hlen ⊢
    split <;> omega
  have hv := SHA_VALID_BYTE_eq len
  have hp := SHA_PAD_PACKET_eq len
  refine ⟨hw, fun h3 => ?_, fun h3 => ?_, hv, hp, ?_, fun h8 env fuel input l s hl => ⟨?_, ?_⟩⟩
  · rw [hw]
    exact words_lo_eq h3
  · rw [hw]
    unfold words_lo
    unfold SIZE_MOD at hlen h3 ⊢
    omega
  · rw [bmod_eq]
    unfold sha_length_bit SIZE_MOD
    omega
  · intro hr rounds hrd
    unfold HAL_SHA_Transform
    obtain ⟨t, ht⟩ := legacy_feed_live env fuel hr input len h8 ((len + 3) / 4) 0 rounds s
      (by omega) hrd
    have ht2 : HAL_SHA_Transform_feed env fuel input len rounds 4 s = Res.ok t := ht
    rw [ht2]
    exact ⟨_, rfl⟩
  · intro rounds r u hleg hdrv
    unfold HAL_SHA_Transform at hleg
    obtain ⟨t, ht, hfin⟩ := Res.bind_eq_ok hleg
    cases hfin
    have ht2 : HAL_SHA_Transform_feed env fuel input len rounds (4 * (0 + 1)) s = Res.ok t := ht
    obtain ⟨ps, p1, p2, p3, _⟩ :=
      legacy_feed_shape env fuel input len h8 ((len + 3) / 4) 0 rounds s t (by omega) ht2
    have h3 : len + 3 < SIZE_MOD := by omega
    have hwl := words_lo_eq h3
    rw [hwl] at hdrv
    obtain ⟨qs, q1, q2, q3, _⟩ :=
      feed_words_shape0 env fuel l len hl ((len + 3) / 4) s u (by omega) hdrv
    have hpq : ps = qs := waits_unique env ps qs s.nread p3 q3 (by
      rw [q2]
      simpa using p2)
    have hsw : spec_words (l.take len)
        = (List.range ((len + 3) / 4)).map (spec_word (l.take len)) := by
      unfold spec_words
      rw [List.length_take, Nat.min_eq_left hl]
    refine ⟨by rw [hwl]; exact hw, rfl, ?_, _, ps, ?_, ?_, p1, ?_, ?_, p3⟩
    · show SHA_PAD_PACKET len + SHA_VALID_BYTE len * 256 = pad_ctrl len
      rw [pad_ctrl_eq, hp, hv]
      have hve : valid_enc len = len % 4 := by
        rw [← hv]
        unfold SHA_VALID_BYTE
        omega
      rw [hve]
      omega
    · simp
    · rw [hsw]
      simp
    · rw [hsw, hpq]
      exact q1
    · simpa using p2

/-- Witness of C29 as amended: a message of 64 bytes. -/
theorem legacy_agrees_with_driver_witness :
    (64 : Nat) < SIZE_MOD ∧ sha_length_word 64 = 16 ∧ words_lo 64 = 16 ∧
    (sha_length_word 64 = (64 + 3) / 4 ∧
    (64 + 3 < SIZE_MOD → words_lo 64 = sha_length_word 64) ∧
    (SIZE_MOD ≤ 64 + 3 → words_lo 64 < sha_length_word 64) ∧
    SHA_VALID_BYTE 64 = valid_enc 64 ∧
    SHA_PAD_PACKET 64 = pad_packet 64 ∧
    sha_length_bit 64 % 512 = bmod 64 ∧
    (64 + 8 ≤ SIZE_MOD →
      ∀ (env : Env) (fuel : Nat) (input : Nat → u8) (l : List u8) (s : Sys), 64 ≤ l.length →
        (ReadyWithin env fuel → ∀ rounds, (64 + 3) / 4 ≤ rounds →
          ∃ r, HAL_SHA_Transform env fuel rounds input 64 s = Res.ok r) ∧
        (∀ (rounds : Nat) (r : legacy_setup × Sys) (u : Sys),
          HAL_SHA_Transform env fuel rounds input 64 s = Res.ok r →
          feed_words env fuel (some l) 64 (words_lo 64) 0 0 s = Res.ok u →
          r.1.DATALEN_LOW = words_lo 64 ∧ r.1.DATALEN_HIGH = 0 ∧
          r.1.PAD_PACKET + r.1.VALID_BYTE * 256 = pad_ctrl 64 ∧
          ∃ ws ps, ws.length = (64 + 3) / 4 ∧
            (spec_words (l.take 64)).length = (64 + 3) / 4 ∧
            r.2.mmio = s.mmio ++ feed_ops env 0 s.nread ws ps ∧
            u.mmio = s.mmio ++ feed_ops env 0 s.nread (spec_words (l.take 64)) ps ∧
            ps.length = ((64 + 3) / 4) / 16 ∧ waits_ok env s.nread ps))) :=
  ⟨by decide, by decide, by decide, legacy_agrees_with_driver 64 (by decide)⟩

/-- Counterexample to C29 as stated: for `len = 2 ^ 32 - 3` the legacy routine programs a
word count of `2 ^ 30` and the driver's formula gives 0; for `len = 2 ^ 32 - 5` the driver
writes `2 ^ 30 - 1` words, while the loop counter of the legacy routine wraps to 0 and its
feeding loop returns for no accelerator, no input and no number of rounds. -/
theorem legacy_diverges_near_wrap :
    sha_length_word 4294967293 = 1073741824 ∧ words_lo 4294967293 = 0 ∧
    words_lo 4294967291 = 1073741823 ∧
    (¬ ∃ (env : Env) (fuel rounds : Nat) (input : Nat → u8) (s : Sys)
        (r : legacy_setup × Sys),
      HAL_SHA_Transform env fuel rounds input 4294967291 s = Res.ok r) := by
  refine ⟨by decide, by decide, by decide, ?_⟩
  rintro ⟨env, fuel, rounds, input, s, r, hr⟩
  unfold HAL_SHA_Transform at hr
  obtain ⟨t, ht, _⟩ := Res.bind_eq_ok hr
  exact legacy_feed_wraps env fuel input 4294967291 (by decide) (by decide) rounds 4 s t
    (by decide) (by decide) ht

end Em32Sha
